import Mathlib

/-!
# hsd::vector (src/cpp/Vector.hpp): a shallow embedding

The container owns a raw buffer of `_capacity` slots of which the first `_size`
hold constructed values.  A slot is `none` while it is raw storage and `some x`
while it holds a constructed `x`.  The pointer `_data` is `none` for `nullptr`.
Every operation is translated statement by statement; an outcome that the C++
code does not define (reading, assigning to or destroying a raw slot, indexing
outside the buffer, dereferencing `nullptr`) is reported as
`Fault.undefined_behavior`, a failed allocation as `Fault.bad_alloc`, and a growth
loop that never exits as `Fault.nontermination`.  Sizes are natural numbers below
`2 ^ 64`; the two places where the code can wrap around (`_size + 1` and the growth
loop) reduce modulo `2 ^ 64` explicitly.

`push_back` and `emplace_back` receive their argument by reference and read it after
`reserve(_size + 1)`.  The argument is therefore an `Arg`: an object outside the buffer or
an element of the container itself, and the operations `emplace_back_ref` and
`push_back_ref` read it at the point where the code does.  `emplace_back` and `push_back`
are these operations on an object outside the buffer.

The classes `time` and `precise_clock` of src/cpp/Time.hpp are embedded in the same way
after the container.
-/

namespace hsd

/-- Modelled from the spec: `usize` (declared in Types.hpp, which is not among the sources)
is the 64-bit unsigned size type; arithmetic on it wraps modulo this number of values. -/
def usize_range : Nat := 2 ^ 64

/-- Modelled from the spec: the largest element count a storage request can be granted.
No object spans more than `PTRDIFF_MAX` bytes, so no strategy provides more than
`2 ^ 63 - 1` elements. -/
def max_count : Nat := 2 ^ 63 - 1

/-- Ways in which an operation can fail to complete normally. -/
inductive Fault where
  | bad_alloc
  | out_of_range
  | undefined_behavior
  | nontermination
  deriving DecidableEq, Repr

deriving instance DecidableEq for Except

/-- Modelled from the spec: the allocator strategy (Allocator.hpp is not among the
sources).  A strategy value answers whether `allocate(count)` yields storage or fails
with an allocation error; `deallocate` never fails.  A default-constructed strategy is
`init`.  No strategy can provide more than `max_count` elements. -/
class Allocator (A : Type) where
  init : A
  provides : A → Nat → Bool
  provides_le : ∀ a n, provides a n = true → n ≤ max_count

/-- A `T*` that owns a buffer: `none` is `nullptr`, `some b` points at the slots `b`. -/
abbrev Ptr (T : Type) := Option (List (Option T))

/-- Result of `_alloc.allocate(count)`: a fresh buffer of `count` raw slots, or `bad_alloc`. -/
def allocate {T A : Type} [Allocator A] (a : A) (count : Nat) : Except Fault (Ptr T) :=
  if Allocator.provides a count then .ok (some (List.replicate count none))
  else .error Fault.bad_alloc

namespace Ptr

variable {T : Type}

/-- Content of slot `i`: `none` outside the buffer (or through `nullptr`). -/
def slot (p : Ptr T) (i : Nat) : Option (Option T) :=
  match p with
  | none => none
  | some b => b[i]?

/-- Reading `p[i]` as a `T`: only defined on a constructed slot. -/
def read (p : Ptr T) (i : Nat) : Except Fault T :=
  match p.slot i with
  | some (some x) => .ok x
  | _ => .error Fault.undefined_behavior

/-- Writing slot `i` after checking its current content with `chk`. -/
def update (p : Ptr T) (i : Nat) (chk : Option T → Bool) (new : Option T) :
    Except Fault (Ptr T) :=
  match p with
  | none => .error Fault.undefined_behavior
  | some b =>
    match b[i]? with
    | some s => if chk s then .ok (some (b.set i new)) else .error Fault.undefined_behavior
    | none => .error Fault.undefined_behavior

/-- Placement construction `std::construct_at(&p[i], x)`: needs a slot inside the buffer. -/
def construct_at (p : Ptr T) (i : Nat) (x : T) : Except Fault (Ptr T) :=
  p.update i (fun _ => true) (some x)

/-- Destructor call `p[i].~T()`: needs a constructed slot, leaves raw storage. -/
def destroy_at (p : Ptr T) (i : Nat) : Except Fault (Ptr T) :=
  p.update i Option.isSome none

/-- Assignment `p[i] = x` through `T::operator=`: needs a constructed slot. -/
def assign (p : Ptr T) (i : Nat) (x : T) : Except Fault (Ptr T) :=
  p.update i Option.isSome (some x)

end Ptr

/-- Loop `for (i = lo; i < lo + count; ++i) body(i)`, threading the state `s`. -/
def for_up_loop {S : Type} (body : Nat → S → Except Fault S) : Nat → Nat → S → Except Fault S
  | 0, _, s => .ok s
  | count + 1, i, s =>
    match body i s with
    | .ok s1 => for_up_loop body count (i + 1) s1
    | .error e => .error e

/-- Loop `for (i = lo; i < hi; ++i) body(i)`. -/
def for_up {S : Type} (lo hi : Nat) (body : Nat → S → Except Fault S) (s : S) : Except Fault S :=
  for_up_loop body (hi - lo) lo s

/-- Loop `for (i = hi; i > hi - count; --i) body(i - 1)`, threading the state `s`. -/
def for_down_loop {S : Type} (body : Nat → S → Except Fault S) : Nat → Nat → S → Except Fault S
  | 0, _, s => .ok s
  | count + 1, i, s =>
    match body (i - 1) s with
    | .ok s1 => for_down_loop body count (i - 1) s1
    | .error e => .error e

/-- Loop `for (i = hi; i > lo; --i) body(i - 1)`. -/
def for_down {S : Type} (hi lo : Nat) (body : Nat → S → Except Fault S) (s : S) : Except Fault S :=
  for_down_loop body (hi - lo) hi s

/-- The loop `while (c < new_cap) c += (c + 1) / 2;` on 64-bit `usize`, run for at most
`fuel` iterations; `none` when the fuel is used up before the loop exits. -/
def grow_loop (new_cap : Nat) : Nat → Nat → Option Nat
  | 0, _ => none
  | fuel + 1, c =>
    if c < new_cap then
      grow_loop new_cap fuel ((c + ((c + 1) % usize_range) / 2) % usize_range)
    else some c

/-- The capacity computed by `reserve` and `resize` before they allocate:
`_new_capacity = _capacity ? _capacity : 1` followed by the growth loop.  The loop state
is one `usize`, so a run that exits does so within `usize_range` iterations: `none`
means that the loop never exits. -/
def new_capacity (capacity new_cap : Nat) : Option Nat :=
  grow_loop new_cap usize_range (if capacity ≠ 0 then capacity else 1)

/-- What the reference parameter of `push_back(const T& val)` or of
`emplace_back(Args&&... args)` (one argument, from which a `T` is copy-constructed) is bound
to: an object outside the buffer of the container, holding `val`, or the element
`_data[index]` of the container itself, as in `v.push_back(v[0])`.  For an object outside the
buffer the overload `push_back(T&& val)` is covered as well: it differs only in what it
leaves in that object.  Moving from an element of the container itself,
`v.push_back(move(v[0]))`, would in addition leave that element moved-from and is not a
case of `element`. -/
inductive Arg (T : Type) where
  | object (val : T)
  | element (index : Nat)
  deriving DecidableEq, Repr

/-- Reading the argument through its reference at the moment `std::construct_at` uses it;
`referent` is what the storage that `_data` pointed to when the call began holds at that
moment (`none` once it has been released). -/
def Arg.read {T : Type} (arg : Arg T) (referent : Ptr T) : Except Fault T :=
  match arg with
  | Arg.object val => .ok val
  | Arg.element index => referent.read index

/-- The container state: the four data members of `hsd::vector<T, Allocator>`. -/
structure vector (T A : Type) where
  _alloc : A
  _data : Ptr T
  _size : Nat
  _capacity : Nat
  deriving DecidableEq, Repr

namespace vector

variable {T A : Type}

/-- Body of the relocation loop of `reserve` and `resize`, on the pair (old buffer, new
buffer): `auto& _value = at_unchecked(_index);`
`std::construct_at(&_new_buf[_index], move(_value)); _value.~T();`. -/
def relocate_body (_index : Nat) (s : Ptr T × Ptr T) : Except Fault (Ptr T × Ptr T) :=
  match s.1.read _index with
  | .error e => .error e
  | .ok _value =>
    match s.2.construct_at _index _value with
    | .error e => .error e
    | .ok _new_buf =>
      match s.1.destroy_at _index with
      | .error e => .error e
      | .ok _old => .ok (_old, _new_buf)

/-- Modelled from the spec: the range helper `move<T>(first, last, dest)` of Utility.hpp is
not among the sources.  Per the spec, `shrink_to_fit` move-constructs all live elements into
the new buffer and destroys the originals; the state is the pair (old buffer, new buffer). -/
def move_range (_size : Nat) (s : Ptr T × Ptr T) : Except Fault (Ptr T × Ptr T) :=
  for_up 0 _size relocate_body s

/-- Body of a copying loop `std::construct_at(&_data[_index], rhs[_index])`. -/
def copy_construct_body (rhs : Ptr T) (_index : Nat) (p : Ptr T) : Except Fault (Ptr T) :=
  match rhs.read _index with
  | .error e => .error e
  | .ok x => p.construct_at _index x

/-- Body of an assigning loop `_data[_index] = rhs[_index]`. -/
def copy_assign_body (rhs : Ptr T) (_index : Nat) (p : Ptr T) : Except Fault (Ptr T) :=
  match rhs.read _index with
  | .error e => .error e
  | .ok x => p.assign _index x

/-- A fixed-length array `T (&arr)[N]` seen as a buffer of `N` constructed slots. -/
def array_ptr (arr : List T) : Ptr T := some (arr.map some)

/-- `vector() noexcept = default`: the default member initialisers. -/
def ctor_default [Allocator A] : vector T A :=
  { _alloc := Allocator.init, _data := none, _size := 0, _capacity := 0 }

/-- `T& at_unchecked(usize index)`: `return _data[index];`. -/
def at_unchecked (v : vector T A) (index : Nat) : Except Fault T :=
  v._data.read index

/-- `T& operator[](usize index)`: `return _data[index];`. -/
def subscript (v : vector T A) (index : Nat) : Except Fault T :=
  v._data.read index

/-- `void clear()`: destroy the live elements from the back, then `_size = 0`. -/
def clear (v : vector T A) : Except Fault (vector T A) :=
  match for_down v._size 0 (fun i p => Ptr.destroy_at p i) v._data with
  | .error e => .error e
  | .ok d => .ok { v with _data := d, _size := 0 }

/-- `void reserve(usize new_cap)`. -/
def reserve [Allocator A] (v : vector T A) (new_cap : Nat) : Except Fault (vector T A) :=
  if new_cap > v._capacity then
    match new_capacity v._capacity new_cap with
    | none => .error Fault.nontermination
    | some _new_capacity =>
      match allocate v._alloc _new_capacity with
      | .error e => .error e
      | .ok _new_buf =>
        match for_up 0 v._size relocate_body (v._data, _new_buf) with
        | .error e => .error e
        | .ok s => .ok { v with _capacity := _new_capacity, _data := s.2 }
  else .ok v

/-- `void shrink_to_fit()`. -/
def shrink_to_fit [Allocator A] (v : vector T A) : Except Fault (vector T A) :=
  if v._size = 0 then
    .ok { v with _data := none, _capacity := 0 }
  else if v._size < v._capacity then
    match allocate v._alloc v._size with
    | .error e => .error e
    | .ok _new_buf =>
      match move_range v._size (v._data, _new_buf) with
      | .error e => .error e
      | .ok s => .ok { v with _capacity := v._size, _data := s.2 }
  else .ok v

/-- `void resize(usize new_size)`; `std::construct_at(&p[i])` value-initialises a `T`. -/
def resize [Allocator A] [Inhabited T] (v : vector T A) (new_size : Nat) :
    Except Fault (vector T A) :=
  if new_size > v._capacity then
    match new_capacity v._capacity new_size with
    | none => .error Fault.nontermination
    | some _new_capacity =>
      match allocate v._alloc _new_capacity with
      | .error e => .error e
      | .ok _new_buf =>
        match for_up 0 v._size relocate_body (v._data, _new_buf) with
        | .error e => .error e
        | .ok s =>
          match for_up v._size new_size (fun i p => Ptr.construct_at p i default) s.2 with
          | .error e => .error e
          | .ok _new_buf =>
            .ok { v with _capacity := _new_capacity, _size := new_size, _data := _new_buf }
  else if new_size > v._size then
    match for_up v._size new_size (fun i p => Ptr.construct_at p i default) v._data with
    | .error e => .error e
    | .ok d => .ok { v with _data := d, _size := new_size }
  else if new_size < v._size then
    match for_down v._size new_size (fun i p => Ptr.destroy_at p i) v._data with
    | .error e => .error e
    | .ok d => .ok { v with _data := d, _size := new_size }
  else .ok v

/-- `void emplace_back(Args&&... args)`: `reserve(_size + 1);`
`std::construct_at(&_data[_size], forward<Args>(args)...); ++_size;`.  The argument is a
reference and is read by `construct_at`, after `reserve` has returned.  When `reserve` took
its allocating branch (`new_cap > _capacity`) it has destroyed every element of the old
buffer and released that buffer, so a reference to an element of the container refers to
released storage by then; otherwise the buffer is the one the reference was bound in. -/
def emplace_back_ref [Allocator A] (v : vector T A) (arg : Arg T) :
    Except Fault (vector T A) :=
  match reserve v ((v._size + 1) % usize_range) with
  | .error e => .error e
  | .ok v1 =>
    let referent : Ptr T := if (v._size + 1) % usize_range > v._capacity then none else v1._data
    match arg.read referent with
    | .error e => .error e
    | .ok val =>
      match v1._data.construct_at v1._size val with
      | .error e => .error e
      | .ok d => .ok { v1 with _data := d, _size := (v1._size + 1) % usize_range }

/-- `void push_back(const T& val)`: `emplace_back(val)`, passing the reference on. -/
def push_back_ref [Allocator A] (v : vector T A) (arg : Arg T) : Except Fault (vector T A) :=
  emplace_back_ref v arg

/-- `emplace_back` called on an object outside the buffer of the container (a temporary, a
local variable, an element of another container), where `val` is the `T` built from it. -/
def emplace_back [Allocator A] (v : vector T A) (val : T) : Except Fault (vector T A) :=
  emplace_back_ref v (Arg.object val)

/-- `void push_back(const T& val)` and `void push_back(T&& val)` called on an object outside
the buffer of the container: `emplace_back(val)`. -/
def push_back [Allocator A] (v : vector T A) (val : T) : Except Fault (vector T A) :=
  emplace_back v val

/-- `void pop_back()`. -/
def pop_back (v : vector T A) : Except Fault (vector T A) :=
  if v._size > 0 then
    match v._data.destroy_at (v._size - 1) with
    | .error e => .error e
    | .ok d => .ok { v with _data := d, _size := v._size - 1 }
  else .ok v

/-- `vector(usize size)`: `resize(size)` on the default member initialisers. -/
def ctor_size [Allocator A] [Inhabited T] (size : Nat) : Except Fault (vector T A) :=
  resize ctor_default size

/-- `vector(const vector& rhs)`. -/
def ctor_copy [Allocator A] (rhs : vector T A) : Except Fault (vector T A) :=
  match allocate rhs._alloc rhs._capacity with
  | .error e => .error e
  | .ok d =>
    match for_up 0 rhs._size (copy_construct_body rhs._data) d with
    | .error e => .error e
    | .ok d1 =>
      .ok { _alloc := rhs._alloc, _data := d1, _size := rhs._size, _capacity := rhs._capacity }

/-- `vector(vector&& rhs)`: the four members are swapped with the default member
initialisers; returns the new object and the moved-from `rhs`. -/
def ctor_move [Allocator A] (rhs : vector T A) : vector T A × vector T A :=
  let this : vector T A := ctor_default
  ({ _alloc := rhs._alloc, _data := rhs._data, _size := rhs._size, _capacity := rhs._capacity },
   { _alloc := this._alloc, _data := this._data, _size := this._size,
     _capacity := this._capacity })

/-- `vector(const T (&arr)[N])` and `vector(T (&&arr)[N])`, with `N = arr.length`. -/
def ctor_array [Allocator A] (arr : List T) : Except Fault (vector T A) :=
  let _alloc : A := Allocator.init
  match allocate _alloc arr.length with
  | .error e => .error e
  | .ok d =>
    match for_up 0 arr.length (copy_construct_body (array_ptr arr)) d with
    | .error e => .error e
    | .ok d1 =>
      .ok { _alloc := _alloc, _data := d1, _size := arr.length, _capacity := arr.length }

/-- The two branches shared by `operator=(const vector&)` and the fixed-array
`operator=`: `src` is the source buffer and `n` its length (`rhs._size` or `N`). -/
def assign_from [Allocator A] (v : vector T A) (src : Ptr T) (n : Nat) :
    Except Fault (vector T A) :=
  if v._capacity < n then
    match clear v with
    | .error e => .error e
    | .ok v1 =>
      match reserve v1 n with
      | .error e => .error e
      | .ok v2 =>
        match for_up 0 n (copy_construct_body src) v2._data with
        | .error e => .error e
        | .ok d => .ok { v2 with _data := d, _size := n }
  else
    let min_size := if v._size > n then v._size else n
    match for_up 0 min_size (copy_assign_body src) v._data with
    | .error e => .error e
    | .ok d =>
      let _index := min_size
      if v._size > n then
        match for_down v._size n (fun i p => Ptr.destroy_at p i) d with
        | .error e => .error e
        | .ok d1 => .ok { v with _data := d1, _size := n }
      else if n > v._size then
        match for_up _index n (copy_construct_body src) d with
        | .error e => .error e
        | .ok d1 => .ok { v with _data := d1, _size := n }
      else .ok { v with _data := d, _size := n }

/-- `vector& operator=(const vector& rhs)` for a source distinct from the destination. -/
def operator_assign [Allocator A] (v rhs : vector T A) : Except Fault (vector T A) :=
  assign_from v rhs._data rhs._size

/-- `vector& operator=(const T (&arr)[N])` and `vector& operator=(T (&&arr)[N])`. -/
def operator_assign_array [Allocator A] (v : vector T A) (arr : List T) :
    Except Fault (vector T A) :=
  assign_from v (array_ptr arr) arr.length

/-- `vector& operator=(vector&& rhs)` for a source distinct from the destination; returns
the destination and the moved-from `rhs`. -/
def operator_assign_move (v rhs : vector T A) : Except Fault (vector T A × vector T A) :=
  match clear v with
  | .error e => .error e
  | .ok v1 =>
    .ok ({ v1 with _data := rhs._data, _size := rhs._size, _capacity := rhs._capacity },
         { rhs with _data := none, _size := 0, _capacity := 0 })

end vector

/-- Modelled from the spec: the heap-backed strategy (Allocator.hpp is not among the
sources), stateless, granting every request of at most `max_count` elements. -/
structure heap where
  deriving DecidableEq, Repr

instance : Allocator heap where
  init := {}
  provides := fun _ n => decide (n ≤ max_count)
  provides_le := fun _ n h => by simpa using h

namespace Ptr

variable {T : Type}

/-- Number of slots of the buffer behind `p` (zero for `nullptr`). -/
def length (p : Ptr T) : Nat :=
  match p with
  | none => 0
  | some b => b.length

/-- Slot `i` holds a constructed value. -/
def constructed (p : Ptr T) (i : Nat) : Bool :=
  match p.slot i with
  | some (some _) => true
  | _ => false

/-- Slot `i` is inside the buffer and holds raw storage. -/
def raw (p : Ptr T) (i : Nat) : Bool :=
  match p.slot i with
  | some none => true
  | _ => false

end Ptr

/-- The buffer `b` with every slot `j` in `[lo, hi)` replaced by `val j`. -/
def overwrite {T : Type} (b : List (Option T)) (lo hi : Nat) (val : Nat → Option T) :
    List (Option T) :=
  b.mapIdx (fun j s => if lo ≤ j ∧ j < hi then val j else s)

namespace vector

variable {T A : Type}

/-- The data-model invariants of the spec (section 3) on one state: `size <= capacity`,
the buffer has exactly `capacity` slots, no more than any strategy can provide, the slots
`[0, size)` are constructed and the slots `[size, capacity)` are raw. -/
def WF (v : vector T A) : Prop :=
  v._size ≤ v._capacity ∧ v._capacity ≤ max_count ∧ v._data.length = v._capacity ∧
  (∀ i, i < v._size → v._data.constructed i = true) ∧
  (∀ i, i < v._capacity → v._size ≤ i → v._data.raw i = true)

instance (v : vector T A) : Decidable (WF v) := by
  unfold WF
  infer_instance

/-- The strategy grants the storage request that `reserve(n)` or `resize(n)` makes on a
container of the given capacity (no request is made when `n <= capacity`). -/
def grants [Allocator A] (a : A) (capacity n : Nat) : Bool :=
  decide (n ≤ capacity) ||
    match new_capacity capacity n with
    | some c => Allocator.provides a c
    | none => false

end vector

/-- The growth sequence of the spec: `c0`, then repeatedly `c += (c + 1) / 2`, in
unbounded arithmetic. -/
def growth_seq (c0 : Nat) : Nat → Nat
  | 0 => c0
  | k + 1 => growth_seq c0 k + (growth_seq c0 k + 1) / 2

/-- The number `c` is the first term of the growth sequence from `c0` that is `>= n`. -/
def first_term_ge (c0 n c : Nat) : Prop :=
  ∃ k, c = growth_seq c0 k ∧ n ≤ c ∧ ∀ j, j < k → growth_seq c0 j < n

/-- One operation of a `push_back` / `pop_back` workload in which every `push_back` is
called on an object outside the buffer of the container. -/
inductive Op (T : Type) where
  | push_back (val : T)
  | pop_back
  deriving DecidableEq, Repr

namespace vector

variable {T A : Type}

/-- Apply one workload operation to the container. -/
def step [Allocator A] (v : vector T A) : Op T → Except Fault (vector T A)
  | Op.push_back val => v.push_back val
  | Op.pop_back => v.pop_back

/-- Apply a workload to the container, operation by operation. -/
def run [Allocator A] (v : vector T A) : List (Op T) → Except Fault (vector T A)
  | [] => .ok v
  | op :: ops =>
    match v.step op with
    | .ok v1 => run v1 ops
    | .error e => .error e

end vector

/-- The reference list of the spec for one operation: `push_back` appends, `pop_back`
drops the last element and does nothing on the empty list. -/
def reference_step {T : Type} (l : List T) : Op T → List T
  | Op.push_back val => l ++ [val]
  | Op.pop_back => l.dropLast

/-- The reference list after a whole workload. -/
def reference_run {T : Type} (l : List T) : List (Op T) → List T
  | [] => l
  | op :: ops => reference_run (reference_step l op) ops

/-- The well-formed container `v` holds exactly the list `l`: `size` is the length of `l`
and slot `i` holds the `i`-th element of `l`. -/
def vector.holds {T A : Type} (v : vector T A) (l : List T) : Prop :=
  v.WF ∧ v._size = l.length ∧ ∀ i x, l[i]? = some x → v._data.slot i = some (some x)

/-- A container on the heap strategy holding `7, 8` in a buffer of three slots. -/
def sample : vector Nat heap :=
  { _alloc := {}, _data := some [some 7, some 8, none], _size := 2, _capacity := 3 }

/-- A full container on the heap strategy holding `7, 8`. -/
def sample_full : vector Nat heap :=
  { _alloc := {}, _data := some [some 7, some 8], _size := 2, _capacity := 2 }

namespace vector

variable {T A : Type}

/-- `T& at(usize index)`: throws `std::out_of_range` when `index >= _size` and returns
`_data[index]` otherwise; the result is paired with the state after the call. -/
def «at» (v : vector T A) (index : Nat) : Except Fault T × vector T A :=
  if index ≥ v._size then (.error Fault.out_of_range, v)
  else (v._data.read index, v)

end vector

/-- Overwriting an element through `operator[]`: `v[index] = x`. -/
def vector.subscript_assign {T A : Type} (v : vector T A) (index : Nat) (x : T) :
    Except Fault (vector T A) :=
  match v._data.assign index x with
  | .error e => .error e
  | .ok d => .ok { v with _data := d }

/-- Modelled from the spec: a bounded-arena strategy (Allocator.hpp is not among the
sources) with the fixed maximum capacity `M` known at the type level; a value of the
strategy is one arena, identified by `id`, with its own storage. -/
structure arena (M : Nat) where
  id : Nat
  deriving DecidableEq, Repr

instance (M : Nat) : Allocator (arena M) where
  init := { id := 0 }
  provides := fun _ n => decide (n ≤ M) && decide (n ≤ max_count)
  provides_le := fun _ n h => by
    simp only [Bool.and_eq_true, decide_eq_true_eq] at h
    exact h.2

/-- A destination container on arena `1` holding `1` in a buffer of two slots. -/
def arena_dst : vector Nat (arena 10) :=
  { _alloc := { id := 1 }, _data := some [some 1, none], _size := 1, _capacity := 2 }

/-- A source container on arena `2` holding `7, 8`. -/
def arena_src : vector Nat (arena 10) :=
  { _alloc := { id := 2 }, _data := some [some 7, some 8], _size := 2, _capacity := 2 }

/-- The buffer behind `src` is a source of length `n`: exactly its slots `[0, n)` hold
constructed values (the live elements of a container, or the elements of an array). -/
def Ptr.source {T : Type} (src : Ptr T) (n : Nat) : Prop :=
  ∀ i, src.constructed i = true ↔ i < n

/-- A well-formed container on the heap strategy holding `1, 2, 3, 4, 5`. -/
def sample_five : vector Nat heap :=
  { _alloc := {}, _data := some [some 1, some 2, some 3, some 4, some 5], _size := 5,
    _capacity := 5 }

/-- A full container on the heap strategy holding `1, 2, 3`. -/
def sample_three : vector Nat heap :=
  { _alloc := {}, _data := some [some 1, some 2, some 3], _size := 3, _capacity := 3 }

/-! ### Containers in a shared free store

The operations above pass each buffer around as a value.  To speak about two containers
at once (does writing through one change what the other holds?) the same operations are
given on a store of blocks in which `_data` is an address. -/

/-- The free store: block `a` is `h[a]`, `none` once it has been released.  A new block
gets the address `h.length`; addresses of released blocks are not handed out again. -/
abbrev Heap (T : Type) := List (Ptr T)

namespace Heap

variable {T A : Type}

/-- The buffer behind the pointer `p`: nothing behind `nullptr` or a released block. -/
def deref (h : Heap T) (p : Option Nat) : Ptr T :=
  match p with
  | none => none
  | some a =>
    match h[a]? with
    | some b => b
    | none => none

/-- The store after the buffer behind `p` has been changed into `b`. -/
def write (h : Heap T) (p : Option Nat) (b : Ptr T) : Heap T :=
  match p with
  | none => h
  | some a => h.set a b

/-- Result of `_alloc.allocate(count)` in the store: a new block of `count` raw slots and
its address, or `bad_alloc`. -/
def allocate [Allocator A] (h : Heap T) (a : A) (count : Nat) :
    Except Fault (Heap T × Option Nat) :=
  if Allocator.provides a count then
    .ok (h ++ [some (List.replicate count none)], some h.length)
  else .error Fault.bad_alloc

/-- Result of `_alloc.deallocate(p, n)`: the block is released; a no-op on `nullptr`. -/
def deallocate (h : Heap T) (p : Option Nat) : Heap T :=
  match p with
  | none => h
  | some a => h.set a none

end Heap

/-- The four data members of a container whose buffer lives in the free store: `_data` is
`none` for `nullptr` and `some a` for the address `a`. -/
structure heap_vector (A : Type) where
  _alloc : A
  _data : Option Nat
  _size : Nat
  _capacity : Nat
  deriving DecidableEq, Repr

namespace heap_vector

variable {T A : Type}

/-- The container seen as a value: the members with the buffer found behind `_data`. -/
def view (o : heap_vector A) (h : Heap T) : vector T A :=
  { _alloc := o._alloc, _data := h.deref o._data, _size := o._size,
    _capacity := o._capacity }

/-- The pointer of the container is null or the address of a block of the store. -/
def valid (o : heap_vector A) (h : Heap T) : Prop :=
  match o._data with
  | none => True
  | some a => a < h.length

instance (o : heap_vector A) (h : Heap T) : Decidable (o.valid h) := by
  unfold valid
  split <;> infer_instance

/-- `vector(const vector& rhs)` in the store. -/
def ctor_copy [Allocator A] (h : Heap T) (rhs : heap_vector A) :
    Except Fault (Heap T × heap_vector A) :=
  match h.allocate rhs._alloc rhs._capacity with
  | .error e => .error e
  | .ok (h1, _data) =>
    match for_up 0 rhs._size (vector.copy_construct_body (h1.deref rhs._data))
        (h1.deref _data) with
    | .error e => .error e
    | .ok d =>
      .ok (h1.write _data d,
        { _alloc := rhs._alloc, _data := _data, _size := rhs._size,
          _capacity := rhs._capacity })

/-- `void reserve(usize new_cap)` in the store. -/
def reserve [Allocator A] (h : Heap T) (o : heap_vector A) (new_cap : Nat) :
    Except Fault (Heap T × heap_vector A) :=
  if new_cap > o._capacity then
    match new_capacity o._capacity new_cap with
    | none => .error Fault.nontermination
    | some _new_capacity =>
      match h.allocate o._alloc _new_capacity with
      | .error e => .error e
      | .ok (h1, _new_buf) =>
        match for_up 0 o._size vector.relocate_body
            (h1.deref o._data, h1.deref _new_buf) with
        | .error e => .error e
        | .ok s =>
          .ok (((h1.write o._data s.1).write _new_buf s.2).deallocate o._data,
            { o with _capacity := _new_capacity, _data := _new_buf })
  else .ok (h, o)

/-- `void resize(usize new_size)` in the store. -/
def resize [Allocator A] [Inhabited T] (h : Heap T) (o : heap_vector A) (new_size : Nat) :
    Except Fault (Heap T × heap_vector A) :=
  if new_size > o._capacity then
    match new_capacity o._capacity new_size with
    | none => .error Fault.nontermination
    | some _new_capacity =>
      match h.allocate o._alloc _new_capacity with
      | .error e => .error e
      | .ok (h1, _new_buf) =>
        match for_up 0 o._size vector.relocate_body
            (h1.deref o._data, h1.deref _new_buf) with
        | .error e => .error e
        | .ok s =>
          match for_up o._size new_size (fun i p => Ptr.construct_at p i (default : T))
              s.2 with
          | .error e => .error e
          | .ok d =>
            .ok (((h1.write o._data s.1).write _new_buf d).deallocate o._data,
              { o with _capacity := _new_capacity, _size := new_size, _data := _new_buf })
  else if new_size > o._size then
    match for_up o._size new_size (fun i p => Ptr.construct_at p i (default : T))
        (h.deref o._data) with
    | .error e => .error e
    | .ok d => .ok (h.write o._data d, { o with _size := new_size })
  else if new_size < o._size then
    match for_down o._size new_size (fun i p => Ptr.destroy_at p i) (h.deref o._data) with
    | .error e => .error e
    | .ok d => .ok (h.write o._data d, { o with _size := new_size })
  else .ok (h, o)

/-- `void emplace_back(Args&&... args)` in the store.  A reference to an element of the
container is a reference into the block at the address that `_data` held when the call
began; it is read, after `reserve`, from whatever the store then has at that address. -/
def emplace_back_ref [Allocator A] (h : Heap T) (o : heap_vector A) (arg : Arg T) :
    Except Fault (Heap T × heap_vector A) :=
  match reserve h o ((o._size + 1) % usize_range) with
  | .error e => .error e
  | .ok (h1, o1) =>
    match arg.read (h1.deref o._data) with
    | .error e => .error e
    | .ok val =>
      match (h1.deref o1._data).construct_at o1._size val with
      | .error e => .error e
      | .ok d => .ok (h1.write o1._data d, { o1 with _size := (o1._size + 1) % usize_range })

/-- `emplace_back` in the store, called on an object outside the buffer of the container. -/
def emplace_back [Allocator A] (h : Heap T) (o : heap_vector A) (val : T) :
    Except Fault (Heap T × heap_vector A) :=
  emplace_back_ref h o (Arg.object val)

/-- `void pop_back()` in the store. -/
def pop_back (h : Heap T) (o : heap_vector A) : Except Fault (Heap T × heap_vector A) :=
  if o._size > 0 then
    match (h.deref o._data).destroy_at (o._size - 1) with
    | .error e => .error e
    | .ok d => .ok (h.write o._data d, { o with _size := o._size - 1 })
  else .ok (h, o)

/-- Overwriting an element through `operator[]`: `v[index] = x`. -/
def subscript_assign (h : Heap T) (o : heap_vector A) (index : Nat) (x : T) :
    Except Fault (Heap T × heap_vector A) :=
  match (h.deref o._data).assign index x with
  | .error e => .error e
  | .ok d => .ok (h.write o._data d, o)

end heap_vector

/-- The store `h'` has every block of `h` and agrees with `h` on all of them except the
one behind `p`. -/
def Heap.frame {T : Type} (h h' : Heap T) (p : Option Nat) : Prop :=
  h.length ≤ h'.length ∧ ∀ a, a < h.length → p ≠ some a → h'[a]? = h[a]?

/-- A mutation of a container: `emplace_back(val)` of an object outside its buffer,
`pop_back()`, `resize(n)` or the overwrite `v[index] = x`. -/
inductive Mutation (T : Type) where
  | emplace_back (val : T)
  | pop_back
  | resize (n : Nat)
  | overwrite (index : Nat) (x : T)
  deriving DecidableEq, Repr

/-- Apply a mutation to a container given as a value. -/
def vector.mutate {T A : Type} [Allocator A] [Inhabited T] (v : vector T A) :
    Mutation T → Except Fault (vector T A)
  | Mutation.emplace_back val => v.emplace_back val
  | Mutation.pop_back => v.pop_back
  | Mutation.resize n => v.resize n
  | Mutation.overwrite index x => v.subscript_assign index x

/-- Apply a mutation to a container in the store. -/
def heap_vector.mutate {T A : Type} [Allocator A] [Inhabited T] (h : Heap T)
    (o : heap_vector A) : Mutation T → Except Fault (Heap T × heap_vector A)
  | Mutation.emplace_back val => heap_vector.emplace_back h o val
  | Mutation.pop_back => heap_vector.pop_back h o
  | Mutation.resize n => heap_vector.resize h o n
  | Mutation.overwrite index x => heap_vector.subscript_assign h o index x

/-- A store with one block holding `7, 8` and a raw slot. -/
def sample_store : Heap Nat := [some [some 7, some 8, none]]

/-- The container of `sample_store`: size 2, capacity 3, buffer at address 0. -/
def sample_object : heap_vector heap :=
  { _alloc := {}, _data := some 0, _size := 2, _capacity := 3 }

/-! ### Sequences of calls, `make_vector`, relocation counts -/

/-- Consecutive calls `emplace_back(val)`, one for each value of the list, in order; the
values are objects outside the buffer of the container. -/
def vector.emplace_all {T A : Type} [Allocator A] (v : vector T A) :
    List T → Except Fault (vector T A)
  | [] => .ok v
  | val :: vals =>
    match v.emplace_back val with
    | .ok v1 => vector.emplace_all v1 vals
    | .error e => .error e

/-- `vector<L> make_vector(L&& first, U&&... rest)`: `size = 1 + sizeof...(U)`, a
default-constructed `vec`, `vec.reserve(size)`, then `vec.emplace_back(arg)` for each
argument from left to right.  `T` is the first argument's type `L`; each further argument is
a value of `U` and `convert` is the constructor of `L` that `emplace_back` calls on it. -/
def make_vector {T U A : Type} [Allocator A] (convert : U → T) (first : T) (rest : List U) :
    Except Fault (vector T A) :=
  let size := 1 + rest.length
  let vec : vector T A := vector.ctor_default
  match vec.reserve size with
  | .error e => .error e
  | .ok vec => vec.emplace_all (first :: rest.map convert)

/-- The body of the relocation loop together with a counter of the elements it has
move-constructed into the new buffer. -/
def vector.relocate_counted {T : Type} (_index : Nat) (s : (Ptr T × Ptr T) × Nat) :
    Except Fault ((Ptr T × Ptr T) × Nat) :=
  match vector.relocate_body _index s.1 with
  | .error e => .error e
  | .ok s1 => .ok (s1, s.2 + 1)

/-- `void reserve(usize new_cap)` with the relocation counter: the second component is
`count` plus the number of elements this call relocates. -/
def vector.reserve_counted {T A : Type} [Allocator A] (v : vector T A) (new_cap count : Nat) :
    Except Fault (vector T A × Nat) :=
  if new_cap > v._capacity then
    match new_capacity v._capacity new_cap with
    | none => .error Fault.nontermination
    | some _new_capacity =>
      match allocate v._alloc _new_capacity with
      | .error e => .error e
      | .ok _new_buf =>
        match for_up 0 v._size vector.relocate_counted ((v._data, _new_buf), count) with
        | .error e => .error e
        | .ok s => .ok ({ v with _capacity := _new_capacity, _data := s.1.2 }, s.2)
  else .ok (v, count)

/-- `void emplace_back(Args&&... args)`, called on an object outside the buffer of the
container, with the relocation counter. -/
def vector.emplace_back_counted {T A : Type} [Allocator A] (v : vector T A) (val : T)
    (count : Nat) : Except Fault (vector T A × Nat) :=
  match vector.reserve_counted v ((v._size + 1) % usize_range) count with
  | .error e => .error e
  | .ok (v1, count1) =>
    match v1._data.construct_at v1._size val with
    | .error e => .error e
    | .ok d => .ok ({ v1 with _data := d, _size := (v1._size + 1) % usize_range }, count1)

/-- Consecutive calls `emplace_back(val)` with the relocation counter. -/
def vector.emplace_all_counted {T A : Type} [Allocator A] (v : vector T A) :
    List T → Nat → Except Fault (vector T A × Nat)
  | [], count => .ok (v, count)
  | val :: vals, count =>
    match vector.emplace_back_counted v val count with
    | .ok (v1, count1) => vector.emplace_all_counted v1 vals count1
    | .error e => .error e

/-- The default-constructed container on a bounded arena of ten slots. -/
def arena_empty : vector Nat (arena 10) := vector.ctor_default

/-- A full container holding `7, 8, 9` on a bounded arena of four slots. -/
def arena_three : vector Nat (arena 4) :=
  { _alloc := { id := 0 }, _data := some [some 7, some 8, some 9], _size := 3, _capacity := 3 }

/-- A full container holding `1, 2, 3, 4` on a bounded arena of four slots. -/
def arena_four : vector Nat (arena 4) :=
  { _alloc := { id := 1 }, _data := some [some 1, some 2, some 3, some 4], _size := 4,
    _capacity := 4 }

/-! ### Calls that exit by an exception

The operations above report that a call failed, not what it left behind.  The versions
below follow the same statements and keep the container as it is at the moment the
exception leaves the call, together with the buffers that the call allocated and neither
released nor stored in the container.  The move constructor of `T` may throw: `throws i`
says that it does when the element at index `i` is relocated.  After undefined behaviour
there is no state to speak of; the outcome then carries the state before the failing
statement. -/

/-- An exception in flight: a fault of the container code, or the exception thrown by the
move constructor of `T` while the element at `index` is relocated. -/
inductive Thrown where
  | fault (f : Fault)
  | move_constructor (index : Nat)
  deriving DecidableEq, Repr

/-- What a call leaves behind: the container, the buffers that the call allocated and
neither released nor stored in the container, and the exception in flight when the call
exits by throwing. -/
structure Outcome (T A : Type) where
  state : vector T A
  leaked : List (Ptr T)
  thrown : Option Thrown
  deriving DecidableEq, Repr

/-- Loop `for (i = lo; i < lo + count; ++i) body(i)` that stops at the first iteration that
throws and keeps the state reached. -/
def for_up_keep {S : Type} (body : Nat → S → S × Option Thrown) :
    Nat → Nat → S → S × Option Thrown
  | 0, _, s => (s, none)
  | count + 1, i, s =>
    match body i s with
    | (s1, none) => for_up_keep body count (i + 1) s1
    | (s1, some e) => (s1, some e)

namespace vector

variable {T A : Type}

/-- Body of the relocation loop of `reserve` and `resize`, on the pair (old buffer, new
buffer): `auto& _value = at_unchecked(_index);`
`std::construct_at(&_new_buf[_index], move(_value)); _value.~T();`.  When the move
constructor throws nothing has been constructed in the new buffer and the old element is
still alive. -/
def relocate_keep (throws : Nat → Bool) (_index : Nat) (s : Ptr T × Ptr T) :
    (Ptr T × Ptr T) × Option Thrown :=
  match s.1.read _index with
  | .error e => (s, some (Thrown.fault e))
  | .ok _value =>
    match s.2.construct_at _index _value with
    | .error e => (s, some (Thrown.fault e))
    | .ok _new_buf =>
      if throws _index then (s, some (Thrown.move_constructor _index))
      else
        match s.1.destroy_at _index with
        | .error e => ((s.1, _new_buf), some (Thrown.fault e))
        | .ok _old => ((_old, _new_buf), none)

/-- `void reserve(usize new_cap)` with what it leaves behind.  An exception that leaves the
relocation loop skips `deallocate`, `_capacity = _new_capacity` and `_data = _new_buf`:
the members are unchanged, the old buffer is as the loop left it and the new buffer,
held only by the local `_new_buf`, is never released. -/
def reserve_outcome [Allocator A] (throws : Nat → Bool) (v : vector T A) (new_cap : Nat) :
    Outcome T A :=
  if new_cap > v._capacity then
    match new_capacity v._capacity new_cap with
    | none => ⟨v, [], some (Thrown.fault Fault.nontermination)⟩
    | some _new_capacity =>
      match allocate v._alloc _new_capacity with
      | .error e => ⟨v, [], some (Thrown.fault e)⟩
      | .ok _new_buf =>
        match for_up_keep (relocate_keep throws) v._size 0 (v._data, _new_buf) with
        | (s, some e) => ⟨{ v with _data := s.1 }, [s.2], some e⟩
        | (s, none) => ⟨{ v with _capacity := _new_capacity, _data := s.2 }, [], none⟩
  else ⟨v, [], none⟩

/-- `void resize(usize new_size)` with what it leaves behind. -/
def resize_outcome [Allocator A] [Inhabited T] (throws : Nat → Bool) (v : vector T A)
    (new_size : Nat) : Outcome T A :=
  if new_size > v._capacity then
    match new_capacity v._capacity new_size with
    | none => ⟨v, [], some (Thrown.fault Fault.nontermination)⟩
    | some _new_capacity =>
      match allocate v._alloc _new_capacity with
      | .error e => ⟨v, [], some (Thrown.fault e)⟩
      | .ok _new_buf =>
        match for_up_keep (relocate_keep throws) v._size 0 (v._data, _new_buf) with
        | (s, some e) => ⟨{ v with _data := s.1 }, [s.2], some e⟩
        | (s, none) =>
          match for_up v._size new_size (fun i p => Ptr.construct_at p i default) s.2 with
          | .error e => ⟨{ v with _data := s.1 }, [s.2], some (Thrown.fault e)⟩
          | .ok _new_buf =>
            ⟨{ v with _capacity := _new_capacity, _size := new_size, _data := _new_buf }, [],
              none⟩
  else if new_size > v._size then
    match for_up v._size new_size (fun i p => Ptr.construct_at p i default) v._data with
    | .error e => ⟨v, [], some (Thrown.fault e)⟩
    | .ok d => ⟨{ v with _data := d, _size := new_size }, [], none⟩
  else if new_size < v._size then
    match for_down v._size new_size (fun i p => Ptr.destroy_at p i) v._data with
    | .error e => ⟨v, [], some (Thrown.fault e)⟩
    | .ok d => ⟨{ v with _data := d, _size := new_size }, [], none⟩
  else ⟨v, [], none⟩

/-- `void emplace_back(Args&&... args)`, called on an object outside the buffer of the
container, with what it leaves behind. -/
def emplace_back_outcome [Allocator A] (throws : Nat → Bool) (v : vector T A) (val : T) :
    Outcome T A :=
  let r := reserve_outcome throws v ((v._size + 1) % usize_range)
  match r.thrown with
  | some _ => r
  | none =>
    match r.state._data.construct_at r.state._size val with
    | .error e => ⟨r.state, r.leaked, some (Thrown.fault e)⟩
    | .ok d =>
      ⟨{ r.state with _data := d, _size := (r.state._size + 1) % usize_range }, r.leaked,
        none⟩

/-- The two branches shared by `operator=(const vector&)` and the fixed-array `operator=`
with what they leave behind.  The branch that allocates runs `clear()`, then
`reserve(n)`, then the copying loop; the other branch makes no call that can throw and is
`assign_from` itself. -/
def assign_from_outcome [Allocator A] (throws : Nat → Bool) (v : vector T A) (src : Ptr T)
    (n : Nat) : Outcome T A :=
  if v._capacity < n then
    match clear v with
    | .error e => ⟨v, [], some (Thrown.fault e)⟩
    | .ok v1 =>
      let r := reserve_outcome throws v1 n
      match r.thrown with
      | some _ => r
      | none =>
        match for_up 0 n (copy_construct_body src) r.state._data with
        | .error e => ⟨r.state, r.leaked, some (Thrown.fault e)⟩
        | .ok d => ⟨{ r.state with _data := d, _size := n }, r.leaked, none⟩
  else
    match assign_from v src n with
    | .error e => ⟨v, [], some (Thrown.fault e)⟩
    | .ok v1 => ⟨v1, [], none⟩

/-- `vector& operator=(const vector& rhs)` with what it leaves behind. -/
def operator_assign_outcome [Allocator A] (throws : Nat → Bool) (v rhs : vector T A) :
    Outcome T A :=
  assign_from_outcome throws v rhs._data rhs._size

/-- `vector& operator=(const T (&arr)[N])` and `vector& operator=(T (&&arr)[N])` with what
they leave behind. -/
def operator_assign_array_outcome [Allocator A] (throws : Nat → Bool) (v : vector T A)
    (arr : List T) : Outcome T A :=
  assign_from_outcome throws v (array_ptr arr) arr.length

/-- `~vector()`: the live elements are destroyed from the back, then the buffer is
released. -/
def dtor (v : vector T A) : Except Fault Unit :=
  match for_down v._size 0 (fun i p => Ptr.destroy_at p i) v._data with
  | .error e => .error e
  | .ok _ => .ok ()

end vector

/-- The move constructor of `T` throws exactly when the element at index `k` is relocated. -/
def throws_at (k : Nat) (i : Nat) : Bool := decide (i = k)

/-- A move constructor that never throws. -/
def never_throws (_ : Nat) : Bool := false

/-- The outcome `r` agrees with the result `x` of the same call: both complete with the
same state and nothing leaked, or both fail with the same fault. -/
def Outcome.agrees {T A : Type} (r : Outcome T A) (x : Except Fault (vector T A)) : Prop :=
  match x with
  | .ok v' => r.state = v' ∧ r.leaked = [] ∧ r.thrown = none
  | .error e => r.thrown = some (Thrown.fault e)

/-- The capacity after one `emplace_back` on a container of the given capacity and size,
by the growth policy: unchanged while `size + 1 <= capacity`, otherwise 1 from capacity 0
and `capacity + (capacity + 1) / 2` from a positive capacity. -/
def capacity_after_push (capacity size : Nat) : Nat :=
  if size + 1 ≤ capacity then capacity
  else if capacity = 0 then 1 else capacity + (capacity + 1) / 2

/-- The capacity after `k` consecutive calls `emplace_back`, by the growth policy. -/
def capacity_after_pushes (capacity size : Nat) : Nat → Nat
  | 0 => capacity
  | k + 1 => capacity_after_pushes (capacity_after_push capacity size) (size + 1) k

/-! ### Destruction order and the growth loop without wrap-around -/

/-- An observable step of tearing elements down: the destructor call on the element at
`index`, or the release of the buffer through the strategy. -/
inductive Event where
  | destroy (index : Nat)
  | deallocate
  deriving DecidableEq, Repr

/-- The destructor call `at_unchecked(i).~T()` on the buffer, recorded in the trace. -/
def destroy_traced {T : Type} (i : Nat) (s : Ptr T × List Event) :
    Except Fault (Ptr T × List Event) :=
  match s.1.destroy_at i with
  | .error e => .error e
  | .ok p => .ok (p, s.2 ++ [Event.destroy i])

/-- The body of the relocation loop, whose `_value.~T()` is recorded in the trace. -/
def vector.relocate_traced {T : Type} (_index : Nat) (s : (Ptr T × Ptr T) × List Event) :
    Except Fault ((Ptr T × Ptr T) × List Event) :=
  match vector.relocate_body _index s.1 with
  | .error e => .error e
  | .ok s1 => .ok (s1, s.2 ++ [Event.destroy _index])

/-- `void clear()` with the trace of its destructor calls. -/
def vector.clear_traced {T A : Type} (v : vector T A) :
    Except Fault (vector T A × List Event) :=
  match for_down v._size 0 destroy_traced (v._data, []) with
  | .error e => .error e
  | .ok s => .ok ({ v with _data := s.1, _size := 0 }, s.2)

/-- `~vector()` with the trace of its destructor calls and of the final
`_alloc.deallocate(_data, _capacity)`. -/
def vector.dtor_traced {T A : Type} (v : vector T A) : Except Fault (List Event) :=
  match for_down v._size 0 destroy_traced (v._data, []) with
  | .error e => .error e
  | .ok s => .ok (s.2 ++ [Event.deallocate])

/-- `void resize(usize new_size)` with the trace of its destructor calls and of the release
of the old buffer. -/
def vector.resize_traced {T A : Type} [Allocator A] [Inhabited T] (v : vector T A)
    (new_size : Nat) : Except Fault (vector T A × List Event) :=
  if new_size > v._capacity then
    match new_capacity v._capacity new_size with
    | none => .error Fault.nontermination
    | some _new_capacity =>
      match allocate v._alloc _new_capacity with
      | .error e => .error e
      | .ok _new_buf =>
        match for_up 0 v._size vector.relocate_traced ((v._data, _new_buf), []) with
        | .error e => .error e
        | .ok s =>
          match for_up v._size new_size (fun i p => Ptr.construct_at p i default) s.1.2 with
          | .error e => .error e
          | .ok _new_buf =>
            .ok ({ v with _capacity := _new_capacity, _size := new_size, _data := _new_buf },
              s.2 ++ [Event.deallocate])
  else if new_size > v._size then
    match for_up v._size new_size (fun i p => Ptr.construct_at p i default) v._data with
    | .error e => .error e
    | .ok d => .ok ({ v with _data := d, _size := new_size }, [])
  else if new_size < v._size then
    match for_down v._size new_size destroy_traced (v._data, []) with
    | .error e => .error e
    | .ok s => .ok ({ v with _data := s.1, _size := new_size }, s.2)
  else .ok (v, [])

/-- `void reserve(usize new_cap)` with the trace of its destructor calls and of the release
of the old buffer. -/
def vector.reserve_traced {T A : Type} [Allocator A] (v : vector T A) (new_cap : Nat) :
    Except Fault (vector T A × List Event) :=
  if new_cap > v._capacity then
    match new_capacity v._capacity new_cap with
    | none => .error Fault.nontermination
    | some _new_capacity =>
      match allocate v._alloc _new_capacity with
      | .error e => .error e
      | .ok _new_buf =>
        match for_up 0 v._size vector.relocate_traced ((v._data, _new_buf), []) with
        | .error e => .error e
        | .ok s =>
          .ok ({ v with _capacity := _new_capacity, _data := s.1.2 },
            s.2 ++ [Event.deallocate])
  else .ok (v, [])

/-- The destructor calls on the indices `hi - 1, hi - 2, ..., lo`, in that order. -/
def destroy_down (hi lo : Nat) : List Event :=
  (List.range' lo (hi - lo)).reverse.map Event.destroy

/-- The destructor calls on the indices `lo, lo + 1, ..., hi - 1`, in that order. -/
def destroy_up (lo hi : Nat) : List Event :=
  (List.range' lo (hi - lo)).map Event.destroy

/-- The loop `while (c < new_cap) c += (c + 1) / 2;` in unbounded arithmetic, run for at
most `fuel` iterations. -/
def grow_loop_unbounded (new_cap : Nat) : Nat → Nat → Option Nat
  | 0, _ => none
  | fuel + 1, c =>
    if c < new_cap then grow_loop_unbounded new_cap fuel (c + (c + 1) / 2)
    else some c

/-! ### Workloads whose `push_back` argument is a reference -/

/-- One call of a `push_back` / `pop_back` workload, `push_back` with its argument as the
call receives it. -/
inductive Call (T : Type) where
  | push_back (arg : Arg T)
  | pop_back
  deriving DecidableEq, Repr

/-- Apply one call to the container. -/
def vector.call {T A : Type} [Allocator A] (v : vector T A) :
    Call T → Except Fault (vector T A)
  | Call.push_back arg => v.push_back_ref arg
  | Call.pop_back => v.pop_back

/-- Apply a sequence of calls to the container, call by call. -/
def vector.calls {T A : Type} [Allocator A] (v : vector T A) :
    List (Call T) → Except Fault (vector T A)
  | [] => .ok v
  | c :: cs =>
    match v.call c with
    | .ok v1 => vector.calls v1 cs
    | .error e => .error e

/-- The value that the argument denotes while the container holds the list `l`: the value
of the outside object, or the element `l[index]` (none when there is no such element). -/
def Arg.value {T : Type} (l : List T) : Arg T → Option T
  | Arg.object val => some val
  | Arg.element index => l[index]?

/-- The reference list of the spec after one call: `push_back(v)` appends the value `v` of
its argument, `pop_back()` drops the last element and does nothing on the empty list;
`none` when the argument of `push_back` denotes no value. -/
def reference_call {T : Type} (l : List T) : Call T → Option (List T)
  | Call.push_back arg => (arg.value l).map (fun x => l ++ [x])
  | Call.pop_back => some l.dropLast

/-- The reference list after a whole sequence of calls. -/
def reference_calls {T : Type} (l : List T) : List (Call T) → Option (List T)
  | [] => some l
  | c :: cs =>
    match reference_call l c with
    | some l1 => reference_calls l1 cs
    | none => none

/-- The call stays clear of a reference into a buffer that is about to be replaced: it is
`pop_back()`, or `push_back` of an object outside the buffer, or `push_back(v[index])` with
`index < size` on a container with a spare slot (`size + 1 <= capacity`). -/
def vector.admits {T A : Type} (v : vector T A) : Call T → Bool
  | Call.push_back (Arg.element index) =>
    decide (index < v._size) && decide (v._size + 1 ≤ v._capacity)
  | Call.push_back (Arg.object _) => true
  | Call.pop_back => true

/-- A store with one block holding `7, 8` and no raw slot. -/
def sample_full_store : Heap Nat := [some [some 7, some 8]]

/-- The container of `sample_full_store`: size 2, capacity 2, buffer at address 0. -/
def sample_full_object : heap_vector heap :=
  { _alloc := {}, _data := some 0, _size := 2, _capacity := 2 }

/-! ### hsd::time and hsd::precise_clock (src/cpp/Time.hpp)

The class `time` wraps a `struct tm`, whose fields are `int`s; the setters take unsigned
arguments, which are reduced to the width of the parameter type on entry, as the
conversion at the call does.  `precise_clock` wraps a `timespec` whose two fields are
64-bit signed integers; a signed operation whose result does not fit is undefined
behaviour. -/

/-- The nine standard fields of `struct tm` from `<time.h>`, the only ones that the class
`time` reads or writes. -/
structure tm where
  tm_sec : Int
  tm_min : Int
  tm_hour : Int
  tm_mday : Int
  tm_mon : Int
  tm_year : Int
  tm_wday : Int
  tm_yday : Int
  tm_isdst : Int
  deriving DecidableEq, Repr

/-- The data member of `class time`. -/
structure time where
  _time : tm
  deriving DecidableEq, Repr

/-- `static_cast<int>(x)`: the value reduced to 32-bit two's complement. -/
def to_int (x : Int) : Int := (x + 2 ^ 31) % 2 ^ 32 - 2 ^ 31

/-- `static_cast<u16>(x)`: the value reduced modulo `2 ^ 16`. -/
def to_u16 (x : Int) : Nat := (x % 2 ^ 16).toNat

namespace time

/-- `static constexpr u8 _month_table[]`. -/
def _month_table : List Nat := [31, 28, 31, 30, 31, 30, 31, 31, 30, 31, 30, 31]

/-- `constexpr time()`: `_time{}` zero-initialises the fields, then `_time.tm_mday = 1`. -/
def ctor_default : time :=
  { _time := { tm_sec := 0, tm_min := 0, tm_hour := 0, tm_mday := 1, tm_mon := 0,
               tm_year := 0, tm_wday := 0, tm_yday := 0, tm_isdst := 0 } }

/-- `u16 get_seconds() const`. -/
def get_seconds (t : time) : Nat := to_u16 t._time.tm_sec

/-- `u16 get_minutes() const`. -/
def get_minutes (t : time) : Nat := to_u16 t._time.tm_min

/-- `u16 get_hour() const`. -/
def get_hour (t : time) : Nat := to_u16 t._time.tm_hour

/-- `u16 get_month_day() const`. -/
def get_month_day (t : time) : Nat := to_u16 t._time.tm_mday

/-- `u16 get_month() const`. -/
def get_month (t : time) : Nat := to_u16 t._time.tm_mon

/-- `usize get_year() const`: `static_cast<usize>(_time.tm_year) + 1900` on 64-bit
`usize`. -/
def get_year (t : time) : Nat := ((t._time.tm_year % 2 ^ 64).toNat + 1900) % usize_range

/-- `void set_seconds(u16 seconds)`. -/
def set_seconds (t : time) (seconds : Nat) : time :=
  let seconds := seconds % 2 ^ 16
  if seconds < 60 then
    { t with _time := { t._time with tm_sec := to_int (Int.ofNat (seconds % 60)) } }
  else t

/-- `void set_minutes(u16 minutes)`. -/
def set_minutes (t : time) (minutes : Nat) : time :=
  let minutes := minutes % 2 ^ 16
  if minutes < 60 then
    { t with _time := { t._time with tm_min := to_int (Int.ofNat (minutes % 60)) } }
  else t

/-- `void set_hour(u64 hour)`. -/
def set_hour (t : time) (hour : Nat) : time :=
  let hour := hour % 2 ^ 64
  if hour < 24 then
    { t with _time := { t._time with tm_hour := to_int (Int.ofNat (hour % 24)) } }
  else t

/-- `void set_month_day(u16 month_day)`: the lookup `_month_table[get_month()]` outside
the twelve entries is undefined behaviour. -/
def set_month_day (t : time) (month_day : Nat) : Except Fault time :=
  let month_day := month_day % 2 ^ 16
  match _month_table[t.get_month]? with
  | none => .error Fault.undefined_behavior
  | some days =>
    if month_day < days then
      .ok { t with _time := { t._time with tm_mday := to_int (Int.ofNat month_day) } }
    else .ok t

/-- `void set_month(u16 month)`: in `month - 1` the `u16` is promoted to `int`. -/
def set_month (t : time) (month : Nat) : time :=
  let month := month % 2 ^ 16
  if month < 12 then
    { t with _time := { t._time with tm_mon := to_int (Int.ofNat month - 1) } }
  else t

/-- `void set_year(usize year)`: `static_cast<int>(year) - 1900`; the subtraction is done
in `int`, and a result below the smallest `int` is undefined behaviour. -/
def set_year (t : time) (year : Nat) : Except Fault time :=
  let year := year % usize_range
  if -(2 ^ 31) ≤ to_int (Int.ofNat year) - 1900 then
    .ok { t with _time := { t._time with tm_year := to_int (Int.ofNat year) - 1900 } }
  else .error Fault.undefined_behavior

/-- `bool operator==(const time& rhs) const`. -/
def operator_eq (a rhs : time) : Bool :=
  decide (a._time.tm_hour = rhs._time.tm_hour) &&
  decide (a._time.tm_isdst = rhs._time.tm_isdst) &&
  decide (a._time.tm_mday = rhs._time.tm_mday) &&
  decide (a._time.tm_min = rhs._time.tm_min) &&
  decide (a._time.tm_mon = rhs._time.tm_mon) &&
  decide (a._time.tm_sec = rhs._time.tm_sec) &&
  decide (a._time.tm_wday = rhs._time.tm_wday) &&
  decide (a._time.tm_yday = rhs._time.tm_yday) &&
  decide (a._time.tm_year = rhs._time.tm_year)

/-- `bool operator!=(const time& rhs) const`. -/
def operator_ne (a rhs : time) : Bool :=
  decide (a._time.tm_hour ≠ rhs._time.tm_hour) ||
  decide (a._time.tm_isdst ≠ rhs._time.tm_isdst) ||
  decide (a._time.tm_mday ≠ rhs._time.tm_mday) ||
  decide (a._time.tm_min ≠ rhs._time.tm_min) ||
  decide (a._time.tm_mon ≠ rhs._time.tm_mon) ||
  decide (a._time.tm_sec ≠ rhs._time.tm_sec) ||
  decide (a._time.tm_wday ≠ rhs._time.tm_wday) ||
  decide (a._time.tm_yday ≠ rhs._time.tm_yday) ||
  decide (a._time.tm_year ≠ rhs._time.tm_year)

/-- `bool operator<(const time& rhs) const`. -/
def operator_lt (a rhs : time) : Bool :=
  if a._time.tm_year > rhs._time.tm_year then false
  else if a._time.tm_year < rhs._time.tm_year then true
  else if a._time.tm_mon > rhs._time.tm_mon then true
  else if a._time.tm_mon < rhs._time.tm_mon then false
  else if a._time.tm_yday > rhs._time.tm_yday then false
  else if a._time.tm_yday < rhs._time.tm_yday then true
  else if a._time.tm_mday > rhs._time.tm_mday then false
  else if a._time.tm_mday < rhs._time.tm_mday then true
  else if a._time.tm_wday > rhs._time.tm_wday then false
  else if a._time.tm_wday < rhs._time.tm_wday then true
  else if a._time.tm_hour > rhs._time.tm_hour then false
  else if a._time.tm_hour < rhs._time.tm_hour then true
  else if a._time.tm_min > rhs._time.tm_min then false
  else if a._time.tm_min < rhs._time.tm_min then true
  else if a._time.tm_sec > rhs._time.tm_sec then false
  else if a._time.tm_sec < rhs._time.tm_sec then true
  else if a._time.tm_isdst > rhs._time.tm_isdst then false
  else if a._time.tm_isdst < rhs._time.tm_isdst then true
  else false

/-- `bool operator>(const time& rhs) const`. -/
def operator_gt (a rhs : time) : Bool :=
  if a._time.tm_year < rhs._time.tm_year then false
  else if a._time.tm_year > rhs._time.tm_year then true
  else if a._time.tm_mon < rhs._time.tm_mon then true
  else if a._time.tm_mon > rhs._time.tm_mon then false
  else if a._time.tm_yday < rhs._time.tm_yday then false
  else if a._time.tm_yday > rhs._time.tm_yday then true
  else if a._time.tm_mday < rhs._time.tm_mday then false
  else if a._time.tm_mday > rhs._time.tm_mday then true
  else if a._time.tm_wday < rhs._time.tm_wday then false
  else if a._time.tm_wday > rhs._time.tm_wday then true
  else if a._time.tm_hour < rhs._time.tm_hour then false
  else if a._time.tm_hour > rhs._time.tm_hour then true
  else if a._time.tm_min < rhs._time.tm_min then false
  else if a._time.tm_min > rhs._time.tm_min then true
  else if a._time.tm_sec < rhs._time.tm_sec then false
  else if a._time.tm_sec > rhs._time.tm_sec then true
  else if a._time.tm_isdst < rhs._time.tm_isdst then false
  else if a._time.tm_isdst > rhs._time.tm_isdst then true
  else false

/-- `bool operator<=(const time& rhs) const`. -/
def operator_le (a rhs : time) : Bool :=
  if a._time.tm_year > rhs._time.tm_year then false
  else if a._time.tm_year < rhs._time.tm_year then true
  else if a._time.tm_mon > rhs._time.tm_mon then true
  else if a._time.tm_mon < rhs._time.tm_mon then false
  else if a._time.tm_yday > rhs._time.tm_yday then false
  else if a._time.tm_yday < rhs._time.tm_yday then true
  else if a._time.tm_mday > rhs._time.tm_mday then false
  else if a._time.tm_mday < rhs._time.tm_mday then true
  else if a._time.tm_wday > rhs._time.tm_wday then false
  else if a._time.tm_wday < rhs._time.tm_wday then true
  else if a._time.tm_hour > rhs._time.tm_hour then false
  else if a._time.tm_hour < rhs._time.tm_hour then true
  else if a._time.tm_min > rhs._time.tm_min then false
  else if a._time.tm_min < rhs._time.tm_min then true
  else if a._time.tm_sec > rhs._time.tm_sec then false
  else if a._time.tm_sec < rhs._time.tm_sec then true
  else if a._time.tm_isdst > rhs._time.tm_isdst then false
  else if a._time.tm_isdst < rhs._time.tm_isdst then true
  else true

/-- `bool operator>=(const time& rhs) const`. -/
def operator_ge (a rhs : time) : Bool :=
  if a._time.tm_year < rhs._time.tm_year then false
  else if a._time.tm_year > rhs._time.tm_year then true
  else if a._time.tm_mon < rhs._time.tm_mon then true
  else if a._time.tm_mon > rhs._time.tm_mon then false
  else if a._time.tm_yday < rhs._time.tm_yday then false
  else if a._time.tm_yday > rhs._time.tm_yday then true
  else if a._time.tm_mday < rhs._time.tm_mday then false
  else if a._time.tm_mday > rhs._time.tm_mday then true
  else if a._time.tm_wday < rhs._time.tm_wday then false
  else if a._time.tm_wday > rhs._time.tm_wday then true
  else if a._time.tm_hour < rhs._time.tm_hour then false
  else if a._time.tm_hour > rhs._time.tm_hour then true
  else if a._time.tm_min < rhs._time.tm_min then false
  else if a._time.tm_min > rhs._time.tm_min then true
  else if a._time.tm_sec < rhs._time.tm_sec then false
  else if a._time.tm_sec > rhs._time.tm_sec then true
  else if a._time.tm_isdst < rhs._time.tm_isdst then false
  else if a._time.tm_isdst > rhs._time.tm_isdst then true
  else true

end time

/-- A call of one of the public setters of `time`. -/
inductive Setter where
  | set_seconds (seconds : Nat)
  | set_minutes (minutes : Nat)
  | set_hour (hour : Nat)
  | set_month_day (month_day : Nat)
  | set_month (month : Nat)
  | set_year (year : Nat)
  deriving DecidableEq, Repr

/-- Apply one setter call to a `time`. -/
def time.apply (t : time) : Setter → Except Fault time
  | Setter.set_seconds seconds => .ok (t.set_seconds seconds)
  | Setter.set_minutes minutes => .ok (t.set_minutes minutes)
  | Setter.set_hour hour => .ok (t.set_hour hour)
  | Setter.set_month_day month_day => t.set_month_day month_day
  | Setter.set_month month => .ok (t.set_month month)
  | Setter.set_year year => t.set_year year

/-- Apply a sequence of setter calls to a `time`, call by call. -/
def time.run (t : time) : List Setter → Except Fault time
  | [] => .ok t
  | s :: ss =>
    match t.apply s with
    | .ok t1 => time.run t1 ss
    | .error e => .error e

/-- A `time` with the given year (as stored, counted from 1900) and month (as stored,
0 for January), on the first day of the month at midnight. -/
def time.of_year_month (year month : Int) : time :=
  { _time := { tm_sec := 0, tm_min := 0, tm_hour := 0, tm_mday := 1, tm_mon := month,
               tm_year := year, tm_wday := 0, tm_yday := 0, tm_isdst := 0 } }

/-- The two fields of `struct timespec` on a platform where `time_t` and `long` are 64-bit
signed integers. -/
structure timespec where
  tv_sec : Int
  tv_nsec : Int
  deriving DecidableEq, Repr

/-- The data member of `class precise_clock`. -/
structure precise_clock where
  _clk : timespec
  deriving DecidableEq, Repr

/-- The result of a 64-bit signed operation: the value when it fits, undefined behaviour
otherwise. -/
def signed64 (x : Int) : Except Fault Int :=
  if -(2 ^ 63) ≤ x ∧ x < 2 ^ 63 then .ok x else .error Fault.undefined_behavior

namespace precise_clock

/-- `friend precise_clock operator-(const precise_clock& lhs, const precise_clock& rhs)`. -/
def operator_sub (lhs rhs : precise_clock) : Except Fault precise_clock :=
  match signed64 (lhs._clk.tv_nsec - rhs._clk.tv_nsec) with
  | .error e => .error e
  | .ok nsec =>
    match signed64 (lhs._clk.tv_sec - rhs._clk.tv_sec) with
    | .error e => .error e
    | .ok sec =>
      if nsec < 0 then
        match signed64 (sec - 1) with
        | .error e => .error e
        | .ok sec1 =>
          match signed64 (nsec + 1000000000) with
          | .error e => .error e
          | .ok nsec1 => .ok { _clk := { tv_sec := sec1, tv_nsec := nsec1 } }
      else .ok { _clk := { tv_sec := sec, tv_nsec := nsec } }

/-- `friend precise_clock operator+(const precise_clock& lhs, const precise_clock& rhs)`. -/
def operator_add (lhs rhs : precise_clock) : Except Fault precise_clock :=
  match signed64 (lhs._clk.tv_nsec + rhs._clk.tv_nsec) with
  | .error e => .error e
  | .ok nsec =>
    match signed64 (lhs._clk.tv_sec + rhs._clk.tv_sec) with
    | .error e => .error e
    | .ok sec =>
      if nsec ≥ 1000000000 then
        match signed64 (sec + 1) with
        | .error e => .error e
        | .ok sec1 =>
          match signed64 (nsec - 1000000000) with
          | .error e => .error e
          | .ok nsec1 => .ok { _clk := { tv_sec := sec1, tv_nsec := nsec1 } }
      else
        match signed64 (sec + 1) with
        | .error e => .error e
        | .ok sec1 => .ok { _clk := { tv_sec := sec1, tv_nsec := nsec } }

/-- `bool operator==(const precise_clock& rhs) const`. -/
def operator_eq (a rhs : precise_clock) : Bool :=
  decide (a._clk.tv_sec = rhs._clk.tv_sec) && decide (a._clk.tv_nsec = rhs._clk.tv_nsec)

/-- The time in nanoseconds that the two fields stand for:
`tv_sec * 10^9 + tv_nsec`. -/
def total (c : precise_clock) : Int := c._clk.tv_sec * 1000000000 + c._clk.tv_nsec

/-- The nanosecond field is normalised: `0 <= tv_nsec < 10^9`. -/
def normalised (c : precise_clock) : Prop := 0 ≤ c._clk.tv_nsec ∧ c._clk.tv_nsec < 1000000000

instance (c : precise_clock) : Decidable c.normalised := by
  unfold normalised
  infer_instance

end precise_clock

/-! ## Buffers and loops -/

section loops

variable {T : Type}

theorem getElem?_overwrite (b : List (Option T)) (lo hi : Nat) (val : Nat → Option T) (j : Nat) :
    (overwrite b lo hi val)[j]? =
      (b[j]?).map (fun s => if lo ≤ j ∧ j < hi then val j else s) := by
  simp [overwrite]

theorem length_overwrite (b : List (Option T)) (lo hi : Nat) (val : Nat → Option T) :
    (overwrite b lo hi val).length = b.length := by
  simp [overwrite]

theorem overwrite_empty (b : List (Option T)) (lo hi : Nat) (val : Nat → Option T)
    (h : hi ≤ lo) : overwrite b lo hi val = b := by
  apply List.ext_getElem?
  intro j
  rw [getElem?_overwrite]
  have : ¬ (lo ≤ j ∧ j < hi) := by omega
  cases hb : b[j]? <;> simp [this]

theorem overwrite_set_first (b : List (Option T)) (lo hi : Nat) (val : Nat → Option T)
    (h : lo < hi) :
    overwrite (b.set lo (val lo)) (lo + 1) hi val = overwrite b lo hi val := by
  apply List.ext_getElem?
  intro j
  rw [getElem?_overwrite, getElem?_overwrite, List.getElem?_set]
  by_cases hj : lo = j
  · subst hj
    by_cases hl : lo < b.length
    · have h1 : ¬ (lo + 1 ≤ lo ∧ lo < hi) := by omega
      have h2 : (lo ≤ lo ∧ lo < hi) := by omega
      have hb : b[lo]? = some b[lo] := List.getElem?_eq_getElem hl
      simp [hl, h1, h2, hb]
    · have hb : b[lo]? = none := List.getElem?_eq_none (by omega)
      simp [hl, hb]
  · have h3 : (lo + 1 ≤ j ∧ j < hi) ↔ (lo ≤ j ∧ j < hi) := by omega
    simp [hj, h3]

theorem overwrite_set_last (b : List (Option T)) (lo hi : Nat) (val : Nat → Option T)
    (h : lo < hi) :
    overwrite (b.set (hi - 1) (val (hi - 1))) lo (hi - 1) val = overwrite b lo hi val := by
  apply List.ext_getElem?
  intro j
  rw [getElem?_overwrite, getElem?_overwrite, List.getElem?_set]
  by_cases hj : hi - 1 = j
  · subst hj
    by_cases hl : hi - 1 < b.length
    · have h1 : ¬ (lo ≤ hi - 1 ∧ hi - 1 < hi - 1) := by omega
      have h2 : (lo ≤ hi - 1 ∧ hi - 1 < hi) := by omega
      have hb : b[hi - 1]? = some b[hi - 1] := List.getElem?_eq_getElem hl
      simp [hl, h1, h2, hb]
    · have hb : b[hi - 1]? = none := List.getElem?_eq_none (by omega)
      simp [hl, hb]
  · have h3 : (lo ≤ j ∧ j < hi - 1) ↔ (lo ≤ j ∧ j < hi) := by omega
    simp [hj, h3]

theorem Ptr.slot_some (b : List (Option T)) (j : Nat) :
    Ptr.slot (some b) j = b[j]? := rfl

theorem Ptr.slot_none (j : Nat) : Ptr.slot (none : Ptr T) j = none := rfl

theorem Ptr.slot_map_overwrite (p : Ptr T) (lo hi : Nat) (val : Nat → Option T) (j : Nat) :
    Ptr.slot (p.map (fun b => overwrite b lo hi val)) j =
      (p.slot j).map (fun s => if lo ≤ j ∧ j < hi then val j else s) := by
  cases p with
  | none => rfl
  | some b => exact getElem?_overwrite b lo hi val j

theorem Ptr.slot_map_overwrite_out (p : Ptr T) (lo hi : Nat) (val : Nat → Option T) (j : Nat)
    (h : ¬ (lo ≤ j ∧ j < hi)) :
    Ptr.slot (p.map (fun b => overwrite b lo hi val)) j = p.slot j := by
  rw [Ptr.slot_map_overwrite]
  cases p.slot j with
  | none => rfl
  | some s => simp only [Option.map_some', if_neg h]

theorem Ptr.slot_map_overwrite_in (p : Ptr T) (lo hi : Nat) (val : Nat → Option T) (j : Nat)
    (h : lo ≤ j ∧ j < hi) (s : Option T) (hs : p.slot j = some s) :
    Ptr.slot (p.map (fun b => overwrite b lo hi val)) j = some (val j) := by
  rw [Ptr.slot_map_overwrite, hs]
  simp only [Option.map_some', if_pos h]

theorem Ptr.length_map_overwrite (p : Ptr T) (lo hi : Nat) (val : Nat → Option T) :
    Ptr.length (p.map (fun b => overwrite b lo hi val)) = p.length := by
  cases p with
  | none => rfl
  | some b => exact length_overwrite b lo hi val

theorem Ptr.slot_lt_length (p : Ptr T) (j : Nat) (s : Option T) (h : p.slot j = some s) :
    j < p.length := by
  cases p with
  | none => simp [Ptr.slot] at h
  | some b =>
    simp only [Ptr.slot] at h
    have := List.getElem?_eq_some_iff.mp h
    obtain ⟨hl, _⟩ := this
    exact hl

theorem Ptr.slot_eq_none_of_le (p : Ptr T) (j : Nat) (h : p.length ≤ j) : p.slot j = none := by
  cases p with
  | none => rfl
  | some b => exact List.getElem?_eq_none h

theorem Ptr.update_ok (b : List (Option T)) (i : Nat) (chk : Option T → Bool) (new s : Option T)
    (hs : b[i]? = some s) (hc : chk s = true) :
    Ptr.update (some b) i chk new = .ok (some (b.set i new)) := by
  simp [Ptr.update, hs, hc]

theorem for_up_loop_update (body : Nat → Ptr T → Except Fault (Ptr T)) (chk : Option T → Bool)
    (val : Nat → Option T) :
    ∀ (k lo : Nat) (b : List (Option T)),
      (∀ j, lo ≤ j → j < lo + k → ∀ p, body j p = Ptr.update p j chk (val j)) →
      (∀ j, lo ≤ j → j < lo + k → ∃ s, b[j]? = some s ∧ chk s = true) →
      for_up_loop body k lo (some b) = .ok (some (overwrite b lo (lo + k) val)) := by
  intro k
  induction k with
  | zero =>
    intro lo b _ _
    simp [for_up_loop, overwrite_empty]
  | succ k ih =>
    intro lo b hbody hb
    obtain ⟨s, hs, hc⟩ := hb lo (Nat.le_refl _) (by omega)
    have hstep : body lo (some b) = .ok (some (b.set lo (val lo))) := by
      rw [hbody lo (Nat.le_refl _) (by omega)]
      exact Ptr.update_ok b lo chk _ s hs hc
    have hrest := ih (lo + 1) (b.set lo (val lo))
      (fun j h1 h2 => hbody j (by omega) (by omega))
      (fun j h1 h2 => by
        obtain ⟨s', hs', hc'⟩ := hb j (by omega) (by omega)
        refine ⟨s', ?_, hc'⟩
        rw [List.getElem?_set_ne (by omega)]
        exact hs')
    simp only [for_up_loop, hstep, hrest]
    have e : lo + 1 + k = lo + (k + 1) := by omega
    rw [e, overwrite_set_first b lo (lo + (k + 1)) val (by omega)]

theorem for_up_loop_update_ptr (body : Nat → Ptr T → Except Fault (Ptr T))
    (chk : Option T → Bool) (val : Nat → Option T) (k lo : Nat) (p : Ptr T)
    (hbody : ∀ j, lo ≤ j → j < lo + k → ∀ q, body j q = Ptr.update q j chk (val j))
    (hp : ∀ j, lo ≤ j → j < lo + k → ∃ s, p.slot j = some s ∧ chk s = true) :
    for_up_loop body k lo p = .ok (p.map (fun b => overwrite b lo (lo + k) val)) := by
  cases p with
  | some b => exact for_up_loop_update body chk val k lo b hbody hp
  | none =>
    cases k with
    | zero => rfl
    | succ k =>
      obtain ⟨s, hs, _⟩ := hp lo (Nat.le_refl _) (by omega)
      simp [Ptr.slot] at hs

theorem for_down_loop_update (body : Nat → Ptr T → Except Fault (Ptr T)) (chk : Option T → Bool)
    (val : Nat → Option T) :
    ∀ (k hi : Nat) (b : List (Option T)), k ≤ hi →
      (∀ j, hi - k ≤ j → j < hi → ∀ p, body j p = Ptr.update p j chk (val j)) →
      (∀ j, hi - k ≤ j → j < hi → ∃ s, b[j]? = some s ∧ chk s = true) →
      for_down_loop body k hi (some b) = .ok (some (overwrite b (hi - k) hi val)) := by
  intro k
  induction k with
  | zero =>
    intro hi b _ _ _
    simp [for_down_loop, overwrite_empty]
  | succ k ih =>
    intro hi b hk hbody hb
    obtain ⟨s, hs, hc⟩ := hb (hi - 1) (by omega) (by omega)
    have hstep : body (hi - 1) (some b) = .ok (some (b.set (hi - 1) (val (hi - 1)))) := by
      rw [hbody (hi - 1) (by omega) (by omega)]
      exact Ptr.update_ok b (hi - 1) chk _ s hs hc
    have hrest := ih (hi - 1) (b.set (hi - 1) (val (hi - 1))) (by omega)
      (fun j h1 h2 => hbody j (by omega) (by omega))
      (fun j h1 h2 => by
        obtain ⟨s', hs', hc'⟩ := hb j (by omega) (by omega)
        refine ⟨s', ?_, hc'⟩
        rw [List.getElem?_set_ne (by omega)]
        exact hs')
    simp only [for_down_loop, hstep, hrest]
    have e : hi - 1 - k = hi - (k + 1) := by omega
    rw [e, overwrite_set_last b (hi - (k + 1)) hi val (by omega)]

theorem for_down_loop_update_ptr (body : Nat → Ptr T → Except Fault (Ptr T))
    (chk : Option T → Bool) (val : Nat → Option T) (k hi : Nat) (p : Ptr T) (hk : k ≤ hi)
    (hbody : ∀ j, hi - k ≤ j → j < hi → ∀ q, body j q = Ptr.update q j chk (val j))
    (hp : ∀ j, hi - k ≤ j → j < hi → ∃ s, p.slot j = some s ∧ chk s = true) :
    for_down_loop body k hi p = .ok (p.map (fun b => overwrite b (hi - k) hi val)) := by
  cases p with
  | some b => exact for_down_loop_update body chk val k hi b hk hbody hp
  | none =>
    cases k with
    | zero => rfl
    | succ k =>
      obtain ⟨s, hs, _⟩ := hp (hi - 1) (by omega) (by omega)
      simp [Ptr.slot] at hs

theorem for_up_loop_relocate (val : Nat → Option T) :
    ∀ (k lo : Nat) (bo bn : List (Option T)),
      (∀ j, lo ≤ j → j < lo + k →
        (∃ x, val j = some x) ∧ bo[j]? = some (val j) ∧ j < bn.length) →
      for_up_loop vector.relocate_body k lo (some bo, some bn) =
        .ok (some (overwrite bo lo (lo + k) (fun _ => none)),
             some (overwrite bn lo (lo + k) val)) := by
  intro k
  induction k with
  | zero =>
    intro lo bo bn _
    simp [for_up_loop, overwrite_empty]
  | succ k ih =>
    intro lo bo bn h
    obtain ⟨⟨x, hx⟩, hbo, hbn⟩ := h lo (Nat.le_refl _) (by omega)
    have hstep : vector.relocate_body lo (some bo, some bn) =
        .ok (some (bo.set lo none), some (bn.set lo (val lo))) := by
      have hn : bn[lo]? = some bn[lo] := List.getElem?_eq_getElem hbn
      simp [vector.relocate_body, Ptr.read, Ptr.slot, hbo, hx, Ptr.construct_at, Ptr.update,
        Ptr.destroy_at, hn]
    have hrest := ih (lo + 1) (bo.set lo none) (bn.set lo (val lo))
      (fun j h1 h2 => by
        obtain ⟨hv, hbo', hbn'⟩ := h j (by omega) (by omega)
        refine ⟨hv, ?_, ?_⟩
        · rw [List.getElem?_set_ne (by omega)]
          exact hbo'
        · simpa using hbn')
    simp only [for_up_loop, hstep, hrest]
    have e : lo + 1 + k = lo + (k + 1) := by omega
    rw [e, overwrite_set_first bn lo (lo + (k + 1)) val (by omega)]
    have := overwrite_set_first bo lo (lo + (k + 1)) (fun _ => none) (by omega)
    simp only at this
    rw [this]

theorem for_up_loop_relocate_ptr (val : Nat → Option T) (k lo : Nat) (old new : Ptr T)
    (h : ∀ j, lo ≤ j → j < lo + k →
        (∃ x, val j = some x) ∧ old.slot j = some (val j) ∧ j < new.length) :
    for_up_loop vector.relocate_body k lo (old, new) =
      .ok (old.map (fun b => overwrite b lo (lo + k) (fun _ => none)),
           new.map (fun b => overwrite b lo (lo + k) val)) := by
  cases k with
  | zero =>
    cases old <;> cases new <;> simp [for_up_loop, overwrite_empty]
  | succ k =>
    obtain ⟨_, ho, hn⟩ := h lo (Nat.le_refl _) (by omega)
    cases old with
    | none => simp [Ptr.slot] at ho
    | some bo =>
      cases new with
      | none => simp [Ptr.length] at hn
      | some bn => exact for_up_loop_relocate val (k + 1) lo bo bn h

/-! ## The growth policy -/

theorem grow_loop_ge (n : Nat) : ∀ (fuel c r : Nat), grow_loop n fuel c = some r → n ≤ r := by
  intro fuel
  induction fuel with
  | zero => intro c r h; simp [grow_loop] at h
  | succ fuel ih =>
    intro c r h
    unfold grow_loop at h
    split at h
    · exact ih _ r h
    · simp only [Option.some.injEq] at h
      omega

theorem growth_seq_shift (c : Nat) : ∀ k, growth_seq c (k + 1) = growth_seq (c + (c + 1) / 2) k := by
  intro k
  induction k with
  | zero => rfl
  | succ k ih =>
    show growth_seq c (k + 1) + (growth_seq c (k + 1) + 1) / 2 = _
    rw [ih]
    rfl

theorem growth_step_no_wrap (c : Nat) (h : c < 2 ^ 63) :
    (c + ((c + 1) % usize_range) / 2) % usize_range = c + (c + 1) / 2 := by
  unfold usize_range
  omega

theorem grow_loop_first_term (n : Nat) (hn : n ≤ 2 ^ 63) :
    ∀ (fuel c r : Nat), grow_loop n fuel c = some r → first_term_ge c n r := by
  intro fuel
  induction fuel with
  | zero => intro c r h; simp [grow_loop] at h
  | succ fuel ih =>
    intro c r h
    have hge := grow_loop_ge n _ c r h
    unfold grow_loop at h
    split at h
    · rename_i hc
      rw [growth_step_no_wrap c (by omega)] at h
      obtain ⟨k, hk, hn, hlt⟩ := ih _ r h
      refine ⟨k + 1, ?_, hn, ?_⟩
      · rw [growth_seq_shift]; exact hk
      · intro j hj
        cases j with
        | zero => exact hc
        | succ j => rw [growth_seq_shift]; exact hlt j (by omega)
    · simp only [Option.some.injEq] at h
      subst h
      exact ⟨0, rfl, hge, fun j hj => by omega⟩

theorem grow_loop_total (n : Nat) (hn : n ≤ 2 ^ 63) :
    ∀ (fuel c : Nat), 1 ≤ c → n - c < fuel → ∃ r, grow_loop n fuel c = some r := by
  intro fuel
  induction fuel with
  | zero => intro c _ h; omega
  | succ fuel ih =>
    intro c hc h
    unfold grow_loop
    split
    · rename_i hlt
      rw [growth_step_no_wrap c (by omega)]
      exact ih _ (by omega) (by omega)
    · exact ⟨c, rfl⟩

theorem first_term_ge_unique (c0 n a b : Nat) (ha : first_term_ge c0 n a)
    (hb : first_term_ge c0 n b) : a = b := by
  obtain ⟨k1, h1, hn1, hl1⟩ := ha
  obtain ⟨k2, h2, hn2, hl2⟩ := hb
  rcases Nat.lt_trichotomy k1 k2 with h | h | h
  · have := hl2 k1 h
    omega
  · subst h; omega
  · have := hl1 k2 h
    omega

theorem new_capacity_ge (cap n r : Nat) (h : new_capacity cap n = some r) : n ≤ r :=
  grow_loop_ge n _ _ r h

theorem new_capacity_first_term (cap n r : Nat) (h : new_capacity cap n = some r)
    (hr : r ≤ max_count) : first_term_ge (if cap ≠ 0 then cap else 1) n r := by
  have hge := new_capacity_ge cap n r h
  exact grow_loop_first_term n (by unfold max_count at hr; omega) _ _ r h

theorem new_capacity_total (cap n : Nat) (hn : n ≤ 2 ^ 63) :
    ∃ r, new_capacity cap n = some r := by
  unfold new_capacity
  apply grow_loop_total n hn
  · split <;> omega
  · unfold usize_range
    omega

theorem new_capacity_of_first_term (cap n c : Nat)
    (h : first_term_ge (if cap ≠ 0 then cap else 1) n c) (hc : c ≤ max_count) :
    new_capacity cap n = some c := by
  have hn : n ≤ 2 ^ 63 := by
    obtain ⟨_, _, hn, _⟩ := h
    unfold max_count at hc
    omega
  obtain ⟨r, hr⟩ := new_capacity_total cap n hn
  have hft := grow_loop_first_term n hn _ _ r hr
  rw [hr, first_term_ge_unique _ n r c hft h]

end loops

/-! ## What a completed operation did to size, capacity and strategy -/

section inversion

variable {T A : Type}

theorem allocate_ok_inv [Allocator A] (a : A) (count : Nat) (p : Ptr T)
    (h : allocate a count = .ok p) :
    Allocator.provides a count = true ∧ p = some (List.replicate count none) := by
  unfold allocate at h
  split at h
  · rename_i hp
    simp only [Except.ok.injEq] at h
    exact ⟨hp, h.symm⟩
  · simp at h

theorem allocate_eq [Allocator A] (a : A) (count : Nat)
    (h : Allocator.provides a count = true) :
    (allocate a count : Except Fault (Ptr T)) = .ok (some (List.replicate count none)) := by
  simp [allocate, h]

/-- On an object outside the buffer, `emplace_back` is `reserve(_size + 1)` followed by the
construction of the value in the slot `_size`. -/
theorem vector.emplace_back_eq [Allocator A] (v : vector T A) (val : T) :
    v.emplace_back val =
      match v.reserve ((v._size + 1) % usize_range) with
      | .error e => .error e
      | .ok v1 =>
        match v1._data.construct_at v1._size val with
        | .error e => .error e
        | .ok d => .ok { v1 with _data := d, _size := (v1._size + 1) % usize_range } := by
  unfold vector.emplace_back vector.emplace_back_ref
  cases v.reserve ((v._size + 1) % usize_range) <;> rfl

theorem vector.reserve_inv [Allocator A] (v v' : vector T A) (n : Nat)
    (h : v.reserve n = .ok v') :
    v'._size = v._size ∧ v'._alloc = v._alloc ∧
      ((n ≤ v._capacity ∧ v' = v) ∨
       (v._capacity < n ∧ new_capacity v._capacity n = some v'._capacity ∧
        Allocator.provides v._alloc v'._capacity = true)) := by
  unfold vector.reserve at h
  split at h
  · rename_i hn
    split at h
    · simp at h
    · rename_i nc hnc
      split at h
      · simp at h
      · rename_i nb hnb
        split at h
        · simp at h
        · simp only [Except.ok.injEq] at h
          subst h
          exact ⟨rfl, rfl, Or.inr ⟨hn, hnc, (allocate_ok_inv _ _ _ hnb).1⟩⟩
  · rename_i hn
    simp only [Except.ok.injEq] at h
    subst h
    exact ⟨rfl, rfl, Or.inl ⟨by omega, rfl⟩⟩



theorem vector.clear_inv (v v' : vector T A) (h : v.clear = .ok v') :
    v'._size = 0 ∧ v'._capacity = v._capacity ∧ v'._alloc = v._alloc := by
  unfold vector.clear at h
  split at h
  · simp at h
  · simp only [Except.ok.injEq] at h
    subst h
    exact ⟨rfl, rfl, rfl⟩

theorem vector.pop_back_inv (v v' : vector T A) (h : v.pop_back = .ok v') :
    v'._capacity = v._capacity ∧ v'._alloc = v._alloc ∧
      ((v._size = 0 ∧ v' = v) ∨ (0 < v._size ∧ v'._size = v._size - 1)) := by
  unfold vector.pop_back at h
  split at h
  · rename_i hs
    split at h
    · simp at h
    · simp only [Except.ok.injEq] at h
      subst h
      exact ⟨rfl, rfl, Or.inr ⟨hs, rfl⟩⟩
  · simp only [Except.ok.injEq] at h
    subst h
    exact ⟨rfl, rfl, Or.inl ⟨by omega, rfl⟩⟩

theorem vector.resize_inv [Allocator A] [Inhabited T] (v v' : vector T A) (n : Nat)
    (h : v.resize n = .ok v') :
    v'._size = n ∧ v'._alloc = v._alloc ∧
      ((n ≤ v._capacity ∧ v'._capacity = v._capacity) ∨
       (v._capacity < n ∧ new_capacity v._capacity n = some v'._capacity ∧
        Allocator.provides v._alloc v'._capacity = true)) := by
  unfold vector.resize at h
  split at h
  · rename_i hn
    split at h
    · simp at h
    · rename_i nc hnc
      split at h
      · simp at h
      · rename_i nb hnb
        split at h
        · simp at h
        · split at h
          · simp at h
          · simp only [Except.ok.injEq] at h
            subst h
            exact ⟨rfl, rfl, Or.inr ⟨hn, hnc, (allocate_ok_inv _ _ _ hnb).1⟩⟩
  · rename_i hn
    split at h
    · split at h
      · simp at h
      · simp only [Except.ok.injEq] at h
        subst h
        exact ⟨rfl, rfl, Or.inl ⟨by omega, rfl⟩⟩
    · split at h
      · split at h
        · simp at h
        · simp only [Except.ok.injEq] at h
          subst h
          exact ⟨rfl, rfl, Or.inl ⟨by omega, rfl⟩⟩
      · simp only [Except.ok.injEq] at h
        subst h
        exact ⟨by omega, rfl, Or.inl ⟨by omega, rfl⟩⟩

theorem vector.shrink_to_fit_inv [Allocator A] (v v' : vector T A)
    (h : v.shrink_to_fit = .ok v') :
    v'._size = v._size ∧ v'._alloc = v._alloc ∧
      ((v._size = 0 ∧ v'._capacity = 0 ∧ v'._data = none) ∨
       (0 < v._size ∧ v._size < v._capacity ∧ v'._capacity = v._size ∧
        Allocator.provides v._alloc v._size = true) ∨
       (0 < v._size ∧ v._capacity ≤ v._size ∧ v' = v)) := by
  unfold vector.shrink_to_fit at h
  split at h
  · rename_i hs
    simp only [Except.ok.injEq] at h
    subst h
    exact ⟨rfl, rfl, Or.inl ⟨hs, rfl, rfl⟩⟩
  · rename_i hs
    split at h
    · rename_i hlt
      split at h
      · simp at h
      · rename_i nb hnb
        split at h
        · simp at h
        · simp only [Except.ok.injEq] at h
          subst h
          exact ⟨rfl, rfl, Or.inr (Or.inl ⟨by omega, hlt, rfl, (allocate_ok_inv _ _ _ hnb).1⟩)⟩
    · simp only [Except.ok.injEq] at h
      subst h
      exact ⟨rfl, rfl, Or.inr (Or.inr ⟨by omega, by omega, rfl⟩)⟩

theorem vector.emplace_back_inv [Allocator A] (v v' : vector T A) (val : T)
    (h : v.emplace_back val = .ok v') :
    ∃ v1, v.reserve ((v._size + 1) % usize_range) = .ok v1 ∧
      v1._data.construct_at v1._size val = .ok v'._data ∧
      v'._capacity = v1._capacity ∧ v'._alloc = v1._alloc ∧
      v'._size = (v1._size + 1) % usize_range := by
  rw [vector.emplace_back_eq] at h
  split at h
  · simp at h
  · rename_i v1 hv1
    split at h
    · simp at h
    · rename_i d hd
      simp only [Except.ok.injEq] at h
      subst h
      exact ⟨v1, hv1, hd, rfl, rfl, rfl⟩

theorem vector.assign_from_inv [Allocator A] (v v' : vector T A) (src : Ptr T) (n : Nat)
    (h : v.assign_from src n = .ok v') :
    v'._size = n ∧ n ≤ v'._capacity ∧ v._capacity ≤ v'._capacity ∧
      (n ≤ v._capacity → v'._capacity = v._capacity) := by
  unfold vector.assign_from at h
  split at h
  · rename_i hn
    split at h
    · simp at h
    · rename_i v1 hv1
      split at h
      · simp at h
      · rename_i v2 hv2
        split at h
        · simp at h
        · simp only [Except.ok.injEq] at h
          subst h
          obtain ⟨_, hc1, _⟩ := vector.clear_inv v v1 hv1
          obtain ⟨_, _, hr⟩ := vector.reserve_inv v1 v2 n hv2
          rcases hr with ⟨h1, h2⟩ | ⟨h1, h2, _⟩
          · omega
          · have := new_capacity_ge _ _ _ h2
            refine ⟨rfl, this, ?_, fun h => by omega⟩
            show v._capacity ≤ v2._capacity
            omega
  · rename_i hn
    simp only at h
    split at h
    · simp at h
    · split at h
      · split at h
        · simp at h
        · simp only [Except.ok.injEq] at h
          subst h
          exact ⟨rfl, by show n ≤ v._capacity; omega, Nat.le_refl _, fun _ => rfl⟩
      · split at h
        · split at h
          · simp at h
          · simp only [Except.ok.injEq] at h
            subst h
            exact ⟨rfl, by show n ≤ v._capacity; omega, Nat.le_refl _, fun _ => rfl⟩
        · simp only [Except.ok.injEq] at h
          subst h
          exact ⟨rfl, by show n ≤ v._capacity; omega, Nat.le_refl _, fun _ => rfl⟩

theorem vector.operator_assign_move_inv (v rhs : vector T A) (r : vector T A × vector T A)
    (h : v.operator_assign_move rhs = .ok r) :
    r.1._size = rhs._size ∧ r.1._capacity = rhs._capacity ∧ r.1._data = rhs._data ∧
      r.1._alloc = v._alloc ∧
      r.2._size = 0 ∧ r.2._capacity = 0 ∧ r.2._data = none ∧ r.2._alloc = rhs._alloc := by
  unfold vector.operator_assign_move at h
  split at h
  · simp at h
  · rename_i v1 hv1
    simp only [Except.ok.injEq] at h
    subst h
    obtain ⟨_, _, ha⟩ := vector.clear_inv v v1 hv1
    exact ⟨rfl, rfl, rfl, ha, rfl, rfl, rfl, rfl⟩

theorem vector.ctor_copy_inv [Allocator A] (rhs v' : vector T A) (h : rhs.ctor_copy = .ok v') :
    v'._size = rhs._size ∧ v'._capacity = rhs._capacity ∧ v'._alloc = rhs._alloc := by
  unfold vector.ctor_copy at h
  split at h
  · simp at h
  · split at h
    · simp at h
    · simp only [Except.ok.injEq] at h
      subst h
      exact ⟨rfl, rfl, rfl⟩

theorem vector.ctor_array_inv [Allocator A] (arr : List T) (v' : vector T A)
    (h : vector.ctor_array arr = .ok v') :
    v'._size = arr.length ∧ v'._capacity = arr.length := by
  unfold vector.ctor_array at h
  simp only at h
  split at h
  · simp at h
  · split at h
    · simp at h
    · simp only [Except.ok.injEq] at h
      subst h
      exact ⟨rfl, rfl⟩

end inversion

/-! ## Operations on well-formed states -/

section wellformed

variable {T A : Type}

theorem Ptr.constructed_iff (p : Ptr T) (i : Nat) :
    p.constructed i = true ↔ ∃ x, p.slot i = some (some x) := by
  unfold Ptr.constructed
  split
  · rename_i x hx
    simp [hx]
  · rename_i hx
    simp only [Bool.false_eq_true, false_iff, not_exists]
    intro x hc
    exact hx x hc

theorem Ptr.raw_iff (p : Ptr T) (i : Nat) : p.raw i = true ↔ p.slot i = some none := by
  unfold Ptr.raw
  split
  · rename_i hx
    simp [hx]
  · rename_i hx
    simp only [Bool.false_eq_true, false_iff]
    exact hx

theorem Ptr.read_of_slot (p : Ptr T) (i : Nat) (x : T) (h : p.slot i = some (some x)) :
    p.read i = .ok x := by
  simp [Ptr.read, h]

theorem Ptr.read_eq_of_slot_eq (p q : Ptr T) (i : Nat) (h : p.slot i = q.slot i) :
    p.read i = q.read i := by
  simp [Ptr.read, h]

theorem Ptr.read_ok_iff (p : Ptr T) (i : Nat) (x : T) :
    p.read i = .ok x ↔ p.slot i = some (some x) := by
  unfold Ptr.read
  split
  · rename_i y hy
    simp [hy]
  · rename_i hy
    constructor
    · intro h; simp at h
    · intro h; exact absurd h (hy x)

theorem vector.WF.slot_live {v : vector T A} (h : v.WF) (i : Nat) (hi : i < v._size) :
    ∃ x, v._data.slot i = some (some x) :=
  (Ptr.constructed_iff _ _).mp (h.2.2.2.1 i hi)

theorem vector.WF.slot_raw {v : vector T A} (h : v.WF) (i : Nat) (hi : i < v._capacity)
    (hs : v._size ≤ i) : v._data.slot i = some none :=
  (Ptr.raw_iff _ _).mp (h.2.2.2.2 i hi hs)

theorem vector.WF.slot_join {v : vector T A} (h : v.WF) (i : Nat) (hi : i < v._size) :
    (∃ x, (v._data.slot i).join = some x) ∧ v._data.slot i = some ((v._data.slot i).join) := by
  obtain ⟨x, hx⟩ := h.slot_live i hi
  rw [hx]
  exact ⟨⟨x, rfl⟩, rfl⟩

theorem vector.WF_of_slots (v : vector T A) (h1 : v._size ≤ v._capacity)
    (h2 : v._capacity ≤ max_count) (h3 : v._data.length = v._capacity)
    (h4 : ∀ i, i < v._size → ∃ x, v._data.slot i = some (some x))
    (h5 : ∀ i, i < v._capacity → v._size ≤ i → v._data.slot i = some none) : v.WF :=
  ⟨h1, h2, h3, fun i hi => (Ptr.constructed_iff _ _).mpr (h4 i hi),
    fun i hi hs => (Ptr.raw_iff _ _).mpr (h5 i hi hs)⟩

/-- Slots of a fresh buffer of `nc` raw slots whose prefix `[0, sz)` received `val`. -/
theorem slot_fresh (nc sz : Nat) (val : Nat → Option T) (j : Nat) :
    Ptr.slot (some (overwrite (List.replicate nc none) 0 sz val)) j =
      if j < nc then some (if j < sz then val j else none) else none := by
  rw [Ptr.slot_some, getElem?_overwrite, List.getElem?_replicate]
  by_cases h : j < nc
  · by_cases h2 : j < sz <;> simp [h, h2]
  · simp [h]

theorem vector.relocate_eq (v : vector T A) (hwf : v.WF) (nc : Nat) (hnc : v._size ≤ nc) :
    for_up 0 v._size vector.relocate_body
        (v._data, (some (List.replicate nc none) : Ptr T)) =
      .ok (v._data.map (fun b => overwrite b 0 v._size (fun _ => none)),
           some (overwrite (List.replicate nc none) 0 v._size
             (fun j => (v._data.slot j).join))) := by
  unfold for_up
  have := for_up_loop_relocate_ptr (fun j => (v._data.slot j).join) (v._size - 0) 0 v._data
    (some (List.replicate nc none))
    (fun j _ h2 => by
      obtain ⟨a, b⟩ := hwf.slot_join j (by omega)
      exact ⟨a, b, by simp [Ptr.length]; omega⟩)
  simpa using this

theorem vector.reserve_grow_eq [Allocator A] (v : vector T A) (hwf : v.WF) (n nc : Nat)
    (hn : v._capacity < n) (hnc : new_capacity v._capacity n = some nc)
    (hp : Allocator.provides v._alloc nc = true) :
    v.reserve n = .ok { v with
      _capacity := nc
      _data := some (overwrite (List.replicate nc none) 0 v._size
        (fun j => (v._data.slot j).join)) } := by
  have hge := new_capacity_ge _ _ _ hnc
  have hs : v._size ≤ nc := by have := hwf.1; omega
  unfold vector.reserve
  simp only [gt_iff_lt, hn, if_true, hnc, allocate_eq _ _ hp, vector.relocate_eq v hwf nc hs]

theorem vector.WF_grown [Allocator A] (v : vector T A) (hwf : v.WF) (nc : Nat)
    (hs : v._size ≤ nc) (hp : Allocator.provides v._alloc nc = true) :
    vector.WF { v with
      _capacity := nc
      _data := some (overwrite (List.replicate nc none) 0 v._size
        (fun j => (v._data.slot j).join)) } := by
  apply vector.WF_of_slots
  · exact hs
  · exact Allocator.provides_le _ _ hp
  · simp [Ptr.length, length_overwrite]
  · intro i hi
    simp only at hi
    simp only [slot_fresh]
    obtain ⟨⟨x, hx⟩, _⟩ := hwf.slot_join i hi
    exact ⟨x, by rw [if_pos (show i < nc by omega), if_pos hi, hx]⟩
  · intro i hi hsz
    simp only at hi hsz
    simp only [slot_fresh]
    simp [hi, show ¬ i < v._size by omega]

theorem vector.grants_iff [Allocator A] (a : A) (cap n : Nat) :
    vector.grants a cap n = true ↔
      n ≤ cap ∨ ∃ c, new_capacity cap n = some c ∧ Allocator.provides a c = true := by
  unfold vector.grants
  cases h : new_capacity cap n <;> simp

/-- Effect of `reserve` on a well-formed state when the strategy grants the request. -/
theorem vector.reserve_spec [Allocator A] (v : vector T A) (hwf : v.WF) (n : Nat)
    (hg : vector.grants v._alloc v._capacity n = true) :
    ∃ v', v.reserve n = .ok v' ∧ v'.WF ∧ v'._size = v._size ∧ v'._alloc = v._alloc ∧
      n ≤ v'._capacity ∧ v._capacity ≤ v'._capacity ∧
      (∀ i, i < v._size → v'._data.slot i = v._data.slot i) ∧
      (n ≤ v._capacity → v' = v) ∧
      (v._capacity < n → new_capacity v._capacity n = some v'._capacity) := by
  by_cases hn : n ≤ v._capacity
  · refine ⟨v, ?_, hwf, rfl, rfl, hn, Nat.le_refl _, fun _ _ => rfl, fun _ => rfl,
      fun h => by omega⟩
    simp [vector.reserve, show ¬ n > v._capacity by omega]
  · have hn' : v._capacity < n := by omega
    rcases (vector.grants_iff _ _ _).mp hg with h | ⟨nc, hnc, hp⟩
    · omega
    · have hge := new_capacity_ge _ _ _ hnc
      have hs : v._size ≤ nc := by have := hwf.1; omega
      refine ⟨_, vector.reserve_grow_eq v hwf n nc hn' hnc hp, vector.WF_grown v hwf nc hs hp,
        rfl, rfl, hge, by show v._capacity ≤ nc; omega, ?_, fun h => by omega, fun _ => hnc⟩
      intro i hi
      simp only [slot_fresh]
      obtain ⟨_, hx⟩ := hwf.slot_join i hi
      rw [if_pos (show i < nc by omega), if_pos hi]
      exact hx.symm

theorem vector.reserve_ok_grants [Allocator A] (v v' : vector T A) (n : Nat)
    (h : v.reserve n = .ok v') : vector.grants v._alloc v._capacity n = true := by
  obtain ⟨_, _, h1 | ⟨_, h2, h3⟩⟩ := vector.reserve_inv v v' n h
  · exact (vector.grants_iff _ _ _).mpr (Or.inl h1.1)
  · exact (vector.grants_iff _ _ _).mpr (Or.inr ⟨_, h2, h3⟩)

theorem construct_range_eq (p : Ptr T) (lo hi : Nat) (x : T) (hle : lo ≤ hi)
    (h : ∀ j, lo ≤ j → j < hi → ∃ s, p.slot j = some s) :
    for_up lo hi (fun i q => Ptr.construct_at q i x) p =
      .ok (p.map (fun b => overwrite b lo hi (fun _ => some x))) := by
  unfold for_up
  have := for_up_loop_update_ptr (fun i q => Ptr.construct_at q i x) (fun _ => true)
    (fun _ => some x) (hi - lo) lo p (fun _ _ _ _ => rfl)
    (fun j h1 h2 => by
      obtain ⟨s, hs⟩ := h j h1 (by omega)
      exact ⟨s, hs, rfl⟩)
  rw [this, show lo + (hi - lo) = hi by omega]

theorem destroy_range_eq (p : Ptr T) (hi lo : Nat) (hle : lo ≤ hi)
    (h : ∀ j, lo ≤ j → j < hi → ∃ x, p.slot j = some (some x)) :
    for_down hi lo (fun i q => Ptr.destroy_at q i) p =
      .ok (p.map (fun b => overwrite b lo hi (fun _ => none))) := by
  unfold for_down
  have := for_down_loop_update_ptr (fun i q => Ptr.destroy_at q i) Option.isSome
    (fun _ => none) (hi - lo) hi p (by omega) (fun _ _ _ _ => rfl)
    (fun j h1 h2 => by
      obtain ⟨x, hx⟩ := h j (by omega) h2
      exact ⟨some x, hx, rfl⟩)
  rw [this, show hi - (hi - lo) = lo by omega]

theorem copy_range_eq (src p : Ptr T) (lo hi : Nat) (hle : lo ≤ hi)
    (hsrc : ∀ j, lo ≤ j → j < hi → ∃ x, src.slot j = some (some x))
    (h : ∀ j, lo ≤ j → j < hi → ∃ s, p.slot j = some s) :
    for_up lo hi (vector.copy_construct_body src) p =
      .ok (p.map (fun b => overwrite b lo hi (fun j => (src.slot j).join))) := by
  unfold for_up
  have := for_up_loop_update_ptr (vector.copy_construct_body src) (fun _ => true)
    (fun j => (src.slot j).join) (hi - lo) lo p
    (fun j h1 h2 q => by
      obtain ⟨x, hx⟩ := hsrc j h1 (by omega)
      unfold vector.copy_construct_body
      rw [Ptr.read_of_slot src j x hx]
      show q.construct_at j x = q.update j (fun _ => true) ((src.slot j).join)
      rw [hx]
      rfl)
    (fun j h1 h2 => by
      obtain ⟨s, hs⟩ := h j h1 (by omega)
      exact ⟨s, hs, rfl⟩)
  rw [this, show lo + (hi - lo) = hi by omega]

/-- Effect of `clear` on a well-formed state. -/
theorem vector.clear_spec (v : vector T A) (hwf : v.WF) :
    ∃ v', v.clear = .ok v' ∧ v'.WF ∧ v'._size = 0 ∧ v'._capacity = v._capacity ∧
      v'._alloc = v._alloc := by
  have hd := destroy_range_eq v._data v._size 0 (Nat.zero_le _)
    (fun j _ h2 => hwf.slot_live j h2)
  refine ⟨{ v with _data := v._data.map (fun b => overwrite b 0 v._size (fun _ => none)),
                   _size := 0 }, ?_, ?_, rfl, rfl, rfl⟩
  · unfold vector.clear
    rw [hd]
  · apply vector.WF_of_slots
    · exact Nat.zero_le _
    · exact hwf.2.1
    · simp only [Ptr.length_map_overwrite]
      exact hwf.2.2.1
    · intro i hi
      simp only at hi
      omega
    · intro i hi _
      simp only at hi
      show Ptr.slot (v._data.map (fun b => overwrite b 0 v._size (fun _ => none))) i = some none
      by_cases hs : i < v._size
      · obtain ⟨x, hx⟩ := hwf.slot_live i hs
        exact Ptr.slot_map_overwrite_in _ _ _ _ _ ⟨Nat.zero_le _, hs⟩ _ hx
      · rw [Ptr.slot_map_overwrite_out _ _ _ _ _ (by omega)]
        exact hwf.slot_raw i hi (by omega)

/-- Effect of `pop_back` on a well-formed state. -/
theorem vector.pop_back_spec (v : vector T A) (hwf : v.WF) :
    ∃ v', v.pop_back = .ok v' ∧ v'.WF ∧ v'._size = v._size - 1 ∧
      v'._capacity = v._capacity ∧ v'._alloc = v._alloc ∧
      (v._size = 0 → v' = v) ∧
      (∀ i, i < v._size - 1 → v'._data.slot i = v._data.slot i) := by
  by_cases hs : 0 < v._size
  · have hd := destroy_range_eq v._data v._size (v._size - 1) (by omega)
      (fun j _ h2 => hwf.slot_live j h2)
    have hd' : Ptr.destroy_at v._data (v._size - 1) =
        .ok (v._data.map (fun b => overwrite b (v._size - 1) v._size (fun _ => none))) := by
      rw [← hd]
      unfold for_down
      rw [show v._size - (v._size - 1) = 1 by omega]
      simp only [for_down_loop]
      cases Ptr.destroy_at v._data (v._size - 1) <;> rfl
    refine ⟨{ v with
      _data := v._data.map (fun b => overwrite b (v._size - 1) v._size (fun _ => none)),
      _size := v._size - 1 }, ?_, ?_, rfl, rfl, rfl, fun h => by omega, ?_⟩
    · unfold vector.pop_back
      simp only [gt_iff_lt, hs, if_true, hd']
    · apply vector.WF_of_slots
      · show v._size - 1 ≤ v._capacity
        have := hwf.1
        omega
      · exact hwf.2.1
      · simp only [Ptr.length_map_overwrite]
        exact hwf.2.2.1
      · intro i hi
        simp only at hi
        obtain ⟨x, hx⟩ := hwf.slot_live i (by omega)
        refine ⟨x, ?_⟩
        show Ptr.slot (v._data.map _) i = _
        rw [Ptr.slot_map_overwrite_out _ _ _ _ _ (by omega)]
        exact hx
      · intro i hi hsz
        simp only at hi hsz
        show Ptr.slot (v._data.map _) i = _
        by_cases hlt : i < v._size
        · obtain ⟨x, hx⟩ := hwf.slot_live i hlt
          exact Ptr.slot_map_overwrite_in _ _ _ _ _ ⟨hsz, hlt⟩ _ hx
        · rw [Ptr.slot_map_overwrite_out _ _ _ _ _ (by omega)]
          exact hwf.slot_raw i hi (by omega)
    · intro i hi
      show Ptr.slot (v._data.map _) i = _
      exact Ptr.slot_map_overwrite_out _ _ _ _ _ (by omega)
  · refine ⟨v, ?_, hwf, by omega, rfl, rfl, fun _ => rfl, fun _ _ => rfl⟩
    unfold vector.pop_back
    simp [hs]

theorem Ptr.construct_at_eq (p : Ptr T) (i : Nat) (x : T) (h : ∃ s, p.slot i = some s) :
    p.construct_at i x = .ok (p.map (fun b => overwrite b i (i + 1) (fun _ => some x))) := by
  have hd := construct_range_eq p i (i + 1) x (by omega)
    (fun j h1 h2 => by rw [show j = i by omega]; exact h)
  rw [← hd]
  unfold for_up
  rw [show i + 1 - i = 1 by omega]
  simp only [for_up_loop]
  cases Ptr.construct_at p i x <;> rfl

/-- Effect of `resize` on a well-formed state when the strategy grants the request. -/
theorem vector.resize_spec [Allocator A] [Inhabited T] (v : vector T A) (hwf : v.WF) (n : Nat)
    (hg : vector.grants v._alloc v._capacity n = true) :
    ∃ v', v.resize n = .ok v' ∧ v'.WF ∧ v'._size = n ∧ v'._alloc = v._alloc ∧
      (∀ i, i < v._size → i < n → v'._data.slot i = v._data.slot i) ∧
      (∀ i, v._size ≤ i → i < n → v'._data.slot i = some (some default)) ∧
      (n ≤ v._capacity → v'._capacity = v._capacity) ∧
      (v._capacity < n → new_capacity v._capacity n = some v'._capacity) := by
  have hsc := hwf.1
  by_cases hn : v._capacity < n
  · rcases (vector.grants_iff _ _ _).mp hg with h | ⟨nc, hnc, hp⟩
    · omega
    have hge := new_capacity_ge _ _ _ hnc
    have hs : v._size ≤ nc := by omega
    have hc := construct_range_eq
      (some (overwrite (List.replicate nc none) 0 v._size (fun j => (v._data.slot j).join)))
      v._size n (default : T) (by omega)
      (fun j _ h2 => by
        rw [slot_fresh, if_pos (show j < nc by omega)]
        exact ⟨_, rfl⟩)
    refine ⟨{ v with
      _capacity := nc
      _size := n
      _data := (some (overwrite (List.replicate nc none) 0 v._size
          (fun j => (v._data.slot j).join)) : Ptr T).map
        (fun b => overwrite b v._size n (fun _ => some default)) }, ?_, ?_, rfl, rfl, ?_, ?_,
      fun h => by omega, fun _ => hnc⟩
    · unfold vector.resize
      simp only [gt_iff_lt, hn, if_true, hnc, allocate_eq _ _ hp,
        vector.relocate_eq v hwf nc hs, hc]
    · apply vector.WF_of_slots
      · exact hge
      · exact Allocator.provides_le _ _ hp
      · simp [Ptr.length, length_overwrite]
      · intro i hi
        simp only at hi
        dsimp only
        by_cases hlt : i < v._size
        · rw [Ptr.slot_map_overwrite_out _ _ _ _ _ (by omega), slot_fresh,
            if_pos (show i < nc by omega), if_pos hlt]
          obtain ⟨⟨x, hx⟩, _⟩ := hwf.slot_join i hlt
          exact ⟨x, by rw [hx]⟩
        · refine ⟨default, ?_⟩
          refine Ptr.slot_map_overwrite_in _ _ _ _ _ ⟨by omega, hi⟩ none ?_
          rw [slot_fresh, if_pos (show i < nc by omega), if_neg hlt]
      · intro i hi hsz
        simp only at hi hsz
        dsimp only
        rw [Ptr.slot_map_overwrite_out _ _ _ _ _ (by omega), slot_fresh,
          if_pos hi, if_neg (by omega)]
    · intro i hi hin
      dsimp only
      rw [Ptr.slot_map_overwrite_out _ _ _ _ _ (by omega), slot_fresh,
        if_pos (show i < nc by omega), if_pos hi]
      exact (hwf.slot_join i hi).2.symm
    · intro i hi hin
      dsimp only
      refine Ptr.slot_map_overwrite_in _ _ _ _ _ ⟨hi, hin⟩ none ?_
      rw [slot_fresh, if_pos (show i < nc by omega), if_neg (by omega)]
  · by_cases hgt : v._size < n
    · have hc := construct_range_eq v._data v._size n (default : T) (by omega)
        (fun j h1 h2 => ⟨_, hwf.slot_raw j (by omega) h1⟩)
      refine ⟨{ v with
        _data := v._data.map (fun b => overwrite b v._size n (fun _ => some default))
        _size := n }, ?_, ?_, rfl, rfl, ?_, ?_, fun _ => rfl, fun h => by omega⟩
      · unfold vector.resize
        simp only [gt_iff_lt, hn, if_false, hgt, if_true, hc]
      · apply vector.WF_of_slots
        · show n ≤ v._capacity
          omega
        · exact hwf.2.1
        · simp only [Ptr.length_map_overwrite]
          exact hwf.2.2.1
        · intro i hi
          simp only at hi
          show ∃ x, Ptr.slot (Option.map _ _) i = _
          by_cases hlt : i < v._size
          · rw [Ptr.slot_map_overwrite_out _ _ _ _ _ (by omega)]
            exact hwf.slot_live i hlt
          · exact ⟨default, Ptr.slot_map_overwrite_in _ _ _ _ _ ⟨by omega, hi⟩ _
              (hwf.slot_raw i (by omega) (by omega))⟩
        · intro i hi hsz
          simp only at hi hsz
          show Ptr.slot (Option.map _ _) i = _
          rw [Ptr.slot_map_overwrite_out _ _ _ _ _ (by omega)]
          exact hwf.slot_raw i hi (by omega)
      · intro i hi _
        show Ptr.slot (Option.map _ _) i = _
        exact Ptr.slot_map_overwrite_out _ _ _ _ _ (by omega)
      · intro i hi hin
        show Ptr.slot (Option.map _ _) i = _
        exact Ptr.slot_map_overwrite_in _ _ _ _ _ ⟨hi, hin⟩ _
          (hwf.slot_raw i (by omega) hi)
    · by_cases hlt : n < v._size
      · have hd := destroy_range_eq v._data v._size n (by omega)
          (fun j _ h2 => hwf.slot_live j h2)
        refine ⟨{ v with
          _data := v._data.map (fun b => overwrite b n v._size (fun _ => none))
          _size := n }, ?_, ?_, rfl, rfl, ?_, fun i h1 h2 => by omega, fun _ => rfl,
          fun h => by omega⟩
        · unfold vector.resize
          simp only [gt_iff_lt, hn, if_false, hgt, hlt, if_true, hd]
        · apply vector.WF_of_slots
          · show n ≤ v._capacity
            omega
          · exact hwf.2.1
          · simp only [Ptr.length_map_overwrite]
            exact hwf.2.2.1
          · intro i hi
            simp only at hi
            show ∃ x, Ptr.slot (Option.map _ _) i = _
            rw [Ptr.slot_map_overwrite_out _ _ _ _ _ (by omega)]
            exact hwf.slot_live i (by omega)
          · intro i hi hsz
            simp only at hi hsz
            show Ptr.slot (Option.map _ _) i = _
            by_cases hl : i < v._size
            · obtain ⟨x, hx⟩ := hwf.slot_live i hl
              exact Ptr.slot_map_overwrite_in _ _ _ _ _ ⟨hsz, hl⟩ _ hx
            · rw [Ptr.slot_map_overwrite_out _ _ _ _ _ (by omega)]
              exact hwf.slot_raw i hi (by omega)
        · intro i _ hin
          show Ptr.slot (Option.map _ _) i = _
          exact Ptr.slot_map_overwrite_out _ _ _ _ _ (by omega)
      · refine ⟨v, ?_, hwf, by omega, rfl, fun _ _ _ => rfl, fun i h1 h2 => by omega,
          fun _ => rfl, fun h => by omega⟩
        unfold vector.resize
        simp only [gt_iff_lt, hn, if_false, hgt, hlt]

/-- Effect of `shrink_to_fit` on a well-formed state when the strategy grants the request
for exactly `size` slots (made only when `0 < size < capacity`). -/
theorem vector.shrink_to_fit_spec [Allocator A] (v : vector T A) (hwf : v.WF)
    (hg : v._size = 0 ∨ v._capacity ≤ v._size ∨ Allocator.provides v._alloc v._size = true) :
    ∃ v', v.shrink_to_fit = .ok v' ∧ v'.WF ∧ v'._size = v._size ∧ v'._alloc = v._alloc ∧
      v'._capacity = v._size ∧
      (∀ i, i < v._size → v'._data.slot i = v._data.slot i) ∧
      (v._size = 0 → v'._data = none) := by
  have hsc := hwf.1
  by_cases h0 : v._size = 0
  · refine ⟨{ v with _data := none, _capacity := 0 }, ?_, ?_, rfl, rfl, h0.symm,
      fun i hi => by omega, fun _ => rfl⟩
    · unfold vector.shrink_to_fit
      simp only [h0, if_true]
    · apply vector.WF_of_slots
      · show v._size ≤ 0
        omega
      · exact Nat.zero_le _
      · rfl
      · intro i hi
        simp only at hi
        omega
      · intro i hi
        simp only at hi
        omega
  · by_cases hlt : v._size < v._capacity
    · have hp : Allocator.provides v._alloc v._size = true := by
        rcases hg with h | h | h
        · omega
        · omega
        · exact h
      refine ⟨{ v with
        _capacity := v._size
        _data := some (overwrite (List.replicate v._size none) 0 v._size
          (fun j => (v._data.slot j).join)) }, ?_,
        vector.WF_grown v hwf v._size (Nat.le_refl _) hp, rfl, rfl, rfl, ?_,
        fun h => by omega⟩
      · unfold vector.shrink_to_fit vector.move_range
        simp only [h0, if_false, hlt, if_true, allocate_eq _ _ hp,
          vector.relocate_eq v hwf v._size (Nat.le_refl _)]
      · intro i hi
        simp only [slot_fresh]
        rw [if_pos hi, if_pos hi]
        exact (hwf.slot_join i hi).2.symm
    · refine ⟨v, ?_, hwf, rfl, rfl, by omega, fun _ _ => rfl, fun h => by omega⟩
      unfold vector.shrink_to_fit
      simp only [h0, if_false, hlt]

/-- Effect of `emplace_back` on a well-formed state when the strategy grants the request
made by `reserve(size + 1)`. -/
theorem vector.emplace_back_spec [Allocator A] (v : vector T A) (hwf : v.WF) (val : T)
    (hg : vector.grants v._alloc v._capacity (v._size + 1) = true) :
    ∃ v', v.emplace_back val = .ok v' ∧ v'.WF ∧ v'._size = v._size + 1 ∧
      v'._alloc = v._alloc ∧ v'._data.slot v._size = some (some val) ∧
      (∀ i, i < v._size → v'._data.slot i = v._data.slot i) ∧
      v._capacity ≤ v'._capacity ∧
      (v._size + 1 ≤ v._capacity → v'._capacity = v._capacity) ∧
      (v._capacity < v._size + 1 →
        new_capacity v._capacity (v._size + 1) = some v'._capacity) := by
  have hsc := hwf.1
  have hmax := hwf.2.1
  have hmod : (v._size + 1) % usize_range = v._size + 1 := by
    unfold max_count at hmax
    unfold usize_range
    omega
  obtain ⟨v1, hr, hwf1, hs1, ha1, hn1, hc1, hsl1, hsame, hnew⟩ :=
    vector.reserve_spec v hwf (v._size + 1) hg
  have hraw := hwf1.slot_raw v._size (by omega) (by omega)
  have hc := Ptr.construct_at_eq v1._data v._size val ⟨_, hraw⟩
  refine ⟨{ v1 with
    _data := v1._data.map (fun b => overwrite b v._size (v._size + 1) (fun _ => some val))
    _size := v._size + 1 }, ?_, ?_, rfl, ha1, ?_, ?_, hc1, ?_, hnew⟩
  · rw [vector.emplace_back_eq]
    simp only [hmod, hr, hs1, hc]
  · apply vector.WF_of_slots
    · exact hn1
    · exact hwf1.2.1
    · simp only [Ptr.length_map_overwrite]
      exact hwf1.2.2.1
    · intro i hi
      simp only at hi
      show ∃ x, Ptr.slot (Option.map _ _) i = _
      by_cases hlt : i < v._size
      · rw [Ptr.slot_map_overwrite_out _ _ _ _ _ (by omega)]
        exact hwf1.slot_live i (by omega)
      · exact ⟨val, Ptr.slot_map_overwrite_in _ _ _ _ _ ⟨by omega, hi⟩ _
          (by rw [show i = v._size by omega]; exact hraw)⟩
    · intro i hi hsz
      simp only at hi hsz
      show Ptr.slot (Option.map _ _) i = _
      rw [Ptr.slot_map_overwrite_out _ _ _ _ _ (by omega)]
      exact hwf1.slot_raw i hi (by omega)
  · show Ptr.slot (Option.map _ _) v._size = _
    exact Ptr.slot_map_overwrite_in _ _ _ _ _ ⟨Nat.le_refl _, by omega⟩ _ hraw
  · intro i hi
    show Ptr.slot (Option.map _ _) i = _
    rw [Ptr.slot_map_overwrite_out _ _ _ _ _ (by omega)]
    exact hsl1 i hi
  · intro h
    show v1._capacity = v._capacity
    rw [hsame h]

end wellformed

/-! ## The claims -/

section claims

variable {T A : Type}

theorem vector.resize_size_le [Allocator A] [Inhabited T] (v v' : vector T A) (n : Nat)
    (h : v.resize n = .ok v') : v'._size ≤ v'._capacity ∧ v._capacity ≤ v'._capacity := by
  obtain ⟨hs, _, h1 | h1⟩ := vector.resize_inv v v' n h
  · omega
  · have := new_capacity_ge _ _ _ h1.2.1
    omega

theorem vector.reserve_size_le [Allocator A] (v v' : vector T A) (n : Nat)
    (hv : v._size ≤ v._capacity) (h : v.reserve n = .ok v') :
    v'._size ≤ v'._capacity ∧ v._capacity ≤ v'._capacity ∧ n ≤ v'._capacity := by
  obtain ⟨hs, _, h1 | h1⟩ := vector.reserve_inv v v' n h
  · rw [h1.2]
    omega
  · have := new_capacity_ge _ _ _ h1.2.1
    omega

theorem vector.reserve_capacity_le [Allocator A] (v v' : vector T A) (n : Nat)
    (h : v.reserve n = .ok v') : v._capacity ≤ v'._capacity ∧ n ≤ v'._capacity := by
  obtain ⟨hs, _, h1 | h1⟩ := vector.reserve_inv v v' n h
  · rw [h1.2]
    omega
  · have := new_capacity_ge _ _ _ h1.2.1
    omega

theorem vector.emplace_back_size_le [Allocator A] (v v' : vector T A) (val : T)
    (h : v.emplace_back val = .ok v') :
    v'._size ≤ v'._capacity ∧ v._capacity ≤ v'._capacity := by
  obtain ⟨v1, hr, _, hc, _, hs⟩ := vector.emplace_back_inv v v' val h
  obtain ⟨h1, h2⟩ := vector.reserve_capacity_le v v1 _ hr
  obtain ⟨hs1, _, _⟩ := vector.reserve_inv v v1 _ hr
  rw [hs, hc, hs1]
  exact ⟨h2, h1⟩

/-- C1: size never exceeds capacity.  The default, sized, copy, move and fixed-array
constructors produce a state with `size <= capacity` (the copy and move constructors from
a source `v` with `size <= capacity`), and from every state `v` with `size <= capacity`
each mutating operation that completes (reserve, resize, shrink_to_fit, emplace_back,
push_back, pop_back, clear, copy assignment, move assignment from a source with
`size <= capacity`, fixed-array assignment) yields a state with `size <= capacity`. -/
theorem size_le_capacity [Allocator A] [Inhabited T] (v : vector T A)
    (h : v._size ≤ v._capacity) :
    ((vector.ctor_default : vector T A)._size ≤ (vector.ctor_default : vector T A)._capacity) ∧
    (∀ n (v' : vector T A), vector.ctor_size n = .ok v' → v'._size ≤ v'._capacity) ∧
    (∀ v', v.ctor_copy = .ok v' → v'._size ≤ v'._capacity) ∧
    (v.ctor_move.1._size ≤ v.ctor_move.1._capacity ∧
      v.ctor_move.2._size ≤ v.ctor_move.2._capacity) ∧
    (∀ arr (v' : vector T A), vector.ctor_array arr = .ok v' → v'._size ≤ v'._capacity) ∧
    (∀ n v', v.reserve n = .ok v' → v'._size ≤ v'._capacity) ∧
    (∀ n v', v.resize n = .ok v' → v'._size ≤ v'._capacity) ∧
    (∀ v', v.shrink_to_fit = .ok v' → v'._size ≤ v'._capacity) ∧
    (∀ val v', v.emplace_back val = .ok v' → v'._size ≤ v'._capacity) ∧
    (∀ val v', v.push_back val = .ok v' → v'._size ≤ v'._capacity) ∧
    (∀ v', v.pop_back = .ok v' → v'._size ≤ v'._capacity) ∧
    (∀ v', v.clear = .ok v' → v'._size ≤ v'._capacity) ∧
    (∀ rhs v', v.operator_assign rhs = .ok v' → v'._size ≤ v'._capacity) ∧
    (∀ rhs r, rhs._size ≤ rhs._capacity → v.operator_assign_move rhs = .ok r →
      r.1._size ≤ r.1._capacity ∧ r.2._size ≤ r.2._capacity) ∧
    (∀ arr v', v.operator_assign_array arr = .ok v' → v'._size ≤ v'._capacity) := by
  refine ⟨Nat.le_refl _, ?_, ?_, ⟨h, Nat.le_refl _⟩, ?_, ?_, ?_, ?_, ?_, ?_, ?_, ?_, ?_, ?_, ?_⟩
  · intro n v' hv
    exact (vector.resize_size_le _ v' n hv).1
  · intro v' hv
    obtain ⟨h1, h2, _⟩ := vector.ctor_copy_inv v v' hv
    omega
  · intro arr v' hv
    obtain ⟨h1, h2⟩ := vector.ctor_array_inv arr v' hv
    omega
  · intro n v' hv
    exact (vector.reserve_size_le v v' n h hv).1
  · intro n v' hv
    exact (vector.resize_size_le v v' n hv).1
  · intro v' hv
    obtain ⟨hs, _, h1 | h1 | h1⟩ := vector.shrink_to_fit_inv v v' hv
    · omega
    · omega
    · rw [h1.2.2]
      exact h
  · intro val v' hv
    exact (vector.emplace_back_size_le v v' val hv).1
  · intro val v' hv
    exact (vector.emplace_back_size_le v v' val hv).1
  · intro v' hv
    obtain ⟨hc, _, h1 | h1⟩ := vector.pop_back_inv v v' hv
    · rw [h1.2]
      exact h
    · omega
  · intro v' hv
    obtain ⟨hs, _, _⟩ := vector.clear_inv v v' hv
    omega
  · intro rhs v' hv
    obtain ⟨h1, h2, _⟩ := vector.assign_from_inv v v' _ _ hv
    omega
  · intro rhs r hr hv
    obtain ⟨h1, h2, _, _, h3, h4, _⟩ := vector.operator_assign_move_inv v rhs r hv
    omega
  · intro arr v' hv
    obtain ⟨h1, h2, _⟩ := vector.assign_from_inv v v' _ _ hv
    omega

/-- C3: for every container and every `n > capacity`, a completed `reserve(n)` leaves a
capacity equal to the first term `>= n` of the sequence starting at `capacity` (or `1`
when the capacity is `0`) with steps `c += (c + 1) / 2`, so the new capacity is `>= n`;
and on a well-formed container `reserve(n)` completes whenever the strategy provides that
first term. -/
theorem reserve_capacity_first_term [Allocator A] (v : vector T A) (n : Nat)
    (hn : v._capacity < n) :
    (∀ v', v.reserve n = .ok v' →
      first_term_ge (if v._capacity ≠ 0 then v._capacity else 1) n v'._capacity ∧
      n ≤ v'._capacity) ∧
    (v.WF → ∀ c, first_term_ge (if v._capacity ≠ 0 then v._capacity else 1) n c →
      Allocator.provides v._alloc c = true →
      ∃ v', v.reserve n = .ok v' ∧ v'._capacity = c) := by
  constructor
  · intro v' hv
    obtain ⟨_, _, h1 | ⟨_, h2, h3⟩⟩ := vector.reserve_inv v v' n hv
    · omega
    · exact ⟨new_capacity_first_term _ _ _ h2 (Allocator.provides_le _ _ h3),
        new_capacity_ge _ _ _ h2⟩
  · intro hwf c hc hp
    have hnc := new_capacity_of_first_term _ _ _ hc (Allocator.provides_le _ _ hp)
    exact ⟨_, vector.reserve_grow_eq v hwf n c hn hnc hp, rfl⟩

/-- C4: `reserve` never changes what the container holds.  On a well-formed container a
completed `reserve(n)` leaves the size and every live element (index `< size`) as they
were, and leaves the whole state unchanged when `n <= capacity`; it completes whenever the
strategy grants the request. -/
theorem reserve_frame [Allocator A] (v : vector T A) (hwf : v.WF) (n : Nat) :
    (∀ v', v.reserve n = .ok v' →
      v'._size = v._size ∧
      (∀ i, i < v._size → ∃ x, v.at_unchecked i = .ok x ∧ v'.at_unchecked i = .ok x) ∧
      (n ≤ v._capacity → v' = v)) ∧
    (vector.grants v._alloc v._capacity n = true → ∃ v', v.reserve n = .ok v') := by
  constructor
  · intro v' hv
    obtain ⟨w, hw, _, hs, _, _, _, hsl, hsame, _⟩ :=
      vector.reserve_spec v hwf n (vector.reserve_ok_grants v v' n hv)
    rw [hv] at hw
    simp only [Except.ok.injEq] at hw
    subst hw
    refine ⟨hs, ?_, hsame⟩
    intro i hi
    obtain ⟨x, hx⟩ := hwf.slot_live i hi
    exact ⟨x, Ptr.read_of_slot _ _ _ hx, Ptr.read_of_slot _ _ _ (by rw [hsl i hi]; exact hx)⟩
  · intro hg
    obtain ⟨w, hw, _⟩ := vector.reserve_spec v hwf n hg
    exact ⟨w, hw⟩

/-- C5: on a well-formed container a completed `resize(n)` leaves `size == n`, keeps the
elements at the indices `[0, min(old size, n))`, and makes every element at an index in
`[old size, n)` the default-constructed value of `T`; it completes whenever the strategy
grants the request. -/
theorem resize_effect [Allocator A] [Inhabited T] (v : vector T A) (hwf : v.WF) (n : Nat) :
    (∀ v', v.resize n = .ok v' →
      v'._size = n ∧
      (∀ i, i < min v._size n → ∃ x, v.at_unchecked i = .ok x ∧ v'.at_unchecked i = .ok x) ∧
      (∀ i, v._size ≤ i → i < n → v'.at_unchecked i = .ok default)) ∧
    (vector.grants v._alloc v._capacity n = true → ∃ v', v.resize n = .ok v') := by
  constructor
  · intro v' hv
    have hg : vector.grants v._alloc v._capacity n = true := by
      obtain ⟨_, _, h1 | ⟨_, h2, h3⟩⟩ := vector.resize_inv v v' n hv
      · exact (vector.grants_iff _ _ _).mpr (Or.inl h1.1)
      · exact (vector.grants_iff _ _ _).mpr (Or.inr ⟨_, h2, h3⟩)
    obtain ⟨w, hw, _, hs, _, hold, hnew, _⟩ := vector.resize_spec v hwf n hg
    rw [hv] at hw
    simp only [Except.ok.injEq] at hw
    subst hw
    refine ⟨hs, ?_, ?_⟩
    · intro i hi
      have h1 : i < v._size := by omega
      have h2 : i < n := by omega
      obtain ⟨x, hx⟩ := hwf.slot_live i h1
      exact ⟨x, Ptr.read_of_slot _ _ _ hx,
        Ptr.read_of_slot _ _ _ (by rw [hold i h1 h2]; exact hx)⟩
    · intro i h1 h2
      exact Ptr.read_of_slot _ _ _ (hnew i h1 h2)
  · intro hg
    obtain ⟨w, hw, _⟩ := vector.resize_spec v hwf n hg
    exact ⟨w, hw⟩

/-- C6: for every container with `size <= capacity` and every `n > capacity`, `resize(n)`
has exactly the outcome of `reserve(n)` followed by `resize(n)`: the same state (strategy,
buffer, size, capacity) when they complete and the same failure otherwise; on a well-formed
container both complete whenever the strategy grants the request. -/
theorem resize_eq_reserve_then_resize [Allocator A] [Inhabited T] (v : vector T A)
    (h : v._size ≤ v._capacity) (n : Nat) (hn : v._capacity < n) :
    (v.resize n =
      match v.reserve n with
      | .ok v1 => v1.resize n
      | .error e => .error e) ∧
    (v.WF → vector.grants v._alloc v._capacity n = true →
      ∃ v1 v', v.reserve n = .ok v1 ∧ v1.resize n = .ok v' ∧ v.resize n = .ok v') := by
  have key : v.resize n =
      match v.reserve n with
      | .ok v1 => v1.resize n
      | .error e => .error e := by
    unfold vector.reserve
    simp only [gt_iff_lt, hn, if_true]
    cases hnc : new_capacity v._capacity n with
    | none => simp [vector.resize, hn, hnc]
    | some nc =>
      have hge := new_capacity_ge _ _ _ hnc
      cases ha : (allocate v._alloc nc : Except Fault (Ptr T)) with
      | error e => simp [vector.resize, hn, hnc, ha]
      | ok nb =>
        cases hl : for_up 0 v._size vector.relocate_body (v._data, nb) with
        | error e => simp [vector.resize, hn, hnc, ha, hl]
        | ok s =>
          have h1 : ¬ nc < n := by omega
          have h2 : v._size < n := by omega
          simp only [vector.resize, gt_iff_lt, hn, if_true, hnc, ha, hl, h1, if_false, h2]
  refine ⟨key, ?_⟩
  intro hwf hg
  obtain ⟨v1, hv1, _⟩ := vector.reserve_spec v hwf n hg
  obtain ⟨v', hv', _⟩ := vector.resize_spec v hwf n hg
  refine ⟨v1, v', hv1, ?_, hv'⟩
  rw [key, hv1] at hv'
  exact hv'

/-- C7: removal and in-capacity resizing never reallocate.  On a well-formed container
`pop_back()`, `clear()` and `resize(n)` with `n <= capacity` all complete and leave the
capacity exactly as it was. -/
theorem removal_keeps_capacity [Allocator A] [Inhabited T] (v : vector T A) (hwf : v.WF) :
    (∃ v', v.pop_back = .ok v' ∧ v'._capacity = v._capacity) ∧
    (∃ v', v.clear = .ok v' ∧ v'._capacity = v._capacity) ∧
    (∀ n, n ≤ v._capacity → ∃ v', v.resize n = .ok v' ∧ v'._capacity = v._capacity) := by
  refine ⟨?_, ?_, ?_⟩
  · obtain ⟨w, hw, _, _, hc, _⟩ := vector.pop_back_spec v hwf
    exact ⟨w, hw, hc⟩
  · obtain ⟨w, hw, _, _, hc, _⟩ := vector.clear_spec v hwf
    exact ⟨w, hw, hc⟩
  · intro n hn
    obtain ⟨w, hw, _, _, _, _, _, hc, _⟩ :=
      vector.resize_spec v hwf n ((vector.grants_iff _ _ _).mpr (Or.inl hn))
    exact ⟨w, hw, hc hn⟩

/-- C8: capacity never decreases except by explicit compaction.  From every state, each of
reserve, resize, emplace_back, push_back, pop_back, clear, copy assignment and fixed-array
assignment, when it completes, leaves `capacity >=` its previous value; `shrink_to_fit`
does lower the capacity of some well-formed container. -/
theorem capacity_never_decreases [Allocator A] [Inhabited T] (v : vector T A) :
    (∀ n v', v.reserve n = .ok v' → v._capacity ≤ v'._capacity) ∧
    (∀ n v', v.resize n = .ok v' → v._capacity ≤ v'._capacity) ∧
    (∀ val v', v.emplace_back val = .ok v' → v._capacity ≤ v'._capacity) ∧
    (∀ val v', v.push_back val = .ok v' → v._capacity ≤ v'._capacity) ∧
    (∀ v', v.pop_back = .ok v' → v._capacity ≤ v'._capacity) ∧
    (∀ v', v.clear = .ok v' → v._capacity ≤ v'._capacity) ∧
    (∀ rhs v', v.operator_assign rhs = .ok v' → v._capacity ≤ v'._capacity) ∧
    (∀ arr v', v.operator_assign_array arr = .ok v' → v._capacity ≤ v'._capacity) ∧
    (∃ w w' : vector T A, w.WF ∧ w.shrink_to_fit = .ok w' ∧ w'._capacity < w._capacity) := by
  refine ⟨?_, ?_, ?_, ?_, ?_, ?_, ?_, ?_, ?_⟩
  · intro n v' hv
    exact (vector.reserve_capacity_le v v' n hv).1
  · intro n v' hv
    exact (vector.resize_size_le v v' n hv).2
  · intro val v' hv
    exact (vector.emplace_back_size_le v v' val hv).2
  · intro val v' hv
    exact (vector.emplace_back_size_le v v' val hv).2
  · intro v' hv
    obtain ⟨hc, _⟩ := vector.pop_back_inv v v' hv
    omega
  · intro v' hv
    obtain ⟨_, hc, _⟩ := vector.clear_inv v v' hv
    omega
  · intro rhs v' hv
    exact (vector.assign_from_inv v v' _ _ hv).2.2.1
  · intro arr v' hv
    exact (vector.assign_from_inv v v' _ _ hv).2.2.1
  · refine ⟨{ _alloc := Allocator.init, _data := some [none], _size := 0, _capacity := 1 },
      { _alloc := Allocator.init, _data := none, _size := 0, _capacity := 0 }, ?_, rfl, ?_⟩
    · apply vector.WF_of_slots
      · exact Nat.zero_le _
      · show 1 ≤ max_count
        unfold max_count
        omega
      · rfl
      · intro i hi
        simp only at hi
        omega
      · intro i hi _
        simp only at hi
        have : i = 0 := by omega
        subst this
        rfl
    · show 0 < 1
      omega

/-- C9: on a well-formed container a completed `shrink_to_fit()` leaves
`capacity == size`, keeps the size and every live element, and when `size == 0` leaves a
null buffer with `capacity == 0`; it completes whenever the strategy provides `size`
slots (a request made only when `0 < size < capacity`). -/
theorem shrink_to_fit_effect [Allocator A] (v : vector T A) (hwf : v.WF) :
    (∀ v', v.shrink_to_fit = .ok v' →
      v'._capacity = v'._size ∧ v'._size = v._size ∧
      (∀ i, i < v._size → ∃ x, v.at_unchecked i = .ok x ∧ v'.at_unchecked i = .ok x) ∧
      (v._size = 0 → v'._data = none ∧ v'._capacity = 0)) ∧
    ((v._size = 0 ∨ v._capacity ≤ v._size ∨ Allocator.provides v._alloc v._size = true) →
      ∃ v', v.shrink_to_fit = .ok v') := by
  constructor
  · intro v' hv
    have hg : v._size = 0 ∨ v._capacity ≤ v._size ∨
        Allocator.provides v._alloc v._size = true := by
      obtain ⟨_, _, h1 | h1 | h1⟩ := vector.shrink_to_fit_inv v v' hv
      · exact Or.inl h1.1
      · exact Or.inr (Or.inr h1.2.2.2)
      · exact Or.inr (Or.inl h1.2.1)
    obtain ⟨w, hw, _, hs, _, hc, hsl, hnull⟩ := vector.shrink_to_fit_spec v hwf hg
    rw [hv] at hw
    simp only [Except.ok.injEq] at hw
    subst hw
    refine ⟨by omega, hs, ?_, fun h0 => ⟨hnull h0, by omega⟩⟩
    intro i hi
    obtain ⟨x, hx⟩ := hwf.slot_live i hi
    exact ⟨x, Ptr.read_of_slot _ _ _ hx, Ptr.read_of_slot _ _ _ (by rw [hsl i hi]; exact hx)⟩
  · intro hg
    obtain ⟨w, hw, _⟩ := vector.shrink_to_fit_spec v hwf hg
    exact ⟨w, hw⟩

theorem vector.emplace_back_ok_spec [Allocator A] (v v' : vector T A) (hwf : v.WF) (val : T)
    (hv : v.emplace_back val = .ok v') :
    v'.WF ∧ v'._size = v._size + 1 ∧ v'._alloc = v._alloc ∧
      v'._data.slot v._size = some (some val) ∧
      (∀ i, i < v._size → v'._data.slot i = v._data.slot i) := by
  have hg : vector.grants v._alloc v._capacity (v._size + 1) = true := by
    obtain ⟨v1, hr, _⟩ := vector.emplace_back_inv v v' val hv
    have hmod : (v._size + 1) % usize_range = v._size + 1 := by
      have h1 := hwf.1
      have h2 := hwf.2.1
      unfold max_count at h2
      unfold usize_range
      omega
    rw [hmod] at hr
    exact vector.reserve_ok_grants v v1 _ hr
  obtain ⟨w, hw, hwf', hs, ha, hnew, hold, _⟩ := vector.emplace_back_spec v hwf val hg
  rw [hv] at hw
  simp only [Except.ok.injEq] at hw
  subst hw
  exact ⟨hwf', hs, ha, hnew, hold⟩

theorem vector.holds_step [Allocator A] (v v' : vector T A) (l : List T) (op : Op T)
    (h : v.holds l) (hv : v.step op = .ok v') : v'.holds (reference_step l op) := by
  obtain ⟨hwf, hlen, hl⟩ := h
  cases op with
  | push_back val =>
    obtain ⟨hwf', hs, _, hnew, hold⟩ := vector.emplace_back_ok_spec v v' hwf val hv
    refine ⟨hwf', ?_, ?_⟩
    · simp [reference_step, hs, hlen]
    · intro i x hx
      simp only [reference_step] at hx
      by_cases hi : i < l.length
      · rw [List.getElem?_append_left hi] at hx
        rw [hold i (by omega)]
        exact hl i x hx
      · have hi' : i = l.length := by
          have := (List.getElem?_eq_some_iff.mp hx).1
          simp at this
          omega
        subst hi'
        rw [List.getElem?_concat_length] at hx
        simp only [Option.some.injEq] at hx
        subst hx
        rw [← hlen]
        exact hnew
  | pop_back =>
    obtain ⟨w, hw, hwf', hs, _, _, _, hold⟩ := vector.pop_back_spec v hwf
    have hv2 : v.pop_back = .ok v' := hv
    rw [hv2] at hw
    simp only [Except.ok.injEq] at hw
    subst hw
    refine ⟨hwf', ?_, ?_⟩
    · simp [reference_step, hs, hlen]
    · intro i x hx
      simp only [reference_step, List.getElem?_dropLast] at hx
      split at hx
      · rename_i hi
        rw [hold i (by omega)]
        exact hl i x hx
      · simp at hx

theorem vector.holds_run [Allocator A] :
    ∀ (ops : List (Op T)) (v v' : vector T A) (l : List T),
      v.holds l → v.run ops = .ok v' → v'.holds (reference_run l ops) := by
  intro ops
  induction ops with
  | nil =>
    intro v v' l h hv
    simp only [vector.run, Except.ok.injEq] at hv
    subst hv
    exact h
  | cons op ops ih =>
    intro v v' l h hv
    simp only [vector.run] at hv
    split at hv
    · rename_i v1 hv1
      exact ih v1 v' _ (vector.holds_step v v1 l op h hv1) hv
    · simp at hv

theorem grants_size_succ [Allocator A] (a : A) (size cap m : Nat) (hs : size ≤ cap)
    (hm : size ≤ m) (hp : ∀ c, c ≤ 2 * (m + 1) → Allocator.provides a c = true) :
    vector.grants a cap (size + 1) = true ∧
      ∀ c, new_capacity cap (size + 1) = some c → cap < size + 1 → c ≤ 2 * (m + 1) := by
  by_cases hle : size + 1 ≤ cap
  · exact ⟨(vector.grants_iff _ _ _).mpr (Or.inl hle), fun c _ h => by omega⟩
  · have hcap : cap = size := by omega
    subst hcap
    by_cases h0 : cap = 0
    · subst h0
      have hft : first_term_ge (if (0 : Nat) ≠ 0 then 0 else 1) (0 + 1) 1 :=
        ⟨0, rfl, by omega, fun j hj => by omega⟩
      have hp1 := hp 1 (by omega)
      have hnc := new_capacity_of_first_term 0 (0 + 1) 1 hft (Allocator.provides_le _ _ hp1)
      refine ⟨(vector.grants_iff _ _ _).mpr (Or.inr ⟨1, hnc, hp1⟩), ?_⟩
      intro c hc _
      rw [hnc] at hc
      simp only [Option.some.injEq] at hc
      omega
    · have hft : first_term_ge (if cap ≠ 0 then cap else 1) (cap + 1) (cap + (cap + 1) / 2) := by
        rw [if_pos h0]
        refine ⟨1, rfl, by omega, fun j hj => ?_⟩
        have : j = 0 := by omega
        subst this
        show cap < cap + 1
        omega
      have hp1 := hp (cap + (cap + 1) / 2) (by omega)
      have hnc := new_capacity_of_first_term cap (cap + 1) _ hft (Allocator.provides_le _ _ hp1)
      refine ⟨(vector.grants_iff _ _ _).mpr (Or.inr ⟨_, hnc, hp1⟩), ?_⟩
      intro c hc _
      rw [hnc] at hc
      simp only [Option.some.injEq] at hc
      omega

theorem vector.run_total [Allocator A] :
    ∀ (ops : List (Op T)) (v : vector T A) (m : Nat), v.WF → v._size ≤ m →
      v._capacity ≤ 2 * m →
      (∀ c, c ≤ 2 * (m + ops.length) → Allocator.provides v._alloc c = true) →
      ∃ v', v.run ops = .ok v' := by
  intro ops
  induction ops with
  | nil => intro v m _ _ _ _; exact ⟨v, rfl⟩
  | cons op ops ih =>
    intro v m hwf hs hc hp
    have hlen : (op :: ops).length = ops.length + 1 := rfl
    cases op with
    | push_back val =>
      obtain ⟨hg, hbound⟩ := grants_size_succ v._alloc v._size v._capacity m hwf.1 hs
        (fun c hc' => hp c (by rw [hlen]; omega))
      obtain ⟨v1, hv1, hwf1, hs1, ha1, _, _, _, hsame, hnew⟩ :=
        vector.emplace_back_spec v hwf val hg
      have hc1 : v1._capacity ≤ 2 * (m + 1) := by
        by_cases hle : v._size + 1 ≤ v._capacity
        · rw [hsame hle]
          omega
        · exact hbound _ (hnew (by omega)) (by omega)
      obtain ⟨v', hv'⟩ := ih v1 (m + 1) hwf1 (by omega) hc1
        (fun c hc' => by rw [ha1]; exact hp c (by rw [hlen]; omega))
      refine ⟨v', ?_⟩
      simp only [vector.run, vector.step, vector.push_back, hv1]
      exact hv'
    | pop_back =>
      obtain ⟨v1, hv1, hwf1, hs1, hc1, ha1, _⟩ := vector.pop_back_spec v hwf
      obtain ⟨v', hv'⟩ := ih v1 (m + 1) hwf1 (by omega) (by omega)
        (fun c hc' => by rw [ha1]; exact hp c (by rw [hlen]; omega))
      refine ⟨v', ?_⟩
      simp only [vector.run, vector.step, hv1]
      exact hv'

theorem vector.holds_default [Allocator A] : (vector.ctor_default : vector T A).holds [] := by
  refine ⟨?_, rfl, ?_⟩
  · apply vector.WF_of_slots
    · exact Nat.le_refl _
    · exact Nat.zero_le _
    · rfl
    · intro i hi
      simp [vector.ctor_default] at hi
    · intro i hi
      simp [vector.ctor_default] at hi
  · intro i x hx
    simp at hx

/-! ## The claims on concrete containers -/

theorem size_le_capacity_witness :
    sample._size ≤ sample._capacity ∧
    (∃ v', sample.reserve 5 = .ok v' ∧ v'._size ≤ v'._capacity) ∧
    (∃ v', sample.resize 5 = .ok v' ∧ v'._size ≤ v'._capacity) ∧
    (∃ v', sample.shrink_to_fit = .ok v' ∧ v'._size ≤ v'._capacity) ∧
    (∃ v', sample.emplace_back 9 = .ok v' ∧ v'._size ≤ v'._capacity) ∧
    (∃ v', sample.pop_back = .ok v' ∧ v'._size ≤ v'._capacity) ∧
    (∃ v', sample.clear = .ok v' ∧ v'._size ≤ v'._capacity) ∧
    (∃ v', sample.operator_assign sample_full = .ok v' ∧ v'._size ≤ v'._capacity) ∧
    (∃ r, sample.operator_assign_move sample_full = .ok r ∧ r.1._size ≤ r.1._capacity) ∧
    (∃ v', sample.operator_assign_array [1, 2, 3, 4] = .ok v' ∧ v'._size ≤ v'._capacity) := by
  obtain ⟨_, _, _, _, _, h6, h7, h8, h9, _, h11, h12, h13, h14, h15⟩ :=
    size_le_capacity sample (by decide)
  refine ⟨by decide, ?_, ?_, ?_, ?_, ?_, ?_, ?_, ?_, ?_⟩
  · exact ⟨⟨{}, some [some 7, some 8, none, none, none], 2, 5⟩, by decide,
      h6 5 _ (by decide)⟩
  · exact ⟨⟨{}, some [some 7, some 8, some 0, some 0, some 0], 5, 5⟩, by decide,
      h7 5 _ (by decide)⟩
  · exact ⟨⟨{}, some [some 7, some 8], 2, 2⟩, by decide, h8 _ (by decide)⟩
  · exact ⟨⟨{}, some [some 7, some 8, some 9], 3, 3⟩, by decide, h9 9 _ (by decide)⟩
  · exact ⟨⟨{}, some [some 7, none, none], 1, 3⟩, by decide, h11 _ (by decide)⟩
  · exact ⟨⟨{}, some [none, none, none], 0, 3⟩, by decide, h12 _ (by decide)⟩
  · exact ⟨⟨{}, some [some 7, some 8, none], 2, 3⟩, by decide, h13 sample_full _ (by decide)⟩
  · exact ⟨(⟨{}, some [some 7, some 8], 2, 2⟩, ⟨{}, none, 0, 0⟩), by decide,
      (h14 sample_full _ (by decide) (by decide)).1⟩
  · exact ⟨⟨{}, some [some 1, some 2, some 3, some 4, none], 4, 5⟩, by decide,
      h15 [1, 2, 3, 4] _ (by decide)⟩

theorem reserve_capacity_first_term_witness :
    sample_full._capacity < 5 ∧
    (∃ v', sample_full.reserve 5 = .ok v' ∧ v'._capacity = 5 ∧
      first_term_ge (if sample_full._capacity ≠ 0 then sample_full._capacity else 1) 5
        v'._capacity ∧ 5 ≤ v'._capacity) := by
  have h := (reserve_capacity_first_term sample_full 5 (by decide)).1
    ⟨{}, some [some 7, some 8, none, none, none], 2, 5⟩ (by decide)
  exact ⟨by decide, _, by decide, rfl, h.1, h.2⟩

theorem reserve_frame_witness :
    sample_full.WF ∧
    (∃ v', sample_full.reserve 5 = .ok v' ∧ v'._size = 2 ∧
      (∀ i, i < sample_full._size →
        ∃ x, sample_full.at_unchecked i = .ok x ∧ v'.at_unchecked i = .ok x)) := by
  have h := (reserve_frame sample_full (by decide) 5).1
    ⟨{}, some [some 7, some 8, none, none, none], 2, 5⟩ (by decide)
  exact ⟨by decide, _, by decide, h.1, h.2.1⟩

theorem resize_effect_witness :
    sample.WF ∧
    (∃ v', sample.resize 5 = .ok v' ∧ v'._size = 5 ∧
      (∀ i, i < min sample._size 5 →
        ∃ x, sample.at_unchecked i = .ok x ∧ v'.at_unchecked i = .ok x) ∧
      (∀ i, sample._size ≤ i → i < 5 → v'.at_unchecked i = .ok default)) := by
  have h := (resize_effect sample (by decide) 5).1
    ⟨{}, some [some 7, some 8, some 0, some 0, some 0], 5, 5⟩ (by decide)
  exact ⟨by decide, _, by decide, h.1, h.2.1, h.2.2⟩

theorem resize_eq_reserve_then_resize_witness :
    sample._size ≤ sample._capacity ∧ sample._capacity < 5 ∧
    (sample.resize 5 =
      match sample.reserve 5 with
      | .ok v1 => v1.resize 5
      | .error e => .error e) ∧
    sample.resize 5 = .ok ⟨{}, some [some 7, some 8, some 0, some 0, some 0], 5, 5⟩ :=
  ⟨by decide, by decide, (resize_eq_reserve_then_resize sample (by decide) 5 (by decide)).1,
    by decide⟩

theorem removal_keeps_capacity_witness :
    sample.WF ∧
    (∃ v', sample.pop_back = .ok v' ∧ v'._capacity = sample._capacity) ∧
    (∃ v', sample.clear = .ok v' ∧ v'._capacity = sample._capacity) ∧
    (∃ v', sample.resize 1 = .ok v' ∧ v'._capacity = sample._capacity) := by
  have h := removal_keeps_capacity sample (by decide)
  exact ⟨by decide, h.1, h.2.1, h.2.2 1 (by decide)⟩

theorem capacity_never_decreases_witness :
    (∃ v', sample_full.reserve 5 = .ok v' ∧ sample_full._capacity ≤ v'._capacity) ∧
    (∃ v', sample_full.emplace_back 9 = .ok v' ∧ sample_full._capacity ≤ v'._capacity) ∧
    (∃ v', sample_full.operator_assign sample = .ok v' ∧
      sample_full._capacity ≤ v'._capacity) := by
  obtain ⟨h1, _, h3, _, _, _, h7, _, _⟩ := capacity_never_decreases sample_full
  refine ⟨?_, ?_, ?_⟩
  · exact ⟨⟨{}, some [some 7, some 8, none, none, none], 2, 5⟩, by decide,
      h1 5 _ (by decide)⟩
  · exact ⟨⟨{}, some [some 7, some 8, some 9], 3, 3⟩, by decide, h3 9 _ (by decide)⟩
  · exact ⟨⟨{}, some [some 7, some 8], 2, 2⟩, by decide, h7 sample _ (by decide)⟩

theorem shrink_to_fit_effect_witness :
    sample.WF ∧
    (∃ v', sample.shrink_to_fit = .ok v' ∧ v'._capacity = v'._size ∧
      v'._size = sample._size ∧
      (∀ i, i < sample._size →
        ∃ x, sample.at_unchecked i = .ok x ∧ v'.at_unchecked i = .ok x)) := by
  have h := (shrink_to_fit_effect sample (by decide)).1
    ⟨{}, some [some 7, some 8], 2, 2⟩ (by decide)
  exact ⟨by decide, _, by decide, h.1, h.2.1, h.2.2.1⟩

end claims

/-! ## Removal, checked access and moves -/

section access_and_moves

variable {T A : Type}

/-- C11: `pop_back()` on a container with `size == 0` leaves the state unchanged; on a
well-formed container with `size > 0` it completes with `size == old size - 1` and the
elements at the indices `[0, old size - 1)` unchanged. -/
theorem pop_back_effect (v : vector T A) (hwf : v.WF) :
    (v._size = 0 → v.pop_back = .ok v) ∧
    (0 < v._size → ∃ v', v.pop_back = .ok v' ∧ v'._size = v._size - 1 ∧
      ∀ i, i < v._size - 1 → ∃ x, v.at_unchecked i = .ok x ∧ v'.at_unchecked i = .ok x) := by
  obtain ⟨w, hw, _, hs, _, _, hsame, hold⟩ := vector.pop_back_spec v hwf
  constructor
  · intro h0
    rw [hw, hsame h0]
  · intro _
    refine ⟨w, hw, hs, ?_⟩
    intro i hi
    obtain ⟨x, hx⟩ := hwf.slot_live i (by omega)
    exact ⟨x, Ptr.read_of_slot _ _ _ hx, Ptr.read_of_slot _ _ _ (by rw [hold i hi]; exact hx)⟩

theorem pop_back_effect_witness :
    sample.WF ∧ 0 < sample._size ∧
    (∃ v', sample.pop_back = .ok v' ∧ v'._size = sample._size - 1 ∧
      ∀ i, i < sample._size - 1 →
        ∃ x, sample.at_unchecked i = .ok x ∧ v'.at_unchecked i = .ok x) :=
  ⟨by decide, by decide, (pop_back_effect sample (by decide)).2 (by decide)⟩

/-- C12: for every container and every index, `at(index)` reports an out-of-range error
if and only if `index >= size`; when `index < size` it returns what `operator[]` and
`at_unchecked` return, which on a well-formed container is the element at that index; in
both cases the container state is unchanged. -/
theorem at_checked (v : vector T A) (index : Nat) :
    ((v.«at» index).1 = .error Fault.out_of_range ↔ index ≥ v._size) ∧
    (index < v._size →
      (v.«at» index).1 = v.subscript index ∧ (v.«at» index).1 = v.at_unchecked index) ∧
    (v.WF → index < v._size → ∃ x, (v.«at» index).1 = .ok x ∧ v._data.slot index = some (some x)) ∧
    (v.«at» index).2 = v := by
  by_cases h : index ≥ v._size
  · have e : v.«at» index = (.error Fault.out_of_range, v) := by
      unfold vector.«at»
      rw [if_pos h]
    rw [e]
    exact ⟨⟨fun _ => h, fun _ => rfl⟩, fun h1 => by omega, fun _ h1 => by omega, rfl⟩
  · have e : v.«at» index = (v._data.read index, v) := by
      unfold vector.«at»
      rw [if_neg h]
    rw [e]
    refine ⟨⟨?_, fun h1 => absurd h1 h⟩, fun _ => ⟨rfl, rfl⟩, ?_, rfl⟩
    · intro hc
      exfalso
      have hc' : v._data.read index = .error Fault.out_of_range := hc
      unfold Ptr.read at hc'
      split at hc' <;> simp at hc'
    · intro hwf hi
      obtain ⟨x, hx⟩ := hwf.slot_live index hi
      exact ⟨x, Ptr.read_of_slot _ _ _ hx, hx⟩

theorem at_checked_witness :
    (sample.«at» 1).1 = .ok 8 ∧ (sample.«at» 2).1 = .error Fault.out_of_range ∧
    (sample.«at» 5).1 = .error Fault.out_of_range ∧ (sample.«at» 5).2 = sample ∧
    sample.subscript 1 = .ok 8 := by
  have h1 := at_checked sample 1
  have h2 := at_checked sample 2
  have h5 := at_checked sample 5
  refine ⟨?_, h2.1.mpr (by decide), h5.1.mpr (by decide), h5.2.2.2, by decide⟩
  rw [(h1.2.1 (by decide)).1]
  decide

/-- C14: move construction from any container `s` yields a destination with the size,
capacity, buffer (hence the live elements) and strategy that `s` had, and leaves `s` with
`size == 0`, `capacity == 0` and a null buffer. -/
theorem move_construction_effect [Allocator A] (s : vector T A) :
    s.ctor_move.1 = s ∧
    s.ctor_move.1._size = s._size ∧ s.ctor_move.1._capacity = s._capacity ∧
    (∀ i, s.ctor_move.1.at_unchecked i = s.at_unchecked i) ∧
    s.ctor_move.2._size = 0 ∧ s.ctor_move.2._capacity = 0 ∧ s.ctor_move.2._data = none :=
  ⟨rfl, rfl, rfl, fun _ => rfl, rfl, rfl, rfl⟩

/-- C15: move assignment `d = move(s)` on a well-formed destination `d` and a distinct
source `s` completes; `d` ends with the size, capacity and buffer (hence the live
elements) that `s` had, every previous element of `d` having been destroyed by `clear()`,
and `s` ends with `size == 0`, `capacity == 0` and a null buffer. -/
theorem move_assignment_effect (d s : vector T A) (hwf : d.WF) :
    ∃ r, d.operator_assign_move s = .ok r ∧
      r.1._size = s._size ∧ r.1._capacity = s._capacity ∧ r.1._data = s._data ∧
      (∀ i, r.1.at_unchecked i = s.at_unchecked i) ∧
      (∃ v1, d.clear = .ok v1 ∧ ∀ i, i < d._capacity → v1._data.raw i = true) ∧
      r.2._size = 0 ∧ r.2._capacity = 0 ∧ r.2._data = none := by
  obtain ⟨v1, hv1, hwf1, hs1, hc1, _⟩ := vector.clear_spec d hwf
  refine ⟨_, by unfold vector.operator_assign_move; rw [hv1], rfl, rfl, rfl, fun _ => rfl,
    ⟨v1, hv1, ?_⟩, rfl, rfl, rfl⟩
  intro i hi
  exact hwf1.2.2.2.2 i (by omega) (by omega)

theorem move_assignment_effect_witness :
    sample.WF ∧
    (∃ r, sample.operator_assign_move sample_full = .ok r ∧
      r.1._size = 2 ∧ r.1._capacity = 2 ∧ r.1.at_unchecked 1 = .ok 8 ∧
      r.2._size = 0 ∧ r.2._capacity = 0 ∧ r.2._data = none) := by
  obtain ⟨r, hr, h1, h2, _, h4, _, h6, h7, h8⟩ :=
    move_assignment_effect sample sample_full (by decide)
  exact ⟨by decide, r, hr, h1, h2, (h4 1).trans (by decide), h6, h7, h8⟩

/-- C16: move assignment does not transfer the strategy.  For all `d` and `s`, after a
completed `d = move(s)` the destination owns the buffer of `s` but still holds its own
strategy value; on two arenas with different identities the strategy of `d` differs from
the one `s` held, whereas the move constructor does hand over the strategy of `s`. -/
theorem move_assignment_keeps_own_strategy :
    (∀ (d s : vector Nat (arena 10)) r, d.operator_assign_move s = .ok r →
      r.1._data = s._data ∧ r.1._alloc = d._alloc) ∧
    arena_dst.WF ∧ arena_src.WF ∧
    (∃ r, arena_dst.operator_assign_move arena_src = .ok r ∧
      r.1._data = arena_src._data ∧ r.1._alloc = arena_dst._alloc ∧
      r.1._alloc ≠ arena_src._alloc) ∧
    arena_src.ctor_move.1._alloc = arena_src._alloc := by
  refine ⟨?_, by decide, by decide, ?_, rfl⟩
  · intro d s r hr
    obtain ⟨_, _, h3, h4, _⟩ := vector.operator_assign_move_inv d s r hr
    exact ⟨h3, h4⟩
  · exact ⟨(⟨{ id := 1 }, some [some 7, some 8], 2, 2⟩, ⟨{ id := 2 }, none, 0, 0⟩),
      by decide, by decide, by decide, by decide⟩

end access_and_moves

/-! ## Copy assignment and fixed-array assignment -/

section assignment

variable {T A : Type}

theorem for_up_loop_append {S : Type} (body : Nat → S → Except Fault S) :
    ∀ (k1 k2 lo : Nat) (s : S),
      for_up_loop body (k1 + k2) lo s =
        match for_up_loop body k1 lo s with
        | .ok s1 => for_up_loop body k2 (lo + k1) s1
        | .error e => .error e := by
  intro k1
  induction k1 with
  | zero =>
    intro k2 lo s
    simp [for_up_loop]
  | succ k1 ih =>
    intro k2 lo s
    rw [show k1 + 1 + k2 = (k1 + k2) + 1 by omega]
    simp only [for_up_loop]
    cases hb : body lo s with
    | error e => rfl
    | ok s1 =>
      simp only []
      rw [ih k2 (lo + 1) s1, show lo + 1 + k1 = lo + (k1 + 1) by omega]

theorem for_up_loop_fails {S : Type} (body : Nat → S → Except Fault S) (k j lo : Nat) (s s1 : S)
    (e : Fault) (hj : j < k) (h1 : for_up_loop body j lo s = .ok s1)
    (h2 : body (lo + j) s1 = .error e) : for_up_loop body k lo s = .error e := by
  rw [show k = j + ((k - j - 1) + 1) by omega, for_up_loop_append, h1]
  simp only [for_up_loop, h2]

theorem Ptr.update_error (p : Ptr T) (i : Nat) (chk : Option T → Bool) (new : Option T)
    (e : Fault) (h : p.update i chk new = .error e) : e = Fault.undefined_behavior := by
  unfold Ptr.update at h
  split at h
  · simp only [Except.error.injEq] at h
    exact h.symm
  · split at h
    · split at h
      · simp at h
      · simp only [Except.error.injEq] at h
        exact h.symm
    · simp only [Except.error.injEq] at h
      exact h.symm

theorem Ptr.read_error (p : Ptr T) (i : Nat) (e : Fault) (h : p.read i = .error e) :
    e = Fault.undefined_behavior := by
  unfold Ptr.read at h
  split at h
  · simp at h
  · simp only [Except.error.injEq] at h
    exact h.symm

theorem copy_assign_body_error (src p : Ptr T) (i : Nat) (e : Fault)
    (h : vector.copy_assign_body src i p = .error e) : e = Fault.undefined_behavior := by
  unfold vector.copy_assign_body at h
  split at h
  · rename_i e' he'
    simp only [Except.error.injEq] at h
    subst h
    exact Ptr.read_error _ _ _ he'
  · exact Ptr.update_error _ _ _ _ _ h

theorem copy_construct_body_error (src p : Ptr T) (i : Nat) (e : Fault)
    (h : vector.copy_construct_body src i p = .error e) : e = Fault.undefined_behavior := by
  unfold vector.copy_construct_body at h
  split at h
  · rename_i e' he'
    simp only [Except.error.injEq] at h
    subst h
    exact Ptr.read_error _ _ _ he'
  · exact Ptr.update_error _ _ _ _ _ h

theorem for_up_loop_error {S : Type} (body : Nat → S → Except Fault S) (f : Fault)
    (hb : ∀ i s e, body i s = .error e → e = f) :
    ∀ (k lo : Nat) (s : S) (e : Fault), for_up_loop body k lo s = .error e → e = f := by
  intro k
  induction k with
  | zero => intro lo s e h; simp [for_up_loop] at h
  | succ k ih =>
    intro lo s e h
    simp only [for_up_loop] at h
    split at h
    · exact ih _ _ _ h
    · rename_i e' he'
      simp only [Except.error.injEq] at h
      subst h
      exact hb _ _ _ he'

theorem for_down_loop_error {S : Type} (body : Nat → S → Except Fault S) (f : Fault)
    (hb : ∀ i s e, body i s = .error e → e = f) :
    ∀ (k hi : Nat) (s : S) (e : Fault), for_down_loop body k hi s = .error e → e = f := by
  intro k
  induction k with
  | zero => intro hi s e h; simp [for_down_loop] at h
  | succ k ih =>
    intro hi s e h
    simp only [for_down_loop] at h
    split at h
    · exact ih _ _ _ h
    · rename_i e' he'
      simp only [Except.error.injEq] at h
      subst h
      exact hb _ _ _ he'

theorem Ptr.source_live (src : Ptr T) (n i : Nat) (h : src.source n) (hi : i < n) :
    ∃ x, src.slot i = some (some x) :=
  (Ptr.constructed_iff _ _).mp ((h i).mpr hi)

theorem Ptr.source_read_fails (src : Ptr T) (n i : Nat) (h : src.source n) (hi : n ≤ i) :
    src.read i = .error Fault.undefined_behavior := by
  have hc : ¬ src.constructed i = true := fun hc => by
    have := (h i).mp hc
    omega
  unfold Ptr.read
  split
  · rename_i x hx
    exact absurd ((Ptr.constructed_iff _ _).mpr ⟨x, hx⟩) hc
  · rfl

theorem vector.WF.source {v : vector T A} (h : v.WF) : v._data.source v._size := by
  intro i
  constructor
  · intro hc
    by_contra hi
    obtain ⟨x, hx⟩ := (Ptr.constructed_iff _ _).mp hc
    by_cases hcap : i < v._capacity
    · rw [h.slot_raw i hcap (by omega)] at hx
      simp at hx
    · rw [Ptr.slot_eq_none_of_le _ _ (by rw [h.2.2.1]; omega)] at hx
      simp at hx
  · intro hi
    exact h.2.2.2.1 i hi

theorem array_ptr_source (arr : List T) : (vector.array_ptr arr).source arr.length := by
  intro i
  rw [Ptr.constructed_iff]
  unfold vector.array_ptr
  rw [Ptr.slot_some, List.getElem?_map]
  constructor
  · rintro ⟨x, hx⟩
    by_contra hi
    rw [List.getElem?_eq_none (by omega)] at hx
    simp at hx
  · intro hi
    exact ⟨arr[i], by rw [List.getElem?_eq_getElem hi]; rfl⟩

theorem assign_range_eq (src p : Ptr T) (lo hi : Nat) (hle : lo ≤ hi)
    (hsrc : ∀ j, lo ≤ j → j < hi → ∃ x, src.slot j = some (some x))
    (h : ∀ j, lo ≤ j → j < hi → ∃ x, p.slot j = some (some x)) :
    for_up lo hi (vector.copy_assign_body src) p =
      .ok (p.map (fun b => overwrite b lo hi (fun j => (src.slot j).join))) := by
  unfold for_up
  have := for_up_loop_update_ptr (vector.copy_assign_body src) Option.isSome
    (fun j => (src.slot j).join) (hi - lo) lo p
    (fun j h1 h2 q => by
      obtain ⟨x, hx⟩ := hsrc j h1 (by omega)
      unfold vector.copy_assign_body
      rw [Ptr.read_of_slot src j x hx]
      show q.assign j x = q.update j Option.isSome ((src.slot j).join)
      rw [hx]
      rfl)
    (fun j h1 h2 => by
      obtain ⟨x, hx⟩ := h j h1 (by omega)
      exact ⟨some x, hx, rfl⟩)
  rw [this, show lo + (hi - lo) = hi by omega]

theorem Ptr.update_fails (p : Ptr T) (i : Nat) (chk : Option T → Bool) (new s : Option T)
    (hs : p.slot i = some s) (hc : chk s = false) :
    p.update i chk new = .error Fault.undefined_behavior := by
  cases p with
  | none => rfl
  | some b =>
    have hs' : b[i]? = some s := hs
    simp [Ptr.update, hs', hc]

/-- Effect of the rebuild branch of the assignments (`capacity < n`) on a well-formed
destination when the strategy grants the request of `reserve(n)`. -/
theorem vector.assign_from_rebuild_spec [Allocator A] (v : vector T A) (hwf : v.WF)
    (src : Ptr T) (n : Nat) (hsrc : src.source n) (hn : v._capacity < n)
    (hg : vector.grants v._alloc v._capacity n = true) :
    ∃ v', v.assign_from src n = .ok v' ∧ v'.WF ∧ v'._size = n ∧ v'._alloc = v._alloc ∧
      (∀ i, i < n → v'._data.slot i = src.slot i) ∧
      new_capacity v._capacity n = some v'._capacity := by
  obtain ⟨v1, hv1, hwf1, hs1, hc1, ha1⟩ := vector.clear_spec v hwf
  obtain ⟨v2, hv2, hwf2, hs2, ha2, hn2, _, _, _, hnew⟩ :=
    vector.reserve_spec v1 hwf1 n (by rw [ha1, hc1]; exact hg)
  have hcopy := copy_range_eq src v2._data 0 n (Nat.zero_le _)
    (fun j _ h2 => Ptr.source_live src n j hsrc h2)
    (fun j _ h2 => ⟨_, hwf2.slot_raw j (by omega) (by omega)⟩)
  refine ⟨{ v2 with
    _data := v2._data.map (fun b => overwrite b 0 n (fun j => (src.slot j).join))
    _size := n }, ?_, ?_, rfl, by rw [← ha1, ← ha2], ?_, ?_⟩
  · unfold vector.assign_from
    simp only [hn, if_true, hv1, hv2, hcopy]
  · apply vector.WF_of_slots
    · exact hn2
    · exact hwf2.2.1
    · simp only [Ptr.length_map_overwrite]
      exact hwf2.2.2.1
    · intro i hi
      simp only at hi
      obtain ⟨x, hx⟩ := Ptr.source_live src n i hsrc hi
      refine ⟨x, ?_⟩
      show Ptr.slot (Option.map _ _) i = _
      rw [Ptr.slot_map_overwrite_in _ _ _ _ _ ⟨Nat.zero_le _, hi⟩ _
        (hwf2.slot_raw i (by omega) (by omega)), hx]
      rfl
    · intro i hi hsz
      simp only at hi hsz
      show Ptr.slot (Option.map _ _) i = _
      rw [Ptr.slot_map_overwrite_out _ _ _ _ _ (by omega)]
      exact hwf2.slot_raw i hi (by omega)
  · intro i hi
    obtain ⟨x, hx⟩ := Ptr.source_live src n i hsrc hi
    show Ptr.slot (Option.map _ _) i = _
    rw [Ptr.slot_map_overwrite_in _ _ _ _ _ ⟨Nat.zero_le _, hi⟩ _
      (hwf2.slot_raw i (by omega) (by omega)), hx]
    rfl
  · show new_capacity v._capacity n = some v2._capacity
    rw [← hc1]
    exact hnew (by omega)

/-- Effect of the reuse branch of the assignments when the destination already has the
size of the source. -/
theorem vector.assign_from_same_size_spec [Allocator A] (v : vector T A) (hwf : v.WF)
    (src : Ptr T) (n : Nat) (hsrc : src.source n) (hn : v._size = n) :
    ∃ v', v.assign_from src n = .ok v' ∧ v'.WF ∧ v'._size = n ∧ v'._alloc = v._alloc ∧
      v'._capacity = v._capacity ∧ (∀ i, i < n → v'._data.slot i = src.slot i) := by
  have hsc := hwf.1
  have hassign := assign_range_eq src v._data 0 n (Nat.zero_le _)
    (fun j _ h2 => Ptr.source_live src n j hsrc h2)
    (fun j _ h2 => hwf.slot_live j (by omega))
  refine ⟨{ v with
    _data := v._data.map (fun b => overwrite b 0 n (fun j => (src.slot j).join))
    _size := n }, ?_, ?_, rfl, rfl, rfl, ?_⟩
  · unfold vector.assign_from
    have h1 : ¬ v._capacity < n := by omega
    have h2 : ¬ v._size > n := by omega
    have h3 : ¬ n > v._size := by omega
    simp only [h1, if_false, h2, hassign, h3]
  · apply vector.WF_of_slots
    · show n ≤ v._capacity
      omega
    · exact hwf.2.1
    · simp only [Ptr.length_map_overwrite]
      exact hwf.2.2.1
    · intro i hi
      simp only at hi
      obtain ⟨x, hx⟩ := Ptr.source_live src n i hsrc hi
      obtain ⟨y, hy⟩ := hwf.slot_live i (by omega)
      refine ⟨x, ?_⟩
      show Ptr.slot (Option.map _ _) i = _
      rw [Ptr.slot_map_overwrite_in _ _ _ _ _ ⟨Nat.zero_le _, hi⟩ _ hy, hx]
      rfl
    · intro i hi hsz
      simp only at hi hsz
      show Ptr.slot (Option.map _ _) i = _
      rw [Ptr.slot_map_overwrite_out _ _ _ _ _ (by omega)]
      exact hwf.slot_raw i hi (by omega)
  · intro i hi
    obtain ⟨x, hx⟩ := Ptr.source_live src n i hsrc hi
    obtain ⟨y, hy⟩ := hwf.slot_live i (by omega)
    show Ptr.slot (Option.map _ _) i = _
    rw [Ptr.slot_map_overwrite_in _ _ _ _ _ ⟨Nat.zero_le _, hi⟩ _ hy, hx]
    rfl

/-- In the reuse branch of the assignments (`n <= capacity`) with a destination whose size
differs from the length of the source, the assigning loop runs up to the larger of the two:
it either assigns to the raw slot `size` of the destination (source longer) or reads the
source at index `n`, past its last element (source shorter). -/
theorem vector.assign_from_reuse_undefined [Allocator A] (v : vector T A) (hwf : v.WF)
    (src : Ptr T) (n : Nat) (hsrc : src.source n) (hn : n ≤ v._capacity)
    (hne : v._size ≠ n) :
    v.assign_from src n = .error Fault.undefined_behavior := by
  have hsc := hwf.1
  have hloop : for_up 0 (if v._size > n then v._size else n) (vector.copy_assign_body src)
      v._data = .error Fault.undefined_behavior := by
    by_cases hlt : v._size < n
    · rw [if_neg (by omega)]
      have hassign := assign_range_eq src v._data 0 v._size (Nat.zero_le _)
        (fun j _ h2 => Ptr.source_live src n j hsrc (by omega))
        (fun j _ h2 => hwf.slot_live j h2)
      unfold for_up at hassign ⊢
      apply for_up_loop_fails _ _ (v._size - 0) 0 _ _ _ (by omega) hassign
      obtain ⟨x, hx⟩ := Ptr.source_live src n v._size hsrc hlt
      unfold vector.copy_assign_body
      rw [show 0 + (v._size - 0) = v._size by omega, Ptr.read_of_slot src _ x hx]
      apply Ptr.update_fails _ _ _ _ none _ rfl
      rw [Ptr.slot_map_overwrite_out _ _ _ _ _ (by omega)]
      exact hwf.slot_raw _ (by omega) (Nat.le_refl _)
    · rw [if_pos (by omega)]
      have hassign := assign_range_eq src v._data 0 n (Nat.zero_le _)
        (fun j _ h2 => Ptr.source_live src n j hsrc h2)
        (fun j _ h2 => hwf.slot_live j (by omega))
      unfold for_up at hassign ⊢
      apply for_up_loop_fails _ _ (n - 0) 0 _ _ _ (by omega) hassign
      unfold vector.copy_assign_body
      rw [show 0 + (n - 0) = n by omega, Ptr.source_read_fails src n n hsrc (Nat.le_refl _)]
  unfold vector.assign_from
  simp only [show ¬ v._capacity < n by omega, if_false, hloop]

theorem vector.assign_from_reuse_error [Allocator A] (v : vector T A) (src : Ptr T) (n : Nat)
    (hn : n ≤ v._capacity) (e : Fault) (h : v.assign_from src n = .error e) :
    e = Fault.undefined_behavior := by
  have hdestroy : ∀ (i : Nat) (p : Ptr T) (e : Fault),
      (fun i p => Ptr.destroy_at p i) i p = .error e → e = Fault.undefined_behavior :=
    fun i p e he => Ptr.update_error _ _ _ _ _ he
  unfold vector.assign_from at h
  rw [if_neg (by omega)] at h
  simp only at h
  split at h
  · rename_i e' he'
    simp only [Except.error.injEq] at h
    subst h
    exact for_up_loop_error _ _ (fun i s e => copy_assign_body_error src s i e) _ _ _ _ he'
  · split at h
    · split at h
      · rename_i e' he'
        simp only [Except.error.injEq] at h
        subst h
        exact for_down_loop_error _ _ hdestroy _ _ _ _ he'
      · simp at h
    · split at h
      · split at h
        · rename_i e' he'
          simp only [Except.error.injEq] at h
          subst h
          exact for_up_loop_error _ _ (fun i s e => copy_construct_body_error src s i e)
            _ _ _ _ he'
        · simp at h
      · simp at h

/-- C17: copy assignment `d = s` does not give the stated result for every `d` and `s`.
It does on well-formed containers in the rebuild branch and when the sizes are equal; in
the reuse branch with different sizes the code runs into undefined behaviour, e.g. for
`d = {1, 2, 3, 4, 5}` and `s = {7, 8}` it reads `s[2]`, and for `d = {7, 8}` (capacity 3)
and `s = {1, 2, 3}` it assigns to the raw slot `d[2]`. -/
theorem copy_assignment_reuse_faults :
    sample_five.WF ∧ sample_full.WF ∧ sample.WF ∧ sample_three.WF ∧
    sample_five.operator_assign sample_full = .error Fault.undefined_behavior ∧
    sample.operator_assign sample_three = .error Fault.undefined_behavior ∧
    (∀ d s : vector Nat heap, d.WF → s.WF → s._size ≤ d._capacity → d._size ≠ s._size →
      d.operator_assign s = .error Fault.undefined_behavior) ∧
    (∀ d s : vector Nat heap, d.WF → s.WF →
      d._size = s._size ∨
        (d._capacity < s._size ∧ vector.grants d._alloc d._capacity s._size = true) →
      ∃ v', d.operator_assign s = .ok v' ∧ v'._size = s._size ∧
        ∀ i, i < s._size → ∃ x, s.at_unchecked i = .ok x ∧ v'.at_unchecked i = .ok x) := by
  refine ⟨by decide, by decide, by decide, by decide, by decide, by decide, ?_, ?_⟩
  · intro d s hd hs hle hne
    exact vector.assign_from_reuse_undefined d hd s._data s._size hs.source hle hne
  · intro d s hd hs h
    have key : ∃ v', d.operator_assign s = .ok v' ∧ v'._size = s._size ∧
        ∀ i, i < s._size → v'._data.slot i = s._data.slot i := by
      rcases h with h | ⟨h1, h2⟩
      · obtain ⟨v', hv', _, hsz, _, _, hsl⟩ :=
          vector.assign_from_same_size_spec d hd s._data s._size hs.source h
        exact ⟨v', hv', hsz, hsl⟩
      · obtain ⟨v', hv', _, hsz, _, hsl, _⟩ :=
          vector.assign_from_rebuild_spec d hd s._data s._size hs.source h1 h2
        exact ⟨v', hv', hsz, hsl⟩
    obtain ⟨v', hv', hsz, hsl⟩ := key
    refine ⟨v', hv', hsz, ?_⟩
    intro i hi
    obtain ⟨x, hx⟩ := hs.slot_live i hi
    exact ⟨x, Ptr.read_of_slot _ _ _ hx, Ptr.read_of_slot _ _ _ (by rw [hsl i hi]; exact hx)⟩

/-- C19: the reuse branch does not confine element assignment to the overlap.  With a
destination of size 2 and capacity 3 and the array `{1, 2, 3}` the assigning loop, after
the indices 0 and 1, assigns to index 2, a raw slot at an index `>= size`; with the
destination `{1, 2, 3, 4, 5}` and the array `{7, 8}` it reads the array at index 2, past
its length; for every well-formed destination and every array that fits its capacity and
differs from it in length the assignment is undefined. -/
theorem reuse_branch_assigns_past_overlap :
    sample.WF ∧ sample_five.WF ∧
    for_up 0 2 (vector.copy_assign_body (vector.array_ptr [1, 2, 3])) sample._data =
      .ok (some [some 1, some 2, none]) ∧
    vector.copy_assign_body (vector.array_ptr [1, 2, 3]) 2 (some [some 1, some 2, none]) =
      .error Fault.undefined_behavior ∧
    sample.operator_assign_array [1, 2, 3] = .error Fault.undefined_behavior ∧
    (vector.array_ptr [7, 8]).read 2 = .error Fault.undefined_behavior ∧
    sample_five.operator_assign_array [7, 8] = .error Fault.undefined_behavior ∧
    (∀ (d : vector Nat heap) (arr : List Nat), d.WF → arr.length ≤ d._capacity →
      d._size ≠ arr.length → d.operator_assign_array arr = .error Fault.undefined_behavior) := by
  refine ⟨by decide, by decide, by decide, by decide, by decide, by decide, by decide, ?_⟩
  intro d arr hd hle hne
  exact vector.assign_from_reuse_undefined d hd _ _ (array_ptr_source arr) hle hne

/-- C20: assigning a fixed-length sequence of length `N` gives `size == N` and the
elements of the sequence when `N` exceeds the capacity or equals the size, but not when a
shorter sequence is assigned to a container of size 5: every array of length `N < 5`
assigned to `{1, 2, 3, 4, 5}` makes the assigning loop read the array at the indices
`[N, 5)`, past its length, instead of only destroying the trailing `5 - N` elements. -/
theorem array_assignment_shorter_faults :
    sample_five.WF ∧
    sample_five.operator_assign_array [7, 8] = .error Fault.undefined_behavior ∧
    (∀ arr : List Nat, arr.length < 5 →
      sample_five.operator_assign_array arr = .error Fault.undefined_behavior) ∧
    sample_five.operator_assign_array [9, 8, 7, 6, 5] =
      .ok ⟨{}, some [some 9, some 8, some 7, some 6, some 5], 5, 5⟩ ∧
    sample.operator_assign_array [1, 2, 3, 4] =
      .ok ⟨{}, some [some 1, some 2, some 3, some 4, none], 4, 5⟩ := by
  refine ⟨by decide, by decide, ?_, by decide, by decide⟩
  intro arr harr
  exact vector.assign_from_reuse_undefined sample_five (by decide) _ _ (array_ptr_source arr)
    (by show arr.length ≤ 5; omega) (by show 5 ≠ arr.length; omega)

end assignment




/-! ## Two containers in one store -/

section store

variable {T A : Type}

theorem Heap.length_write (h : Heap T) (p : Option Nat) (b : Ptr T) :
    (h.write p b).length = h.length := by
  cases p <;> simp [Heap.write]

theorem Heap.length_deallocate (h : Heap T) (p : Option Nat) :
    (h.deallocate p).length = h.length := by
  cases p <;> simp [Heap.deallocate]

theorem Heap.getElem?_write_ne (h : Heap T) (p : Option Nat) (b : Ptr T) (a : Nat)
    (hp : p ≠ some a) : (h.write p b)[a]? = h[a]? := by
  cases p with
  | none => rfl
  | some a' =>
    have : a' ≠ a := fun e => hp (by rw [e])
    simp [Heap.write, List.getElem?_set_ne this]

theorem Heap.getElem?_deallocate_ne (h : Heap T) (p : Option Nat) (a : Nat)
    (hp : p ≠ some a) : (h.deallocate p)[a]? = h[a]? := by
  cases p with
  | none => rfl
  | some a' =>
    have : a' ≠ a := fun e => hp (by rw [e])
    simp [Heap.deallocate, List.getElem?_set_ne this]

theorem Heap.deref_write_same (h : Heap T) (a : Nat) (b : Ptr T) (ha : a < h.length) :
    (h.write (some a) b).deref (some a) = b := by
  simp [Heap.write, Heap.deref, List.getElem?_set_self ha]

theorem Heap.deref_eq_of_getElem? (h h' : Heap T) (a : Nat) (e : h'[a]? = h[a]?) :
    h'.deref (some a) = h.deref (some a) := by
  simp only [Heap.deref, e]

theorem Heap.allocate_inv [Allocator A] (h h1 : Heap T) (a : A) (count : Nat)
    (q : Option Nat) (hq : h.allocate a count = .ok (h1, q)) :
    Allocator.provides a count = true ∧ h1 = h ++ [some (List.replicate count none)] ∧
      q = some h.length := by
  unfold Heap.allocate at hq
  split at hq
  · rename_i hp
    simp only [Except.ok.injEq, Prod.mk.injEq] at hq
    exact ⟨hp, hq.1.symm, hq.2.symm⟩
  · simp at hq

theorem Heap.frame_refl (h : Heap T) (p : Option Nat) : Heap.frame h h p :=
  ⟨Nat.le_refl _, fun _ _ _ => rfl⟩

theorem Heap.frame_write (h : Heap T) (p : Option Nat) (b : Ptr T) :
    Heap.frame h (h.write p b) p :=
  ⟨Nat.le_of_eq (Heap.length_write h p b).symm,
    fun a _ hp => Heap.getElem?_write_ne h p b a hp⟩

theorem Heap.frame_deallocate (h : Heap T) (p : Option Nat) :
    Heap.frame h (h.deallocate p) p :=
  ⟨Nat.le_of_eq (Heap.length_deallocate h p).symm,
    fun a _ hp => Heap.getElem?_deallocate_ne h p a hp⟩

theorem Heap.frame_append (h : Heap T) (b : Ptr T) (p : Option Nat) :
    Heap.frame h (h ++ [b]) p :=
  ⟨by simp, fun a ha _ => List.getElem?_append_left ha⟩

theorem Heap.frame_trans (h h1 h2 : Heap T) (p p' : Option Nat) (f1 : Heap.frame h h1 p)
    (f2 : Heap.frame h1 h2 p') (hp : p' = p ∨ ∃ a, p' = some a ∧ h.length ≤ a) :
    Heap.frame h h2 p := by
  refine ⟨Nat.le_trans f1.1 f2.1, ?_⟩
  intro a ha hpa
  rw [← f1.2 a ha hpa]
  apply f2.2 a (by have := f1.1; omega)
  rcases hp with e | ⟨a', e, hle⟩
  · rw [e]; exact hpa
  · rw [e]
    intro hc
    simp only [Option.some.injEq] at hc
    omega

theorem heap_vector.view_eq_of_frame (o : heap_vector A) (h h' : Heap T) (p : Option Nat)
    (f : Heap.frame h h' p) (hv : o.valid h) (hne : o._data ≠ p) : o.view h' = o.view h := by
  unfold heap_vector.view
  cases hd : o._data with
  | none => rfl
  | some a =>
    have ha : a < h.length := by
      unfold heap_vector.valid at hv
      rw [hd] at hv
      exact hv
    have e := f.2 a ha (fun hc => hne (by rw [hd, hc]))
    rw [Heap.deref_eq_of_getElem? h h' a e]

theorem Heap.frame_grow (h : Heap T) (p : Option Nat) (fresh b1 b2 : Ptr T) :
    Heap.frame h
      ((((h ++ [fresh]).write p b1).write (some h.length) b2).deallocate p) p := by
  have f1 := Heap.frame_append h fresh p
  have f2 := Heap.frame_trans h _ _ p p f1 (Heap.frame_write (h ++ [fresh]) p b1) (Or.inl rfl)
  have f3 := Heap.frame_trans h _ _ p (some h.length) f2
    (Heap.frame_write ((h ++ [fresh]).write p b1) (some h.length) b2)
    (Or.inr ⟨h.length, rfl, Nat.le_refl _⟩)
  exact Heap.frame_trans h _ _ p p f3 (Heap.frame_deallocate _ p) (Or.inl rfl)

theorem heap_vector.emplace_back_store_eq [Allocator A] (h : Heap T) (o : heap_vector A) (val : T) :
    heap_vector.emplace_back h o val =
      match heap_vector.reserve h o ((o._size + 1) % usize_range) with
      | .error e => .error e
      | .ok (h1, o1) =>
        match (h1.deref o1._data).construct_at o1._size val with
        | .error e => .error e
        | .ok d =>
          .ok (h1.write o1._data d, { o1 with _size := (o1._size + 1) % usize_range }) := by
  unfold heap_vector.emplace_back heap_vector.emplace_back_ref
  cases heap_vector.reserve h o ((o._size + 1) % usize_range) <;> rfl

theorem heap_vector.reserve_store_frame [Allocator A] (h h' : Heap T) (o o' : heap_vector A)
    (n : Nat) (hr : heap_vector.reserve h o n = .ok (h', o')) :
    Heap.frame h h' o._data ∧
      (o'._data = o._data ∨ ∃ a, o'._data = some a ∧ h.length ≤ a) := by
  unfold heap_vector.reserve at hr
  split at hr
  · split at hr
    · simp at hr
    · split at hr
      · simp at hr
      · rename_i h1 nb hal
        obtain ⟨_, e1, e2⟩ := Heap.allocate_inv h h1 _ _ nb hal
        subst e1 e2
        split at hr
        · simp at hr
        · simp only [Except.ok.injEq, Prod.mk.injEq] at hr
          obtain ⟨e3, e4⟩ := hr
          subst e3 e4
          exact ⟨Heap.frame_grow h o._data _ _ _, Or.inr ⟨h.length, rfl, Nat.le_refl _⟩⟩
  · simp only [Except.ok.injEq, Prod.mk.injEq] at hr
    obtain ⟨e3, e4⟩ := hr
    subst e3 e4
    exact ⟨Heap.frame_refl h _, Or.inl rfl⟩

theorem heap_vector.resize_frame [Allocator A] [Inhabited T] (h h' : Heap T)
    (o o' : heap_vector A) (n : Nat) (hr : heap_vector.resize h o n = .ok (h', o')) :
    Heap.frame h h' o._data := by
  unfold heap_vector.resize at hr
  split at hr
  · split at hr
    · simp at hr
    · split at hr
      · simp at hr
      · rename_i h1 nb hal
        obtain ⟨_, e1, e2⟩ := Heap.allocate_inv h h1 _ _ nb hal
        subst e1 e2
        split at hr
        · simp at hr
        · split at hr
          · simp at hr
          · simp only [Except.ok.injEq, Prod.mk.injEq] at hr
            obtain ⟨e3, e4⟩ := hr
            subst e3 e4
            exact Heap.frame_grow h o._data _ _ _
  · split at hr
    · split at hr
      · simp at hr
      · simp only [Except.ok.injEq, Prod.mk.injEq] at hr
        obtain ⟨e3, e4⟩ := hr
        subst e3 e4
        exact Heap.frame_write h _ _
    · split at hr
      · split at hr
        · simp at hr
        · simp only [Except.ok.injEq, Prod.mk.injEq] at hr
          obtain ⟨e3, e4⟩ := hr
          subst e3 e4
          exact Heap.frame_write h _ _
      · simp only [Except.ok.injEq, Prod.mk.injEq] at hr
        obtain ⟨e3, e4⟩ := hr
        subst e3 e4
        exact Heap.frame_refl h _

theorem heap_vector.emplace_back_frame [Allocator A] (h h' : Heap T) (o o' : heap_vector A)
    (val : T) (hr : heap_vector.emplace_back h o val = .ok (h', o')) :
    Heap.frame h h' o._data := by
  rw [heap_vector.emplace_back_store_eq] at hr
  split at hr
  · simp at hr
  · rename_i h1 o1 hres
    obtain ⟨f1, hp⟩ := heap_vector.reserve_store_frame h h1 o o1 _ hres
    split at hr
    · simp at hr
    · simp only [Except.ok.injEq, Prod.mk.injEq] at hr
      obtain ⟨e3, e4⟩ := hr
      subst e3 e4
      exact Heap.frame_trans h h1 _ o._data o1._data f1 (Heap.frame_write h1 _ _) hp

theorem heap_vector.pop_back_frame (h h' : Heap T) (o o' : heap_vector A)
    (hr : heap_vector.pop_back h o = .ok (h', o')) : Heap.frame h h' o._data := by
  unfold heap_vector.pop_back at hr
  split at hr
  · split at hr
    · simp at hr
    · simp only [Except.ok.injEq, Prod.mk.injEq] at hr
      obtain ⟨e3, e4⟩ := hr
      subst e3 e4
      exact Heap.frame_write h _ _
  · simp only [Except.ok.injEq, Prod.mk.injEq] at hr
    obtain ⟨e3, e4⟩ := hr
    subst e3 e4
    exact Heap.frame_refl h _

theorem heap_vector.subscript_assign_frame (h h' : Heap T) (o o' : heap_vector A)
    (index : Nat) (x : T) (hr : heap_vector.subscript_assign h o index x = .ok (h', o')) :
    Heap.frame h h' o._data := by
  unfold heap_vector.subscript_assign at hr
  split at hr
  · simp at hr
  · simp only [Except.ok.injEq, Prod.mk.injEq] at hr
    obtain ⟨e3, e4⟩ := hr
    subst e3 e4
    exact Heap.frame_write h _ _

theorem heap_vector.valid_ne_fresh (o : heap_vector A) (h : Heap T) (hv : o.valid h) :
    o._data ≠ some h.length := by
  intro hc
  unfold heap_vector.valid at hv
  rw [hc] at hv
  exact Nat.lt_irrefl _ hv

theorem Heap.deref_append_valid (o : heap_vector A) (h : Heap T) (b : Ptr T)
    (hv : o.valid h) : (h ++ [b]).deref o._data = h.deref o._data := by
  cases hd : o._data with
  | none => rfl
  | some a =>
    unfold heap_vector.valid at hv
    rw [hd] at hv
    exact Heap.deref_eq_of_getElem? h _ a (List.getElem?_append_left hv)

theorem Heap.deref_append_fresh (h : Heap T) (b : Ptr T) :
    (h ++ [b]).deref (some h.length) = b := by
  simp [Heap.deref]

theorem Heap.deref_write (h : Heap T) (p : Option Nat) (b : Ptr T)
    (hp : p = none → b = none) (hv : ∀ a, p = some a → a < h.length) :
    (h.write p b).deref p = b := by
  cases p with
  | none => exact (hp rfl).symm
  | some a => exact Heap.deref_write_same h a b (hv a rfl)

theorem Heap.deref_grow (h : Heap T) (p : Option Nat) (fresh b1 b2 : Ptr T)
    (hp : p ≠ some h.length) :
    ((((h ++ [fresh]).write p b1).write (some h.length) b2).deallocate p).deref
      (some h.length) = b2 := by
  have e := Heap.getElem?_deallocate_ne
    (((h ++ [fresh]).write p b1).write (some h.length) b2) p h.length hp
  rw [Heap.deref_eq_of_getElem? _ _ _ e]
  apply Heap.deref_write_same
  rw [Heap.length_write]
  simp

/-- The copy constructor in the store is the copy constructor on values, seen through
`view`; the copy lives in a new block and no existing block changes. -/
theorem heap_vector.ctor_copy_view [Allocator A] (h : Heap T) (s : heap_vector A)
    (hv : s.valid h) :
    (∀ h1 c, heap_vector.ctor_copy h s = .ok (h1, c) →
      vector.ctor_copy (s.view h) = .ok (c.view h1) ∧ c._data = some h.length ∧
      h1.length = h.length + 1 ∧ Heap.frame h h1 none) ∧
    (∀ v', vector.ctor_copy (s.view h) = .ok v' →
      ∃ h1 c, heap_vector.ctor_copy h s = .ok (h1, c)) := by
  unfold heap_vector.ctor_copy vector.ctor_copy Heap.allocate allocate
  by_cases hp : Allocator.provides s._alloc s._capacity = true
  · simp only [heap_vector.view, hp, if_true, Heap.deref_append_valid s h _ hv,
      Heap.deref_append_fresh]
    cases hl : for_up 0 s._size (vector.copy_construct_body (h.deref s._data))
        (some (List.replicate s._capacity none)) with
    | error e =>
      constructor
      · intro h1 c hc
        simp at hc
      · intro v' hv'
        simp at hv'
    | ok d =>
      constructor
      · intro h1 c hc
        simp only [Except.ok.injEq, Prod.mk.injEq] at hc
        obtain ⟨e1, e2⟩ := hc
        subst e1 e2
        refine ⟨?_, rfl, ?_, ?_⟩
        · simp only [Except.ok.injEq]
          rw [Heap.deref_write_same _ _ _ (by simp)]
        · rw [Heap.length_write]
          simp
        · exact Heap.frame_trans h _ _ none (some h.length) (Heap.frame_append h _ none)
            (Heap.frame_write _ _ _) (Or.inr ⟨h.length, rfl, Nat.le_refl _⟩)
      · intro v' _
        exact ⟨_, _, rfl⟩
  · simp only [heap_vector.view, hp]
    constructor
    · intro h1 c hc
      simp at hc
    · intro v' hv'
      simp at hv'

theorem Heap.deref_write_valid (o : heap_vector A) (h : Heap T) (b : Ptr T)
    (hv : o.valid h) (hn : o._data = none → b = none) : (h.write o._data b).deref o._data = b := by
  apply Heap.deref_write h o._data b hn
  intro a ha
  unfold heap_vector.valid at hv
  rw [ha] at hv
  exact hv

theorem heap_vector.valid_of_length (o : heap_vector A) (h h' : Heap T) (hv : o.valid h)
    (hl : h.length ≤ h'.length) : o.valid h' := by
  unfold heap_vector.valid at hv ⊢
  split
  · trivial
  · rename_i a ha
    rw [ha] at hv
    exact Nat.lt_of_lt_of_le hv hl

/-- `reserve` in the store is `reserve` on values, seen through `view`. -/
theorem heap_vector.reserve_view [Allocator A] (h : Heap T) (o : heap_vector A) (n : Nat)
    (hv : o.valid h) :
    (∀ h' o', heap_vector.reserve h o n = .ok (h', o') →
      vector.reserve (o.view h) n = .ok (o'.view h') ∧ o'.valid h') ∧
    (∀ v', vector.reserve (o.view h) n = .ok v' →
      ∃ h' o', heap_vector.reserve h o n = .ok (h', o')) := by
  unfold heap_vector.reserve vector.reserve
  by_cases hn : n > o._capacity
  · simp only [heap_vector.view, hn, if_true]
    cases hnc : new_capacity o._capacity n with
    | none =>
      exact ⟨fun h' o' hc => by simp at hc, fun v' hc => by simp at hc⟩
    | some nc =>
      unfold Heap.allocate allocate
      by_cases hp : Allocator.provides o._alloc nc = true
      · simp only [hp, if_true, Heap.deref_append_valid o h _ hv, Heap.deref_append_fresh]
        cases hl : for_up 0 o._size vector.relocate_body
            (h.deref o._data, (some (List.replicate nc none) : Ptr T)) with
        | error e =>
          exact ⟨fun h' o' hc => by simp at hc, fun v' hc => by simp at hc⟩
        | ok s =>
          constructor
          · intro h' o' hc
            simp only [Except.ok.injEq, Prod.mk.injEq] at hc
            obtain ⟨e1, e2⟩ := hc
            subst e1 e2
            constructor
            · simp only [Except.ok.injEq]
              rw [Heap.deref_grow h o._data _ _ _ (heap_vector.valid_ne_fresh o h hv)]
            · show (match (some h.length : Option Nat) with
                | none => True
                | some a => a < _)
              simp [Heap.length_deallocate, Heap.length_write]
          · intro v' _
            exact ⟨_, _, rfl⟩
      · simp only [hp]
        exact ⟨fun h' o' hc => by simp at hc, fun v' hc => by simp at hc⟩
  · simp only [heap_vector.view, hn, if_false]
    constructor
    · intro h' o' hc
      simp only [Except.ok.injEq, Prod.mk.injEq] at hc
      obtain ⟨e1, e2⟩ := hc
      subst e1 e2
      exact ⟨rfl, hv⟩
    · intro v' _
      exact ⟨_, _, rfl⟩

theorem Ptr.update_none (i : Nat) (chk : Option T → Bool) (new : Option T) :
    Ptr.update (none : Ptr T) i chk new = .error Fault.undefined_behavior := rfl

theorem for_up_loop_none (body : Nat → Ptr T → Except Fault (Ptr T))
    (hb : ∀ i, ∃ e, body i none = .error e) (k lo : Nat) (d : Ptr T)
    (h : for_up_loop body k lo none = .ok d) : d = none := by
  cases k with
  | zero =>
    simp only [for_up_loop, Except.ok.injEq] at h
    exact h.symm
  | succ k =>
    obtain ⟨e, he⟩ := hb lo
    simp [for_up_loop, he] at h

theorem for_down_loop_none (body : Nat → Ptr T → Except Fault (Ptr T))
    (hb : ∀ i, ∃ e, body i none = .error e) (k hi : Nat) (d : Ptr T)
    (h : for_down_loop body k hi none = .ok d) : d = none := by
  cases k with
  | zero =>
    simp only [for_down_loop, Except.ok.injEq] at h
    exact h.symm
  | succ k =>
    obtain ⟨e, he⟩ := hb (hi - 1)
    simp [for_down_loop, he] at h

theorem heap_vector.write_view (o : heap_vector A) (h : Heap T) (d : Ptr T) (hv : o.valid h)
    (hnull : o._data = none → d = none) :
    (h.write o._data d).deref o._data = d ∧ o.valid (h.write o._data d) :=
  ⟨Heap.deref_write_valid o h d hv hnull,
    heap_vector.valid_of_length o h _ hv (Nat.le_of_eq (Heap.length_write h _ d).symm)⟩

/-- `pop_back` in the store is `pop_back` on values, seen through `view`. -/
theorem heap_vector.pop_back_view (h : Heap T) (o : heap_vector A) (hv : o.valid h) :
    (∀ h' o', heap_vector.pop_back h o = .ok (h', o') →
      vector.pop_back (o.view h) = .ok (o'.view h') ∧ o'.valid h') ∧
    (∀ v', vector.pop_back (o.view h : vector T A) = .ok v' →
      ∃ h' o', heap_vector.pop_back h o = .ok (h', o')) := by
  unfold heap_vector.pop_back vector.pop_back
  by_cases hs : o._size > 0
  · simp only [heap_vector.view, hs, if_true]
    cases hd : (h.deref o._data).destroy_at (o._size - 1) with
    | error e => exact ⟨fun h' o' hc => by simp at hc, fun v' hc => by simp at hc⟩
    | ok d =>
      constructor
      · intro h' o' hc
        simp only [Except.ok.injEq, Prod.mk.injEq] at hc
        obtain ⟨e1, e2⟩ := hc
        subst e1 e2
        have hnull : o._data = none → d = none := by
          intro hn
          rw [hn] at hd
          simp [Heap.deref, Ptr.destroy_at, Ptr.update] at hd
        obtain ⟨hw, hv'⟩ := heap_vector.write_view o h d hv hnull
        exact ⟨by simp only [Except.ok.injEq]; rw [hw], hv'⟩
      · intro v' _
        exact ⟨_, _, rfl⟩
  · simp only [heap_vector.view, hs, if_false]
    constructor
    · intro h' o' hc
      simp only [Except.ok.injEq, Prod.mk.injEq] at hc
      obtain ⟨e1, e2⟩ := hc
      subst e1 e2
      exact ⟨rfl, hv⟩
    · intro v' _
      exact ⟨_, _, rfl⟩

/-- Overwriting an element in the store is overwriting it on values, seen through
`view`. -/
theorem heap_vector.subscript_assign_view (h : Heap T) (o : heap_vector A) (index : Nat)
    (x : T) (hv : o.valid h) :
    (∀ h' o', heap_vector.subscript_assign h o index x = .ok (h', o') →
      vector.subscript_assign (o.view h) index x = .ok (o'.view h') ∧ o'.valid h') ∧
    (∀ v', vector.subscript_assign (o.view h : vector T A) index x = .ok v' →
      ∃ h' o', heap_vector.subscript_assign h o index x = .ok (h', o')) := by
  unfold heap_vector.subscript_assign vector.subscript_assign
  simp only [heap_vector.view]
  cases hd : (h.deref o._data).assign index x with
  | error e => exact ⟨fun h' o' hc => by simp at hc, fun v' hc => by simp at hc⟩
  | ok d =>
    constructor
    · intro h' o' hc
      simp only [Except.ok.injEq, Prod.mk.injEq] at hc
      obtain ⟨e1, e2⟩ := hc
      subst e1 e2
      have hnull : o._data = none → d = none := by
        intro hn
        rw [hn] at hd
        simp [Heap.deref, Ptr.assign, Ptr.update] at hd
      obtain ⟨hw, hv'⟩ := heap_vector.write_view o h d hv hnull
      exact ⟨by simp only [Except.ok.injEq]; rw [hw], hv'⟩
    · intro v' _
      exact ⟨_, _, rfl⟩

theorem for_up_none (lo hi : Nat) (x : T) (d : Ptr T)
    (h : for_up lo hi (fun i p => Ptr.construct_at p i x) none = .ok d) : d = none :=
  for_up_loop_none _ (fun _ => ⟨_, rfl⟩) _ _ d h

theorem for_down_none (hi lo : Nat) (d : Ptr T)
    (h : for_down hi lo (fun i p => Ptr.destroy_at p i) (none : Ptr T) = .ok d) : d = none :=
  for_down_loop_none _ (fun _ => ⟨_, rfl⟩) _ _ d h

/-- `resize` in the store is `resize` on values, seen through `view`. -/
theorem heap_vector.resize_view [Allocator A] [Inhabited T] (h : Heap T) (o : heap_vector A)
    (n : Nat) (hv : o.valid h) :
    (∀ h' o', heap_vector.resize h o n = .ok (h', o') →
      vector.resize (o.view h) n = .ok (o'.view h') ∧ o'.valid h') ∧
    (∀ v', vector.resize (o.view h : vector T A) n = .ok v' →
      ∃ h' o', heap_vector.resize h o n = .ok (h', o')) := by
  unfold heap_vector.resize vector.resize
  by_cases hn : n > o._capacity
  · simp only [heap_vector.view, hn, if_true]
    cases hnc : new_capacity o._capacity n with
    | none =>
      exact ⟨fun h' o' hc => by simp at hc, fun v' hc => by simp at hc⟩
    | some nc =>
      unfold Heap.allocate allocate
      by_cases hp : Allocator.provides o._alloc nc = true
      · simp only [hp, if_true, Heap.deref_append_valid o h _ hv, Heap.deref_append_fresh]
        cases hl : for_up 0 o._size vector.relocate_body
            (h.deref o._data, (some (List.replicate nc none) : Ptr T)) with
        | error e =>
          exact ⟨fun h' o' hc => by simp at hc, fun v' hc => by simp at hc⟩
        | ok s =>
          simp only []
          cases hl2 : for_up o._size n (fun i p => Ptr.construct_at p i (default : T))
              s.2 with
          | error e =>
            exact ⟨fun h' o' hc => by simp at hc, fun v' hc => by simp at hc⟩
          | ok d =>
            constructor
            · intro h' o' hc
              simp only [Except.ok.injEq, Prod.mk.injEq] at hc
              obtain ⟨e1, e2⟩ := hc
              subst e1 e2
              constructor
              · simp only [Except.ok.injEq]
                rw [Heap.deref_grow h o._data _ _ _ (heap_vector.valid_ne_fresh o h hv)]
              · show (match (some h.length : Option Nat) with
                  | none => True
                  | some a => a < _)
                simp [Heap.length_deallocate, Heap.length_write]
            · intro v' _
              exact ⟨_, _, rfl⟩
      · simp only [hp]
        exact ⟨fun h' o' hc => by simp at hc, fun v' hc => by simp at hc⟩
  · simp only [heap_vector.view, hn, if_false]
    by_cases hgt : n > o._size
    · simp only [hgt, if_true]
      cases hd : for_up o._size n (fun i p => Ptr.construct_at p i (default : T))
          (h.deref o._data) with
      | error e => exact ⟨fun h' o' hc => by simp at hc, fun v' hc => by simp at hc⟩
      | ok d =>
        constructor
        · intro h' o' hc
          simp only [Except.ok.injEq, Prod.mk.injEq] at hc
          obtain ⟨e1, e2⟩ := hc
          subst e1 e2
          have hnull : o._data = none → d = none := by
            intro hnone
            rw [hnone] at hd
            exact for_up_none _ _ _ d hd
          obtain ⟨hw, hv'⟩ := heap_vector.write_view o h d hv hnull
          exact ⟨by simp only [Except.ok.injEq]; rw [hw], hv'⟩
        · intro v' _
          exact ⟨_, _, rfl⟩
    · simp only [hgt, if_false]
      by_cases hlt : n < o._size
      · simp only [hlt, if_true]
        cases hd : for_down o._size n (fun i p => Ptr.destroy_at p i) (h.deref o._data) with
        | error e => exact ⟨fun h' o' hc => by simp at hc, fun v' hc => by simp at hc⟩
        | ok d =>
          constructor
          · intro h' o' hc
            simp only [Except.ok.injEq, Prod.mk.injEq] at hc
            obtain ⟨e1, e2⟩ := hc
            subst e1 e2
            have hnull : o._data = none → d = none := by
              intro hnone
              rw [hnone] at hd
              exact for_down_none _ _ d hd
            obtain ⟨hw, hv'⟩ := heap_vector.write_view o h d hv hnull
            exact ⟨by simp only [Except.ok.injEq]; rw [hw], hv'⟩
          · intro v' _
            exact ⟨_, _, rfl⟩
      · simp only [hlt, if_false]
        constructor
        · intro h' o' hc
          simp only [Except.ok.injEq, Prod.mk.injEq] at hc
          obtain ⟨e1, e2⟩ := hc
          subst e1 e2
          exact ⟨rfl, hv⟩
        · intro v' _
          exact ⟨_, _, rfl⟩

/-- `emplace_back` in the store is `emplace_back` on values, seen through `view`. -/
theorem heap_vector.emplace_back_view [Allocator A] (h : Heap T) (o : heap_vector A)
    (val : T) (hv : o.valid h) :
    (∀ h' o', heap_vector.emplace_back h o val = .ok (h', o') →
      vector.emplace_back (o.view h) val = .ok (o'.view h') ∧ o'.valid h') ∧
    (∀ v', vector.emplace_back (o.view h) val = .ok v' →
      ∃ h' o', heap_vector.emplace_back h o val = .ok (h', o')) := by
  obtain ⟨hfwd, hbwd⟩ := heap_vector.reserve_view h o ((o._size + 1) % usize_range) hv
  have hstep : ∀ h1 o1, heap_vector.reserve h o ((o._size + 1) % usize_range) = .ok (h1, o1) →
      ∀ d, (h1.deref o1._data).construct_at o1._size val = .ok d →
      vector.emplace_back (o.view h) val =
        .ok (heap_vector.view { o1 with _size := (o1._size + 1) % usize_range }
          (h1.write o1._data d)) ∧
      heap_vector.valid { o1 with _size := (o1._size + 1) % usize_range }
        (h1.write o1._data d) := by
    intro h1 o1 hr d hd
    obtain ⟨hr', hv1⟩ := hfwd h1 o1 hr
    have hnull : o1._data = none → d = none := by
      intro hnone
      rw [hnone] at hd
      simp [Heap.deref, Ptr.construct_at, Ptr.update] at hd
    obtain ⟨hw, hv'⟩ := heap_vector.write_view o1 h1 d hv1 hnull
    constructor
    · rw [vector.emplace_back_eq]
      have e : (o.view h : vector T A)._size = o._size := rfl
      rw [e, hr']
      have e2 : (o1.view h1 : vector T A)._data.construct_at (o1.view h1 : vector T A)._size
          val = .ok d := hd
      simp only [e2]
      simp only [heap_vector.view, Except.ok.injEq]
      rw [hw]
    · exact hv'
  constructor
  · intro h' o' hc
    rw [heap_vector.emplace_back_store_eq] at hc
    split at hc
    · simp at hc
    · rename_i h1 o1 hr
      split at hc
      · simp at hc
      · rename_i d hd
        simp only [Except.ok.injEq, Prod.mk.injEq] at hc
        obtain ⟨e1, e2⟩ := hc
        subst e1 e2
        exact hstep h1 o1 hr d hd
  · intro v' hv'
    rw [vector.emplace_back_eq] at hv'
    split at hv'
    · simp at hv'
    · rename_i v1 hr
      obtain ⟨h1, o1, hr1⟩ := hbwd v1 hr
      obtain ⟨hr', _⟩ := hfwd h1 o1 hr1
      have e : (o.view h : vector T A)._size = o._size := rfl
      rw [e, hr'] at hr
      simp only [Except.ok.injEq] at hr
      subst hr
      split at hv'
      · simp at hv'
      · rename_i d hd
        have hd' : (h1.deref o1._data).construct_at o1._size val = .ok d := hd
        refine ⟨h1.write o1._data d, { o1 with _size := (o1._size + 1) % usize_range }, ?_⟩
        rw [heap_vector.emplace_back_store_eq]
        simp only [hr1, hd']

theorem heap_vector.mutate_frame [Allocator A] [Inhabited T] (h h' : Heap T)
    (o o' : heap_vector A) (m : Mutation T) (hm : heap_vector.mutate h o m = .ok (h', o')) :
    Heap.frame h h' o._data := by
  cases m with
  | emplace_back val => exact heap_vector.emplace_back_frame h h' o o' val hm
  | pop_back => exact heap_vector.pop_back_frame h h' o o' hm
  | resize n => exact heap_vector.resize_frame h h' o o' n hm
  | overwrite index x => exact heap_vector.subscript_assign_frame h h' o o' index x hm

/-- A mutation in the store is the same mutation on values, seen through `view`. -/
theorem heap_vector.mutate_view [Allocator A] [Inhabited T] (h : Heap T) (o : heap_vector A)
    (m : Mutation T) (hv : o.valid h) :
    (∀ h' o', heap_vector.mutate h o m = .ok (h', o') →
      vector.mutate (o.view h) m = .ok (o'.view h') ∧ o'.valid h') ∧
    (∀ v', vector.mutate (o.view h) m = .ok v' →
      ∃ h' o', heap_vector.mutate h o m = .ok (h', o')) := by
  cases m with
  | emplace_back val => exact heap_vector.emplace_back_view h o val hv
  | pop_back => exact heap_vector.pop_back_view h o hv
  | resize n => exact heap_vector.resize_view h o n hv
  | overwrite index x => exact heap_vector.subscript_assign_view h o index x hv

theorem vector.ctor_copy_ok_provides [Allocator A] (rhs v' : vector T A)
    (h : rhs.ctor_copy = .ok v') : Allocator.provides rhs._alloc rhs._capacity = true := by
  unfold vector.ctor_copy at h
  split at h
  · simp at h
  · rename_i d hd
    exact (allocate_ok_inv _ _ _ hd).1

/-- Effect of the copy constructor on a well-formed source when the strategy provides
`capacity` slots. -/
theorem vector.ctor_copy_spec [Allocator A] (rhs : vector T A) (hwf : rhs.WF)
    (hp : Allocator.provides rhs._alloc rhs._capacity = true) :
    ∃ v', rhs.ctor_copy = .ok v' ∧ v'.WF ∧ v'._size = rhs._size ∧
      v'._capacity = rhs._capacity ∧ v'._alloc = rhs._alloc ∧
      (∀ i, i < rhs._size → v'._data.slot i = rhs._data.slot i) := by
  have hsc := hwf.1
  have hcopy := copy_range_eq rhs._data (some (List.replicate rhs._capacity none)) 0 rhs._size
    (Nat.zero_le _) (fun j _ h2 => hwf.slot_live j h2)
    (fun j _ h2 => by
      rw [Ptr.slot_some, List.getElem?_replicate, if_pos (by omega)]
      exact ⟨_, rfl⟩)
  have hcopy' : for_up 0 rhs._size (vector.copy_construct_body rhs._data)
      (some (List.replicate rhs._capacity none)) =
      .ok (some (overwrite (List.replicate rhs._capacity none) 0 rhs._size
        (fun j => (rhs._data.slot j).join))) := hcopy
  refine ⟨{ _alloc := rhs._alloc
            _data := some (overwrite (List.replicate rhs._capacity none) 0 rhs._size
              (fun j => (rhs._data.slot j).join))
            _size := rhs._size
            _capacity := rhs._capacity }, ?_, ?_, rfl, rfl, rfl, ?_⟩
  · unfold vector.ctor_copy
    simp only [allocate_eq _ _ hp, hcopy']
  · have := vector.WF_grown rhs hwf rhs._capacity hsc hp
    exact this
  · intro i hi
    simp only [slot_fresh]
    rw [if_pos (by omega), if_pos hi]
    exact (hwf.slot_join i hi).2.symm

/-- C13: copy construction is deep.  For a well-formed source `s` whose buffer is a block
of the store, a completed copy construction yields a container `c` in a new block with
`size == s.size`, `capacity == s.capacity` and the elements of `s` index by index, and
leaves `s` unchanged; every mutation of the copy (`emplace_back`, `pop_back`, `resize`,
element overwrite) that completes leaves the size, capacity and buffer of `s` unchanged,
and every such mutation of `s` leaves those of the copy unchanged.  The operations in the
store are the operations on values (they complete together and give the same state), and
the copy completes whenever the strategy provides `s.capacity` slots. -/
theorem copy_construction_independent [Allocator A] [Inhabited T] (h : Heap T)
    (s : heap_vector A) (hv : s.valid h) (hwf : (s.view h : vector T A).WF) :
    (∀ h1 c, heap_vector.ctor_copy h s = .ok (h1, c) →
      vector.ctor_copy (s.view h) = .ok (c.view h1) ∧ (c.view h1 : vector T A).WF ∧
      c._size = s._size ∧ c._capacity = s._capacity ∧
      (∀ i, i < s._size →
        ∃ x, (s.view h).at_unchecked i = .ok x ∧ (c.view h1).at_unchecked i = .ok x) ∧
      (s.view h1 : vector T A) = s.view h ∧
      (∀ m h2 c', heap_vector.mutate h1 c m = .ok (h2, c') →
        (s.view h2 : vector T A) = s.view h1 ∧
        vector.mutate (c.view h1) m = .ok (c'.view h2)) ∧
      (∀ m h2 s', heap_vector.mutate h1 s m = .ok (h2, s') →
        (c.view h2 : vector T A) = c.view h1 ∧
        vector.mutate (s.view h1) m = .ok (s'.view h2)) ∧
      (∀ m v', vector.mutate (c.view h1) m = .ok v' →
        ∃ h2 c', heap_vector.mutate h1 c m = .ok (h2, c')) ∧
      (∀ m v', vector.mutate (s.view h1) m = .ok v' →
        ∃ h2 s', heap_vector.mutate h1 s m = .ok (h2, s'))) ∧
    (Allocator.provides s._alloc s._capacity = true →
      ∃ h1 c, heap_vector.ctor_copy h s = .ok (h1, c)) := by
  obtain ⟨hfwd, hbwd⟩ := heap_vector.ctor_copy_view h s hv
  constructor
  · intro h1 c hc
    obtain ⟨hval, hcd, hlen, hframe⟩ := hfwd h1 c hc
    have hp := vector.ctor_copy_ok_provides _ _ hval
    obtain ⟨w, hw, hwfw, hsz, hcap, _, hsl⟩ := vector.ctor_copy_spec (s.view h) hwf hp
    rw [hval] at hw
    simp only [Except.ok.injEq] at hw
    subst hw
    have hsv1 : s.valid h1 := heap_vector.valid_of_length s h h1 hv (by omega)
    have hcv1 : c.valid h1 := by
      unfold heap_vector.valid
      rw [hcd]
      show h.length < h1.length
      omega
    have hne : s._data ≠ c._data := by
      rw [hcd]
      exact heap_vector.valid_ne_fresh s h hv
    have hs1 : (s.view h1 : vector T A) = s.view h := by
      cases hd : s._data with
      | none => simp [heap_vector.view, hd, Heap.deref]
      | some a =>
        exact heap_vector.view_eq_of_frame s h h1 none hframe hv (by rw [hd]; simp)
    refine ⟨hval, hwfw, hsz, hcap, ?_, hs1, ?_, ?_, ?_, ?_⟩
    · intro i hi
      obtain ⟨x, hx⟩ := hwf.slot_live i hi
      exact ⟨x, Ptr.read_of_slot _ _ _ hx,
        Ptr.read_of_slot _ _ _ (by rw [hsl i hi]; exact hx)⟩
    · intro m h2 c' hm
      exact ⟨heap_vector.view_eq_of_frame s h1 h2 c._data
          (heap_vector.mutate_frame h1 h2 c c' m hm) hsv1 hne,
        ((heap_vector.mutate_view h1 c m hcv1).1 h2 c' hm).1⟩
    · intro m h2 s' hm
      exact ⟨heap_vector.view_eq_of_frame c h1 h2 s._data
          (heap_vector.mutate_frame h1 h2 s s' m hm) hcv1 (fun e => hne e.symm),
        ((heap_vector.mutate_view h1 s m hsv1).1 h2 s' hm).1⟩
    · intro m v' hm
      exact (heap_vector.mutate_view h1 c m hcv1).2 v' hm
    · intro m v' hm
      exact (heap_vector.mutate_view h1 s m hsv1).2 v' hm
  · intro hp
    obtain ⟨w, hw, _⟩ := vector.ctor_copy_spec (s.view h) hwf hp
    exact hbwd w hw

theorem copy_construction_independent_witness :
    sample_object.valid sample_store ∧
    (sample_object.view sample_store : vector Nat heap).WF ∧
    (∃ h1 c, heap_vector.ctor_copy sample_store sample_object = .ok (h1, c) ∧
      c._size = 2 ∧ c._capacity = 3 ∧
      (∃ h2 c', heap_vector.mutate h1 c (Mutation.overwrite 0 100) = .ok (h2, c') ∧
        (c'.view h2 : vector Nat heap).at_unchecked 0 = .ok 100 ∧
        (sample_object.view h2 : vector Nat heap) = sample_object.view h1 ∧
        (sample_object.view h2 : vector Nat heap).at_unchecked 0 = .ok 7) ∧
      (∃ h2 s', heap_vector.mutate h1 sample_object (Mutation.emplace_back 9) = .ok (h2, s') ∧
        (c.view h2 : vector Nat heap) = c.view h1)) := by
  have hc : heap_vector.ctor_copy sample_store sample_object =
      .ok ([some [some 7, some 8, none], some [some 7, some 8, none]],
        ⟨{}, some 1, 2, 3⟩) := by decide
  obtain ⟨_, _, h3, h4, _, _, h7, h8, _, _⟩ :=
    (copy_construction_independent sample_store sample_object (by decide) (by decide)).1 _ _ hc
  refine ⟨by decide, by decide, _, _, hc, h3, h4, ?_, ?_⟩
  · have hm : heap_vector.mutate [some [some 7, some 8, none], some [some 7, some 8, none]]
        (⟨{}, some 1, 2, 3⟩ : heap_vector heap) (Mutation.overwrite 0 100) =
        .ok ([some [some 7, some 8, none], some [some 100, some 8, none]],
          ⟨{}, some 1, 2, 3⟩) := by decide
    exact ⟨_, _, hm, by decide, (h7 _ _ _ hm).1, by decide⟩
  · have hm : heap_vector.mutate [some [some 7, some 8, none], some [some 7, some 8, none]]
        sample_object (Mutation.emplace_back 9) =
        .ok ([some [some 7, some 8, some 9], some [some 7, some 8, none]],
          ⟨{}, some 0, 3, 3⟩) := by decide
    exact ⟨_, _, hm, (h8 _ _ _ hm).1⟩

end store

/-! ## Construction from values -/

section construction

variable {T A : Type}

theorem vector.ctor_array_ok_provides [Allocator A] (arr : List T) (v' : vector T A)
    (h : vector.ctor_array arr = .ok v') :
    Allocator.provides (Allocator.init : A) arr.length = true := by
  unfold vector.ctor_array at h
  simp only at h
  split at h
  · simp at h
  · rename_i d hd
    exact (allocate_ok_inv _ _ _ hd).1

/-- Effect of the array constructors when the strategy provides `N` slots. -/
theorem vector.ctor_array_spec [Allocator A] (arr : List T)
    (hp : Allocator.provides (Allocator.init : A) arr.length = true) :
    ∃ v' : vector T A, vector.ctor_array arr = .ok v' ∧ v'.WF ∧ v'._size = arr.length ∧
      v'._capacity = arr.length ∧ v'._alloc = Allocator.init ∧
      ∀ i, i < arr.length → v'._data.slot i = (vector.array_ptr arr).slot i := by
  have hsrc := array_ptr_source arr
  have hcopy := copy_range_eq (vector.array_ptr arr) (some (List.replicate arr.length none))
    0 arr.length (Nat.zero_le _) (fun j _ h2 => Ptr.source_live _ _ j hsrc h2)
    (fun j _ h2 => by
      rw [Ptr.slot_some, List.getElem?_replicate, if_pos (by omega)]
      exact ⟨_, rfl⟩)
  have hcopy' : for_up 0 arr.length (vector.copy_construct_body (vector.array_ptr arr))
      (some (List.replicate arr.length none)) =
      .ok (some (overwrite (List.replicate arr.length none) 0 arr.length
        (fun j => ((vector.array_ptr arr).slot j).join))) := hcopy
  have hslot : ∀ i, i < arr.length →
      Ptr.slot (some (overwrite (List.replicate arr.length none) 0 arr.length
        (fun j => ((vector.array_ptr arr).slot j).join))) i = (vector.array_ptr arr).slot i := by
    intro i hi
    simp only [slot_fresh]
    rw [if_pos hi, if_pos hi]
    obtain ⟨x, hx⟩ := Ptr.source_live _ _ i hsrc hi
    rw [hx]
    rfl
  refine ⟨{ _alloc := Allocator.init
            _data := some (overwrite (List.replicate arr.length none) 0 arr.length
              (fun j => ((vector.array_ptr arr).slot j).join))
            _size := arr.length
            _capacity := arr.length }, ?_, ?_, rfl, rfl, rfl, hslot⟩
  · unfold vector.ctor_array
    simp only [allocate_eq _ _ hp, hcopy']
  · apply vector.WF_of_slots
    · exact Nat.le_refl _
    · exact Allocator.provides_le _ _ hp
    · simp [Ptr.length, length_overwrite]
    · intro i hi
      obtain ⟨x, hx⟩ := Ptr.source_live _ _ i hsrc hi
      exact ⟨x, by rw [hslot i hi]; exact hx⟩
    · intro i hi hs
      simp only at hi hs
      omega

theorem vector.array_ptr_slot (arr : List T) (i : Nat) (h : i < arr.length) :
    (vector.array_ptr arr).slot i = some (some arr[i]) := by
  unfold vector.array_ptr
  rw [Ptr.slot_some, List.getElem?_map, List.getElem?_eq_getElem h]
  rfl

theorem vector.resize_ok_grants [Allocator A] [Inhabited T] (v v' : vector T A) (n : Nat)
    (h : v.resize n = .ok v') : vector.grants v._alloc v._capacity n = true := by
  obtain ⟨_, _, h1 | ⟨_, h2, h3⟩⟩ := vector.resize_inv v v' n h
  · exact (vector.grants_iff _ _ _).mpr (Or.inl h1.1)
  · exact (vector.grants_iff _ _ _).mpr (Or.inr ⟨_, h2, h3⟩)

/-- C21: a container constructed from a fixed-length sequence of `N` values, when the
construction completes, is well formed with `size == N`, `capacity == N` and the element at
each index `i < N` equal to the `i`-th value of the sequence; the construction completes
whenever the default-constructed strategy provides `N` slots. -/
theorem array_construction_effect [Allocator A] (arr : List T) :
    (∀ v' : vector T A, vector.ctor_array arr = .ok v' →
      v'._size = arr.length ∧ v'._capacity = arr.length ∧ v'.WF ∧
      ∀ i (h : i < arr.length), v'.at_unchecked i = .ok arr[i]) ∧
    (Allocator.provides (Allocator.init : A) arr.length = true →
      ∃ v' : vector T A, vector.ctor_array arr = .ok v') := by
  constructor
  · intro v' hv
    obtain ⟨w, hw, hwf, hs, hc, _, hsl⟩ :=
      vector.ctor_array_spec arr (vector.ctor_array_ok_provides arr v' hv)
    rw [hv] at hw
    simp only [Except.ok.injEq] at hw
    subst hw
    refine ⟨hs, hc, hwf, fun i h => Ptr.read_of_slot _ _ _ ?_⟩
    rw [hsl i h]
    exact vector.array_ptr_slot arr i h
  · intro hp
    obtain ⟨w, hw, _⟩ := @vector.ctor_array_spec T A _ arr hp
    exact ⟨w, hw⟩

theorem array_construction_effect_witness :
    ∃ v' : vector Nat heap, vector.ctor_array [4, 5, 6] = .ok v' ∧ v'._size = 3 ∧
      v'._capacity = 3 ∧ v'.at_unchecked 0 = .ok 4 ∧ v'.at_unchecked 1 = .ok 5 ∧
      v'.at_unchecked 2 = .ok 6 := by
  have h := (array_construction_effect [4, 5, 6]).1
    (⟨{}, some [some 4, some 5, some 6], 3, 3⟩ : vector Nat heap) (by decide)
  exact ⟨_, by decide, h.1, h.2.1, h.2.2.2 0 (by decide), h.2.2.2 1 (by decide),
    h.2.2.2 2 (by decide)⟩

/-- C22 fails as stated: `vector(4)` has capacity 5, the first term `>= 4` of the growth
sequence from 1, not 4. -/
theorem sized_construction_capacity_counterexample :
    ∃ v : vector Nat heap, vector.ctor_size 4 = .ok v ∧ v._size = 4 ∧ v._capacity = 5 ∧
      ¬ v._capacity = 4 :=
  ⟨⟨{}, some [some 0, some 0, some 0, some 0, none], 4, 5⟩, by decide, by decide, by decide,
    by decide⟩

/-- C22 as amended: for every `n` the sized constructor `vector(n)`, when it completes,
yields a well-formed container with `size == n`, every element equal to the
default-constructed value of `T`, and the capacity that `resize(n)` gives an empty
container: 0 for `n == 0` and otherwise the first term `>= n` of the growth sequence from 1,
hence `capacity >= n`; it completes whenever the strategy grants that request. -/
theorem sized_construction_effect [Allocator A] [Inhabited T] (n : Nat) :
    (∀ v : vector T A, vector.ctor_size n = .ok v →
      v.WF ∧ v._size = n ∧ n ≤ v._capacity ∧ (n = 0 → v._capacity = 0) ∧
      (0 < n → first_term_ge 1 n v._capacity) ∧
      ∀ i, i < n → v.at_unchecked i = .ok default) ∧
    (vector.grants (Allocator.init : A) 0 n = true →
      ∃ v : vector T A, vector.ctor_size n = .ok v) := by
  have hwf0 : (vector.ctor_default : vector T A).WF := vector.holds_default.1
  constructor
  · intro v hv
    have hg := vector.resize_ok_grants _ _ _ hv
    obtain ⟨w, hw, hwf, hs, _, _, hdef, hsame, hnew⟩ :=
      vector.resize_spec (vector.ctor_default : vector T A) hwf0 n hg
    have hv' : (vector.ctor_default : vector T A).resize n = .ok v := hv
    rw [hv'] at hw
    simp only [Except.ok.injEq] at hw
    subst hw
    have hcap0 : (vector.ctor_default : vector T A)._capacity = 0 := rfl
    have hsz0 : (vector.ctor_default : vector T A)._size = 0 := rfl
    refine ⟨hwf, hs, ?_, ?_, ?_, ?_⟩
    · have := hwf.1
      omega
    · intro h0
      rw [hsame (by omega)]
      rfl
    · intro hpos
      have h1 := hnew (by rw [hcap0]; exact hpos)
      have h2 := new_capacity_first_term _ _ _ h1 hwf.2.1
      rw [hcap0] at h2
      exact h2
    · intro i hi
      exact Ptr.read_of_slot _ _ _ (hdef i (by rw [hsz0]; omega) hi)
  · intro hg
    obtain ⟨w, hw, _⟩ := vector.resize_spec (vector.ctor_default : vector T A) hwf0 n hg
    exact ⟨w, hw⟩

theorem sized_construction_effect_witness :
    ∃ v : vector Nat heap, vector.ctor_size 4 = .ok v ∧ v._size = 4 ∧ 4 ≤ v._capacity ∧
      first_term_ge 1 4 v._capacity ∧ v.at_unchecked 3 = .ok 0 := by
  have h := (sized_construction_effect 4).1
    (⟨{}, some [some 0, some 0, some 0, some 0, none], 4, 5⟩ : vector Nat heap) (by decide)
  exact ⟨_, by decide, h.2.1, h.2.2.1, h.2.2.2.2.1 (by decide), h.2.2.2.2.2 3 (by decide)⟩

end construction

/-! ## Reserving before appending, `make_vector` -/

section reserved

variable {T A : Type}

theorem vector.reserve_noop [Allocator A] (v : vector T A) (n : Nat) (h : n ≤ v._capacity) :
    v.reserve n = .ok v := by
  unfold vector.reserve
  rw [if_neg (by omega)]

/-- Consecutive `emplace_back` calls that fit in the capacity: none of them changes the
capacity, and the values are appended in order. -/
theorem vector.emplace_all_reserved [Allocator A] :
    ∀ (vals : List T) (v : vector T A), v.WF → v._size + vals.length ≤ v._capacity →
      ∃ v', v.emplace_all vals = .ok v' ∧ v'.WF ∧ v'._capacity = v._capacity ∧
        v'._alloc = v._alloc ∧ v'._size = v._size + vals.length ∧
        (∀ i, i < v._size → v'._data.slot i = v._data.slot i) ∧
        (∀ j x, vals[j]? = some x → v'._data.slot (v._size + j) = some (some x)) := by
  intro vals
  induction vals with
  | nil =>
    intro v hwf _
    exact ⟨v, rfl, hwf, rfl, rfl, rfl, fun _ _ => rfl, fun j x h => by simp at h⟩
  | cons val vals ih =>
    intro v hwf hfit
    have hlen : (val :: vals).length = vals.length + 1 := rfl
    rw [hlen] at hfit
    obtain ⟨v1, hv1, hwf1, hs1, ha1, hnew, hold, _, hsame, _⟩ :=
      vector.emplace_back_spec v hwf val ((vector.grants_iff _ _ _).mpr (Or.inl (by omega)))
    have hc1 : v1._capacity = v._capacity := hsame (by omega)
    obtain ⟨v', hv', hwf', hc', ha', hs', hold', hnew'⟩ :=
      ih v1 hwf1 (by rw [hs1, hc1]; omega)
    refine ⟨v', ?_, hwf', by rw [hc', hc1], by rw [ha', ha1], by rw [hs', hs1, hlen]; omega,
      ?_, ?_⟩
    · simp only [vector.emplace_all, hv1]
      exact hv'
    · intro i hi
      rw [hold' i (by omega)]
      exact hold i hi
    · intro j x hx
      cases j with
      | zero =>
        simp only [List.getElem?_cons_zero, Option.some.injEq] at hx
        subst hx
        rw [Nat.add_zero, hold' _ (by omega)]
        exact hnew
      | succ j =>
        simp only [List.getElem?_cons_succ] at hx
        have := hnew' j x hx
        rw [hs1] at this
        rw [show v._size + (j + 1) = v._size + 1 + j by omega]
        exact this

/-- C24: for an empty well-formed container and every `n`, once `reserve(n)` has completed,
the next `n` calls `emplace_back` all complete without reallocation: after each prefix of
`j <= n` calls the capacity is the one right after `reserve(n)` and the size is `j` (so the
final size is `n`), and the `reserve(size + 1)` made inside the next call returns the state
unchanged; `reserve(n)` completes whenever the strategy grants the request. -/
theorem reserve_then_emplace_no_reallocation [Allocator A] (v : vector T A) (hwf : v.WF)
    (hempty : v._size = 0) (n : Nat) :
    (∀ v1, v.reserve n = .ok v1 → ∀ vals : List T, vals.length = n →
      ∀ j, j ≤ n → ∃ vj, v1.emplace_all (vals.take j) = .ok vj ∧
        vj._capacity = v1._capacity ∧ vj._size = j ∧
        (j < n → vj.reserve (vj._size + 1) = .ok vj)) ∧
    (vector.grants v._alloc v._capacity n = true → ∃ v1, v.reserve n = .ok v1) := by
  constructor
  · intro v1 hv1 vals hlen j hj
    obtain ⟨w, hw, hwf1, hs1, _, hn1, _⟩ :=
      vector.reserve_spec v hwf n (vector.reserve_ok_grants v v1 n hv1)
    rw [hv1] at hw
    simp only [Except.ok.injEq] at hw
    subst hw
    have htake : (vals.take j).length = j := by
      rw [List.length_take]
      omega
    obtain ⟨vj, hvj, _, hcj, _, hsj, _⟩ :=
      vector.emplace_all_reserved (vals.take j) v1 hwf1 (by rw [htake]; omega)
    refine ⟨vj, hvj, hcj, by rw [hsj, htake]; omega, fun hlt => ?_⟩
    exact vector.reserve_noop vj _ (by rw [hsj, htake, hcj]; omega)
  · intro hg
    obtain ⟨w, hw, _⟩ := vector.reserve_spec v hwf n hg
    exact ⟨w, hw⟩

theorem reserve_then_emplace_no_reallocation_witness :
    (vector.ctor_default : vector Nat heap).WF ∧
    ∃ v1 v3 : vector Nat heap, vector.ctor_default.reserve 3 = .ok v1 ∧
      v1.emplace_all ([7, 8, 9].take 3) = .ok v3 ∧ v3._capacity = v1._capacity ∧
      v3._size = 3 := by
  obtain ⟨v3, h1, h2, h3, _⟩ := (reserve_then_emplace_no_reallocation
    (vector.ctor_default : vector Nat heap) (by decide) rfl 3).1
    ⟨{}, some [none, none, none], 0, 3⟩ (by decide) [7, 8, 9] rfl 3 (Nat.le_refl _)
  exact ⟨by decide, _, v3, by decide, h1, h2, h3⟩

theorem vector.emplace_all_ok_reserved [Allocator A] (vals : List T) (v v' : vector T A)
    (hwf : v.WF) (hfit : v._size + vals.length ≤ v._capacity)
    (h : v.emplace_all vals = .ok v') :
    v'.WF ∧ v'._capacity = v._capacity ∧ v'._size = v._size + vals.length ∧
      (∀ j x, vals[j]? = some x → v'._data.slot (v._size + j) = some (some x)) := by
  obtain ⟨w, hw, hwf', hc, _, hs, _, hnew⟩ := vector.emplace_all_reserved vals v hwf hfit
  rw [h] at hw
  simp only [Except.ok.injEq] at hw
  subst hw
  exact ⟨hwf', hc, hs, hnew⟩

/-- C23: `make_vector(a1, ..., ak)`, when it completes, returns a container with
`size == k` whose element at index 0 is the first argument and whose element at index
`i + 1` is the argument after it converted to the first argument's type, in argument
order; its capacity is the capacity that `reserve(k)` gives an empty container, and none
of the `k` calls `emplace_back` reallocates: after each prefix of them the capacity is
still that one and the `reserve(size + 1)` of the next call returns the state unchanged.
It completes whenever the strategy grants the request of `reserve(k)`. -/
theorem make_vector_effect {U : Type} [Allocator A] (convert : U → T) (first : T)
    (rest : List U) :
    (∀ v : vector T A, make_vector convert first rest = .ok v →
      v._size = 1 + rest.length ∧ v.at_unchecked 0 = .ok first ∧
      (∀ i u, rest[i]? = some u → v.at_unchecked (i + 1) = .ok (convert u)) ∧
      ∃ v1 : vector T A, vector.ctor_default.reserve (1 + rest.length) = .ok v1 ∧
        v._capacity = v1._capacity ∧
        ∀ j, j < 1 + rest.length →
          ∃ vj, v1.emplace_all ((first :: rest.map convert).take j) = .ok vj ∧
            vj._capacity = v1._capacity ∧ vj.reserve (vj._size + 1) = .ok vj) ∧
    (vector.grants (Allocator.init : A) 0 (1 + rest.length) = true →
      ∃ v : vector T A, make_vector convert first rest = .ok v) := by
  have hwf0 : (vector.ctor_default : vector T A).WF := vector.holds_default.1
  have hlen : (first :: rest.map convert).length = 1 + rest.length := by
    simp only [List.length_cons, List.length_map]
    omega
  have key : ∀ v1 : vector T A, vector.ctor_default.reserve (1 + rest.length) = .ok v1 →
      v1.WF ∧ v1._size = 0 ∧ 1 + rest.length ≤ v1._capacity := by
    intro v1 hv1
    obtain ⟨w, hw, hwf1, hs1, _, hn1, _⟩ := vector.reserve_spec
      (vector.ctor_default : vector T A) hwf0 _ (vector.reserve_ok_grants _ v1 _ hv1)
    rw [hv1] at hw
    simp only [Except.ok.injEq] at hw
    subst hw
    exact ⟨hwf1, hs1, hn1⟩
  constructor
  · intro v hv
    unfold make_vector at hv
    simp only at hv
    split at hv
    · simp at hv
    · rename_i v1 hv1
      obtain ⟨hwf1, hs1, hn1⟩ := key v1 hv1
      obtain ⟨_, hc, hs, hnew⟩ := vector.emplace_all_ok_reserved _ v1 v hwf1
        (by rw [hs1, hlen]; omega) hv
      refine ⟨by rw [hs, hs1, hlen]; omega, ?_, ?_, v1, hv1, hc, ?_⟩
      · have := hnew 0 first (List.getElem?_cons_zero)
        rw [hs1] at this
        exact Ptr.read_of_slot _ _ _ this
      · intro i u hu
        have := hnew (i + 1) (convert u) (by
          simp only [List.getElem?_cons_succ, List.getElem?_map, hu]
          rfl)
        rw [hs1, Nat.zero_add] at this
        exact Ptr.read_of_slot _ _ _ this
      · intro j hj
        have htake : ((first :: rest.map convert).take j).length = j := by
          rw [List.length_take, hlen]
          omega
        obtain ⟨vj, hvj, _, hcj, _, hsj, _⟩ := vector.emplace_all_reserved
          ((first :: rest.map convert).take j) v1 hwf1 (by rw [htake]; omega)
        exact ⟨vj, hvj, hcj, vector.reserve_noop vj _ (by rw [hsj, htake, hcj]; omega)⟩
  · intro hg
    obtain ⟨v1, hv1, _⟩ := vector.reserve_spec (vector.ctor_default : vector T A) hwf0 _ hg
    obtain ⟨hwf1, hs1, hn1⟩ := key v1 hv1
    obtain ⟨v, hv, _⟩ := vector.emplace_all_reserved (first :: rest.map convert) v1 hwf1
      (by rw [hs1, hlen]; omega)
    refine ⟨v, ?_⟩
    unfold make_vector
    simp only [hv1]
    exact hv

theorem make_vector_effect_witness :
    ∃ v : vector Nat heap, make_vector Int.toNat 1 [2, 3, -4] = .ok v ∧ v._size = 4 ∧
      v.at_unchecked 0 = .ok 1 ∧ v.at_unchecked (0 + 1) = .ok (Int.toNat 2) ∧
      v.at_unchecked (2 + 1) = .ok (Int.toNat (-4)) ∧
      v._capacity = 5 := by
  have h := (make_vector_effect Int.toNat 1 [2, 3, -4]).1
    (⟨{}, some [some 1, some 2, some 3, some 0, none], 4, 5⟩ : vector Nat heap) (by decide)
  exact ⟨_, by decide, h.1, h.2.1, h.2.2.1 0 2 (by decide), h.2.2.1 2 (-4) (by decide),
    by decide⟩

end reserved

/-! ## Growth step by step: scenarios and bounded arenas -/

section scenarios

variable {T A : Type}

theorem first_term_push (cap : Nat) :
    first_term_ge (if cap ≠ 0 then cap else 1) (cap + 1) (capacity_after_push cap cap) := by
  unfold capacity_after_push
  rw [if_neg (show ¬ cap + 1 ≤ cap by omega)]
  by_cases h0 : cap = 0
  · subst h0
    exact ⟨0, rfl, by decide, fun j hj => by omega⟩
  · rw [if_neg h0, if_pos h0]
    refine ⟨1, rfl, by omega, fun j hj => ?_⟩
    have : j = 0 := by omega
    subst this
    show cap < cap + 1
    omega

theorem new_capacity_push (cap : Nat) (hmax : capacity_after_push cap cap ≤ max_count) :
    new_capacity cap (cap + 1) = some (capacity_after_push cap cap) :=
  new_capacity_of_first_term cap (cap + 1) _ (first_term_push cap) hmax

/-- Effect of `emplace_back` on a well-formed state in terms of the growth policy. -/
theorem vector.emplace_back_push_spec [Allocator A] (v : vector T A) (hwf : v.WF) (val : T)
    (hp : v._capacity < v._size + 1 →
      Allocator.provides v._alloc (capacity_after_push v._capacity v._size) = true) :
    ∃ v', v.emplace_back val = .ok v' ∧ v'.WF ∧ v'._size = v._size + 1 ∧
      v'._alloc = v._alloc ∧ v'._capacity = capacity_after_push v._capacity v._size ∧
      v'._data.slot v._size = some (some val) ∧
      (∀ i, i < v._size → v'._data.slot i = v._data.slot i) := by
  have hsc := hwf.1
  by_cases hfit : v._size + 1 ≤ v._capacity
  · obtain ⟨v', hv', hwf', hs', ha', hnew, hold, _, hsame, _⟩ :=
      vector.emplace_back_spec v hwf val ((vector.grants_iff _ _ _).mpr (Or.inl hfit))
    refine ⟨v', hv', hwf', hs', ha', ?_, hnew, hold⟩
    rw [hsame hfit]
    unfold capacity_after_push
    rw [if_pos hfit]
  · have hcs : v._size = v._capacity := by omega
    have hp' := hp (by omega)
    rw [hcs] at hp'
    have hnc := new_capacity_push v._capacity (Allocator.provides_le _ _ hp')
    obtain ⟨v', hv', hwf', hs', ha', hnew, hold, _, _, hgrow⟩ :=
      vector.emplace_back_spec v hwf val
        ((vector.grants_iff _ _ _).mpr (Or.inr ⟨_, by rw [hcs]; exact hnc, hp'⟩))
    refine ⟨v', hv', hwf', hs', ha', ?_, hnew, hold⟩
    have h1 := hgrow (by omega)
    rw [hcs, hnc] at h1
    simp only [Option.some.injEq] at h1
    rw [hcs]
    exact h1.symm

/-- A call `emplace_back` that has to grow fails with an allocation error when the strategy
does not provide the capacity of the growth policy. -/
theorem vector.emplace_back_fails [Allocator A] (v : vector T A) (hwf : v.WF) (val : T)
    (hfull : v._size = v._capacity)
    (hmax : capacity_after_push v._capacity v._size ≤ max_count)
    (hp : Allocator.provides v._alloc (capacity_after_push v._capacity v._size) = false) :
    v.emplace_back val = .error Fault.bad_alloc := by
  have hcmax := hwf.2.1
  have hmod : (v._size + 1) % usize_range = v._size + 1 := by
    unfold max_count at hcmax
    unfold usize_range
    omega
  rw [hfull] at hmax hp
  have hnc := new_capacity_push v._capacity hmax
  rw [vector.emplace_back_eq]
  unfold vector.reserve
  rw [hmod, hfull, if_pos (by omega), hnc]
  simp only [allocate, hp]
  rfl

theorem capacity_after_pushes_succ (c s k : Nat) :
    capacity_after_pushes c s (k + 1) =
      capacity_after_pushes (capacity_after_push c s) (s + 1) k := rfl

/-- Effect of consecutive calls `emplace_back` on a well-formed state in terms of the
growth policy; the strategy has to provide the new capacity at each call that grows. -/
theorem vector.emplace_all_spec [Allocator A] :
    ∀ (vals : List T) (v : vector T A), v.WF →
      (∀ j, j < vals.length → capacity_after_pushes v._capacity v._size j < v._size + j + 1 →
        Allocator.provides v._alloc (capacity_after_pushes v._capacity v._size (j + 1)) =
          true) →
      ∃ v', v.emplace_all vals = .ok v' ∧ v'.WF ∧ v'._size = v._size + vals.length ∧
        v'._capacity = capacity_after_pushes v._capacity v._size vals.length ∧
        v'._alloc = v._alloc ∧
        (∀ i, i < v._size → v'._data.slot i = v._data.slot i) ∧
        (∀ j x, vals[j]? = some x → v'._data.slot (v._size + j) = some (some x)) := by
  intro vals
  induction vals with
  | nil =>
    intro v hwf _
    exact ⟨v, rfl, hwf, rfl, rfl, rfl, fun _ _ => rfl, fun j x h => by simp at h⟩
  | cons val vals ih =>
    intro v hwf hp
    have hlen : (val :: vals).length = vals.length + 1 := rfl
    obtain ⟨v1, hv1, hwf1, hs1, ha1, hc1, hnew, hold⟩ :=
      vector.emplace_back_push_spec v hwf val (fun hlt => hp 0 (by rw [hlen]; omega) hlt)
    obtain ⟨v', hv', hwf', hs', hc', ha', hold', hnew'⟩ := ih v1 hwf1 (fun j hj hlt => by
      rw [ha1, hc1, hs1]
      rw [hc1, hs1] at hlt
      exact hp (j + 1) (by rw [hlen]; omega) (by rw [capacity_after_pushes_succ]; omega))
    refine ⟨v', ?_, hwf', by rw [hs', hs1, hlen]; omega, ?_, by rw [ha', ha1], ?_, ?_⟩
    · simp only [vector.emplace_all, hv1]
      exact hv'
    · rw [hc', hc1, hs1, hlen, capacity_after_pushes_succ]
    · intro i hi
      rw [hold' i (by omega)]
      exact hold i hi
    · intro j x hx
      cases j with
      | zero =>
        simp only [List.getElem?_cons_zero, Option.some.injEq] at hx
        subst hx
        rw [Nat.add_zero, hold' _ (by omega)]
        exact hnew
      | succ j =>
        simp only [List.getElem?_cons_succ] at hx
        have := hnew' j x hx
        rw [hs1] at this
        rw [show v._size + (j + 1) = v._size + 1 + j by omega]
        exact this

/-- C25: the concrete scenario on the heap strategy.  From the empty container,
`emplace_back` of 1, 2, ..., 10 in order gives `size() == 10` and element `[3] == 4`; then
`resize(3)` gives `size() == 3` and `at(5)` reports an out-of-range error; then
`shrink_to_fit()` gives `capacity() == 3` with the elements 1, 2, 3. -/
theorem scenario_push_resize_shrink :
    ∃ v10 v3 v : vector Nat heap,
      vector.ctor_default.emplace_all [1, 2, 3, 4, 5, 6, 7, 8, 9, 10] = .ok v10 ∧
      v10._size = 10 ∧ v10.subscript 3 = .ok 4 ∧
      v10.resize 3 = .ok v3 ∧ v3._size = 3 ∧ (v3.«at» 5).1 = .error Fault.out_of_range ∧
      v3.shrink_to_fit = .ok v ∧ v._capacity = 3 ∧ v._size = 3 ∧
      v.at_unchecked 0 = .ok 1 ∧ v.at_unchecked 1 = .ok 2 ∧ v.at_unchecked 2 = .ok 3 :=
  ⟨⟨{}, some [some 1, some 2, some 3, some 4, some 5, some 6, some 7, some 8, some 9,
      some 10, none, none], 10, 12⟩,
    ⟨{}, some [some 1, some 2, some 3, none, none, none, none, none, none, none, none,
      none], 3, 12⟩,
    ⟨{}, some [some 1, some 2, some 3], 3, 3⟩,
    by decide, by decide, by decide, by decide, by decide, by decide, by decide, by decide,
    by decide, by decide, by decide, by decide⟩

/-- C26 fails as stated: on an arena of ten slots the ten calls do not all succeed; the
run of ten `emplace_back` calls from the empty container ends in an allocation error,
already at the ninth call. -/
theorem bounded_arena_ten_counterexample :
    arena_empty.emplace_all [1, 2, 3, 4, 5, 6, 7, 8, 9, 10] = .error Fault.bad_alloc ∧
    arena_empty.emplace_all [1, 2, 3, 4, 5, 6, 7, 8, 9] = .error Fault.bad_alloc ∧
    arena_empty.emplace_all [1, 2, 3, 4, 5, 6, 7, 8] =
      .ok ⟨{ id := 0 }, some [some 1, some 2, some 3, some 4, some 5, some 6, some 7,
        some 8], 8, 8⟩ :=
  ⟨by decide, by decide, by decide⟩

theorem arena_provides (M : Nat) (a : arena M) (c : Nat) (h1 : c ≤ M) (h2 : c ≤ 12) :
    Allocator.provides a c = true := by
  show (decide (c ≤ M) && decide (c ≤ max_count)) = true
  simp only [Bool.and_eq_true, decide_eq_true_eq]
  exact ⟨h1, by unfold max_count; omega⟩

end scenarios

/-! ## Relocation work -/

section relocations

variable {T A : Type}

theorem vector.emplace_back_ok_capacity [Allocator A] (v v' : vector T A) (hwf : v.WF)
    (val : T) (h : v.emplace_back val = .ok v') :
    v'._capacity = capacity_after_push v._capacity v._size := by
  have hsc := hwf.1
  have hmax := hwf.2.1
  have hmod : (v._size + 1) % usize_range = v._size + 1 := by
    unfold max_count at hmax
    unfold usize_range
    omega
  obtain ⟨v1, hr, _, hc, _, _⟩ := vector.emplace_back_inv v v' val h
  rw [hmod] at hr
  obtain ⟨_, _, h1 | ⟨h1, h2, h3⟩⟩ := vector.reserve_inv v v1 _ hr
  · rw [hc, h1.2]
    unfold capacity_after_push
    rw [if_pos h1.1]
  · have hcs : v._size = v._capacity := by omega
    rw [hcs] at h2 ⊢
    have hft := new_capacity_first_term _ _ _ h2 (Allocator.provides_le _ _ h3)
    rw [hc]
    exact first_term_ge_unique _ _ _ _ hft (first_term_push v._capacity)

theorem for_up_loop_relocate_counted :
    ∀ (k lo : Nat) (s : Ptr T × Ptr T) (c : Nat),
      for_up_loop vector.relocate_counted k lo (s, c) =
        match for_up_loop vector.relocate_body k lo s with
        | .ok s1 => .ok (s1, c + k)
        | .error e => .error e := by
  intro k
  induction k with
  | zero => intro lo s c; rfl
  | succ k ih =>
    intro lo s c
    simp only [for_up_loop, vector.relocate_counted]
    cases hb : vector.relocate_body lo s with
    | error e => rfl
    | ok s1 =>
      simp only
      rw [ih]
      cases for_up_loop vector.relocate_body k (lo + 1) s1 with
      | error e => rfl
      | ok s2 =>
        simp only [Except.ok.injEq, Prod.mk.injEq, true_and]
        omega

/-- The counting `reserve` is `reserve` together with the number of elements it relocates:
`size` when it grows and none otherwise. -/
theorem vector.reserve_counted_eq [Allocator A] (v : vector T A) (n c : Nat) :
    v.reserve_counted n c =
      match v.reserve n with
      | .ok v' => .ok (v', c + if n > v._capacity then v._size else 0)
      | .error e => .error e := by
  unfold vector.reserve_counted vector.reserve
  by_cases hn : n > v._capacity
  · rw [if_pos hn, if_pos hn, if_pos hn]
    cases new_capacity v._capacity n with
    | none => rfl
    | some nc =>
      simp only
      cases (allocate v._alloc nc : Except Fault (Ptr T)) with
      | error e => rfl
      | ok nb =>
        simp only [for_up]
        rw [for_up_loop_relocate_counted]
        cases for_up_loop vector.relocate_body (v._size - 0) 0 (v._data, nb) with
        | error e => rfl
        | ok s => rfl
  · rw [if_neg hn, if_neg hn, if_neg hn]
    rfl

theorem vector.emplace_back_counted_eq [Allocator A] (v : vector T A) (val : T) (c : Nat) :
    v.emplace_back_counted val c =
      match v.emplace_back val with
      | .ok v' =>
        .ok (v', c + if (v._size + 1) % usize_range > v._capacity then v._size else 0)
      | .error e => .error e := by
  rw [vector.emplace_back_eq]
  unfold vector.emplace_back_counted
  rw [vector.reserve_counted_eq]
  cases v.reserve ((v._size + 1) % usize_range) with
  | error e => rfl
  | ok v1 =>
    simp only
    cases v1._data.construct_at v1._size val with
    | error e => rfl
    | ok d => rfl

theorem vector.emplace_all_counted_bound [Allocator A] :
    ∀ (vals : List T) (v v' : vector T A) (c c' : Nat), v.WF →
      (c = 0 ∨ c + 2 ≤ 2 * v._capacity) → c ≤ 3 * v._size →
      v.emplace_all_counted vals c = .ok (v', c') →
      v.emplace_all vals = .ok v' ∧ c' ≤ 3 * v'._size ∧
        v'._size = v._size + vals.length := by
  intro vals
  induction vals with
  | nil =>
    intro v v' c c' _ _ hc h
    simp only [vector.emplace_all_counted, Except.ok.injEq, Prod.mk.injEq] at h
    obtain ⟨h1, h2⟩ := h
    subst h1 h2
    exact ⟨rfl, hc, rfl⟩
  | cons val vals ih =>
    intro v v' c c' hwf hcap hc h
    simp only [vector.emplace_all_counted] at h
    rw [vector.emplace_back_counted_eq] at h
    cases hv1 : v.emplace_back val with
    | error e =>
      rw [hv1] at h
      simp at h
    | ok v1 =>
      rw [hv1] at h
      simp only at h
      have hsc := hwf.1
      have hmax := hwf.2.1
      have hmod : (v._size + 1) % usize_range = v._size + 1 := by
        unfold max_count at hmax
        unfold usize_range
        omega
      obtain ⟨hwf1, hs1, _⟩ := vector.emplace_back_ok_spec v v1 hwf val hv1
      have hc1 := vector.emplace_back_ok_capacity v v1 hwf val hv1
      rw [hmod] at h
      have hstep : (c + (if v._size + 1 > v._capacity then v._size else 0) = 0 ∨
          c + (if v._size + 1 > v._capacity then v._size else 0) + 2 ≤ 2 * v1._capacity) ∧
          c + (if v._size + 1 > v._capacity then v._size else 0) ≤ 3 * v1._size := by
        rw [hc1, hs1]
        unfold capacity_after_push
        by_cases hfit : v._size + 1 ≤ v._capacity
        · rw [if_pos hfit, if_neg (by omega)]
          omega
        · rw [if_neg hfit, if_pos (by omega)]
          by_cases h0 : v._capacity = 0
          · rw [if_pos h0]
            omega
          · rw [if_neg h0]
            omega
      obtain ⟨h1, h2, h3⟩ := ih v1 v' _ c' hwf1 hstep.1 hstep.2 h
      refine ⟨?_, h2, by rw [h3, hs1]; simp only [List.length_cons]; omega⟩
      simp only [vector.emplace_all, hv1]
      exact h1

theorem vector.emplace_all_counted_total [Allocator A] :
    ∀ (vals : List T) (v v' : vector T A) (c : Nat), v.emplace_all vals = .ok v' →
      ∃ c', v.emplace_all_counted vals c = .ok (v', c') := by
  intro vals
  induction vals with
  | nil =>
    intro v v' c h
    simp only [vector.emplace_all, Except.ok.injEq] at h
    subst h
    exact ⟨c, rfl⟩
  | cons val vals ih =>
    intro v v' c h
    simp only [vector.emplace_all] at h
    cases hv1 : v.emplace_back val with
    | error e =>
      rw [hv1] at h
      simp at h
    | ok v1 =>
      rw [hv1] at h
      simp only at h
      obtain ⟨c', hc'⟩ := ih v1 v' (c + if (v._size + 1) % usize_range > v._capacity
        then v._size else 0) h
      refine ⟨c', ?_⟩
      simp only [vector.emplace_all_counted]
      rw [vector.emplace_back_counted_eq, hv1]
      exact hc'

theorem vector.emplace_all_eq_run [Allocator A] :
    ∀ (vals : List T) (v : vector T A),
      v.emplace_all vals = v.run (vals.map Op.push_back) := by
  intro vals
  induction vals with
  | nil => intro v; rfl
  | cons val vals ih =>
    intro v
    simp only [vector.emplace_all, List.map_cons, vector.run, vector.step, vector.push_back]
    cases v.emplace_back val with
    | error e => rfl
    | ok v1 => exact ih v1

/-- C29: linear total relocation work.  For every `N` values, when the `N` consecutive calls
`emplace_back` on an initially empty well-formed container complete, the total number of
elements relocated (move-constructed into a new buffer inside `reserve`) is at most
`3 * N`; the counting run completes exactly when the calls do, with the same final
container, and they do complete when the strategy provides every count up to
`2 * (capacity + N)`. -/
theorem relocations_linear [Allocator A] (v : vector T A) (hwf : v.WF)
    (hempty : v._size = 0) (vals : List T) :
    (∀ v' count, v.emplace_all_counted vals 0 = .ok (v', count) →
      v.emplace_all vals = .ok v' ∧ count ≤ 3 * vals.length) ∧
    (∀ v', v.emplace_all vals = .ok v' →
      ∃ count, v.emplace_all_counted vals 0 = .ok (v', count)) ∧
    ((∀ c, c ≤ 2 * (v._capacity + vals.length) → Allocator.provides v._alloc c = true) →
      ∃ v', v.emplace_all vals = .ok v') := by
  refine ⟨?_, ?_, ?_⟩
  · intro v' count h
    obtain ⟨h1, h2, h3⟩ := vector.emplace_all_counted_bound vals v v' 0 count hwf
      (Or.inl rfl) (Nat.zero_le _) h
    exact ⟨h1, by rw [h3, hempty] at h2; omega⟩
  · intro v' h
    exact vector.emplace_all_counted_total vals v v' 0 h
  · intro hp
    rw [vector.emplace_all_eq_run]
    apply vector.run_total _ v v._capacity hwf (by omega) (by omega)
    intro c hc
    apply hp
    simp only [List.length_map] at hc
    exact hc

theorem relocations_linear_witness :
    (vector.ctor_default : vector Nat heap).WF ∧
    ∃ v' count, (vector.ctor_default : vector Nat heap).emplace_all_counted
        [1, 2, 3, 4, 5, 6, 7, 8, 9, 10] 0 = .ok (v', count) ∧ count = 19 ∧
      count ≤ 3 * [1, 2, 3, 4, 5, 6, 7, 8, 9, 10].length := by
  have h := (relocations_linear (vector.ctor_default : vector Nat heap) (by decide) rfl
    [1, 2, 3, 4, 5, 6, 7, 8, 9, 10]).1
    ⟨{}, some [some 1, some 2, some 3, some 4, some 5, some 6, some 7, some 8, some 9,
      some 10, none, none], 10, 12⟩ 19 (by decide)
  exact ⟨by decide, ⟨{}, some [some 1, some 2, some 3, some 4, some 5, some 6, some 7,
    some 8, some 9, some 10, none, none], 10, 12⟩, 19, by decide, rfl, h.2⟩

end relocations

/-! ## What a failing call leaves behind -/

section outcomes

variable {T A : Type}

theorem Outcome.agrees_error (r : Outcome T A) (x : Except Fault (vector T A))
    (h : r.agrees x) (e : Fault) : x = .error e ↔ r.thrown = some (Thrown.fault e) := by
  cases x with
  | ok v' =>
    obtain ⟨_, _, h3⟩ := h
    simp [h3]
  | error e' =>
    have h' : r.thrown = some (Thrown.fault e') := h
    rw [h']
    simp

theorem relocate_body_error (i : Nat) (s : Ptr T × Ptr T) (e : Fault)
    (h : vector.relocate_body i s = .error e) : e = Fault.undefined_behavior := by
  unfold vector.relocate_body at h
  split at h
  · rename_i e' he'
    simp only [Except.error.injEq] at h
    subst h
    exact Ptr.read_error _ _ _ he'
  · split at h
    · rename_i e' he'
      simp only [Except.error.injEq] at h
      subst h
      exact Ptr.update_error _ _ _ _ _ he'
    · split at h
      · rename_i e' he'
        simp only [Except.error.injEq] at h
        subst h
        exact Ptr.update_error _ _ _ _ _ he'
      · simp at h

theorem relocate_keep_agrees (i : Nat) (s : Ptr T × Ptr T) :
    match vector.relocate_body i s with
    | .ok s1 => vector.relocate_keep never_throws i s = (s1, none)
    | .error e => (vector.relocate_keep never_throws i s).2 = some (Thrown.fault e) := by
  unfold vector.relocate_body vector.relocate_keep
  cases s.1.read i with
  | error e => rfl
  | ok x =>
    simp only
    cases s.2.construct_at i x with
    | error e => rfl
    | ok nb =>
      simp only [never_throws, Bool.false_eq_true, if_false]
      cases s.1.destroy_at i with
      | error e => rfl
      | ok old => rfl

theorem for_up_keep_agrees :
    ∀ (k lo : Nat) (s : Ptr T × Ptr T),
      match for_up_loop vector.relocate_body k lo s with
      | .ok s1 => for_up_keep (vector.relocate_keep never_throws) k lo s = (s1, none)
      | .error e =>
        (for_up_keep (vector.relocate_keep never_throws) k lo s).2 = some (Thrown.fault e) := by
  intro k
  induction k with
  | zero => intro lo s; rfl
  | succ k ih =>
    intro lo s
    have hb := relocate_keep_agrees lo s
    simp only [for_up_loop, for_up_keep]
    cases hrb : vector.relocate_body lo s with
    | error e =>
      rw [hrb] at hb
      simp only at hb ⊢
      cases hk : vector.relocate_keep never_throws lo s with
      | mk s1 t =>
        rw [hk] at hb
        simp only at hb
        subst hb
        rfl
    | ok s1 =>
      rw [hrb] at hb
      simp only at hb ⊢
      rw [hb]
      exact ih (lo + 1) s1

theorem relocate_keep_thrown (throws : Nat → Bool) (i : Nat) (s : Ptr T × Ptr T) (e : Thrown)
    (h : (vector.relocate_keep throws i s).2 = some e) :
    e ≠ Thrown.fault Fault.bad_alloc := by
  unfold vector.relocate_keep at h
  split at h
  · rename_i e' he'
    simp only [Option.some.injEq] at h
    subst h
    rw [Ptr.read_error _ _ _ he']
    decide
  · split at h
    · rename_i e' he'
      simp only [Option.some.injEq] at h
      subst h
      rw [Ptr.update_error _ _ _ _ _ he']
      decide
    · split at h
      · simp only [Option.some.injEq] at h
        subst h
        simp
      · split at h
        · rename_i e' he'
          simp only [Option.some.injEq] at h
          subst h
          rw [Ptr.update_error _ _ _ _ _ he']
          decide
        · simp at h

theorem for_up_keep_thrown {S : Type} (body : Nat → S → S × Option Thrown)
    (P : Thrown → Prop) (hb : ∀ i s e, (body i s).2 = some e → P e) :
    ∀ (k lo : Nat) (s : S) (e : Thrown), (for_up_keep body k lo s).2 = some e → P e := by
  intro k
  induction k with
  | zero => intro lo s e h; simp [for_up_keep] at h
  | succ k ih =>
    intro lo s e h
    simp only [for_up_keep] at h
    cases hk : body lo s with
    | mk s1 t =>
      rw [hk] at h
      cases t with
      | none => exact ih _ _ _ h
      | some e' =>
        simp only [Option.some.injEq] at h
        subst h
        exact hb lo s e' (by rw [hk])

/-- An allocation error leaves `reserve` before anything has been touched. -/
theorem vector.reserve_outcome_bad_alloc [Allocator A] (throws : Nat → Bool) (v : vector T A)
    (n : Nat)
    (h : (v.reserve_outcome throws n).thrown = some (Thrown.fault Fault.bad_alloc)) :
    v.reserve_outcome throws n = ⟨v, [], some (Thrown.fault Fault.bad_alloc)⟩ := by
  generalize hr : v.reserve_outcome throws n = r at h ⊢
  unfold vector.reserve_outcome at hr
  split at hr
  · split at hr
    · subst hr
      simp at h
    · split at hr
      · rename_i e he
        subst hr
        simp only [Option.some.injEq, Thrown.fault.injEq] at h
        subst h
        rfl
      · rename_i nb hnb
        split at hr
        · rename_i s e hs
          subst hr
          simp only [Option.some.injEq] at h
          subst h
          exact absurd rfl (for_up_keep_thrown _ _ (relocate_keep_thrown throws) _ _ _ _
            (by rw [hs]))
        · subst hr
          simp at h
  · subst hr
    simp at h

theorem vector.reserve_outcome_agrees [Allocator A] (v : vector T A) (n : Nat) :
    (v.reserve_outcome never_throws n).agrees (v.reserve n) := by
  unfold vector.reserve_outcome vector.reserve
  by_cases hn : n > v._capacity
  · rw [if_pos hn, if_pos hn]
    cases new_capacity v._capacity n with
    | none => rfl
    | some nc =>
      simp only
      cases (allocate v._alloc nc : Except Fault (Ptr T)) with
      | error e => rfl
      | ok nb =>
        simp only [for_up, Nat.sub_zero]
        have hk := for_up_keep_agrees v._size 0 (v._data, nb)
        cases hl : for_up_loop vector.relocate_body v._size 0 (v._data, nb) with
        | error e =>
          rw [hl] at hk
          simp only at hk ⊢
          cases hp : for_up_keep (vector.relocate_keep never_throws) v._size 0
              (v._data, nb) with
          | mk s t =>
            rw [hp] at hk
            simp only at hk
            subst hk
            rfl
        | ok s =>
          rw [hl] at hk
          simp only at hk ⊢
          rw [hk]
          exact ⟨rfl, rfl, rfl⟩
  · rw [if_neg hn, if_neg hn]
    exact ⟨rfl, rfl, rfl⟩

theorem construct_default_error [Inhabited T] (i : Nat) (p : Ptr T) (e : Fault)
    (h : (fun i p => Ptr.construct_at p i (default : T)) i p = .error e) :
    e = Fault.undefined_behavior :=
  Ptr.update_error _ _ _ _ _ h

theorem destroy_error (i : Nat) (p : Ptr T) (e : Fault)
    (h : (fun i p => Ptr.destroy_at p i) i p = .error e) : e = Fault.undefined_behavior :=
  Ptr.update_error _ _ _ _ _ h

/-- An allocation error leaves `resize` before anything has been touched. -/
theorem vector.resize_outcome_bad_alloc [Allocator A] [Inhabited T] (throws : Nat → Bool)
    (v : vector T A) (n : Nat)
    (h : (v.resize_outcome throws n).thrown = some (Thrown.fault Fault.bad_alloc)) :
    v.resize_outcome throws n = ⟨v, [], some (Thrown.fault Fault.bad_alloc)⟩ := by
  generalize hr : v.resize_outcome throws n = r at h ⊢
  unfold vector.resize_outcome at hr
  split at hr
  · split at hr
    · subst hr
      simp at h
    · split at hr
      · rename_i e he
        subst hr
        simp only [Option.some.injEq, Thrown.fault.injEq] at h
        subst h
        rfl
      · rename_i nb hnb
        split at hr
        · rename_i s e hs
          subst hr
          simp only [Option.some.injEq] at h
          subst h
          exact absurd rfl (for_up_keep_thrown _ _ (relocate_keep_thrown throws) _ _ _ _
            (by rw [hs]))
        · split at hr
          · rename_i e he
            subst hr
            simp only [Option.some.injEq, Thrown.fault.injEq] at h
            subst h
            have := for_up_loop_error _ _ construct_default_error _ _ _ _ he
            simp at this
          · subst hr
            simp at h
  · split at hr
    · split at hr
      · rename_i e he
        subst hr
        simp only [Option.some.injEq, Thrown.fault.injEq] at h
        subst h
        have := for_up_loop_error _ _ construct_default_error _ _ _ _ he
        simp at this
      · subst hr
        simp at h
    · split at hr
      · split at hr
        · rename_i e he
          subst hr
          simp only [Option.some.injEq, Thrown.fault.injEq] at h
          subst h
          have := for_down_loop_error _ _ destroy_error _ _ _ _ he
          simp at this
        · subst hr
          simp at h
      · subst hr
        simp at h

/-- An allocation error leaves `emplace_back` before anything has been touched. -/
theorem vector.emplace_back_outcome_bad_alloc [Allocator A] (throws : Nat → Bool)
    (v : vector T A) (val : T)
    (h : (v.emplace_back_outcome throws val).thrown = some (Thrown.fault Fault.bad_alloc)) :
    v.emplace_back_outcome throws val = ⟨v, [], some (Thrown.fault Fault.bad_alloc)⟩ := by
  unfold vector.emplace_back_outcome at h ⊢
  simp only at h ⊢
  cases ht : (v.reserve_outcome throws ((v._size + 1) % usize_range)).thrown with
  | some e =>
    rw [ht] at h
    simp only at h ⊢
    exact vector.reserve_outcome_bad_alloc throws v _ h
  | none =>
    rw [ht] at h
    simp only at h
    split at h
    · rename_i e he
      simp only [Option.some.injEq, Thrown.fault.injEq] at h
      subst h
      have := Ptr.update_error _ _ _ _ _ he
      simp at this
    · simp at h

theorem vector.resize_outcome_agrees [Allocator A] [Inhabited T] (v : vector T A) (n : Nat) :
    (v.resize_outcome never_throws n).agrees (v.resize n) := by
  unfold vector.resize_outcome vector.resize
  by_cases hn : n > v._capacity
  · rw [if_pos hn, if_pos hn]
    cases new_capacity v._capacity n with
    | none => rfl
    | some nc =>
      simp only
      cases (allocate v._alloc nc : Except Fault (Ptr T)) with
      | error e => rfl
      | ok nb =>
        simp only [for_up, Nat.sub_zero]
        have hk := for_up_keep_agrees v._size 0 (v._data, nb)
        cases hl : for_up_loop vector.relocate_body v._size 0 (v._data, nb) with
        | error e =>
          rw [hl] at hk
          simp only at hk ⊢
          cases hp : for_up_keep (vector.relocate_keep never_throws) v._size 0
              (v._data, nb) with
          | mk s t =>
            rw [hp] at hk
            simp only at hk
            subst hk
            rfl
        | ok s =>
          rw [hl] at hk
          simp only at hk ⊢
          rw [hk]
          simp only
          cases for_up_loop (fun i p => Ptr.construct_at p i (default : T)) (n - v._size)
              v._size s.2 with
          | error e => rfl
          | ok d => exact ⟨rfl, rfl, rfl⟩
  · rw [if_neg hn, if_neg hn]
    by_cases h2 : n > v._size
    · rw [if_pos h2, if_pos h2]
      cases for_up v._size n (fun i p => Ptr.construct_at p i (default : T)) v._data with
      | error e => rfl
      | ok d => exact ⟨rfl, rfl, rfl⟩
    · rw [if_neg h2, if_neg h2]
      by_cases h3 : n < v._size
      · rw [if_pos h3, if_pos h3]
        cases for_down v._size n (fun i p => Ptr.destroy_at p i) v._data with
        | error e => rfl
        | ok d => exact ⟨rfl, rfl, rfl⟩
      · rw [if_neg h3, if_neg h3]
        exact ⟨rfl, rfl, rfl⟩

theorem vector.emplace_back_outcome_agrees [Allocator A] (v : vector T A) (val : T) :
    (v.emplace_back_outcome never_throws val).agrees (v.emplace_back val) := by
  rw [vector.emplace_back_eq]
  unfold vector.emplace_back_outcome
  simp only
  have ha := vector.reserve_outcome_agrees v ((v._size + 1) % usize_range)
  cases hres : v.reserve ((v._size + 1) % usize_range) with
  | error e =>
    rw [hres] at ha
    have ha' : (v.reserve_outcome never_throws ((v._size + 1) % usize_range)).thrown =
        some (Thrown.fault e) := ha
    rw [ha']
    exact ha'
  | ok v1 =>
    rw [hres] at ha
    obtain ⟨h1, h2, h3⟩ := ha
    rw [h3]
    simp only
    rw [h1, h2]
    cases v1._data.construct_at v1._size val with
    | error e => rfl
    | ok d => exact ⟨rfl, rfl, rfl⟩

/-- C27: allocation failure is atomic for the growth operations.  For every container and
every behaviour of the element move constructor, when `reserve(n)`, `resize(n)` or
`emplace_back(val)` exits with an allocation error, the container is exactly what it was
before the call (same strategy, buffer, size and capacity) and the call has left no buffer
of its own behind; with a move constructor that never throws these are the calls for which
the operation reports `bad_alloc`. -/
theorem allocation_failure_atomic [Allocator A] [Inhabited T] (throws : Nat → Bool)
    (v : vector T A) :
    (∀ n, (v.reserve_outcome throws n).thrown = some (Thrown.fault Fault.bad_alloc) →
      v.reserve_outcome throws n = ⟨v, [], some (Thrown.fault Fault.bad_alloc)⟩) ∧
    (∀ n, (v.resize_outcome throws n).thrown = some (Thrown.fault Fault.bad_alloc) →
      v.resize_outcome throws n = ⟨v, [], some (Thrown.fault Fault.bad_alloc)⟩) ∧
    (∀ val, (v.emplace_back_outcome throws val).thrown = some (Thrown.fault Fault.bad_alloc) →
      v.emplace_back_outcome throws val = ⟨v, [], some (Thrown.fault Fault.bad_alloc)⟩) ∧
    (∀ n, v.reserve n = .error Fault.bad_alloc ↔
      (v.reserve_outcome never_throws n).thrown = some (Thrown.fault Fault.bad_alloc)) ∧
    (∀ n, v.resize n = .error Fault.bad_alloc ↔
      (v.resize_outcome never_throws n).thrown = some (Thrown.fault Fault.bad_alloc)) ∧
    (∀ val, v.emplace_back val = .error Fault.bad_alloc ↔
      (v.emplace_back_outcome never_throws val).thrown =
        some (Thrown.fault Fault.bad_alloc)) :=
  ⟨fun n => vector.reserve_outcome_bad_alloc throws v n,
    fun n => vector.resize_outcome_bad_alloc throws v n,
    fun val => vector.emplace_back_outcome_bad_alloc throws v val,
    fun n => Outcome.agrees_error _ _ (vector.reserve_outcome_agrees v n) _,
    fun n => Outcome.agrees_error _ _ (vector.resize_outcome_agrees v n) _,
    fun val => Outcome.agrees_error _ _ (vector.emplace_back_outcome_agrees v val) _⟩

theorem allocation_failure_atomic_witness :
    (arena_three.reserve 4 = .error Fault.bad_alloc ∧
      (arena_three.reserve_outcome never_throws 4).state = arena_three) ∧
    (arena_three.resize 4 = .error Fault.bad_alloc ∧
      (arena_three.resize_outcome never_throws 4).state = arena_three) ∧
    (arena_three.emplace_back 1 = .error Fault.bad_alloc ∧
      (arena_three.emplace_back_outcome never_throws 1).state = arena_three) := by
  obtain ⟨h1, h2, h3, _⟩ := allocation_failure_atomic never_throws arena_three
  exact ⟨⟨by decide, by rw [h1 4 (by decide)]⟩, ⟨by decide, by rw [h2 4 (by decide)]⟩,
    ⟨by decide, by rw [h3 1 (by decide)]⟩⟩

theorem vector.clear_error (v : vector T A) (e : Fault) (h : v.clear = .error e) :
    e = Fault.undefined_behavior := by
  unfold vector.clear at h
  split at h
  · rename_i e' he'
    simp only [Except.error.injEq] at h
    subst h
    exact for_down_loop_error _ _ destroy_error _ _ _ _ he'
  · simp at h

theorem vector.clear_empty (v : vector T A) (h : v._size = 0) : v.clear = .ok v := by
  cases v with
  | mk a d s c =>
    simp only at h
    subst h
    rfl

/-- An allocation error leaves the assignments after `clear()` has run: the call went
through the allocating branch and the container is the cleared one. -/
theorem vector.assign_from_outcome_bad_alloc [Allocator A] (throws : Nat → Bool)
    (v : vector T A) (src : Ptr T) (n : Nat)
    (h : (v.assign_from_outcome throws src n).thrown = some (Thrown.fault Fault.bad_alloc)) :
    v._capacity < n ∧ ∃ v1, v.clear = .ok v1 ∧
      v.assign_from_outcome throws src n = ⟨v1, [], some (Thrown.fault Fault.bad_alloc)⟩ := by
  unfold vector.assign_from_outcome at h ⊢
  by_cases hn : v._capacity < n
  · rw [if_pos hn] at h ⊢
    refine ⟨hn, ?_⟩
    cases hc : v.clear with
    | error e =>
      rw [hc] at h
      simp only [Option.some.injEq, Thrown.fault.injEq] at h
      subst h
      have := vector.clear_error v _ hc
      simp at this
    | ok v1 =>
      rw [hc] at h
      simp only at h ⊢
      refine ⟨v1, rfl, ?_⟩
      cases ht : (v1.reserve_outcome throws n).thrown with
      | some e =>
        rw [ht] at h
        simp only at h ⊢
        exact vector.reserve_outcome_bad_alloc throws v1 n h
      | none =>
        rw [ht] at h
        simp only at h
        split at h
        · rename_i e he
          simp only [Option.some.injEq, Thrown.fault.injEq] at h
          subst h
          have := for_up_loop_error _ _
            (fun i s e => copy_construct_body_error src s i e) _ _ _ _ he
          simp at this
        · simp at h
  · rw [if_neg hn] at h
    split at h
    · rename_i e he
      simp only [Option.some.injEq, Thrown.fault.injEq] at h
      subst h
      have := vector.assign_from_reuse_error v src n (by omega) _ he
      simp at this
    · simp at h

theorem vector.assign_from_outcome_agrees [Allocator A] (v : vector T A) (src : Ptr T)
    (n : Nat) : (v.assign_from_outcome never_throws src n).agrees (v.assign_from src n) := by
  by_cases hn : v._capacity < n
  · unfold vector.assign_from_outcome vector.assign_from
    rw [if_pos hn, if_pos hn]
    cases v.clear with
    | error e => rfl
    | ok v1 =>
      simp only
      have ha := vector.reserve_outcome_agrees v1 n
      cases hres : v1.reserve n with
      | error e =>
        rw [hres] at ha
        have ha' : (v1.reserve_outcome never_throws n).thrown = some (Thrown.fault e) := ha
        rw [ha']
        exact ha'
      | ok v2 =>
        rw [hres] at ha
        obtain ⟨h1, h2, h3⟩ := ha
        rw [h3]
        simp only
        rw [h1, h2]
        cases for_up 0 n (vector.copy_construct_body src) v2._data with
        | error e => rfl
        | ok d => exact ⟨rfl, rfl, rfl⟩
  · unfold vector.assign_from_outcome
    rw [if_neg hn]
    cases v.assign_from src n with
    | error e => rfl
    | ok v1 => exact ⟨rfl, rfl, rfl⟩

/-- What an allocation error during an assignment leaves of a well-formed destination. -/
theorem vector.assign_from_failure_effect [Allocator A] (throws : Nat → Bool)
    (d : vector T A) (hwf : d.WF) (src : Ptr T) (n : Nat)
    (h : (d.assign_from_outcome throws src n).thrown = some (Thrown.fault Fault.bad_alloc)) :
    d._capacity < n ∧
      d.clear = .ok (d.assign_from_outcome throws src n).state ∧
      (d.assign_from_outcome throws src n).leaked = [] ∧
      (d.assign_from_outcome throws src n).state.WF ∧
      (d.assign_from_outcome throws src n).state._size = 0 ∧
      (d.assign_from_outcome throws src n).state._capacity = d._capacity ∧
      (d.assign_from_outcome throws src n).state._alloc = d._alloc ∧
      (∀ i, i < d._capacity →
        (d.assign_from_outcome throws src n).state._data.slot i = some none) ∧
      ((d.assign_from_outcome throws src n).state = d ↔ d._size = 0) := by
  obtain ⟨hn, v1, hc, hr⟩ := vector.assign_from_outcome_bad_alloc throws d src n h
  rw [hr]
  simp only
  obtain ⟨w, hw, hwf1, hs1, hc1, ha1⟩ := vector.clear_spec d hwf
  rw [hc] at hw
  simp only [Except.ok.injEq] at hw
  subst hw
  refine ⟨hn, hc, trivial, hwf1, hs1, hc1, ha1, ?_, ?_⟩
  · intro i hi
    exact hwf1.slot_raw i (by omega) (by omega)
  · constructor
    · intro heq
      rw [← heq]
      exact hs1
    · intro h0
      have := vector.clear_empty d h0
      rw [hc] at this
      simp only [Except.ok.injEq] at this
      exact this

/-- C28 fails as stated: the full container `7, 8, 9` on an arena of four slots is
assigned the four values `1, 2, 3, 4`; the allocation of five slots fails, and the
destination is left empty instead of holding `7, 8, 9`. -/
theorem copy_allocation_failure_counterexample :
    arena_three.operator_assign arena_four = .error Fault.bad_alloc ∧
    arena_three.operator_assign_outcome never_throws arena_four =
      ⟨⟨{ id := 0 }, some [none, none, none], 0, 3⟩, [],
        some (Thrown.fault Fault.bad_alloc)⟩ ∧
    (arena_three.operator_assign_outcome never_throws arena_four).state ≠ arena_three ∧
    arena_three.operator_assign_array [1, 2, 3, 4] = .error Fault.bad_alloc ∧
    (arena_three.operator_assign_array_outcome never_throws [1, 2, 3, 4]).state ≠
      arena_three :=
  ⟨by decide, by decide, by decide, by decide, by decide⟩

/-- C28 as amended: when copy assignment `d = s` or fixed-array assignment to a well-formed
destination `d` exits with an allocation error, the call went through the allocating
branch (`d.capacity < s.size`, or `< N`) and `d` is left as `clear()` leaves it: a
well-formed empty container with its capacity, buffer and strategy but with the previous
elements destroyed and `size == 0`, and no buffer of the call left behind; `d` is what it
was before the call only if it was empty.  With a move constructor that never throws these
are the calls for which the assignment reports `bad_alloc`. -/
theorem copy_allocation_failure_effect [Allocator A] (throws : Nat → Bool) (d : vector T A)
    (hwf : d.WF) :
    (∀ s : vector T A,
      (d.operator_assign_outcome throws s).thrown = some (Thrown.fault Fault.bad_alloc) →
      d._capacity < s._size ∧
      d.clear = .ok (d.operator_assign_outcome throws s).state ∧
      (d.operator_assign_outcome throws s).leaked = [] ∧
      (d.operator_assign_outcome throws s).state.WF ∧
      (d.operator_assign_outcome throws s).state._size = 0 ∧
      (d.operator_assign_outcome throws s).state._capacity = d._capacity ∧
      (d.operator_assign_outcome throws s).state._alloc = d._alloc ∧
      (∀ i, i < d._capacity →
        (d.operator_assign_outcome throws s).state._data.slot i = some none) ∧
      ((d.operator_assign_outcome throws s).state = d ↔ d._size = 0)) ∧
    (∀ arr : List T,
      (d.operator_assign_array_outcome throws arr).thrown =
        some (Thrown.fault Fault.bad_alloc) →
      d._capacity < arr.length ∧
      d.clear = .ok (d.operator_assign_array_outcome throws arr).state ∧
      (d.operator_assign_array_outcome throws arr).leaked = [] ∧
      (d.operator_assign_array_outcome throws arr).state.WF ∧
      (d.operator_assign_array_outcome throws arr).state._size = 0 ∧
      (d.operator_assign_array_outcome throws arr).state._capacity = d._capacity ∧
      (d.operator_assign_array_outcome throws arr).state._alloc = d._alloc ∧
      (∀ i, i < d._capacity →
        (d.operator_assign_array_outcome throws arr).state._data.slot i = some none) ∧
      ((d.operator_assign_array_outcome throws arr).state = d ↔ d._size = 0)) ∧
    (∀ s : vector T A, d.operator_assign s = .error Fault.bad_alloc ↔
      (d.operator_assign_outcome never_throws s).thrown =
        some (Thrown.fault Fault.bad_alloc)) ∧
    (∀ arr : List T, d.operator_assign_array arr = .error Fault.bad_alloc ↔
      (d.operator_assign_array_outcome never_throws arr).thrown =
        some (Thrown.fault Fault.bad_alloc)) :=
  ⟨fun s h => vector.assign_from_failure_effect throws d hwf s._data s._size h,
    fun arr h => vector.assign_from_failure_effect throws d hwf _ arr.length h,
    fun s => Outcome.agrees_error _ _ (vector.assign_from_outcome_agrees d s._data s._size) _,
    fun arr => Outcome.agrees_error _ _ (vector.assign_from_outcome_agrees d _ arr.length) _⟩

theorem copy_allocation_failure_effect_witness :
    arena_three.WF ∧ arena_three._capacity < arena_four._size ∧
    arena_three.clear = .ok (arena_three.operator_assign_outcome never_throws arena_four).state ∧
    (arena_three.operator_assign_outcome never_throws arena_four).state._size = 0 ∧
    (arena_three.operator_assign_outcome never_throws arena_four).state._capacity = 3 := by
  obtain ⟨h1, h2, _, _, h5, h6, _⟩ :=
    (copy_allocation_failure_effect never_throws arena_three (by decide)).1 arena_four
      (by decide)
  exact ⟨by decide, h1, h2, h5, h6⟩

theorem for_up_keep_append {S : Type} (body : Nat → S → S × Option Thrown) :
    ∀ (k1 k2 lo : Nat) (s : S),
      for_up_keep body (k1 + k2) lo s =
        match for_up_keep body k1 lo s with
        | (s1, none) => for_up_keep body k2 (lo + k1) s1
        | (s1, some e) => (s1, some e) := by
  intro k1
  induction k1 with
  | zero =>
    intro k2 lo s
    simp [for_up_keep]
  | succ k1 ih =>
    intro k2 lo s
    rw [show k1 + 1 + k2 = (k1 + k2) + 1 by omega]
    simp only [for_up_keep]
    cases hb : body lo s with
    | mk s1 t =>
      cases t with
      | some e => rfl
      | none =>
        simp only
        rw [ih, show lo + 1 + k1 = lo + (k1 + 1) by omega]

theorem for_down_loop_append {S : Type} (body : Nat → S → Except Fault S) :
    ∀ (k1 k2 hi : Nat) (s : S),
      for_down_loop body (k1 + k2) hi s =
        match for_down_loop body k1 hi s with
        | .ok s1 => for_down_loop body k2 (hi - k1) s1
        | .error e => .error e := by
  intro k1
  induction k1 with
  | zero =>
    intro k2 hi s
    simp [for_down_loop]
  | succ k1 ih =>
    intro k2 hi s
    rw [show k1 + 1 + k2 = (k1 + k2) + 1 by omega]
    simp only [for_down_loop]
    cases hb : body (hi - 1) s with
    | error e => rfl
    | ok s1 =>
      simp only
      rw [ih, show hi - 1 - k1 = hi - (k1 + 1) by omega]

theorem relocate_keep_of_ok (throws : Nat → Bool) (i : Nat) (s s1 : Ptr T × Ptr T)
    (ht : throws i = false) (h : vector.relocate_body i s = .ok s1) :
    vector.relocate_keep throws i s = (s1, none) := by
  unfold vector.relocate_body at h
  unfold vector.relocate_keep
  cases hr : s.1.read i with
  | error e =>
    rw [hr] at h
    simp at h
  | ok x =>
    rw [hr] at h
    simp only at h ⊢
    cases hc : s.2.construct_at i x with
    | error e =>
      rw [hc] at h
      simp at h
    | ok nb =>
      rw [hc] at h
      simp only at h ⊢
      rw [ht]
      simp only [Bool.false_eq_true, if_false]
      cases hd : s.1.destroy_at i with
      | error e =>
        rw [hd] at h
        simp at h
      | ok old =>
        rw [hd] at h
        simp only [Except.ok.injEq] at h
        subst h
        rfl

theorem for_up_keep_of_ok (throws : Nat → Bool) :
    ∀ (k lo : Nat) (s s1 : Ptr T × Ptr T),
      (∀ j, lo ≤ j → j < lo + k → throws j = false) →
      for_up_loop vector.relocate_body k lo s = .ok s1 →
      for_up_keep (vector.relocate_keep throws) k lo s = (s1, none) := by
  intro k
  induction k with
  | zero =>
    intro lo s s1 _ h
    simp only [for_up_loop, Except.ok.injEq] at h
    subst h
    rfl
  | succ k ih =>
    intro lo s s1 hf h
    simp only [for_up_loop] at h
    simp only [for_up_keep]
    cases hb : vector.relocate_body lo s with
    | error e =>
      rw [hb] at h
      simp at h
    | ok s2 =>
      rw [hb] at h
      simp only at h
      rw [relocate_keep_of_ok throws lo s s2 (hf lo (Nat.le_refl _) (by omega)) hb]
      exact ih (lo + 1) s2 s1 (fun j h1 h2 => hf j (by omega) (by omega)) h

theorem relocate_keep_throws (throws : Nat → Bool) (i : Nat) (s : Ptr T × Ptr T) (x : T)
    (t : Option T) (ht : throws i = true) (h1 : s.1.slot i = some (some x))
    (h2 : s.2.slot i = some t) :
    vector.relocate_keep throws i s = (s, some (Thrown.move_constructor i)) := by
  unfold vector.relocate_keep
  rw [Ptr.read_of_slot _ _ _ h1]
  simp only
  rw [Ptr.construct_at_eq _ _ _ ⟨t, h2⟩]
  simp only
  rw [ht]
  rfl

/-- The relocation loop when the move constructor throws first at index `k`: the elements
below `k` have been moved into the new buffer and destroyed in the old one. -/
theorem vector.relocate_throw_eq (throws : Nat → Bool) (v : vector T A) (hwf : v.WF)
    (nc k : Nat) (hnc : v._size ≤ nc) (hk : k < v._size) (ht : throws k = true)
    (hf : ∀ j, j < k → throws j = false) :
    for_up_keep (vector.relocate_keep throws) v._size 0
        (v._data, (some (List.replicate nc none) : Ptr T)) =
      ((v._data.map (fun b => overwrite b 0 k (fun _ => none)),
        some (overwrite (List.replicate nc none) 0 k (fun j => (v._data.slot j).join))),
       some (Thrown.move_constructor k)) := by
  have hpre := for_up_loop_relocate_ptr (fun j => (v._data.slot j).join) k 0 v._data
    (some (List.replicate nc none))
    (fun j _ h2 => by
      obtain ⟨a, b⟩ := hwf.slot_join j (by omega)
      exact ⟨a, b, by simp [Ptr.length]; omega⟩)
  rw [Nat.zero_add] at hpre
  have hkeep := for_up_keep_of_ok throws k 0 _ _ (fun j _ h2 => hf j (by omega)) hpre
  obtain ⟨x, hx⟩ := hwf.slot_live k hk
  have h1 : Ptr.slot (v._data.map (fun b => overwrite b 0 k (fun _ => none))) k =
      some (some x) := by
    rw [Ptr.slot_map_overwrite_out _ _ _ _ _ (by omega)]
    exact hx
  have h2 : Ptr.slot (Option.map (fun b => overwrite b 0 k
      (fun j => (v._data.slot j).join)) (some (List.replicate nc none))) k = some none := by
    show Ptr.slot (some (overwrite (List.replicate nc none) 0 k
      (fun j => (v._data.slot j).join))) k = some none
    rw [slot_fresh, if_pos (by omega), if_neg (by omega)]
  have hsplit : v._size = k + ((v._size - k - 1) + 1) := by omega
  generalize v._size - k - 1 = m at hsplit
  rw [hsplit, for_up_keep_append, hkeep]
  simp only [for_up_keep, Nat.zero_add]
  rw [relocate_keep_throws throws k _ x none ht h1 h2]
  rfl

/-- The outcome of `reserve` when the move constructor throws first at index `k`. -/
theorem vector.reserve_outcome_throw [Allocator A] (throws : Nat → Bool) (v : vector T A)
    (hwf : v.WF) (n nc k : Nat) (hn : v._capacity < n)
    (hnc : new_capacity v._capacity n = some nc)
    (hp : Allocator.provides v._alloc nc = true) (hk : k < v._size) (ht : throws k = true)
    (hf : ∀ j, j < k → throws j = false) :
    v.reserve_outcome throws n =
      ⟨{ v with _data := v._data.map (fun b => overwrite b 0 k (fun _ => none)) },
       [some (overwrite (List.replicate nc none) 0 k (fun j => (v._data.slot j).join))],
       some (Thrown.move_constructor k)⟩ := by
  have hge := new_capacity_ge _ _ _ hnc
  have hsc := hwf.1
  unfold vector.reserve_outcome
  rw [if_pos hn, hnc]
  simp only [allocate_eq _ _ hp]
  rw [vector.relocate_throw_eq throws v hwf nc k (by omega) hk ht hf]

/-- The outcome of the growing branch of `resize` when the move constructor throws first at
index `k`. -/
theorem vector.resize_outcome_throw [Allocator A] [Inhabited T] (throws : Nat → Bool)
    (v : vector T A) (hwf : v.WF) (n nc k : Nat) (hn : v._capacity < n)
    (hnc : new_capacity v._capacity n = some nc)
    (hp : Allocator.provides v._alloc nc = true) (hk : k < v._size) (ht : throws k = true)
    (hf : ∀ j, j < k → throws j = false) :
    v.resize_outcome throws n =
      ⟨{ v with _data := v._data.map (fun b => overwrite b 0 k (fun _ => none)) },
       [some (overwrite (List.replicate nc none) 0 k (fun j => (v._data.slot j).join))],
       some (Thrown.move_constructor k)⟩ := by
  have hge := new_capacity_ge _ _ _ hnc
  have hsc := hwf.1
  unfold vector.resize_outcome
  rw [if_pos hn, hnc]
  simp only [allocate_eq _ _ hp]
  rw [vector.relocate_throw_eq throws v hwf nc k (by omega) hk ht hf]

theorem vector.dtor_ok (v : vector T A) (hwf : v.WF) : v.dtor = .ok () := by
  have hd := destroy_range_eq v._data v._size 0 (Nat.zero_le _)
    (fun j _ h2 => hwf.slot_live j h2)
  unfold vector.dtor
  rw [hd]

/-- The destructor of a container whose slots below `k > 0` have already been destroyed
while `size` still counts them destroys an element a second time. -/
theorem vector.dtor_partly_destroyed (v : vector T A) (hwf : v.WF) (k : Nat)
    (hk : k < v._size) (hpos : 0 < k) :
    vector.dtor { v with _data := v._data.map (fun b => overwrite b 0 k (fun _ => none)) } =
      .error Fault.undefined_behavior := by
  have hslot : ∀ j, k ≤ j → j < v._size →
      ∃ x, Ptr.slot (v._data.map (fun b => overwrite b 0 k (fun _ => none))) j =
        some (some x) := by
    intro j h1 h2
    obtain ⟨x, hx⟩ := hwf.slot_live j h2
    exact ⟨x, by rw [Ptr.slot_map_overwrite_out _ _ _ _ _ (by omega)]; exact hx⟩
  have hd := destroy_range_eq (v._data.map (fun b => overwrite b 0 k (fun _ => none)))
    v._size k (by omega) hslot
  unfold for_down at hd
  obtain ⟨x, hx⟩ := hwf.slot_live (k - 1) (by omega)
  have hraw : Ptr.slot ((v._data.map (fun b => overwrite b 0 k (fun _ => none))).map
      (fun b => overwrite b k v._size (fun _ => none))) (k - 1) = some none := by
    rw [Ptr.slot_map_overwrite_out _ _ _ _ _ (by omega)]
    exact Ptr.slot_map_overwrite_in _ _ _ _ _ ⟨Nat.zero_le _, by omega⟩ _ hx
  have hsplit : v._size - 0 = (v._size - k) + ((k - 1) + 1) := by omega
  unfold vector.dtor for_down
  simp only
  rw [hsplit, for_down_loop_append, hd]
  simp only [for_down_loop]
  rw [show v._size - (v._size - k) - 1 = k - 1 by omega]
  have hfail := Ptr.update_fails _ (k - 1) Option.isSome none none hraw rfl
  unfold Ptr.destroy_at
  rw [hfail]

/-- C30 fails as stated: the full container `7, 8` grows to capacity 3 and the move
constructor throws at index 1.  The new buffer, holding the moved `7`, is never released;
the container still claims two elements although its slot 0 is destroyed, so it is not well
formed and its destructor destroys slot 0 a second time (the destructor of the container
before the call is fine). -/
theorem relocation_failure_counterexample :
    sample_full.reserve_outcome (throws_at 1) 3 =
      ⟨⟨{}, some [none, some 8], 2, 2⟩, [some [some 7, none, none]],
        some (Thrown.move_constructor 1)⟩ ∧
    (sample_full.reserve_outcome (throws_at 1) 3).leaked ≠ [] ∧
    ¬ (sample_full.reserve_outcome (throws_at 1) 3).state.WF ∧
    (sample_full.reserve_outcome (throws_at 1) 3).state.dtor =
      .error Fault.undefined_behavior ∧
    sample_full.resize_outcome (throws_at 1) 3 = sample_full.reserve_outcome (throws_at 1) 3 ∧
    sample_full.dtor = .ok () :=
  ⟨by decide, by decide, by decide, by decide, by decide, by decide⟩

/-- C30 as amended: relocation has no failure handling.  On a well-formed container, when
`reserve(n)` (or the growing branch of `resize(n)`) has allocated the new buffer of `nc`
slots and the move constructor throws first at index `k < size`, the exception leaves the
call at once: the new buffer is not released and keeps the `k` elements already moved into
it, which are never destroyed; the container keeps its strategy, size and capacity and its
old buffer, in which the slots `[0, k)` are already destroyed and the others untouched.
The container is left well formed, and equal to what it was, exactly when `k == 0`; for
`k > 0` its destructor destroys an element a second time. -/
theorem relocation_failure_effect [Allocator A] [Inhabited T] (throws : Nat → Bool)
    (v : vector T A) (hwf : v.WF) (n nc k : Nat) (hn : v._capacity < n)
    (hnc : new_capacity v._capacity n = some nc)
    (hp : Allocator.provides v._alloc nc = true) (hk : k < v._size) (ht : throws k = true)
    (hf : ∀ j, j < k → throws j = false) :
    (v.reserve_outcome throws n).thrown = some (Thrown.move_constructor k) ∧
    v.resize_outcome throws n = v.reserve_outcome throws n ∧
    (∃ b, (v.reserve_outcome throws n).leaked = [b] ∧ b.length = nc ∧
      (∀ i, i < k → b.slot i = v._data.slot i) ∧
      (∀ i, k ≤ i → i < nc → b.slot i = some none)) ∧
    (v.reserve_outcome throws n).state._size = v._size ∧
    (v.reserve_outcome throws n).state._capacity = v._capacity ∧
    (v.reserve_outcome throws n).state._alloc = v._alloc ∧
    (∀ i, i < k → (v.reserve_outcome throws n).state._data.slot i = some none) ∧
    (∀ i, k ≤ i → (v.reserve_outcome throws n).state._data.slot i = v._data.slot i) ∧
    ((v.reserve_outcome throws n).state.WF ↔ k = 0) ∧
    (k = 0 → (v.reserve_outcome throws n).state = v) ∧
    (0 < k → (v.reserve_outcome throws n).state.dtor = .error Fault.undefined_behavior) ∧
    v.dtor = .ok () := by
  have hr := vector.reserve_outcome_throw throws v hwf n nc k hn hnc hp hk ht hf
  have hz := vector.resize_outcome_throw throws v hwf n nc k hn hnc hp hk ht hf
  have hge := new_capacity_ge _ _ _ hnc
  have hsc := hwf.1
  rw [hz, hr]
  have hlow : ∀ i, i < k →
      Ptr.slot (v._data.map (fun b => overwrite b 0 k (fun _ => none))) i = some none := by
    intro i hi
    obtain ⟨x, hx⟩ := hwf.slot_live i (by omega)
    exact Ptr.slot_map_overwrite_in _ _ _ _ _ ⟨Nat.zero_le _, hi⟩ _ hx
  have hzero : k = 0 →
      ({ v with _data := v._data.map (fun b => overwrite b 0 k (fun _ => none)) } :
        vector T A) = v := by
    intro h0
    subst h0
    cases v with
    | mk a d s c =>
      cases d with
      | none => rfl
      | some b =>
        show (⟨a, some (overwrite b 0 0 (fun _ => none)), s, c⟩ : vector T A) = _
        rw [overwrite_empty b 0 0 _ (Nat.le_refl _)]
  refine ⟨rfl, rfl, ⟨_, rfl, ?_, ?_, ?_⟩, rfl, rfl, rfl, hlow, ?_, ?_, hzero, ?_,
    vector.dtor_ok v hwf⟩
  · simp [Ptr.length, length_overwrite]
  · intro i hi
    rw [slot_fresh, if_pos (by omega), if_pos hi]
    exact (hwf.slot_join i (by omega)).2.symm
  · intro i h1 h2
    rw [slot_fresh, if_pos h2, if_neg (by omega)]
  · intro i hi
    exact Ptr.slot_map_overwrite_out _ _ _ _ _ (by omega)
  · constructor
    · intro hwf'
      by_contra h0
      obtain ⟨x, hx⟩ := hwf'.slot_live 0 (by show 0 < v._size; omega)
      have := hlow 0 (by omega)
      have hx' : Ptr.slot (v._data.map (fun b => overwrite b 0 k (fun _ => none))) 0 =
          some (some x) := hx
      rw [this] at hx'
      simp at hx'
    · intro h0
      rw [hzero h0]
      exact hwf
  · intro hpos
    exact vector.dtor_partly_destroyed v hwf k hk hpos

theorem relocation_failure_effect_witness :
    sample_full.WF ∧ sample_full._capacity < 3 ∧ new_capacity sample_full._capacity 3 = some 3 ∧
    (sample_full.reserve_outcome (throws_at 1) 3).thrown = some (Thrown.move_constructor 1) ∧
    (∃ b, (sample_full.reserve_outcome (throws_at 1) 3).leaked = [b] ∧ b.length = 3) ∧
    ((sample_full.reserve_outcome (throws_at 1) 3).state.WF ↔ 1 = 0) := by
  obtain ⟨h1, _, ⟨b, h3, h4, _⟩, _, _, _, _, _, h9, _⟩ :=
    relocation_failure_effect (throws_at 1) sample_full (by decide) 3 3 1 (by decide)
      (by decide) (by decide) (by decide) (by decide)
      (fun j hj => by
        have : j = 0 := by omega
        subst this
        decide)
  exact ⟨by decide, by decide, by decide, h1, ⟨b, h3, h4⟩, h9⟩

end outcomes

/-! ## Destruction order -/

section destruction

variable {T A : Type}

theorem destroy_down_succ (hi lo : Nat) (h : lo < hi) :
    destroy_down hi lo = Event.destroy (hi - 1) :: destroy_down (hi - 1) lo := by
  unfold destroy_down
  have h1 : hi - lo = (hi - 1 - lo) + 1 := by omega
  rw [h1, List.range'_concat, List.reverse_append]
  simp only [Nat.mul_one, List.reverse_cons, List.reverse_nil, List.nil_append,
    List.singleton_append, List.map_cons]
  rw [show lo + 1 * (hi - 1 - lo) = hi - 1 by omega]

theorem destroy_down_self (lo : Nat) : destroy_down lo lo = [] := by
  simp [destroy_down]

/-- The destroying loop with a trace is the destroying loop, and its trace is the
destructor calls on `hi - 1` down to `hi - k` in that order. -/
theorem for_down_loop_destroy_traced :
    ∀ (k hi : Nat) (p : Ptr T) (tr : List Event), k ≤ hi →
      for_down_loop destroy_traced k hi (p, tr) =
        match for_down_loop (fun i q => Ptr.destroy_at q i) k hi p with
        | .ok p1 => .ok (p1, tr ++ destroy_down hi (hi - k))
        | .error e => .error e := by
  intro k
  induction k with
  | zero =>
    intro hi p tr _
    simp [for_down_loop, destroy_down_self]
  | succ k ih =>
    intro hi p tr hk
    simp only [for_down_loop, destroy_traced]
    cases hd : p.destroy_at (hi - 1) with
    | error e => rfl
    | ok p1 =>
      simp only
      rw [ih (hi - 1) p1 _ (by omega)]
      cases for_down_loop (fun i q => Ptr.destroy_at q i) k (hi - 1) p1 with
      | error e => rfl
      | ok p2 =>
        simp only [Except.ok.injEq, Prod.mk.injEq, true_and]
        rw [destroy_down_succ hi (hi - (k + 1)) (by omega),
          show hi - 1 - k = hi - (k + 1) by omega]
        simp

theorem vector.clear_traced_eq (v : vector T A) :
    v.clear_traced =
      match v.clear with
      | .ok v1 => .ok (v1, destroy_down v._size 0)
      | .error e => .error e := by
  unfold vector.clear_traced vector.clear for_down
  rw [for_down_loop_destroy_traced _ _ _ _ (by omega)]
  cases for_down_loop (fun i q => Ptr.destroy_at q i) (v._size - 0) v._size v._data with
  | error e => rfl
  | ok p =>
    simp only [List.nil_append]
    rw [show v._size - (v._size - 0) = 0 by omega]

theorem vector.dtor_traced_eq (v : vector T A) :
    v.dtor_traced =
      match v.dtor with
      | .ok _ => .ok (destroy_down v._size 0 ++ [Event.deallocate])
      | .error e => .error e := by
  unfold vector.dtor_traced vector.dtor for_down
  rw [for_down_loop_destroy_traced _ _ _ _ (by omega)]
  cases for_down_loop (fun i q => Ptr.destroy_at q i) (v._size - 0) v._size v._data with
  | error e => rfl
  | ok p =>
    simp only [List.nil_append]
    rw [show v._size - (v._size - 0) = 0 by omega]

theorem vector.resize_traced_shrink_eq [Allocator A] [Inhabited T] (v : vector T A) (n : Nat)
    (hn : n < v._size) (hsc : v._size ≤ v._capacity) :
    v.resize_traced n =
      match v.resize n with
      | .ok v1 => .ok (v1, destroy_down v._size n)
      | .error e => .error e := by
  unfold vector.resize_traced vector.resize for_down
  rw [if_neg (by omega), if_neg (by omega), if_pos hn, if_neg (by omega), if_neg (by omega),
    if_pos hn]
  rw [for_down_loop_destroy_traced _ _ _ _ (by omega)]
  cases for_down_loop (fun i q => Ptr.destroy_at q i) (v._size - n) v._size v._data with
  | error e => rfl
  | ok p =>
    simp only [List.nil_append]
    rw [show v._size - (v._size - n) = n by omega]

theorem destroy_down_getElem (hi lo j : Nat) (h : j < hi - lo) :
    (destroy_down hi lo)[j]? = some (Event.destroy (hi - 1 - j)) := by
  unfold destroy_down
  rw [List.getElem?_map, List.getElem?_reverse (by simpa using h)]
  simp only [List.length_range']
  rw [List.getElem?_range' _ _ (by omega)]
  simp only [Nat.mul_one, Option.map_some', Option.some.injEq, Event.destroy.injEq]
  omega

theorem destroy_down_length (hi lo : Nat) : (destroy_down hi lo).length = hi - lo := by
  simp [destroy_down]

theorem destroy_up_cons (lo k : Nat) :
    destroy_up lo (lo + (k + 1)) = Event.destroy lo :: destroy_up (lo + 1) (lo + 1 + k) := by
  unfold destroy_up
  rw [show lo + (k + 1) - lo = k + 1 by omega, show lo + 1 + k - (lo + 1) = k by omega,
    List.range'_succ, List.map_cons]

/-- The relocation loop with a trace is the relocation loop, and its trace is the
destructor calls on `lo`, `lo + 1`, ..., `lo + k - 1` in that order. -/
theorem for_up_loop_relocate_traced :
    ∀ (k lo : Nat) (s : Ptr T × Ptr T) (tr : List Event),
      for_up_loop vector.relocate_traced k lo (s, tr) =
        match for_up_loop vector.relocate_body k lo s with
        | .ok s1 => .ok (s1, tr ++ destroy_up lo (lo + k))
        | .error e => .error e := by
  intro k
  induction k with
  | zero =>
    intro lo s tr
    simp [for_up_loop, destroy_up]
  | succ k ih =>
    intro lo s tr
    simp only [for_up_loop, vector.relocate_traced]
    cases hb : vector.relocate_body lo s with
    | error e => rfl
    | ok s1 =>
      simp only
      rw [ih (lo + 1) s1 _]
      cases for_up_loop vector.relocate_body k (lo + 1) s1 with
      | error e => rfl
      | ok s2 =>
        simp only [Except.ok.injEq, Prod.mk.injEq, true_and]
        rw [destroy_up_cons]
        simp

theorem vector.reserve_traced_eq [Allocator A] (v : vector T A) (n : Nat) :
    v.reserve_traced n =
      match v.reserve n with
      | .ok v1 =>
        .ok (v1, if n > v._capacity then destroy_up 0 v._size ++ [Event.deallocate] else [])
      | .error e => .error e := by
  unfold vector.reserve_traced vector.reserve for_up
  by_cases hn : n > v._capacity
  · simp only [if_pos hn]
    cases new_capacity v._capacity n with
    | none => rfl
    | some nc =>
      simp only
      cases allocate v._alloc nc with
      | error e => rfl
      | ok nb =>
        simp only
        rw [for_up_loop_relocate_traced]
        cases for_up_loop vector.relocate_body (v._size - 0) 0 (v._data, nb) with
        | error e => rfl
        | ok s =>
          simp only [List.nil_append]
          rw [show 0 + (v._size - 0) = v._size by omega]
  · simp only [if_neg hn]

theorem vector.resize_traced_eq [Allocator A] [Inhabited T] (v : vector T A) (n : Nat) :
    v.resize_traced n =
      match v.resize n with
      | .ok v1 =>
        .ok (v1, if n > v._capacity then destroy_up 0 v._size ++ [Event.deallocate]
          else destroy_down v._size n)
      | .error e => .error e := by
  unfold vector.resize_traced vector.resize
  by_cases hn : n > v._capacity
  · simp only [if_pos hn]
    cases new_capacity v._capacity n with
    | none => rfl
    | some nc =>
      simp only
      cases allocate v._alloc nc with
      | error e => rfl
      | ok nb =>
        simp only
        unfold for_up
        rw [for_up_loop_relocate_traced]
        cases for_up_loop vector.relocate_body (v._size - 0) 0 (v._data, nb) with
        | error e => rfl
        | ok s =>
          simp only [List.nil_append]
          cases for_up_loop (fun i p => Ptr.construct_at p i default) (n - v._size) v._size
              s.2 with
          | error e => rfl
          | ok d =>
            simp only
            rw [show 0 + (v._size - 0) = v._size by omega]
  · simp only [if_neg hn]
    by_cases hgt : n > v._size
    · simp only [if_pos hgt]
      cases for_up v._size n (fun i p => Ptr.construct_at p i default) v._data with
      | error e => rfl
      | ok d =>
        simp only [destroy_down, show v._size - n = 0 by omega, List.range'_zero,
          List.reverse_nil, List.map_nil]
    · simp only [if_neg hgt]
      by_cases hlt : n < v._size
      · simp only [if_pos hlt]
        unfold for_down
        rw [for_down_loop_destroy_traced _ _ _ _ (by omega)]
        cases for_down_loop (fun i q => Ptr.destroy_at q i) (v._size - n) v._size v._data with
        | error e => rfl
        | ok p =>
          simp only [List.nil_append]
          rw [show v._size - (v._size - n) = n by omega]
      · simp only [if_neg hlt]
        rw [show n = v._size by omega, destroy_down_self]

theorem destroy_up_getElem (lo hi j : Nat) (h : j < hi - lo) :
    (destroy_up lo hi)[j]? = some (Event.destroy (lo + j)) := by
  unfold destroy_up
  rw [List.getElem?_map, List.getElem?_range' _ _ h]
  simp

theorem destroy_up_length (lo hi : Nat) : (destroy_up lo hi).length = hi - lo := by
  simp [destroy_up]


/-- C31 as amended: the destructor, `clear()` and a shrinking `resize(n)` destroy in reverse
index order, the relocation in `reserve(n)` and `resize(n)` with `n > capacity` in ascending
index order.  For every state the traced operations are the plain ones (same result, same
failure) with these traces: `size - 1, ..., 0` and then the release of the buffer for the
destructor, `size - 1, ..., 0` for `clear()`, `size - 1, ..., n` for `resize(n)` within the
capacity (nothing when `n >= size`), and `0, 1, ..., size - 1` followed by the release of
the old buffer for a `reserve(n)` or `resize(n)` that reallocates.  The `j`-th call of a
descending trace is on the index `size - 1 - j`, the `j`-th call of an ascending one on `j`.
On a well-formed container the destructor, `clear()` and every shrinking `resize(n)`
complete. -/
theorem destruction_in_reverse_order [Allocator A] [Inhabited T] (v : vector T A) :
    (v.dtor_traced =
      match v.dtor with
      | .ok _ => .ok (destroy_down v._size 0 ++ [Event.deallocate])
      | .error e => .error e) ∧
    (v.clear_traced =
      match v.clear with
      | .ok v1 => .ok (v1, destroy_down v._size 0)
      | .error e => .error e) ∧
    (∀ n, v.resize_traced n =
      match v.resize n with
      | .ok v1 =>
        .ok (v1, if n > v._capacity then destroy_up 0 v._size ++ [Event.deallocate]
          else destroy_down v._size n)
      | .error e => .error e) ∧
    (∀ n, v.reserve_traced n =
      match v.reserve n with
      | .ok v1 =>
        .ok (v1, if n > v._capacity then destroy_up 0 v._size ++ [Event.deallocate] else [])
      | .error e => .error e) ∧
    (v.WF →
      v.dtor = .ok () ∧ (∃ v1, v.clear = .ok v1) ∧
      (∀ n, n < v._size → ∃ v1, v.resize n = .ok v1) ∧
      (∀ n, vector.grants v._alloc v._capacity n = true →
        (∃ v1, v.reserve n = .ok v1) ∧ ∃ v1, v.resize n = .ok v1)) ∧
    (∀ lo, (destroy_down v._size lo).length = v._size - lo ∧
      ∀ j, j < v._size - lo →
        (destroy_down v._size lo)[j]? = some (Event.destroy (v._size - 1 - j))) ∧
    ((destroy_up 0 v._size).length = v._size ∧
      ∀ j, j < v._size → (destroy_up 0 v._size)[j]? = some (Event.destroy j)) := by
  refine ⟨vector.dtor_traced_eq v, vector.clear_traced_eq v, vector.resize_traced_eq v,
    vector.reserve_traced_eq v, ?_, ?_, ?_⟩
  · intro hwf
    refine ⟨vector.dtor_ok v hwf, ?_, ?_, ?_⟩
    · obtain ⟨v1, hv1, _⟩ := vector.clear_spec v hwf
      exact ⟨v1, hv1⟩
    · intro n hn
      obtain ⟨v1, hv1, _⟩ := vector.resize_spec v hwf n
        ((vector.grants_iff _ _ _).mpr (Or.inl (by have := hwf.1; omega)))
      exact ⟨v1, hv1⟩
    · intro n hg
      obtain ⟨v1, hv1, _⟩ := vector.reserve_spec v hwf n hg
      obtain ⟨v2, hv2, _⟩ := vector.resize_spec v hwf n hg
      exact ⟨⟨v1, hv1⟩, ⟨v2, hv2⟩⟩
  · intro lo
    exact ⟨destroy_down_length _ _, fun j hj => destroy_down_getElem _ _ _ hj⟩
  · refine ⟨by rw [destroy_up_length]; omega, fun j hj => ?_⟩
    rw [destroy_up_getElem 0 v._size j (by omega), Nat.zero_add]

theorem destruction_in_reverse_order_witness :
    sample_three.WF ∧
    sample_three.dtor = .ok () ∧
    sample_three.dtor_traced =
      .ok [Event.destroy 2, Event.destroy 1, Event.destroy 0, Event.deallocate] ∧
    sample_three.clear_traced =
      .ok (⟨{}, some [none, none, none], 0, 3⟩,
        [Event.destroy 2, Event.destroy 1, Event.destroy 0]) ∧
    sample_three.resize_traced 1 =
      .ok (⟨{}, some [some 1, none, none], 1, 3⟩, [Event.destroy 2, Event.destroy 1]) ∧
    sample_three.reserve_traced 4 =
      .ok (⟨{}, some [some 1, some 2, some 3, none, none], 3, 5⟩,
        [Event.destroy 0, Event.destroy 1, Event.destroy 2, Event.deallocate]) := by
  obtain ⟨h1, h2, h3, h4, h5, _, _⟩ := destruction_in_reverse_order sample_three
  have hd := (h5 (by decide)).1
  refine ⟨by decide, hd, ?_, ?_, ?_, ?_⟩
  · rw [h1, hd]
    decide
  · rw [h2]
    decide
  · rw [h3 1]
    decide
  · rw [h4 4]
    decide

/-- C31 fails as stated: elements are not always destroyed in reverse index order.  On the
full container `{7, 8}`, `reserve(3)` and `resize(3)` relocate the elements and destroy the
originals in the order 0, 1 before they release the old buffer. -/
theorem relocation_order_counterexample :
    sample_full.WF ∧
    sample_full.reserve_traced 3 =
      .ok (⟨{}, some [some 7, some 8, none], 2, 3⟩,
        [Event.destroy 0, Event.destroy 1, Event.deallocate]) ∧
    sample_full.resize_traced 3 =
      .ok (⟨{}, some [some 7, some 8, some 0], 3, 3⟩,
        [Event.destroy 0, Event.destroy 1, Event.deallocate]) ∧
    destroy_down 2 0 = [Event.destroy 1, Event.destroy 0] ∧
    [Event.destroy 0, Event.destroy 1] ≠ destroy_down 2 0 :=
  ⟨by decide, by decide, by decide, by decide, by decide⟩

end destruction

/-! ## The growth policy in numbers -/

section growth

variable {T A : Type}

theorem first_term_ge_overshoot (c0 n c : Nat) (h : first_term_ge c0 n c) (h0 : c0 < n) :
    c ≤ n - 1 + n / 2 := by
  obtain ⟨k, hk, hn, hlt⟩ := h
  cases k with
  | zero =>
    have : c = c0 := hk
    omega
  | succ k =>
    have hprev := hlt k (by omega)
    have : c = growth_seq c0 k + (growth_seq c0 k + 1) / 2 := hk
    omega

/-- C32: growth overshoot is bounded.  For every container and every `n >= 2` with
`n > capacity`, a completed `reserve(n)` and a completed `resize(n)` leave a capacity of at
least `n` and at most `n - 1 + n / 2`, hence strictly below `1.5 * n`; for `n == 1` on a
container of capacity 0 the capacity is exactly 1; on a well-formed container both calls
complete whenever the strategy grants the request. -/
theorem growth_overshoot_bounded [Allocator A] [Inhabited T] (v : vector T A) (n : Nat)
    (hn : v._capacity < n) :
    (∀ v', v.reserve n = .ok v' →
      n ≤ v'._capacity ∧
      (2 ≤ n → v'._capacity ≤ n - 1 + n / 2 ∧ 2 * v'._capacity < 3 * n) ∧
      (n = 1 → v'._capacity = 1)) ∧
    (∀ v', v.resize n = .ok v' →
      n ≤ v'._capacity ∧
      (2 ≤ n → v'._capacity ≤ n - 1 + n / 2 ∧ 2 * v'._capacity < 3 * n) ∧
      (n = 1 → v'._capacity = 1)) ∧
    (v.WF → vector.grants v._alloc v._capacity n = true →
      (∃ v', v.reserve n = .ok v') ∧ ∃ v', v.resize n = .ok v') := by
  have key : ∀ c, new_capacity v._capacity n = some c → Allocator.provides v._alloc c = true →
      n ≤ c ∧ (2 ≤ n → c ≤ n - 1 + n / 2 ∧ 2 * c < 3 * n) ∧ (n = 1 → c = 1) := by
    intro c hc hp
    have hge := new_capacity_ge _ _ _ hc
    have hft := new_capacity_first_term _ _ _ hc (Allocator.provides_le _ _ hp)
    refine ⟨hge, ?_, ?_⟩
    · intro h2
      have hb := first_term_ge_overshoot _ n c hft (by split <;> omega)
      omega
    · intro h1
      subst h1
      have h0 : v._capacity = 0 := by omega
      rw [h0] at hft
      exact first_term_ge_unique _ _ _ _ hft ⟨0, rfl, by decide, fun j hj => by omega⟩
  refine ⟨?_, ?_, ?_⟩
  · intro v' hv
    obtain ⟨_, _, h1 | ⟨_, h2, h3⟩⟩ := vector.reserve_inv v v' n hv
    · omega
    · exact key _ h2 h3
  · intro v' hv
    obtain ⟨_, _, h1 | ⟨_, h2, h3⟩⟩ := vector.resize_inv v v' n hv
    · omega
    · exact key _ h2 h3
  · intro hwf hg
    obtain ⟨w1, hw1, _⟩ := vector.reserve_spec v hwf n hg
    obtain ⟨w2, hw2, _⟩ := vector.resize_spec v hwf n hg
    exact ⟨⟨w1, hw1⟩, ⟨w2, hw2⟩⟩

theorem growth_overshoot_bounded_witness :
    sample_full._capacity < 5 ∧
    ∃ v' : vector Nat heap, sample_full.reserve 5 = .ok v' ∧ 5 ≤ v'._capacity ∧
      v'._capacity ≤ 5 - 1 + 5 / 2 ∧ 2 * v'._capacity < 3 * 5 := by
  have h := (growth_overshoot_bounded sample_full 5 (by decide)).1
    ⟨{}, some [some 7, some 8, none, none, none], 2, 5⟩ (by decide)
  exact ⟨by decide, ⟨{}, some [some 7, some 8, none, none, none], 2, 5⟩, by decide, h.1,
    (h.2.1 (by decide)).1, (h.2.1 (by decide)).2⟩

theorem grow_loop_unbounded_total (n : Nat) :
    ∀ (fuel c : Nat), 1 ≤ c → n - c < fuel →
      ∃ r, grow_loop_unbounded n fuel c = some r ∧ first_term_ge c n r := by
  intro fuel
  induction fuel with
  | zero => intro c _ h; omega
  | succ fuel ih =>
    intro c hc h
    unfold grow_loop_unbounded
    split
    · rename_i hlt
      obtain ⟨r, hr, k, hk, hn, hl⟩ := ih (c + (c + 1) / 2) (by omega) (by omega)
      refine ⟨r, hr, k + 1, ?_, hn, ?_⟩
      · rw [growth_seq_shift]
        exact hk
      · intro j hj
        cases j with
        | zero => exact hlt
        | succ j =>
          rw [growth_seq_shift]
          exact hl j (by omega)
    · exact ⟨c, rfl, 0, rfl, by omega, fun j hj => by omega⟩

theorem grow_loop_eq_unbounded (n : Nat) (hn : n ≤ 2 ^ 63) :
    ∀ (fuel c : Nat), grow_loop n fuel c = grow_loop_unbounded n fuel c := by
  intro fuel
  induction fuel with
  | zero => intro c; rfl
  | succ fuel ih =>
    intro c
    unfold grow_loop grow_loop_unbounded
    split
    · rename_i hlt
      rw [growth_step_no_wrap c (by omega)]
      exact ih _
    · rfl

theorem growth_seq_lt_succ (c0 : Nat) (h : 1 ≤ c0) :
    ∀ k, 1 ≤ growth_seq c0 k ∧ growth_seq c0 k < growth_seq c0 (k + 1) := by
  intro k
  induction k with
  | zero =>
    refine ⟨h, ?_⟩
    show c0 < c0 + (c0 + 1) / 2
    omega
  | succ k ih =>
    have h1 : 1 ≤ growth_seq c0 (k + 1) := by omega
    refine ⟨h1, ?_⟩
    show growth_seq c0 (k + 1) < growth_seq c0 (k + 1) + (growth_seq c0 (k + 1) + 1) / 2
    omega

/-- C33: the growth loop terminates and does not wrap.  From `c = max(capacity, 1)` every
step strictly increases `c`, so in unbounded arithmetic the loop exits for every capacity
and every `n` (within `n + 1` iterations) with the first term `>= n` of the growth
sequence.  For every `n <= 2^63` and every 64-bit capacity the loop on 64-bit `usize` is
the unbounded loop: it exits with the same value, every value of `c` it visits (the terms
of the sequence up to the first one `>= n`) is at most `2^64 - 1`, and each `c + 1` it
computes is at most `2^63`. -/
theorem growth_loop_terminates (capacity n : Nat) :
    (∀ k, growth_seq (if capacity ≠ 0 then capacity else 1) k <
      growth_seq (if capacity ≠ 0 then capacity else 1) (k + 1)) ∧
    (∃ r, grow_loop_unbounded n (n + 1) (if capacity ≠ 0 then capacity else 1) = some r ∧
      first_term_ge (if capacity ≠ 0 then capacity else 1) n r) ∧
    (n ≤ 2 ^ 63 → capacity < usize_range →
      ∃ k r, new_capacity capacity n = some r ∧
        grow_loop_unbounded n usize_range (if capacity ≠ 0 then capacity else 1) = some r ∧
        r = growth_seq (if capacity ≠ 0 then capacity else 1) k ∧ n ≤ r ∧
        (∀ j, j < k → growth_seq (if capacity ≠ 0 then capacity else 1) j < n) ∧
        (∀ j, j ≤ k →
          growth_seq (if capacity ≠ 0 then capacity else 1) j ≤ usize_range - 1) ∧
        (∀ j, j < k →
          growth_seq (if capacity ≠ 0 then capacity else 1) j + 1 ≤ 2 ^ 63)) := by
  have hc0 : 1 ≤ (if capacity ≠ 0 then capacity else 1) := by split <;> omega
  refine ⟨fun k => (growth_seq_lt_succ _ hc0 k).2, ?_, ?_⟩
  · exact grow_loop_unbounded_total n (n + 1) _ hc0 (by omega)
  · intro hn hcap
    obtain ⟨r, hr, k, hk, hge, hlt⟩ :=
      grow_loop_unbounded_total n usize_range _ hc0 (by unfold usize_range; omega)
    refine ⟨k, r, ?_, hr, hk, hge, hlt, ?_, ?_⟩
    · unfold new_capacity
      rw [grow_loop_eq_unbounded n hn]
      exact hr
    · intro j hj
      by_cases hjk : j < k
      · have := hlt j hjk
        unfold usize_range
        omega
      · have hjk' : j = k := by omega
        subst hjk'
        cases j with
        | zero =>
          show (if capacity ≠ 0 then capacity else 1) ≤ usize_range - 1
          unfold usize_range at hcap ⊢
          split <;> omega
        | succ j =>
          have hp := hlt j (by omega)
          show growth_seq _ j + (growth_seq _ j + 1) / 2 ≤ usize_range - 1
          unfold usize_range
          omega
    · intro j hj
      have := hlt j hj
      omega

theorem growth_loop_terminates_witness :
    (8 : Nat) ≤ 2 ^ 63 ∧ 5 < usize_range ∧ new_capacity 5 8 = some 8 ∧
    grow_loop_unbounded 8 usize_range 5 = some 8 ∧
    ∃ k r, new_capacity 5 8 = some r ∧ r = growth_seq (if 5 ≠ 0 then 5 else 1) k := by
  obtain ⟨k, r, h1, _, h3, _⟩ := (growth_loop_terminates 5 8).2.2 (by decide) (by decide)
  exact ⟨by decide, by decide, by decide, by decide, k, r, h1, h3⟩

end growth

/-! ## Capacity after insertions, idempotence of `shrink_to_fit` -/

section growth_two

variable {T A : Type}

theorem push_first_term (c s : Nat) (hs : s ≤ c)
    (h : (s = 0 ∧ c = 0) ∨ first_term_ge 1 s c) :
    first_term_ge 1 (s + 1) (capacity_after_push c s) := by
  unfold capacity_after_push
  by_cases hfit : s + 1 ≤ c
  · rw [if_pos hfit]
    rcases h with h | ⟨k, hk, _, hl⟩
    · omega
    · exact ⟨k, hk, hfit, fun j hj => by have := hl j hj; omega⟩
  · rw [if_neg hfit]
    have hcs : c = s := by omega
    by_cases h0 : c = 0
    · rw [if_pos h0]
      exact ⟨0, rfl, by omega, fun j hj => by omega⟩
    · rw [if_neg h0]
      rcases h with h | ⟨k, hk, _, hl⟩
      · omega
      · refine ⟨k + 1, ?_, by omega, fun j hj => ?_⟩
        · show c + (c + 1) / 2 = growth_seq 1 k + (growth_seq 1 k + 1) / 2
          rw [← hk]
        · by_cases hjk : j < k
          · have := hl j hjk
            omega
          · have : j = k := by omega
            subst this
            omega

theorem vector.emplace_all_capacity_term [Allocator A] :
    ∀ (vals : List T) (v v' : vector T A), v.WF →
      ((v._size = 0 ∧ v._capacity = 0) ∨ first_term_ge 1 v._size v._capacity) →
      v.emplace_all vals = .ok v' →
      v'.WF ∧ v'._size = v._size + vals.length ∧
        ((v'._size = 0 ∧ v'._capacity = 0) ∨ first_term_ge 1 v'._size v'._capacity) := by
  intro vals
  induction vals with
  | nil =>
    intro v v' hwf hinv h
    simp only [vector.emplace_all, Except.ok.injEq] at h
    subst h
    exact ⟨hwf, rfl, hinv⟩
  | cons val vals ih =>
    intro v v' hwf hinv h
    simp only [vector.emplace_all] at h
    cases hv1 : v.emplace_back val with
    | error e =>
      rw [hv1] at h
      simp at h
    | ok v1 =>
      rw [hv1] at h
      simp only at h
      obtain ⟨hwf1, hs1, _⟩ := vector.emplace_back_ok_spec v v1 hwf val hv1
      have hc1 := vector.emplace_back_ok_capacity v v1 hwf val hv1
      have hft := push_first_term v._capacity v._size hwf.1 hinv
      obtain ⟨h1, h2, h3⟩ := ih v1 v' hwf1 (Or.inr (by rw [hs1, hc1]; exact hft)) h
      exact ⟨h1, by rw [h2, hs1]; simp only [List.length_cons]; omega, h3⟩

/-- C34: for every `k >= 1`, when `k` consecutive `emplace_back` calls on a
default-constructed container complete, the size is `k` and the capacity is the least
term `>= k` of the sequence `1, 2, 3, 5, 8, 12, 18, 27, ...` (`g0 = 1`,
`g(i+1) = g(i) + (g(i) + 1) / 2`); that term is 12 for `k = 10` and 8 for `k = 6`.  The
calls complete when the strategy provides every count up to `2 * k`. -/
theorem capacity_after_insertions [Allocator A] (vals : List T) (hk : 1 ≤ vals.length) :
    (∀ v : vector T A, vector.ctor_default.emplace_all vals = .ok v →
      v._size = vals.length ∧ first_term_ge 1 vals.length v._capacity) ∧
    ((∀ c, c ≤ 2 * vals.length → Allocator.provides (Allocator.init : A) c = true) →
      ∃ v : vector T A, vector.ctor_default.emplace_all vals = .ok v) ∧
    (List.map (growth_seq 1) [0, 1, 2, 3, 4, 5, 6, 7] = [1, 2, 3, 5, 8, 12, 18, 27] ∧
      first_term_ge 1 10 12 ∧ first_term_ge 1 6 8) := by
  have hwf0 : (vector.ctor_default : vector T A).WF := vector.holds_default.1
  refine ⟨?_, ?_, by decide, ?_, ?_⟩
  · intro v hv
    obtain ⟨_, h2, h3⟩ := vector.emplace_all_capacity_term vals _ v hwf0
      (Or.inl ⟨rfl, rfl⟩) hv
    have hs : v._size = vals.length := by
      rw [h2]
      show 0 + vals.length = vals.length
      omega
    refine ⟨hs, ?_⟩
    rcases h3 with h3 | h3
    · omega
    · rw [hs] at h3
      exact h3
  · intro hp
    rw [vector.emplace_all_eq_run]
    apply vector.run_total _ (vector.ctor_default : vector T A) 0 hwf0 (Nat.le_refl _)
      (Nat.le_refl _)
    intro c hc
    apply hp
    simp only [List.length_map] at hc
    omega
  · refine ⟨5, by decide, by decide, fun j hj => ?_⟩
    interval_cases j <;> decide
  · refine ⟨4, by decide, by decide, fun j hj => ?_⟩
    interval_cases j <;> decide

theorem capacity_after_insertions_witness :
    (∃ v : vector Nat heap,
      vector.ctor_default.emplace_all [1, 2, 3, 4, 5, 6, 7, 8, 9, 10] = .ok v ∧
      v._capacity = 12 ∧ first_term_ge 1 10 v._capacity) ∧
    (∃ v : vector Nat heap,
      vector.ctor_default.emplace_all [1, 2, 3, 4, 5, 6] = .ok v ∧
      v._capacity = 8 ∧ first_term_ge 1 6 v._capacity) := by
  have h10 := (capacity_after_insertions [1, 2, 3, 4, 5, 6, 7, 8, 9, 10] (by decide)).1
    (⟨{}, some [some 1, some 2, some 3, some 4, some 5, some 6, some 7, some 8, some 9,
      some 10, none, none], 10, 12⟩ : vector Nat heap) (by decide)
  have h6 := (capacity_after_insertions [1, 2, 3, 4, 5, 6] (by decide)).1
    (⟨{}, some [some 1, some 2, some 3, some 4, some 5, some 6, none, none], 6, 8⟩ :
      vector Nat heap) (by decide)
  exact ⟨⟨_, by decide, rfl, h10.2⟩, ⟨_, by decide, rfl, h6.2⟩⟩

/-- C35: `shrink_to_fit` is idempotent.  For every container, when `shrink_to_fit`
completes with a state, a second `shrink_to_fit` completes with that same state (same
size, capacity, buffer and elements): with `size > 0` the second call takes neither branch,
with `size == 0` it again leaves capacity 0 and a null buffer.  On a well-formed container
the first call completes whenever it needs no storage or the strategy provides `size`
slots, and leaves `capacity == size`. -/
theorem shrink_to_fit_idempotent [Allocator A] (v : vector T A) :
    (∀ v1, v.shrink_to_fit = .ok v1 →
      v1.shrink_to_fit = .ok v1 ∧ (v._size = 0 → v1._capacity = 0 ∧ v1._data = none)) ∧
    (v.WF →
      (v._size = 0 ∨ v._capacity ≤ v._size ∨ Allocator.provides v._alloc v._size = true) →
      ∃ v1, v.shrink_to_fit = .ok v1 ∧ v1.shrink_to_fit = .ok v1 ∧
        v1._capacity = v._size ∧ v1._size = v._size) := by
  have key : ∀ v1, v.shrink_to_fit = .ok v1 → v1.shrink_to_fit = .ok v1 := by
    intro v1 h
    unfold vector.shrink_to_fit at h
    split at h
    · rename_i h0
      simp only [Except.ok.injEq] at h
      subst h
      unfold vector.shrink_to_fit
      rw [if_pos h0]
    · rename_i h0
      split at h
      · split at h
        · simp at h
        · split at h
          · simp at h
          · simp only [Except.ok.injEq] at h
            subst h
            unfold vector.shrink_to_fit
            rw [if_neg h0, if_neg (Nat.lt_irrefl _)]
      · rename_i hlt
        simp only [Except.ok.injEq] at h
        subst h
        unfold vector.shrink_to_fit
        rw [if_neg h0, if_neg hlt]
  constructor
  · intro v1 h
    refine ⟨key v1 h, fun h0 => ?_⟩
    obtain ⟨_, _, h1 | h1 | h1⟩ := vector.shrink_to_fit_inv v v1 h
    · exact h1.2
    · omega
    · omega
  · intro hwf hg
    obtain ⟨v1, hv1, _, hs, _, hc, _⟩ := vector.shrink_to_fit_spec v hwf hg
    exact ⟨v1, hv1, key v1 hv1, hc, hs⟩

theorem shrink_to_fit_idempotent_witness :
    ∃ v1 : vector Nat heap, sample.shrink_to_fit = .ok v1 ∧ v1.shrink_to_fit = .ok v1 ∧
      v1._capacity = 2 := by
  have h := ((shrink_to_fit_idempotent sample).1 ⟨{}, some [some 7, some 8], 2, 2⟩
    (by decide)).1
  exact ⟨_, by decide, h, rfl⟩

end growth_two

/-! ## The bounded arena -/

section arena_bound

variable {T A : Type}

/-- Whatever capacity a run of `emplace_back` calls ends with was provided by the strategy,
unless the container never had storage. -/
theorem vector.emplace_all_capacity_provided [Allocator A] :
    ∀ (vals : List T) (v v' : vector T A),
      (v._capacity = 0 ∨ Allocator.provides v._alloc v._capacity = true) →
      v.emplace_all vals = .ok v' →
      (v'._capacity = 0 ∨ Allocator.provides v'._alloc v'._capacity = true) := by
  intro vals
  induction vals with
  | nil =>
    intro v v' hinv h
    simp only [vector.emplace_all, Except.ok.injEq] at h
    subst h
    exact hinv
  | cons val vals ih =>
    intro v v' hinv h
    simp only [vector.emplace_all] at h
    cases hv1 : v.emplace_back val with
    | error e =>
      rw [hv1] at h
      simp at h
    | ok v1 =>
      rw [hv1] at h
      simp only at h
      apply ih v1 v' _ h
      obtain ⟨w, hr, _, hc, ha, _⟩ := vector.emplace_back_inv v v1 val hv1
      obtain ⟨_, ha', h1 | ⟨_, _, h3⟩⟩ := vector.reserve_inv v w _ hr
      · rw [hc, ha, h1.2]
        exact hinv
      · right
        rw [hc, ha, ha']
        exact h3

/-- C26 as amended: on a bounded arena with `M = 10`, eight consecutive `emplace_back` calls
on an empty container succeed (size 8, capacity 8, the values in order) and the ninth
fails with an allocation error, because the growth policy requests 12 slots; ten
consecutive calls all succeed exactly when `M >= 12` (for no smaller `M`), then with size
10 and capacity 12, and the eleventh call succeeds as well. -/
theorem bounded_arena_growth (x : T) :
    (∀ vals : List T, vals.length = 8 →
      ∃ v : vector T (arena 10), vector.ctor_default.emplace_all vals = .ok v ∧
        v._size = 8 ∧ v._capacity = 8 ∧
        (∀ i (h : i < vals.length), v.at_unchecked i = .ok vals[i]) ∧
        v.emplace_back x = .error Fault.bad_alloc) ∧
    (∀ M, 12 ≤ M → ∀ vals : List T, vals.length = 10 →
      ∃ v : vector T (arena M), vector.ctor_default.emplace_all vals = .ok v ∧
        v._size = 10 ∧ v._capacity = 12 ∧
        ∃ v', v.emplace_back x = .ok v' ∧ v'._size = 11) ∧
    (∀ M, ∀ vals : List T, vals.length = 10 →
      ((∃ v : vector T (arena M), vector.ctor_default.emplace_all vals = .ok v) ↔
        12 ≤ M)) := by
  have hwf0 : ∀ M, (vector.ctor_default : vector T (arena M)).WF :=
    fun M => vector.holds_default.1
  have hc0 : ∀ M, (vector.ctor_default : vector T (arena M))._capacity = 0 := fun _ => rfl
  have hs0 : ∀ M, (vector.ctor_default : vector T (arena M))._size = 0 := fun _ => rfl
  have hcaps : ∀ j, j < 10 → capacity_after_pushes 0 0 (j + 1) ≤ 12 := by
    intro j hj
    interval_cases j <;> decide
  have hcaps8 : ∀ j, j < 8 → capacity_after_pushes 0 0 (j + 1) ≤ 8 := by
    intro j hj
    interval_cases j <;> decide
  have hten : ∀ M, 12 ≤ M → ∀ vals : List T, vals.length = 10 →
      ∃ v : vector T (arena M), vector.ctor_default.emplace_all vals = .ok v ∧
        v._size = 10 ∧ v._capacity = 12 ∧
        ∃ v', v.emplace_back x = .ok v' ∧ v'._size = 11 := by
    intro M hM vals hlen
    obtain ⟨v, hv, hwf, hs, hc, ha, _, _⟩ := vector.emplace_all_spec vals
      (vector.ctor_default : vector T (arena M)) (hwf0 M) (fun j hj _ => by
        rw [hc0, hs0]
        rw [hlen] at hj
        have := hcaps j hj
        exact arena_provides M _ _ (by omega) this)
    rw [hc0, hs0, hlen] at hc
    rw [hs0, hlen] at hs
    have hc12 : v._capacity = 12 := hc.trans (by decide)
    obtain ⟨v', hv', _, hs', _⟩ := vector.emplace_back_push_spec v hwf x (fun hlt => by
      omega)
    exact ⟨v, hv, hs, hc12, v', hv', by omega⟩
  refine ⟨?_, hten, ?_⟩
  · intro vals hlen
    obtain ⟨v, hv, hwf, hs, hc, ha, _, hnew⟩ := vector.emplace_all_spec vals
      (vector.ctor_default : vector T (arena 10)) (hwf0 10) (fun j hj _ => by
        rw [hc0, hs0]
        rw [hlen] at hj
        have := hcaps8 j hj
        exact arena_provides 10 _ _ (by omega) (by omega))
    rw [hc0, hs0, hlen] at hc
    rw [hs0, hlen] at hs
    have hc8 : v._capacity = 8 := hc.trans (by decide)
    refine ⟨v, hv, hs, hc8, ?_, ?_⟩
    · intro i h
      have := hnew i vals[i] (List.getElem?_eq_getElem h)
      rw [hs0, Nat.zero_add] at this
      exact Ptr.read_of_slot _ _ _ this
    · apply vector.emplace_back_fails v hwf x (by omega)
      · rw [hc8, hs]
        decide
      · rw [hc8, hs]
        rfl
  · intro M vals hlen
    constructor
    · intro ⟨v, hv⟩
      obtain ⟨_, hs, hterm⟩ := vector.emplace_all_capacity_term vals _ v (hwf0 M)
        (Or.inl ⟨rfl, rfl⟩) hv
      rw [hs0, hlen] at hs
      have hft : first_term_ge 1 10 12 := by
        refine ⟨5, by decide, by decide, fun j hj => ?_⟩
        interval_cases j <;> decide
      have hc12 : v._capacity = 12 := by
        rcases hterm with h | h
        · omega
        · rw [hs] at h
          exact first_term_ge_unique _ _ _ _ h hft
      rcases vector.emplace_all_capacity_provided vals _ v (Or.inl (hc0 M)) hv with h | h
      · omega
      · rw [hc12] at h
        have h' : (decide (12 ≤ M) && decide (12 ≤ max_count)) = true := h
        simp only [Bool.and_eq_true, decide_eq_true_eq] at h'
        exact h'.1
    · intro hM
      obtain ⟨v, hv, _⟩ := hten M hM vals hlen
      exact ⟨v, hv⟩

theorem bounded_arena_growth_witness :
    (∃ v : vector Nat (arena 10),
      vector.ctor_default.emplace_all [1, 2, 3, 4, 5, 6, 7, 8] = .ok v ∧ v._size = 8 ∧
      v._capacity = 8 ∧ v.emplace_back 9 = .error Fault.bad_alloc) ∧
    ¬ (∃ v : vector Nat (arena 11),
      vector.ctor_default.emplace_all [1, 2, 3, 4, 5, 6, 7, 8, 9, 10] = .ok v) := by
  obtain ⟨v, h1, h2, h3, _, h5⟩ := (bounded_arena_growth (9 : Nat)).1
    [1, 2, 3, 4, 5, 6, 7, 8] rfl
  refine ⟨⟨v, h1, h2, h3, h5⟩, ?_⟩
  intro h
  have := ((bounded_arena_growth (9 : Nat)).2.2 11 [1, 2, 3, 4, 5, 6, 7, 8, 9, 10] rfl).mp h
  omega

end arena_bound

/-! ## Arguments passed by reference -/

section references

variable {T A : Type}

theorem vector.WF.succ_mod {v : vector T A} (h : v.WF) :
    (v._size + 1) % usize_range = v._size + 1 := by
  have h1 := h.1
  have h2 := h.2.1
  unfold max_count at h2
  unfold usize_range
  omega

/-- On a container with a spare slot `reserve(_size + 1)` changes nothing, so the reference
to the element `index` is read from the buffer as it is: the call is `emplace_back` on the
value of that element, and undefined when the slot holds no constructed value. -/
theorem vector.emplace_back_ref_element_room [Allocator A] (v : vector T A) (index : Nat)
    (h : (v._size + 1) % usize_range ≤ v._capacity) :
    v.emplace_back_ref (Arg.element index) =
      match v._data.read index with
      | .ok val => v.emplace_back val
      | .error e => .error e := by
  have hr : v.reserve ((v._size + 1) % usize_range) = .ok v := by
    unfold vector.reserve
    rw [if_neg (by omega)]
  unfold vector.emplace_back_ref
  rw [hr]
  simp only [if_neg (show ¬ (v._size + 1) % usize_range > v._capacity by omega), Arg.read]
  cases hx : v._data.read index with
  | error e => rfl
  | ok val =>
    simp only
    rw [vector.emplace_back_eq, hr]

/-- On a container without a spare slot `reserve(_size + 1)` replaces the buffer, so the
reference to the element `index` is read from released storage: the call never completes. -/
theorem vector.emplace_back_ref_element_grow [Allocator A] (v : vector T A) (index : Nat)
    (h : v._capacity < (v._size + 1) % usize_range) :
    v.emplace_back_ref (Arg.element index) =
      match v.reserve ((v._size + 1) % usize_range) with
      | .ok _ => .error Fault.undefined_behavior
      | .error e => .error e := by
  unfold vector.emplace_back_ref
  cases v.reserve ((v._size + 1) % usize_range) with
  | error e => rfl
  | ok v1 =>
    simp only [if_pos (show (v._size + 1) % usize_range > v._capacity from h), Arg.read]
    rfl

/-- A call that reads its argument as `val` after `reserve` is `emplace_back` on `val`. -/
theorem vector.emplace_back_ref_of_read [Allocator A] (v v1 : vector T A) (arg : Arg T)
    (val : T) (hr : v.reserve ((v._size + 1) % usize_range) = .ok v1)
    (hx : arg.read (if (v._size + 1) % usize_range > v._capacity then none else v1._data) =
      .ok val) :
    v.emplace_back_ref arg = v.emplace_back val := by
  rw [vector.emplace_back_eq]
  unfold vector.emplace_back_ref
  rw [hr]
  simp only [hx]

/-- A completed `push_back` / `emplace_back` is the call on the value behind its argument:
the value of the outside object, or the element `index` read on a container with a spare
slot. -/
theorem vector.emplace_back_ref_ok [Allocator A] (v v' : vector T A) (arg : Arg T)
    (h : v.emplace_back_ref arg = .ok v') :
    ∃ val, v.emplace_back val = .ok v' ∧
      (arg = Arg.object val ∨
        ∃ index, arg = Arg.element index ∧ v._data.read index = .ok val ∧
          (v._size + 1) % usize_range ≤ v._capacity) := by
  cases arg with
  | object val => exact ⟨val, h, Or.inl rfl⟩
  | element index =>
    by_cases hroom : (v._size + 1) % usize_range ≤ v._capacity
    · rw [vector.emplace_back_ref_element_room v index hroom] at h
      cases hx : v._data.read index with
      | error e =>
        rw [hx] at h
        simp at h
      | ok val =>
        rw [hx] at h
        exact ⟨val, h, Or.inr ⟨index, rfl, hx, hroom⟩⟩
    · rw [vector.emplace_back_ref_element_grow v index (by omega)] at h
      cases hr : v.reserve ((v._size + 1) % usize_range) with
      | error e =>
        rw [hr] at h
        simp at h
      | ok v1 =>
        rw [hr] at h
        simp at h

theorem vector.WF.read_lt {v : vector T A} (hwf : v.WF) (index : Nat) (val : T)
    (h : v._data.read index = .ok val) : index < v._size := by
  have hs := (Ptr.read_ok_iff _ _ _).mp h
  by_contra hge
  by_cases hc : index < v._capacity
  · have := hwf.slot_raw index hc (by omega)
    rw [this] at hs
    simp at hs
  · have := Ptr.slot_eq_none_of_le v._data index (by rw [hwf.2.2.1]; omega)
    rw [this] at hs
    simp at hs


/-- C10 as amended: on a well-formed container, `emplace_back` of an object outside the
buffer, and of an element of the container itself while there is a spare slot, leaves
`size == old size + 1`, the new element equal to the value of the argument and the elements
below `old size` unchanged, and completes whenever the strategy grants the request of
`reserve(size + 1)`; with a reference to an element of the container and no spare slot the
call never completes: the reference is read after `reserve` replaced the buffer (undefined
behaviour once the strategy has granted the request); `push_back` is the same operation. -/
theorem emplace_back_effect [Allocator A] (v : vector T A) (hwf : v.WF) :
    (∀ val : T,
      (∀ v', v.emplace_back_ref (Arg.object val) = .ok v' →
        v'._size = v._size + 1 ∧ v'.at_unchecked v._size = .ok val ∧
        (∀ i, i < v._size → ∃ x, v.at_unchecked i = .ok x ∧ v'.at_unchecked i = .ok x)) ∧
      (vector.grants v._alloc v._capacity (v._size + 1) = true →
        ∃ v', v.emplace_back_ref (Arg.object val) = .ok v')) ∧
    (∀ index val, v.at_unchecked index = .ok val → v._size + 1 ≤ v._capacity →
      ∃ v', v.emplace_back_ref (Arg.element index) = .ok v' ∧
        v'._size = v._size + 1 ∧ v'.at_unchecked v._size = .ok val ∧
        (∀ i, i < v._size → ∃ x, v.at_unchecked i = .ok x ∧ v'.at_unchecked i = .ok x)) ∧
    (∀ index e, v.at_unchecked index = .error e → v._size + 1 ≤ v._capacity →
      v.emplace_back_ref (Arg.element index) = .error Fault.undefined_behavior) ∧
    (∀ index, v._capacity < v._size + 1 →
      (∀ v', v.emplace_back_ref (Arg.element index) ≠ .ok v') ∧
      (vector.grants v._alloc v._capacity (v._size + 1) = true →
        v.emplace_back_ref (Arg.element index) = .error Fault.undefined_behavior)) ∧
    (∀ arg, v.push_back_ref arg = v.emplace_back_ref arg) ∧
    (∀ val, v.emplace_back val = v.emplace_back_ref (Arg.object val) ∧
      v.push_back val = v.push_back_ref (Arg.object val)) := by
  have hmod := hwf.succ_mod
  have hvalue : ∀ (val : T) (v' : vector T A), v.emplace_back val = .ok v' →
      v'._size = v._size + 1 ∧ v'.at_unchecked v._size = .ok val ∧
      (∀ i, i < v._size → ∃ x, v.at_unchecked i = .ok x ∧ v'.at_unchecked i = .ok x) := by
    intro val v' hv
    obtain ⟨_, hs, _, hnew, hold⟩ := vector.emplace_back_ok_spec v v' hwf val hv
    refine ⟨hs, Ptr.read_of_slot _ _ _ hnew, ?_⟩
    intro i hi
    obtain ⟨x, hx⟩ := hwf.slot_live i hi
    exact ⟨x, Ptr.read_of_slot _ _ _ hx, Ptr.read_of_slot _ _ _ (by rw [hold i hi]; exact hx)⟩
  refine ⟨?_, ?_, ?_, ?_, fun _ => rfl, fun _ => ⟨rfl, rfl⟩⟩
  · intro val
    refine ⟨fun v' hv => hvalue val v' hv, ?_⟩
    intro hg
    obtain ⟨w, hw, _⟩ := vector.emplace_back_spec v hwf val hg
    exact ⟨w, hw⟩
  · intro index val hx hroom
    obtain ⟨w, hw, _⟩ := vector.emplace_back_spec v hwf val
      ((vector.grants_iff _ _ _).mpr (Or.inl hroom))
    have hx' : v._data.read index = .ok val := hx
    refine ⟨w, ?_, hvalue val w hw⟩
    rw [vector.emplace_back_ref_element_room v index (by rw [hmod]; exact hroom), hx']
    exact hw
  · intro index e hx hroom
    have hx' : v._data.read index = .error e := hx
    rw [vector.emplace_back_ref_element_room v index (by rw [hmod]; exact hroom), hx']
    rw [Ptr.read_error _ _ _ hx']
  · intro index hfull
    have hgrow := vector.emplace_back_ref_element_grow v index (by rw [hmod]; exact hfull)
    constructor
    · intro v' hv
      rw [hgrow] at hv
      cases hr : v.reserve ((v._size + 1) % usize_range) with
      | error e =>
        rw [hr] at hv
        simp at hv
      | ok v1 =>
        rw [hr] at hv
        simp at hv
    · intro hg
      obtain ⟨v1, hr, _⟩ := vector.reserve_spec v hwf (v._size + 1) hg
      rw [hgrow, hmod, hr]

theorem emplace_back_effect_witness :
    sample.WF ∧ sample_full.WF ∧
    (∃ v', sample.emplace_back_ref (Arg.object 9) = .ok v' ∧ v'._size = sample._size + 1 ∧
      v'.at_unchecked sample._size = .ok 9) ∧
    (∃ v', sample.emplace_back_ref (Arg.element 0) = .ok v' ∧ v'._size = sample._size + 1 ∧
      v'.at_unchecked sample._size = .ok 7) ∧
    sample_full.emplace_back_ref (Arg.element 0) = .error Fault.undefined_behavior := by
  have h := emplace_back_effect sample (by decide)
  have h1 := (h.1 9).1 ⟨{}, some [some 7, some 8, some 9], 3, 3⟩ (by decide)
  obtain ⟨w, hw, hs, hx, _⟩ := h.2.1 0 7 (by decide) (by decide)
  exact ⟨by decide, by decide, ⟨_, by decide, h1.1, h1.2.1⟩, ⟨w, hw, hs, hx⟩,
    ((emplace_back_effect sample_full (by decide)).2.2.2.1 0 (by decide)).2 (by decide)⟩

/-- C10 fails as stated: `v.push_back(v[0])` on the full container `{7, 8}` is a call
`push_back(v)` with the value 7, yet it does not leave a container of size 3 ending in 7:
`reserve(3)` moves the elements out of the buffer, destroys them and releases the buffer,
and the new element is then constructed from the dangling reference.  The same happens in
the store, where the block at the old address is gone when the reference is read. -/
theorem emplace_back_alias_counterexample :
    sample_full.WF ∧ sample_full.at_unchecked 0 = .ok 7 ∧
    sample_full.emplace_back 7 = .ok ⟨{}, some [some 7, some 8, some 7], 3, 3⟩ ∧
    sample_full.emplace_back_ref (Arg.element 0) = .error Fault.undefined_behavior ∧
    sample_full.push_back_ref (Arg.element 0) = .error Fault.undefined_behavior ∧
    sample_full_object.view sample_full_store = sample_full ∧
    heap_vector.reserve sample_full_store sample_full_object 3 =
      .ok ([none, some [some 7, some 8, none]],
        { _alloc := {}, _data := some 1, _size := 2, _capacity := 3 }) ∧
    heap_vector.emplace_back_ref sample_full_store sample_full_object (Arg.element 0) =
      .error Fault.undefined_behavior :=
  ⟨by decide, by decide, by decide, by decide, by decide, by decide, by decide, by decide⟩


/-! ### Workloads with reference arguments -/

theorem vector.call_ok [Allocator A] (v v' : vector T A) (c : Call T)
    (h : v.call c = .ok v') :
    (c = Call.pop_back ∧ v.pop_back = .ok v') ∨
    (∃ arg val, c = Call.push_back arg ∧ v.emplace_back val = .ok v' ∧
      (arg = Arg.object val ∨
        ∃ index, arg = Arg.element index ∧ v._data.read index = .ok val ∧
          (v._size + 1) % usize_range ≤ v._capacity)) := by
  cases c with
  | pop_back => exact Or.inl ⟨rfl, h⟩
  | push_back arg =>
    obtain ⟨val, hv, harg⟩ := vector.emplace_back_ref_ok v v' arg h
    exact Or.inr ⟨arg, val, rfl, hv, harg⟩

theorem vector.holds_call [Allocator A] (v v' : vector T A) (l : List T) (c : Call T)
    (h : v.holds l) (hv : v.call c = .ok v') :
    ∃ l', reference_call l c = some l' ∧ v'.holds l' := by
  rcases vector.call_ok v v' c hv with ⟨hc, hp⟩ | ⟨arg, val, hc, he, harg⟩
  · subst hc
    exact ⟨l.dropLast, rfl, vector.holds_step v v' l Op.pop_back h hp⟩
  · subst hc
    have hstep := vector.holds_step v v' l (Op.push_back val) h he
    refine ⟨l ++ [val], ?_, hstep⟩
    rcases harg with harg | ⟨index, harg, hx, _⟩
    · subst harg
      rfl
    · subst harg
      obtain ⟨hwf, hlen, hl⟩ := h
      have hlt := hwf.read_lt index val hx
      have hs := (Ptr.read_ok_iff _ _ _).mp hx
      have hi : index < l.length := by omega
      have hy := hl index l[index] (List.getElem?_eq_getElem hi)
      rw [hy] at hs
      simp only [Option.some.injEq] at hs
      show (Arg.value l (Arg.element index)).map (fun x => l ++ [x]) = some (l ++ [val])
      show (l[index]?).map (fun x => l ++ [x]) = some (l ++ [val])
      rw [List.getElem?_eq_getElem hi, hs]
      rfl

theorem vector.holds_calls [Allocator A] :
    ∀ (cs : List (Call T)) (v v' : vector T A) (l : List T),
      v.holds l → v.calls cs = .ok v' →
      ∃ l', reference_calls l cs = some l' ∧ v'.holds l' := by
  intro cs
  induction cs with
  | nil =>
    intro v v' l h hv
    simp only [vector.calls, Except.ok.injEq] at hv
    subst hv
    exact ⟨l, rfl, h⟩
  | cons c cs ih =>
    intro v v' l h hv
    simp only [vector.calls] at hv
    split at hv
    · rename_i v1 hv1
      obtain ⟨l1, hl1, h1⟩ := vector.holds_call v v1 l c h hv1
      obtain ⟨l', hl', h'⟩ := ih v1 v' l1 h1 hv
      refine ⟨l', ?_, h'⟩
      simp only [reference_calls, hl1]
      exact hl'
    · simp at hv

theorem vector.calls_append [Allocator A] :
    ∀ (cs : List (Call T)) (v : vector T A) (c : Call T),
      v.calls (cs ++ [c]) =
        match v.calls cs with
        | .ok v1 => v1.call c
        | .error e => .error e := by
  intro cs
  induction cs with
  | nil =>
    intro v c
    simp only [List.nil_append, vector.calls]
    cases v.call c <;> rfl
  | cons c0 cs ih =>
    intro v c
    simp only [List.cons_append, vector.calls]
    cases v.call c0 with
    | error e => rfl
    | ok v1 => exact ih v1 c

/-- A completed call keeps the container well-formed and on its strategy, adds at most one
element and leaves a capacity of at most twice the number of elements there can be. -/
theorem vector.call_bounds [Allocator A] (v v' : vector T A) (c : Call T) (m : Nat)
    (hwf : v.WF) (hs : v._size ≤ m) (hc : v._capacity ≤ 2 * m) (h : v.call c = .ok v') :
    v'.WF ∧ v'._size ≤ m + 1 ∧ v'._capacity ≤ 2 * (m + 1) ∧ v'._alloc = v._alloc := by
  rcases vector.call_ok v v' c h with ⟨_, hp⟩ | ⟨arg, val, _, he, _⟩
  · obtain ⟨w, hw, hwf1, hs1, hc1, ha1, _⟩ := vector.pop_back_spec v hwf
    rw [hp] at hw
    simp only [Except.ok.injEq] at hw
    subst hw
    exact ⟨hwf1, by omega, by omega, ha1⟩
  · obtain ⟨hwf1, hs1, ha1, _⟩ := vector.emplace_back_ok_spec v v' hwf val he
    have hc1 := vector.emplace_back_ok_capacity v v' hwf val he
    refine ⟨hwf1, by omega, ?_, ha1⟩
    rw [hc1]
    unfold capacity_after_push
    have := hwf.1
    split
    · omega
    · split <;> omega

theorem vector.calls_bounds [Allocator A] :
    ∀ (cs : List (Call T)) (v v' : vector T A) (m : Nat), v.WF → v._size ≤ m →
      v._capacity ≤ 2 * m → v.calls cs = .ok v' →
      v'.WF ∧ v'._size ≤ m + cs.length ∧ v'._capacity ≤ 2 * (m + cs.length) ∧
        v'._alloc = v._alloc := by
  intro cs
  induction cs with
  | nil =>
    intro v v' m hwf hs hc h
    simp only [vector.calls, Except.ok.injEq] at h
    subst h
    exact ⟨hwf, hs, hc, rfl⟩
  | cons c cs ih =>
    intro v v' m hwf hs hc h
    simp only [vector.calls] at h
    split at h
    · rename_i v1 hv1
      obtain ⟨hwf1, hs1, hc1, ha1⟩ := vector.call_bounds v v1 c m hwf hs hc hv1
      obtain ⟨hwf', hs', hc', ha'⟩ := ih v1 v' (m + 1) hwf1 hs1 hc1 h
      refine ⟨hwf', ?_, ?_, by rw [ha', ha1]⟩
      · simp only [List.length_cons]
        omega
      · simp only [List.length_cons]
        omega
    · simp at h

/-- On a well-formed container whose strategy grants the request of `reserve(size + 1)`, a
call completes when the container admits it and is undefined otherwise. -/
theorem vector.call_total [Allocator A] (v : vector T A) (c : Call T) (hwf : v.WF)
    (hg : vector.grants v._alloc v._capacity (v._size + 1) = true) :
    (v.admits c = true → ∃ v', v.call c = .ok v') ∧
    (v.admits c = false → v.call c = .error Fault.undefined_behavior) := by
  have hmod := hwf.succ_mod
  cases c with
  | pop_back =>
    obtain ⟨w, hw, _⟩ := vector.pop_back_spec v hwf
    exact ⟨fun _ => ⟨w, hw⟩, fun h => by simp [vector.admits] at h⟩
  | push_back arg =>
    cases arg with
    | object val =>
      obtain ⟨w, hw, _⟩ := vector.emplace_back_spec v hwf val hg
      exact ⟨fun _ => ⟨w, hw⟩, fun h => by simp [vector.admits] at h⟩
    | element index =>
      show (v.admits _ = true → ∃ v', v.emplace_back_ref (Arg.element index) = .ok v') ∧
        (v.admits _ = false →
          v.emplace_back_ref (Arg.element index) = .error Fault.undefined_behavior)
      simp only [vector.admits, Bool.and_eq_true, decide_eq_true_eq, Bool.and_eq_false_imp,
        decide_eq_false_iff_not]
      by_cases hroom : v._size + 1 ≤ v._capacity
      · rw [vector.emplace_back_ref_element_room v index (by rw [hmod]; exact hroom)]
        constructor
        · intro ⟨hi, _⟩
          obtain ⟨x, hx⟩ := hwf.slot_live index hi
          rw [Ptr.read_of_slot _ _ _ hx]
          obtain ⟨w, hw, _⟩ := vector.emplace_back_spec v hwf x hg
          exact ⟨w, hw⟩
        · intro hn
          have hi : ¬ index < v._size := fun hi => hn hi hroom
          cases hx : v._data.read index with
          | ok val => exact absurd (hwf.read_lt index val hx) hi
          | error e => rw [Ptr.read_error _ _ _ hx]
      · rw [vector.emplace_back_ref_element_grow v index (by rw [hmod]; omega)]
        obtain ⟨v1, hr, _⟩ := vector.reserve_spec v hwf (v._size + 1) hg
        rw [hmod, hr]
        exact ⟨fun ⟨_, h⟩ => absurd h hroom, fun _ => rfl⟩


theorem vector.calls_take_step [Allocator A] (cs : List (Call T))
    (hp : ∀ c, c ≤ 2 * cs.length → Allocator.provides (Allocator.init : A) c = true)
    (k : Nat) (v : vector T A) (c : Call T)
    (hv : vector.ctor_default.calls (cs.take k) = .ok v) (hc : cs[k]? = some c) :
    vector.ctor_default.calls (cs.take (k + 1)) = v.call c ∧ v.WF ∧
      vector.grants v._alloc v._capacity (v._size + 1) = true := by
  obtain ⟨hk, _⟩ := List.getElem?_eq_some_iff.mp hc
  obtain ⟨hwf, hs, hcap, ha⟩ := vector.calls_bounds (cs.take k)
    (vector.ctor_default : vector T A) v 0 vector.holds_default.1 (Nat.le_refl _)
    (Nat.le_refl _) hv
  have hlen : (cs.take k).length = k := by
    rw [List.length_take]
    omega
  rw [hlen] at hs hcap
  refine ⟨?_, hwf, ?_⟩
  · rw [List.take_succ, hc]
    show vector.calls _ (cs.take k ++ [c]) = _
    rw [vector.calls_append, hv]
  · refine (grants_size_succ v._alloc v._size v._capacity k hwf.1 (by omega) ?_).1
    intro n hn
    rw [ha]
    exact hp n (by omega)

/-- C2 as amended: starting from the empty container, after every prefix that completes of
every finite sequence of `push_back(v)` and `pop_back()` calls, `size` is the length of the
reference list (append the value of the argument on `push_back`, drop the last element on
`pop_back`, nothing on the empty list) and the element at each index `i < size` is the
`i`-th element of that list.  When the strategy provides any count up to twice the number
of calls, every prefix completes provided no `push_back` receives a reference to an element
of the container while the container has no spare slot (in particular when every argument
is an object outside the buffer), and the first call that does makes the run undefined. -/
theorem push_pop_refines_list [Allocator A] (cs : List (Call T)) :
    (∀ k (v : vector T A), vector.ctor_default.calls (cs.take k) = .ok v →
      ∃ l, reference_calls [] (cs.take k) = some l ∧ v._size = l.length ∧
        ∀ i x, l[i]? = some x → v.at_unchecked i = .ok x) ∧
    ((∀ c, c ≤ 2 * cs.length → Allocator.provides (Allocator.init : A) c = true) →
      ((∀ k (v : vector T A) c, vector.ctor_default.calls (cs.take k) = .ok v →
          cs[k]? = some c → v.admits c = true) →
        ∀ k, ∃ v : vector T A, vector.ctor_default.calls (cs.take k) = .ok v) ∧
      (∀ k (v : vector T A) c, vector.ctor_default.calls (cs.take k) = .ok v →
          cs[k]? = some c → v.admits c = false →
        (vector.ctor_default : vector T A).calls (cs.take (k + 1)) =
          .error Fault.undefined_behavior) ∧
      ((∀ c, c ∈ cs → ∀ index, c ≠ Call.push_back (Arg.element index)) →
        ∀ k, ∃ v : vector T A, vector.ctor_default.calls (cs.take k) = .ok v)) := by
  constructor
  · intro k v hv
    obtain ⟨l, hl, _, hs, hx⟩ :=
      vector.holds_calls (cs.take k) _ v [] vector.holds_default hv
    exact ⟨l, hl, hs, fun i x h => Ptr.read_of_slot _ _ _ (hx i x h)⟩
  · intro hp
    have hall : (∀ k (v : vector T A) c, vector.ctor_default.calls (cs.take k) = .ok v →
          cs[k]? = some c → v.admits c = true) →
        ∀ k, ∃ v : vector T A, vector.ctor_default.calls (cs.take k) = .ok v := by
      intro hadm k
      induction k with
      | zero => exact ⟨vector.ctor_default, rfl⟩
      | succ k ih =>
        obtain ⟨v, hv⟩ := ih
        cases hc : cs[k]? with
        | none =>
          have hk : cs.length ≤ k := List.getElem?_eq_none_iff.mp hc
          rw [List.take_of_length_le (by omega)]
          rw [List.take_of_length_le hk] at hv
          exact ⟨v, hv⟩
        | some c =>
          obtain ⟨hstep, hwf, hg⟩ := vector.calls_take_step cs hp k v c hv hc
          obtain ⟨v', hv'⟩ := (vector.call_total v c hwf hg).1 (hadm k v c hv hc)
          exact ⟨v', by rw [hstep]; exact hv'⟩
    refine ⟨hall, ?_, ?_⟩
    · intro k v c hv hc hadm
      obtain ⟨hstep, hwf, hg⟩ := vector.calls_take_step cs hp k v c hv hc
      rw [hstep]
      exact (vector.call_total v c hwf hg).2 hadm
    · intro hout
      apply hall
      intro k v c _ hc
      have hmem : c ∈ cs := by
        obtain ⟨hk, he⟩ := List.getElem?_eq_some_iff.mp hc
        rw [← he]
        exact List.getElem_mem hk
      cases c with
      | pop_back => rfl
      | push_back arg =>
        cases arg with
        | object val => rfl
        | element index => exact absurd rfl (hout _ hmem index)

theorem push_pop_refines_list_witness :
    (∃ (v : vector Nat heap) (l : List Nat),
      vector.ctor_default.calls
        ([Call.push_back (Arg.object 1), Call.push_back (Arg.object 2), Call.pop_back,
          Call.push_back (Arg.element 0)].take 4) = .ok v ∧
      reference_calls []
        ([Call.push_back (Arg.object 1), Call.push_back (Arg.object 2), Call.pop_back,
          Call.push_back (Arg.element 0)].take 4) = some l ∧
      l = [1, 1] ∧ v._size = l.length ∧ ∀ i x, l[i]? = some x → v.at_unchecked i = .ok x) ∧
    (∀ k, ∃ v : vector Nat heap,
      vector.ctor_default.calls
        ([Call.push_back (Arg.object 1), Call.push_back (Arg.object 2), Call.pop_back].take k) =
          .ok v) ∧
    (vector.ctor_default : vector Nat heap).calls
      ([Call.push_back (Arg.object 7), Call.push_back (Arg.object 8),
        Call.push_back (Arg.element 0)].take (2 + 1)) = .error Fault.undefined_behavior := by
  have hp : ∀ c : Nat, c ≤ 8 → Allocator.provides (Allocator.init : heap) c = true := by
    intro c hc
    show decide (c ≤ max_count) = true
    simp only [decide_eq_true_eq, max_count]
    omega
  obtain ⟨l, h1, h2, h3⟩ := (push_pop_refines_list
    [Call.push_back (Arg.object 1), Call.push_back (Arg.object 2), Call.pop_back,
      Call.push_back (Arg.element 0)]).1 4
    (⟨{}, some [some 1, some 1], 2, 2⟩ : vector Nat heap) (by decide)
  have h4 : reference_calls []
      ([Call.push_back (Arg.object 1), Call.push_back (Arg.object 2), Call.pop_back,
        Call.push_back (Arg.element 0)].take 4) = some [1, 1] := by decide
  refine ⟨⟨_, l, by decide, h1, ?_, h2, h3⟩, ?_, ?_⟩
  · rw [h4] at h1
    simp only [Option.some.injEq] at h1
    exact h1.symm
  · apply ((push_pop_refines_list
      [Call.push_back (Arg.object 1), Call.push_back (Arg.object 2), Call.pop_back]).2
      (fun c hc => hp c (Nat.le_trans hc (by decide)))).2.2
    intro c hc index
    simp only [List.mem_cons, List.mem_singleton, List.not_mem_nil, or_false] at hc
    rcases hc with rfl | rfl | rfl <;> simp
  · exact ((push_pop_refines_list
      [Call.push_back (Arg.object 7), Call.push_back (Arg.object 8),
        Call.push_back (Arg.element 0)]).2
      (fun c hc => hp c (Nat.le_trans hc (by decide)))).2.1 2 sample_full
      (Call.push_back (Arg.element 0)) (by decide) (by decide) (by decide)

/-- C2 fails as stated: `push_back(7)`, `push_back(8)`, `push_back(v[0])` is a finite
sequence of `push_back` calls whose reference list is `7, 8, 7`, but the third call finds
the container full, `reserve(3)` destroys the elements and releases the buffer, and the
new element is constructed from the dangling reference: the run is undefined. -/
theorem push_back_alias_counterexample :
    (vector.ctor_default : vector Nat heap).calls
      [Call.push_back (Arg.object 7), Call.push_back (Arg.object 8)] = .ok sample_full ∧
    reference_calls []
      [Call.push_back (Arg.object 7), Call.push_back (Arg.object 8),
        Call.push_back (Arg.element 0)] = some [7, 8, 7] ∧
    (vector.ctor_default : vector Nat heap).calls
      [Call.push_back (Arg.object 7), Call.push_back (Arg.object 8),
        Call.push_back (Arg.element 0)] = .error Fault.undefined_behavior :=
  ⟨by decide, by decide, by decide⟩


/-! ### The reference argument in the store -/

theorem Heap.deref_deallocate_same (h : Heap T) (p : Option Nat) :
    (h.deallocate p).deref p = none := by
  cases p with
  | none => rfl
  | some a =>
    simp only [Heap.deallocate, Heap.deref]
    by_cases ha : a < h.length
    · rw [List.getElem?_set_self ha]
    · rw [List.getElem?_eq_none (by simp only [List.length_set]; omega)]

/-- After `reserve` in the store, the address that `_data` held before the call has the
buffer of the container when nothing was allocated, and nothing once the call has released
the old block. -/
theorem heap_vector.reserve_referent [Allocator A] (h h1 : Heap T) (o o1 : heap_vector A)
    (n : Nat) (hr : heap_vector.reserve h o n = .ok (h1, o1)) :
    h1.deref o._data = if n > o._capacity then none else h1.deref o1._data := by
  unfold heap_vector.reserve at hr
  split at hr
  · rename_i hn
    rw [if_pos hn]
    split at hr
    · simp at hr
    · split at hr
      · simp at hr
      · rename_i h2 nb hal
        obtain ⟨_, e1, e2⟩ := Heap.allocate_inv h h2 _ _ nb hal
        subst e1 e2
        split at hr
        · simp at hr
        · simp only [Except.ok.injEq, Prod.mk.injEq] at hr
          obtain ⟨e3, e4⟩ := hr
          subst e3 e4
          exact Heap.deref_deallocate_same _ _
  · rename_i hn
    rw [if_neg hn]
    simp only [Except.ok.injEq, Prod.mk.injEq] at hr
    obtain ⟨e3, e4⟩ := hr
    subst e3 e4
    rfl

theorem heap_vector.emplace_back_ref_store_read [Allocator A] (h h1 : Heap T)
    (o o1 : heap_vector A) (arg : Arg T) (val : T)
    (hr : heap_vector.reserve h o ((o._size + 1) % usize_range) = .ok (h1, o1))
    (hx : arg.read (h1.deref o._data) = .ok val) :
    heap_vector.emplace_back_ref h o arg = heap_vector.emplace_back h o val := by
  rw [heap_vector.emplace_back_store_eq]
  unfold heap_vector.emplace_back_ref
  rw [hr]
  simp only [hx]

/-- `emplace_back` with a reference argument in the store is the same call on values, seen
through `view`: the rule that a reference into a replaced buffer reads released storage is
what the store gives at the old address. -/
theorem heap_vector.emplace_back_ref_view [Allocator A] (h : Heap T) (o : heap_vector A)
    (arg : Arg T) (hv : o.valid h) :
    (∀ h' o', heap_vector.emplace_back_ref h o arg = .ok (h', o') →
      vector.emplace_back_ref (o.view h) arg = .ok (o'.view h') ∧ o'.valid h') ∧
    (∀ v', vector.emplace_back_ref (o.view h) arg = .ok v' →
      ∃ h' o', heap_vector.emplace_back_ref h o arg = .ok (h', o')) := by
  obtain ⟨hfwd, _⟩ := heap_vector.reserve_view h o ((o._size + 1) % usize_range) hv
  constructor
  · intro h' o' hc
    cases hr : heap_vector.reserve h o ((o._size + 1) % usize_range) with
    | error e =>
      unfold heap_vector.emplace_back_ref at hc
      rw [hr] at hc
      simp at hc
    | ok r =>
      obtain ⟨h1, o1⟩ := r
      cases hx : arg.read (h1.deref o._data) with
      | error e =>
        unfold heap_vector.emplace_back_ref at hc
        rw [hr] at hc
        simp only [hx] at hc
        simp at hc
      | ok val =>
        rw [heap_vector.emplace_back_ref_store_read h h1 o o1 arg val hr hx] at hc
        obtain ⟨hval, hvalid⟩ := (heap_vector.emplace_back_view h o val hv).1 h' o' hc
        refine ⟨?_, hvalid⟩
        rw [← hval]
        apply vector.emplace_back_ref_of_read (o.view h) (o1.view h1) arg val (hfwd h1 o1 hr).1
        rw [heap_vector.reserve_referent h h1 o o1 _ hr] at hx
        exact hx
  · intro v' hv'
    obtain ⟨val, hval, harg⟩ := vector.emplace_back_ref_ok (o.view h) v' arg hv'
    obtain ⟨h', o', hc⟩ := (heap_vector.emplace_back_view h o val hv).2 v' hval
    refine ⟨h', o', ?_⟩
    rcases harg with harg | ⟨index, harg, hx, hroom⟩
    · subst harg
      exact hc
    · subst harg
      have hroom' : (o._size + 1) % usize_range ≤ o._capacity := hroom
      have hr : heap_vector.reserve h o ((o._size + 1) % usize_range) = .ok (h, o) := by
        unfold heap_vector.reserve
        rw [if_neg (by omega)]
      rw [heap_vector.emplace_back_ref_store_read h h o o (Arg.element index) val hr hx]
      exact hc

end references

/-! ## hsd::time: the comparison operators -/

section time_order

theorem lex_step (x y : Int) (r : Bool) :
    (if x > y then false else if x < y then true else r) = true ↔
      x < y ∨ (x = y ∧ r = true) := by
  split_ifs with h1 h2
  · simp only [Bool.false_eq_true, false_iff]
    omega
  · simp only [true_iff]
    omega
  · constructor
    · intro hr
      exact Or.inr ⟨by omega, hr⟩
    · rintro (h | ⟨_, h⟩)
      · omega
      · exact h

theorem lex_step_rev (x y : Int) (r : Bool) :
    (if x > y then true else if x < y then false else r) = true ↔
      y < x ∨ (x = y ∧ r = true) := by
  split_ifs with h1 h2
  · simp only [true_iff]
    omega
  · simp only [Bool.false_eq_true, false_iff]
    omega
  · constructor
    · intro hr
      exact Or.inr ⟨by omega, hr⟩
    · rintro (h | ⟨_, h⟩)
      · omega
      · exact h

/-- `operator<` in terms of the fields: year ascending, then month descending, then day of
the year, day of the month, day of the week, hour, minute, second and the daylight flag
ascending. -/
theorem time.operator_lt_iff (a b : time) :
    a.operator_lt b = true ↔
      (a._time.tm_year < b._time.tm_year ∨ (a._time.tm_year = b._time.tm_year ∧
      (b._time.tm_mon < a._time.tm_mon ∨ (a._time.tm_mon = b._time.tm_mon ∧
      (a._time.tm_yday < b._time.tm_yday ∨ (a._time.tm_yday = b._time.tm_yday ∧
      (a._time.tm_mday < b._time.tm_mday ∨ (a._time.tm_mday = b._time.tm_mday ∧
      (a._time.tm_wday < b._time.tm_wday ∨ (a._time.tm_wday = b._time.tm_wday ∧
      (a._time.tm_hour < b._time.tm_hour ∨ (a._time.tm_hour = b._time.tm_hour ∧
      (a._time.tm_min < b._time.tm_min ∨ (a._time.tm_min = b._time.tm_min ∧
      (a._time.tm_sec < b._time.tm_sec ∨ (a._time.tm_sec = b._time.tm_sec ∧
      a._time.tm_isdst < b._time.tm_isdst)))))))))))))))) := by
  unfold time.operator_lt
  simp only [lex_step, lex_step_rev, Bool.false_eq_true, and_false, or_false]

theorem time.operator_gt_iff (a b : time) :
    a.operator_gt b = true ↔
      (b._time.tm_year < a._time.tm_year ∨ (b._time.tm_year = a._time.tm_year ∧
      (a._time.tm_mon < b._time.tm_mon ∨ (b._time.tm_mon = a._time.tm_mon ∧
      (b._time.tm_yday < a._time.tm_yday ∨ (b._time.tm_yday = a._time.tm_yday ∧
      (b._time.tm_mday < a._time.tm_mday ∨ (b._time.tm_mday = a._time.tm_mday ∧
      (b._time.tm_wday < a._time.tm_wday ∨ (b._time.tm_wday = a._time.tm_wday ∧
      (b._time.tm_hour < a._time.tm_hour ∨ (b._time.tm_hour = a._time.tm_hour ∧
      (b._time.tm_min < a._time.tm_min ∨ (b._time.tm_min = a._time.tm_min ∧
      (b._time.tm_sec < a._time.tm_sec ∨ (b._time.tm_sec = a._time.tm_sec ∧
      b._time.tm_isdst < a._time.tm_isdst)))))))))))))))) := by
  unfold time.operator_gt
  simp only [lex_step, lex_step_rev, Bool.false_eq_true, and_false, or_false]

theorem time.operator_le_iff (a b : time) :
    a.operator_le b = true ↔
      (a._time.tm_year < b._time.tm_year ∨ (a._time.tm_year = b._time.tm_year ∧
      (b._time.tm_mon < a._time.tm_mon ∨ (a._time.tm_mon = b._time.tm_mon ∧
      (a._time.tm_yday < b._time.tm_yday ∨ (a._time.tm_yday = b._time.tm_yday ∧
      (a._time.tm_mday < b._time.tm_mday ∨ (a._time.tm_mday = b._time.tm_mday ∧
      (a._time.tm_wday < b._time.tm_wday ∨ (a._time.tm_wday = b._time.tm_wday ∧
      (a._time.tm_hour < b._time.tm_hour ∨ (a._time.tm_hour = b._time.tm_hour ∧
      (a._time.tm_min < b._time.tm_min ∨ (a._time.tm_min = b._time.tm_min ∧
      (a._time.tm_sec < b._time.tm_sec ∨ (a._time.tm_sec = b._time.tm_sec ∧
      a._time.tm_isdst ≤ b._time.tm_isdst)))))))))))))))) := by
  unfold time.operator_le
  simp only [lex_step, lex_step_rev, and_true]
  omega

theorem time.operator_ge_iff (a b : time) :
    a.operator_ge b = true ↔
      (b._time.tm_year < a._time.tm_year ∨ (b._time.tm_year = a._time.tm_year ∧
      (a._time.tm_mon < b._time.tm_mon ∨ (b._time.tm_mon = a._time.tm_mon ∧
      (b._time.tm_yday < a._time.tm_yday ∨ (b._time.tm_yday = a._time.tm_yday ∧
      (b._time.tm_mday < a._time.tm_mday ∨ (b._time.tm_mday = a._time.tm_mday ∧
      (b._time.tm_wday < a._time.tm_wday ∨ (b._time.tm_wday = a._time.tm_wday ∧
      (b._time.tm_hour < a._time.tm_hour ∨ (b._time.tm_hour = a._time.tm_hour ∧
      (b._time.tm_min < a._time.tm_min ∨ (b._time.tm_min = a._time.tm_min ∧
      (b._time.tm_sec < a._time.tm_sec ∨ (b._time.tm_sec = a._time.tm_sec ∧
      b._time.tm_isdst ≤ a._time.tm_isdst)))))))))))))))) := by
  unfold time.operator_ge
  simp only [lex_step, lex_step_rev, and_true]
  omega

theorem time.operator_eq_iff (a b : time) :
    a.operator_eq b = true ↔
      (a._time.tm_year = b._time.tm_year ∧ a._time.tm_mon = b._time.tm_mon ∧
       a._time.tm_yday = b._time.tm_yday ∧ a._time.tm_mday = b._time.tm_mday ∧
       a._time.tm_wday = b._time.tm_wday ∧ a._time.tm_hour = b._time.tm_hour ∧
       a._time.tm_min = b._time.tm_min ∧ a._time.tm_sec = b._time.tm_sec ∧
       a._time.tm_isdst = b._time.tm_isdst) := by
  unfold time.operator_eq
  simp only [Bool.and_eq_true, decide_eq_true_eq]
  constructor
  · rintro ⟨⟨⟨⟨⟨⟨⟨⟨h1, h2⟩, h3⟩, h4⟩, h5⟩, h6⟩, h7⟩, h8⟩, h9⟩
    exact ⟨h9, h5, h8, h3, h7, h1, h4, h6, h2⟩
  · rintro ⟨h9, h5, h8, h3, h7, h1, h4, h6, h2⟩
    exact ⟨⟨⟨⟨⟨⟨⟨⟨h1, h2⟩, h3⟩, h4⟩, h5⟩, h6⟩, h7⟩, h8⟩, h9⟩

theorem time.operator_ne_eq (a b : time) : a.operator_ne b = !(a.operator_eq b) := by
  unfold time.operator_ne time.operator_eq
  simp only [ne_eq, decide_not, Bool.not_and]

theorem time.operator_eq_iff_eq (a b : time) : a.operator_eq b = true ↔ a = b := by
  rw [time.operator_eq_iff]
  constructor
  · intro h
    cases a with
    | mk x =>
      cases b with
      | mk y =>
        cases x
        cases y
        simp only at h
        simp only [time.mk.injEq, tm.mk.injEq]
        omega
  · intro h
    subst h
    exact ⟨rfl, rfl, rfl, rfl, rfl, rfl, rfl, rfl, rfl⟩

/-- C36: the six comparison operators of `hsd::time` are mutually consistent and form a
strict total order.  For all time values `a`, `b`, `c`: exactly one of `a < b`, `a == b`,
`a > b` holds; `a < b` iff `b > a`; `a <= b` iff not `a > b`; `a >= b` iff not `a < b`;
`a != b` iff not `a == b`; `a < b` and `b < c` imply `a < c`; and `a == b` holds exactly
when the nine fields agree. -/
theorem time_operators_total_order (a b c : time) :
    ((a.operator_lt b = true ∧ a.operator_eq b = false ∧ a.operator_gt b = false) ∨
     (a.operator_lt b = false ∧ a.operator_eq b = true ∧ a.operator_gt b = false) ∨
     (a.operator_lt b = false ∧ a.operator_eq b = false ∧ a.operator_gt b = true)) ∧
    a.operator_lt b = b.operator_gt a ∧
    a.operator_le b = !(a.operator_gt b) ∧
    a.operator_ge b = !(a.operator_lt b) ∧
    a.operator_ne b = !(a.operator_eq b) ∧
    (a.operator_lt b = true → b.operator_lt c = true → a.operator_lt c = true) ∧
    (a.operator_eq b = true ↔ a = b) := by
  refine ⟨?_, ?_, ?_, ?_, time.operator_ne_eq a b, ?_, time.operator_eq_iff_eq a b⟩
  · simp only [← Bool.not_eq_true]
    rw [time.operator_lt_iff, time.operator_gt_iff, time.operator_eq_iff]
    omega
  · rw [Bool.eq_iff_iff, time.operator_lt_iff, time.operator_gt_iff]
  · rw [Bool.eq_iff_iff, Bool.not_eq_true', ← Bool.not_eq_true, time.operator_le_iff,
      time.operator_gt_iff]
    omega
  · rw [Bool.eq_iff_iff, Bool.not_eq_true', ← Bool.not_eq_true, time.operator_ge_iff,
      time.operator_lt_iff]
    omega
  · intro h1 h2
    rw [time.operator_lt_iff] at h1 h2 ⊢
    omega

theorem time_operators_total_order_witness :
    (time.of_year_month 120 3).operator_lt (time.of_year_month 121 0) = true ∧
    (time.of_year_month 121 0).operator_lt (time.of_year_month 122 5) = true ∧
    (time.of_year_month 120 3).operator_lt (time.of_year_month 122 5) = true :=
  ⟨by decide, by decide,
    (time_operators_total_order (time.of_year_month 120 3) (time.of_year_month 121 0)
      (time.of_year_month 122 5)).2.2.2.2.2.1 (by decide) (by decide)⟩

end time_order

/-! ## hsd::time: month order and the setters -/

section time_defects

/-- C37 fails: `operator<` is not chronological in the month.  With equal years, January
2020 is not `<` February 2020 while February 2020 is `<` January 2020; in general, for
equal years and a smaller month on the left, `a < b` is false and `b < a` and `a > b` are
true.  The year and the fields after the month are compared ascending. -/
theorem time_lt_month_reversed :
    (time.of_year_month 120 0).operator_lt (time.of_year_month 120 1) = false ∧
    (time.of_year_month 120 1).operator_lt (time.of_year_month 120 0) = true ∧
    (∀ a b : time, a._time.tm_year = b._time.tm_year → a._time.tm_mon < b._time.tm_mon →
      a.operator_lt b = false ∧ b.operator_lt a = true ∧ a.operator_gt b = true) ∧
    (∀ a b : time, a._time.tm_year < b._time.tm_year →
      a.operator_lt b = true ∧ b.operator_lt a = false) := by
  refine ⟨by decide, by decide, ?_, ?_⟩
  · intro a b hy hm
    refine ⟨?_, ?_, ?_⟩
    · rw [← Bool.not_eq_true, time.operator_lt_iff]
      omega
    · rw [time.operator_lt_iff]
      omega
    · rw [time.operator_gt_iff]
      omega
  · intro a b hy
    refine ⟨?_, ?_⟩
    · rw [time.operator_lt_iff]
      omega
    · rw [← Bool.not_eq_true, time.operator_lt_iff]
      omega

theorem to_int_small (x : Int) (h1 : -(2 ^ 31) ≤ x) (h2 : x < 2 ^ 31) : to_int x = x := by
  unfold to_int
  omega

theorem to_u16_small (x : Int) (h1 : 0 ≤ x) (h2 : x < 2 ^ 16) : to_u16 x = x.toNat := by
  unfold to_u16
  rw [Int.emod_eq_of_lt h1 h2]

theorem time._time_mk (x : tm) : (time.mk x)._time = x := rfl

theorem tm.tm_mon_mk (a b c d e f g h i : Int) : (tm.mk a b c d e f g h i).tm_mon = e := rfl

theorem time.set_seconds_mon (t : time) (x : Nat) :
    (t.set_seconds x)._time.tm_mon = t._time.tm_mon := by
  unfold time.set_seconds
  simp only
  split
  · rw [time._time_mk, tm.tm_mon_mk]
  · rfl

theorem time.set_minutes_mon (t : time) (x : Nat) :
    (t.set_minutes x)._time.tm_mon = t._time.tm_mon := by
  unfold time.set_minutes
  simp only
  split
  · rw [time._time_mk, tm.tm_mon_mk]
  · rfl

theorem time.set_hour_mon (t : time) (x : Nat) :
    (t.set_hour x)._time.tm_mon = t._time.tm_mon := by
  unfold time.set_hour
  simp only
  split
  · rw [time._time_mk, tm.tm_mon_mk]
  · rfl

theorem time.set_month_day_mon (t t1 : time) (x : Nat) (h : t.set_month_day x = .ok t1) :
    t1._time.tm_mon = t._time.tm_mon := by
  unfold time.set_month_day at h
  simp only at h
  split at h
  · simp at h
  · split at h
    · simp only [Except.ok.injEq] at h
      rw [← h, time._time_mk, tm.tm_mon_mk]
    · simp only [Except.ok.injEq] at h
      rw [← h]

theorem time.set_year_mon (t t1 : time) (x : Nat) (h : t.set_year x = .ok t1) :
    t1._time.tm_mon = t._time.tm_mon := by
  unfold time.set_year at h
  simp only at h
  split at h
  · simp only [Except.ok.injEq] at h
    rw [← h, time._time_mk, tm.tm_mon_mk]
  · simp at h

theorem time.set_month_mon (t : time) (x : Nat) :
    (t.set_month x)._time.tm_mon =
      if x % 2 ^ 16 < 12 then Int.ofNat (x % 2 ^ 16) - 1 else t._time.tm_mon := by
  unfold time.set_month
  simp only
  split
  · rename_i hx
    rw [time._time_mk, tm.tm_mon_mk]
    apply to_int_small <;> simp only [Int.ofNat_eq_coe] <;> omega
  · rfl

theorem time.apply_month (t t1 : time) (s : Setter) (h : t.apply s = .ok t1)
    (hm : -1 ≤ t._time.tm_mon ∧ t._time.tm_mon ≤ 10) :
    -1 ≤ t1._time.tm_mon ∧ t1._time.tm_mon ≤ 10 := by
  cases s with
  | set_seconds x =>
    simp only [time.apply, Except.ok.injEq] at h
    rw [← h, time.set_seconds_mon]
    exact hm
  | set_minutes x =>
    simp only [time.apply, Except.ok.injEq] at h
    rw [← h, time.set_minutes_mon]
    exact hm
  | set_hour x =>
    simp only [time.apply, Except.ok.injEq] at h
    rw [← h, time.set_hour_mon]
    exact hm
  | set_month_day x =>
    rw [time.set_month_day_mon t t1 x h]
    exact hm
  | set_month x =>
    simp only [time.apply, Except.ok.injEq] at h
    rw [← h, time.set_month_mon]
    split
    · simp only [Int.ofNat_eq_coe]
      omega
    · exact hm
  | set_year x =>
    rw [time.set_year_mon t t1 x h]
    exact hm

theorem time.run_month :
    ∀ (ss : List Setter) (t t1 : time), t.run ss = .ok t1 →
      (-1 ≤ t._time.tm_mon ∧ t._time.tm_mon ≤ 10) →
      -1 ≤ t1._time.tm_mon ∧ t1._time.tm_mon ≤ 10 := by
  intro ss
  induction ss with
  | nil =>
    intro t t1 h hm
    simp only [time.run, Except.ok.injEq] at h
    subst h
    exact hm
  | cons s ss ih =>
    intro t t1 h hm
    simp only [time.run] at h
    cases ha : t.apply s with
    | error e =>
      rw [ha] at h
      simp at h
    | ok t2 =>
      rw [ha] at h
      exact ih t2 t1 h (time.apply_month t t2 s ha hm)

/-- C38 fails: `set_month(0)` passes the guard `month < 12` and stores `0 - 1`.  From the
default-constructed time the single call `set_month(0)` leaves the stored month `-1`, for
which `get_month()` returns 65535, and a following `set_month_day` indexes the
twelve-entry month table out of bounds.  The stored month of every reachable state is in
`-1..10`: `set_month(12)` is rejected and December (11) is never stored. -/
theorem set_month_stores_minus_one :
    time.ctor_default.run [Setter.set_month 0] = .ok (time.of_year_month 0 (-1)) ∧
    (time.of_year_month 0 (-1)).get_month = 65535 ∧
    (time.of_year_month 0 (-1)).set_month_day 1 = .error Fault.undefined_behavior ∧
    time.ctor_default.run [Setter.set_month 0, Setter.set_month_day 1] =
      .error Fault.undefined_behavior ∧
    time.ctor_default.set_month 12 = time.ctor_default ∧
    (∀ ss t, time.ctor_default.run ss = .ok t →
      -1 ≤ t._time.tm_mon ∧ t._time.tm_mon ≤ 10) :=
  ⟨by decide, by decide, by decide, by decide, by decide,
    fun ss t h => time.run_month ss _ t h (by decide)⟩

/-- C39 fails: `set_month_day(d)` accepts exactly the `d` with `d < month_table[m]`.  In
January the call `set_month_day(31)` leaves the day unchanged and `set_month_day(0)` stores
the day 0.  For every stored month `m` in `0..11` and every `d` (a `u16`), the call
completes, stores `d` as the day when `d < month_table[m]` and changes nothing otherwise;
no other field is modified in either case. -/
theorem set_month_day_off_by_one :
    time.ctor_default.set_month_day 31 = .ok time.ctor_default ∧
    time.ctor_default.get_month_day = 1 ∧
    (∃ t, time.ctor_default.set_month_day 0 = .ok t ∧ t.get_month_day = 0) ∧
    (∀ (t : time) (d : Nat), 0 ≤ t._time.tm_mon → t._time.tm_mon ≤ 11 → d < 2 ^ 16 →
      ∃ days, time._month_table[t._time.tm_mon.toNat]? = some days ∧
        t.set_month_day d =
          .ok (if d < days then
            { t with _time := { t._time with tm_mday := Int.ofNat d } } else t)) := by
  refine ⟨by decide, by decide, ⟨_, rfl, by decide⟩, ?_⟩
  intro t d h0 h11 hd
  have hget : t.get_month = t._time.tm_mon.toNat := by
    unfold time.get_month
    exact to_u16_small _ h0 (by omega)
  have hlt : t._time.tm_mon.toNat < 12 := by omega
  have hlen : time._month_table.length = 12 := rfl
  refine ⟨time._month_table[t._time.tm_mon.toNat], List.getElem?_eq_getElem (by omega), ?_⟩
  unfold time.set_month_day
  simp only
  rw [hget, List.getElem?_eq_getElem (by omega)]
  simp only
  rw [Nat.mod_eq_of_lt hd]
  have : to_int (Int.ofNat d) = Int.ofNat d := by
    apply to_int_small <;> simp only [Int.ofNat_eq_coe] <;> omega
  rw [this]
  exact (apply_ite Except.ok _ _ _).symm

end time_defects

/-! ## hsd::precise_clock: addition and subtraction -/

section clock

theorem signed64_inv (x y : Int) (h : signed64 x = .ok y) :
    y = x ∧ -(2 ^ 63) ≤ x ∧ x < 2 ^ 63 := by
  unfold signed64 at h
  split at h
  · rename_i hx
    simp only [Except.ok.injEq] at h
    exact ⟨h.symm, hx⟩
  · simp at h

theorem precise_clock.operator_add_inv (a b r : precise_clock) (ha : a.normalised)
    (hb : b.normalised) (h : a.operator_add b = .ok r) :
    r.normalised ∧
      r.total = a.total + b.total +
        (if a._clk.tv_nsec + b._clk.tv_nsec ≥ 1000000000 then 0 else 1000000000) := by
  unfold precise_clock.normalised at ha hb ⊢
  unfold precise_clock.total
  unfold precise_clock.operator_add at h
  split at h
  · simp at h
  · rename_i nsec hn
    obtain ⟨hn1, _, _⟩ := signed64_inv _ _ hn
    subst hn1
    split at h
    · simp at h
    · rename_i sec hs
      obtain ⟨hs1, _, _⟩ := signed64_inv _ _ hs
      subst hs1
      split at h
      · rename_i hcarry
        split at h
        · simp at h
        · rename_i sec1 hs1
          obtain ⟨hs2, _, _⟩ := signed64_inv _ _ hs1
          subst hs2
          split at h
          · simp at h
          · rename_i nsec1 hn1
            obtain ⟨hn2, _, _⟩ := signed64_inv _ _ hn1
            subst hn2
            simp only [Except.ok.injEq] at h
            subst h
            simp only
            rw [if_pos hcarry]
            omega
      · rename_i hcarry
        split at h
        · simp at h
        · rename_i sec1 hs1
          obtain ⟨hs2, _, _⟩ := signed64_inv _ _ hs1
          subst hs2
          simp only [Except.ok.injEq] at h
          subst h
          simp only
          rw [if_neg hcarry]
          omega

theorem precise_clock.operator_sub_inv (a b r : precise_clock) (ha : a.normalised)
    (hb : b.normalised) (h : a.operator_sub b = .ok r) :
    r.normalised ∧ r.total = a.total - b.total := by
  unfold precise_clock.normalised at ha hb ⊢
  unfold precise_clock.total
  unfold precise_clock.operator_sub at h
  split at h
  · simp at h
  · rename_i nsec hn
    obtain ⟨hn1, _, _⟩ := signed64_inv _ _ hn
    subst hn1
    split at h
    · simp at h
    · rename_i sec hs
      obtain ⟨hs1, _, _⟩ := signed64_inv _ _ hs
      subst hs1
      split at h
      · rename_i hborrow
        split at h
        · simp at h
        · rename_i sec1 hs1
          obtain ⟨hs2, _, _⟩ := signed64_inv _ _ hs1
          subst hs2
          split at h
          · simp at h
          · rename_i nsec1 hn1
            obtain ⟨hn2, _, _⟩ := signed64_inv _ _ hn1
            subst hn2
            simp only [Except.ok.injEq] at h
            subst h
            simp only
            omega
      · rename_i hborrow
        simp only [Except.ok.injEq] at h
        subst h
        simp only
        omega

/-- C40 fails: without a carry `operator+` still adds one second.  The sum of `1 s 100 ns`
and `2 s 200 ns` is `4 s 300 ns`, one second more than the operands' totals, and
subtracting `2 s 200 ns` again gives `2 s 100 ns`, not the first operand; with a carry
(`1 s 600000000 ns` plus `2 s 500000000 ns`) the sum `4 s 100000000 ns` is exact.  For all
normalised operands a completed sum is normalised and its total is the operands' total,
plus `10^9` when the nanoseconds do not carry; a completed difference is normalised and
exact. -/
theorem precise_clock_add_extra_second :
    precise_clock.operator_add ⟨⟨1, 100⟩⟩ ⟨⟨2, 200⟩⟩ = .ok ⟨⟨4, 300⟩⟩ ∧
    precise_clock.total ⟨⟨4, 300⟩⟩ =
      precise_clock.total ⟨⟨1, 100⟩⟩ + precise_clock.total ⟨⟨2, 200⟩⟩ + 1000000000 ∧
    precise_clock.operator_sub ⟨⟨4, 300⟩⟩ ⟨⟨2, 200⟩⟩ = .ok ⟨⟨2, 100⟩⟩ ∧
    precise_clock.operator_eq ⟨⟨2, 100⟩⟩ ⟨⟨1, 100⟩⟩ = false ∧
    precise_clock.operator_add ⟨⟨1, 600000000⟩⟩ ⟨⟨2, 500000000⟩⟩ = .ok ⟨⟨4, 100000000⟩⟩ ∧
    (∀ a b r : precise_clock, a.normalised → b.normalised → a.operator_add b = .ok r →
      r.normalised ∧
      r.total = a.total + b.total +
        (if a._clk.tv_nsec + b._clk.tv_nsec ≥ 1000000000 then 0 else 1000000000)) ∧
    (∀ a b r : precise_clock, a.normalised → b.normalised → a.operator_sub b = .ok r →
      r.normalised ∧ r.total = a.total - b.total) :=
  ⟨by decide, by decide, by decide, by decide, by decide,
    precise_clock.operator_add_inv, precise_clock.operator_sub_inv⟩

end clock

end hsd
